import Mathlib

/-!
# fitz: board, tile catalogue, placement and move search

A shallow embedding of the core of the `fitz` tile game (`definition.h`,
`tiles.c`, `grid.c`, `game.c`, the conversion of tokens of `token.c` and the
parts of `parser.c` and `player.c` that change the game or save it).

Conventions of the embedding.

* A C `int` is an `Int`, and the functions of `game.c` and `human_prompt` are
  given twice. Under the name of the source (`valid_move`, `place_move`, the
  searches, `human_prompt`, `game_loop`) `int` is read as an integer: this is
  the code as long as the row and the column of every anchor are at least
  `INT_MIN + 2` and at most `INT_MAX - 3`, which holds for the anchors a search
  tests on a board of the dimensions the game accepts (1 to 999). Under the
  name `..._wrap` every `int` operation is taken modulo `2^32` (wraparound;
  signed overflow is undefined in C itself): this is the code for every
  anchor, the anchors a player types next to `INT_MAX` included. The lemmas
  `valid_move_wrap_safe`, `place_move_wrap_safe`, `human_prompt_wrap_safe`,
  `check_possible_move_wrap_safe`, `algorithm_one_wrap_safe` and
  `algorithm_two_wrap_safe` state where the two agree.
* A C array is a total function of its `Int` indices; only the cells inside the
  allocated bounds are meaningful.
* A `Player*` stored in a board cell is `none` for `NULL` and `some p`
  where `p` names one of the two player objects owned by the game.
* A `for` loop with bounds known on entry runs over the list of its index
  values; a position `do ... while` loop, which need not terminate for every
  start, takes a fuel argument and reports `timeout` when the fuel is used up.
* Console output (`algorithm_output`, `printf`) is not part of the state.
* A file is the list of its characters, or `none` when it cannot be opened;
  standard input is the list of its lines as `validate_tokens` reports them.
* A C string is the list of its characters before the terminator. The library
  functions `strtok`, `strtol` and `isspace` are written after the C standard.
* Memory that the source reads without having written it (a local array, a
  fresh allocation) is an argument of the function: any value may stand in it.
-/

namespace Fitz

/-! ## definition.h -/

/-- The C constant `INT_MIN` of a 32-bit `int`. -/
def INT_MIN : Int := -2147483648

/-- Side length of a tile grid, `TILE_GRID_SQR_DIM` of `tiles.h`. -/
def TILE_GRID_SQR_DIM : Int := 5

/-- Number of stored rotations, `TOTAL_ROTATION` of `tiles.h`. -/
def TOTAL_ROTATION : Int := 4

/-- The enum `PlayerType`. -/
inductive PlayerType where
  | HUMAN
  | P1_AUTO
  | P2_AUTO
deriving DecidableEq, Repr

/-- The struct `Player`. -/
structure Player where
  symbol : String
  type : PlayerType
  recentMove : Int × Int
  firstPlayer : Bool
deriving DecidableEq, Repr

/-- Names the player object a `Player*` points to: `game->player1` or
`game->player2`. -/
inductive PlayerRef where
  | player1
  | player2
deriving DecidableEq, Repr

/-- The struct `Board`: `grid y x` is the cell of row `y` and column `x`. -/
structure Board where
  width : Int
  height : Int
  grid : Int → Int → Option PlayerRef

/-- One 5x5 tile layout, `int**`: `m r c` is nonzero where the tile is
placeable. -/
abbrev Mask := Int → Int → Int

/-- The struct `Tiles`: `grid k t` is the layout of tile `t` at rotation
index `k`. -/
structure Tiles where
  total : Int
  current : Int
  rotationIndex : Int
  grid : Int → Int → Mask

/-- The struct `Game`. -/
structure Game where
  player1 : Player
  player2 : Player
  gameBoard : Board
  tiles : Tiles
  turn : Int
  recentMove : Int × Int

/-- The `int command[3]` of a move: row, column, rotation in degrees. -/
abbrev Command := Int × Int × Int

/-- Dereferences a player pointer in a game. -/
def Game.player (game : Game) : PlayerRef → Player
  | .player1 => game.player1
  | .player2 => game.player2

/-- Stores through a player pointer: `playing->recentMove = move`. -/
def Game.setRecentMove (game : Game) (playing : PlayerRef) (move : Int × Int) : Game :=
  match playing with
  | .player1 => { game with player1 := { game.player1 with recentMove := move } }
  | .player2 => { game with player2 := { game.player2 with recentMove := move } }

/-- The index values of `for (i = lo; i <= hi; i++)`. -/
def loop_range (lo hi : Int) : List Int :=
  (List.range (hi + 1 - lo).toNat).map (fun (i : Nat) => lo + (i : Int))

/-- The assignment `board[y][x] = v`. -/
def board_set (board : Int → Int → Option PlayerRef) (y x : Int) (v : Option PlayerRef) :
    Int → Int → Option PlayerRef :=
  fun y' x' => if y' = y ∧ x' = x then v else board y' x'

/-- The assignment `tile[r][c] = v`. -/
def mask_set (tile : Mask) (r c : Int) (v : Int) : Mask :=
  fun r' c' => if r' = r ∧ c' = c then v else tile r' c'

/-- The assignment of a whole layout, `grid[k][t] := tile`. -/
def tiles_set (grid : Int → Int → Mask) (k t : Int) (tile : Mask) : Int → Int → Mask :=
  fun k' t' => if k' = k ∧ t' = t then tile else grid k' t'

/-! ## tiles.c -/

/-- The two inner loops of `rotate_tile`: writes
`otherTilesIndex[cols][TILE_GRID_SQR_DIM - 1 - rows] = lastDegreeTilesIndex[rows][cols]`
for every `rows`, `cols`. -/
def rotate_cells (lastDegreeTilesIndex otherTilesIndex : Mask) : Mask :=
  (loop_range 0 (TILE_GRID_SQR_DIM - 1)).foldl
    (fun other rows =>
      (loop_range 0 (TILE_GRID_SQR_DIM - 1)).foldl
        (fun other cols =>
          mask_set other cols (TILE_GRID_SQR_DIM - 1 - rows) (lastDegreeTilesIndex rows cols))
        other)
    otherTilesIndex

/-- The function `rotate_tile`: for each rotation index 1, 2, 3 and each tile,
fills the layout from the layout of the previous rotation index. -/
def rotate_tile (tiles : Tiles) : Tiles :=
  { tiles with
    grid :=
      (loop_range 1 (TOTAL_ROTATION - 1)).foldl
        (fun grid rotateIndex =>
          (loop_range 0 (tiles.total - 1)).foldl
            (fun grid tileIndex =>
              tiles_set grid rotateIndex tileIndex
                (rotate_cells (grid (rotateIndex - 1) tileIndex) (grid rotateIndex tileIndex)))
            grid)
        tiles.grid }

/-- The function `change_tiles`: `current = (++currentIndex) % totalTiles`. -/
def change_tiles (game : Game) : Game :=
  { game with tiles := { game.tiles with current := (game.tiles.current + 1).tmod game.tiles.total } }

/-! ## game.c -/

/-- The function `change_turn`: `turn = (++turn) % 2`. -/
def change_turn (game : Game) : Game :=
  { game with turn := (game.turn + 1).tmod 2 }

/-- The function `place_move`, `int` read as an integer. At an anchor whose row
and column are at least `INT_MIN + 2` and at most `INT_MAX - 3` no operation of
the source overflows and this is the function of the code
(`place_move_wrap_safe`); `place_move_wrap` is the function for every
anchor. -/
def place_move (command : Command) (playing : PlayerRef) (game : Game) (tiles : Tiles) : Game :=
  let centerY := command.1
  let centerX := command.2.1
  let offset := TILE_GRID_SQR_DIM.tdiv 2
  let currentIndex := tiles.current
  let rotationIndex := command.2.2.tdiv 90
  let currentTile := tiles.grid rotationIndex currentIndex
  let board :=
    (loop_range (centerY - offset) (centerY + offset)).foldl
      (fun board y =>
        let tileY := y - centerY + offset
        (loop_range (centerX - offset) (centerX + offset)).foldl
          (fun board x =>
            let tileX := x - centerX + offset
            if currentTile tileY tileX ≠ 0 then board_set board y x (some playing) else board)
          board)
      game.gameBoard.grid
  let game := { game with gameBoard := { game.gameBoard with grid := board } }
  let game := { game with recentMove := (centerY, centerX) }
  game.setRecentMove playing (centerY, centerX)

/-- The function `valid_move`, `int` read as an integer. The early
`return false` of the loops is the short circuit of `List.all`. At an anchor
whose row and column are at least `INT_MIN + 2` and at most `INT_MAX - 3` no
operation of the source overflows and this is the function of the code
(`valid_move_wrap_safe`); `valid_move_wrap` is the function for every anchor:
next to the limits of `int` the bounds `centerY - offset`, `centerY + offset`
of the loops overflow and the two differ. -/
def valid_move (command : Command) (_playing : PlayerRef) (grid : Board) (tiles : Tiles) : Bool :=
  let centerY := command.1
  let centerX := command.2.1
  let offset := TILE_GRID_SQR_DIM.tdiv 2
  let rotationIndex := command.2.2.tdiv 90
  let currentIndex := tiles.current
  let currentTile := tiles.grid rotationIndex currentIndex
  let maxWidth := grid.width
  let maxHeight := grid.height
  let board := grid.grid
  (loop_range (centerY - offset) (centerY + offset)).all fun y =>
    let tileY := y - centerY + offset
    (loop_range (centerX - offset) (centerX + offset)).all fun x =>
      let tileX := x - centerX + offset
      !(decide (currentTile tileY tileX ≠ 0) &&
        (decide (y < 0) || decide (y ≥ maxHeight) || decide (x < 0) || decide (x ≥ maxWidth)
          || decide (board y x ≠ none)))

/-- The function `update_position_algorithm_one`; returns the new
`(row, col)`. -/
def update_position_algorithm_one (row boardHeight col boardWidth : Int) : Int × Int :=
  let currentRow := row
  let currentCol := col
  let currentCol := currentCol + 1
  let (currentRow, currentCol) :=
    if currentCol > (boardWidth - 1) + 2 then (currentRow + 1, -2) else (currentRow, currentCol)
  let currentRow := if currentRow > (boardHeight - 1) + 2 then -2 else currentRow
  (currentRow, currentCol)

/-- The function `update_position_algorithm_two`; returns the new
`(row, col)`. -/
def update_position_algorithm_two (row boardHeight col boardWidth : Int) (isFirstPlayer : Bool) :
    Int × Int :=
  let currentRow := row
  let currentCol := col
  if isFirstPlayer then
    let currentCol := currentCol + 1
    let (currentRow, currentCol) :=
      if currentCol > (boardWidth - 1) + 2 then (currentRow + 1, -2) else (currentRow, currentCol)
    if currentRow > (boardHeight - 1) + 2 then (-2, -2) else (currentRow, currentCol)
  else
    let currentCol := currentCol - 1
    let (currentRow, currentCol) :=
      if currentCol < -2 then (currentRow - 1, (boardWidth - 1) + 2) else (currentRow, currentCol)
    if currentRow < -2 then ((boardHeight - 1) + 2, (boardWidth - 1) + 2)
    else (currentRow, currentCol)

/-- How a position loop ends. -/
inductive Scan where
  /-- The loop returned from the function at a command `valid_move` accepts. -/
  | found (command : Command)
  /-- The loop condition failed; `row`, `col` are the loop variables on exit. -/
  | wrapped (row col : Int)
  /-- The fuel was used up before the loop ended. -/
  | timeout
deriving DecidableEq, Repr

/-- The inner `do ... while (row != recentMove[0] || col != recentMove[1])` of
`algorithm_one`, for one `theta`, entered with the loop variables `row`,
`col`. -/
def algorithm_one_scan (game : Game) (currentPlayer : PlayerRef) (recentMove : Int × Int)
    (theta : Int) : Nat → Int → Int → Scan
  | 0, _, _ => .timeout
  | fuel + 1, row, col =>
    let command : Command := (row, col, theta)
    if valid_move command currentPlayer game.gameBoard game.tiles then .found command
    else
      let next := update_position_algorithm_one row game.gameBoard.height col game.gameBoard.width
      if next.1 ≠ recentMove.1 ∨ next.2 ≠ recentMove.2 then
        algorithm_one_scan game currentPlayer recentMove theta fuel next.1 next.2
      else .wrapped next.1 next.2

/-- The outer `do ... while (theta <= 270)` of `algorithm_one`, `theta` running
over the listed values; `none` when an inner loop ran out of fuel. -/
def algorithm_one_rotations (fuel : Nat) (game : Game) (currentPlayer : PlayerRef)
    (recentMove : Int × Int) : List Int → Int → Int → Option Game
  | [], _, _ => some game
  | theta :: rest, row, col =>
    match algorithm_one_scan game currentPlayer recentMove theta fuel row col with
    | .found command =>
      some (change_tiles (change_turn (place_move command currentPlayer game game.tiles)))
    | .wrapped row col => algorithm_one_rotations fuel game currentPlayer recentMove rest row col
    | .timeout => none

/-- The function `algorithm_one`; `totalPlayers` is the array of the two player
pointers. The result is `none` when a position loop ran out of fuel. -/
def algorithm_one (fuel : Nat) (game : Game) (totalPlayers : Int → PlayerRef) : Option Game :=
  let turn := game.turn
  let recentMove := game.recentMove
  let currentPlayer := totalPlayers turn
  let recentMove :=
    if recentMove.1 = INT_MIN ∧ recentMove.2 = INT_MIN then (-2, -2) else recentMove
  algorithm_one_rotations fuel game currentPlayer recentMove [0, 90, 180, 270]
    recentMove.1 recentMove.2

/-- The inner `do ... while (theta <= 270)` of `algorithm_two` and of
`check_possible_move`, `theta` running over the listed values: the first
`theta` at which `valid_move` accepts `(row, col, theta)`. -/
def first_rotation (game : Game) (currentPlayer : PlayerRef) (row col : Int) :
    List Int → Option Command
  | [] => none
  | theta :: rest =>
    if valid_move (row, col, theta) currentPlayer game.gameBoard game.tiles then
      some (row, col, theta)
    else first_rotation game currentPlayer row col rest

/-- The outer `do ... while (row != recentMove[0] || col != recentMove[1])` of
`algorithm_two` (and of `check_possible_move`, where `firstPlayer` is `true`). -/
def algorithm_two_scan (game : Game) (currentPlayer : PlayerRef) (recentMove : Int × Int)
    (firstPlayer : Bool) : Nat → Int → Int → Scan
  | 0, _, _ => .timeout
  | fuel + 1, row, col =>
    match first_rotation game currentPlayer row col [0, 90, 180, 270] with
    | some command => .found command
    | none =>
      let next := update_position_algorithm_two row game.gameBoard.height col
        game.gameBoard.width firstPlayer
      if next.1 ≠ recentMove.1 ∨ next.2 ≠ recentMove.2 then
        algorithm_two_scan game currentPlayer recentMove firstPlayer fuel next.1 next.2
      else .wrapped next.1 next.2

/-- The function `algorithm_two`. The result is `none` when the position loop
ran out of fuel. -/
def algorithm_two (fuel : Nat) (game : Game) (currentPlayer : PlayerRef) : Option Game :=
  let recentMove := (game.player currentPlayer).recentMove
  let firstPlayer := (game.player currentPlayer).firstPlayer
  let boardWidth := game.gameBoard.width
  let boardHeight := game.gameBoard.height
  let recentMove :=
    if recentMove.1 = INT_MIN ∧ recentMove.2 = INT_MIN then
      if firstPlayer then (-2, -2) else (boardWidth + 2, boardHeight + 2)
    else recentMove
  match algorithm_two_scan game currentPlayer recentMove firstPlayer fuel
      recentMove.1 recentMove.2 with
  | .found command =>
    some (change_tiles (change_turn (place_move command currentPlayer game game.tiles)))
  | .wrapped _ _ => some game
  | .timeout => none

/-- The function `check_possible_move`. The result is `none` when the position
loop ran out of fuel. -/
def check_possible_move (fuel : Nat) (game : Game) (currentPlayer : PlayerRef) : Option Bool :=
  let recentMove := (game.player currentPlayer).recentMove
  let recentMove :=
    if recentMove.1 = INT_MIN ∧ recentMove.2 = INT_MIN then (-2, -2) else recentMove
  match algorithm_two_scan game currentPlayer recentMove true fuel recentMove.1 recentMove.2 with
  | .found _ => some true
  | .wrapped _ _ => some false
  | .timeout => none

/-- The array `players` that `game_loop` passes to `algorithm_one`:
`{game->player1, game->player2}`. -/
def players : Int → PlayerRef := fun i => if i = 0 then .player1 else .player2

/-! ## game.c: the cells `valid_move` reads and `place_move` writes -/

/-- A cell the code reads or writes: cell `[y][x]` of the board, or cell
`[tileY][tileX]` of the layout `tiles->grid[rotationIndex][currentIndex]`. -/
inductive Access where
  | board (y x : Int)
  | tile (rotationIndex currentIndex tileY tileX : Int)
deriving DecidableEq, Repr

/-- A `for` loop whose body may return false from the function: `body` gives
for an index whether the loop goes on and the cells the body reads; the result
is whether the loop ran to its end and the cells read, in order. -/
def scan_cells {α : Type} (body : α → Bool × List Access) : List α → Bool × List Access
  | [] => (true, [])
  | a :: rest =>
    if (body a).1 then ((scan_cells body rest).1, (body a).2 ++ (scan_cells body rest).2)
    else (false, (body a).2)

/-- The test of `valid_move` at the board cell `(y, x)`, with the cells it
reads in the order of evaluation of `&&` and `||`: the tile cell, and the
board cell only when the tile cell is filled and `y`, `x` are inside the
board. The result is false when the test makes `valid_move` return false. -/
def valid_move_test (grid : Board) (tiles : Tiles) (rotationIndex centerY centerX offset : Int)
    (y x : Int) : Bool × List Access :=
  let currentIndex := tiles.current
  let tileY := y - centerY + offset
  let tileX := x - centerX + offset
  let readTile := Access.tile rotationIndex currentIndex tileY tileX
  if tiles.grid rotationIndex currentIndex tileY tileX ≠ 0 then
    if y < 0 ∨ y ≥ grid.height ∨ x < 0 ∨ x ≥ grid.width then (false, [readTile])
    else if grid.grid y x ≠ none then (false, [readTile, Access.board y x])
    else (true, [readTile, Access.board y x])
  else (true, [readTile])

/-- The function `valid_move` with the cells it reads: its result and the
list of the cells read, in order. -/
def valid_move_reads (command : Command) (_playing : PlayerRef) (grid : Board) (tiles : Tiles) :
    Bool × List Access :=
  let centerY := command.1
  let centerX := command.2.1
  let offset := TILE_GRID_SQR_DIM.tdiv 2
  let rotationIndex := command.2.2.tdiv 90
  scan_cells
    (fun y =>
      scan_cells (valid_move_test grid tiles rotationIndex centerY centerX offset y)
        (loop_range (centerX - offset) (centerX + offset)))
    (loop_range (centerY - offset) (centerY + offset))

/-- The cells of the board `place_move` writes, in order. -/
def place_move_writes (command : Command) (tiles : Tiles) : List (Int × Int) :=
  let centerY := command.1
  let centerX := command.2.1
  let offset := TILE_GRID_SQR_DIM.tdiv 2
  let currentIndex := tiles.current
  let rotationIndex := command.2.2.tdiv 90
  let currentTile := tiles.grid rotationIndex currentIndex
  (loop_range (centerY - offset) (centerY + offset)).flatMap fun y =>
    let tileY := y - centerY + offset
    (loop_range (centerX - offset) (centerX + offset)).flatMap fun x =>
      let tileX := x - centerX + offset
      if currentTile tileY tileX ≠ 0 then [(y, x)] else []

/-- The cells of the tile layouts `place_move` reads, in order. -/
def place_move_reads (command : Command) (tiles : Tiles) : List Access :=
  let centerY := command.1
  let centerX := command.2.1
  let offset := TILE_GRID_SQR_DIM.tdiv 2
  let currentIndex := tiles.current
  let rotationIndex := command.2.2.tdiv 90
  (loop_range (centerY - offset) (centerY + offset)).flatMap fun y =>
    let tileY := y - centerY + offset
    (loop_range (centerX - offset) (centerX + offset)).map fun x =>
      let tileX := x - centerX + offset
      Access.tile rotationIndex currentIndex tileY tileX

/-- An access inside the storage: a board cell inside the board, a tile cell
inside the 5x5 layout of the active tile at one of the four rotation
indices. -/
def access_ok (grid : Board) (tiles : Tiles) : Access → Prop
  | Access.board y x => (0 ≤ y ∧ y < grid.height) ∧ (0 ≤ x ∧ x < grid.width)
  | Access.tile rotationIndex currentIndex tileY tileX =>
    (0 ≤ rotationIndex ∧ rotationIndex < TOTAL_ROTATION) ∧ currentIndex = tiles.current ∧
      (0 ≤ tileY ∧ tileY < TILE_GRID_SQR_DIM) ∧ (0 ≤ tileX ∧ tileX < TILE_GRID_SQR_DIM)

instance (grid : Board) (tiles : Tiles) (a : Access) : Decidable (access_ok grid tiles a) := by
  cases a <;> (unfold access_ok; infer_instance)

/-! ## game.c: `valid_move` in 32-bit arithmetic -/

/-- The value of an `int` expression whose mathematical value is `n`, overflow
taken as wraparound: the representative of `n` modulo `2^32` in the range
`INT_MIN .. INT_MAX`. -/
def wrap_int (n : Int) : Int :=
  (n + 2147483648) % 4294967296 - 2147483648

/-- A loop `for (int i = lo; i <= hi; i++)` in 32-bit arithmetic, entered with
the loop variable `i`. The body gives `some false` when it returns false from
the function and `some true` when the loop goes on; the loop gives `some true`
when it ends by its condition and `none` when the fuel is used up before. -/
def for_wrap (body : Int → Option Bool) (hi : Int) : Nat → Int → Option Bool
  | 0, _ => none
  | fuel + 1, i =>
    if i ≤ hi then
      match body i with
      | none => none
      | some false => some false
      | some true => for_wrap body hi fuel (wrap_int (i + 1))
    else some true

/-- The function `valid_move` with every `int` operation taken modulo `2^32`;
the components of `command` are values of an `int`. The result is `none` when
a loop uses up the fuel. -/
def valid_move_wrap (fuel : Nat) (command : Command) (_playing : PlayerRef) (grid : Board)
    (tiles : Tiles) : Option Bool :=
  let centerY := command.1
  let centerX := command.2.1
  let offset := TILE_GRID_SQR_DIM.tdiv 2
  let rotationIndex := command.2.2.tdiv 90
  let currentIndex := tiles.current
  let currentTile := tiles.grid rotationIndex currentIndex
  let maxWidth := grid.width
  let maxHeight := grid.height
  let board := grid.grid
  for_wrap
    (fun y =>
      let tileY := wrap_int (wrap_int (y - centerY) + offset)
      for_wrap
        (fun x =>
          let tileX := wrap_int (wrap_int (x - centerX) + offset)
          some (!(decide (currentTile tileY tileX ≠ 0) &&
            (decide (y < 0) || decide (y ≥ maxHeight) || decide (x < 0) || decide (x ≥ maxWidth)
              || decide (board y x ≠ none)))))
        (wrap_int (centerX + offset)) fuel (wrap_int (centerX - offset)))
    (wrap_int (centerY + offset)) fuel (wrap_int (centerY - offset))

/-! ## definition.h: result codes -/

/-- The enum `ErrorCode`. -/
inductive ErrorCode where
  | NO_ERROR
  | WRONG_PARAM
  | TILE_NOT_FOUND
  | TILE_INVALID
  | PLAYER_INVALID
  | DIM_INVALID
  | FILE_INACCESS
  | FILE_INVALID
  | EOF_DETECTED
deriving DecidableEq, Repr

/-- The enum `TokenCode`. -/
inductive TokenCode where
  | SAVE_FILE
  | NO_TOKEN_ERROR
  | INVALID_INPUT
deriving DecidableEq, Repr

/-! ## grid.c -/

/-- The function `reallocate_grid`: every cell of the new rows and columns is
set to `NULL`, then the dimensions are stored. -/
def reallocate_grid (grid : Board) (height width : Int) : Board :=
  { width := width
    height := height
    grid :=
      (loop_range 0 (height - 1)).foldl
        (fun cells eachRow =>
          (loop_range 0 (width - 1)).foldl
            (fun cells eachCol => board_set cells eachRow eachCol none)
            cells)
        grid.grid }

/-! ## tiles.c: loading the tile file -/

/-- The function `initialise_tile_list`: no tile, current index 0. The layout
storage holds nothing yet; no cell of it is read before `initialise_new_tile`
has written it. -/
def initialise_tile_list : Tiles :=
  { total := 0, current := 0, rotationIndex := 0, grid := fun _ _ _ _ => 0 }

/-- The function `initialise_new_tile`: one more tile, whose layout at each of
the four rotation indices has every cell 0. -/
def initialise_new_tile (tileList : Tiles) : Tiles :=
  let tileIndex := tileList.total
  { tileList with
    total := tileList.total + 1
    grid :=
      (loop_range 0 (TOTAL_ROTATION - 1)).foldl
        (fun grid rotationIndex => tiles_set grid rotationIndex tileIndex (fun _ _ => 0))
        tileList.grid }

/-- The function `validate_current_position`; returns its result and the
layout after the write. -/
def validate_current_position (row col : Int) (character : Char) (tile : Mask) : Bool × Mask :=
  if row ≥ TILE_GRID_SQR_DIM ∨ col ≥ TILE_GRID_SQR_DIM then (false, tile)
  else if character = ',' then (true, mask_set tile row col 0)
  else if character = '!' then (true, mask_set tile row col 1)
  else (false, tile)

/-- The reading loop of `validate_tile_file` over the characters left in the
file; the empty list is the end of the file. `tile` of the source is the
rotation-0 layout of the last tile, `tiles.grid 0 (tiles.total - 1)`. -/
def validate_tile_loop : List Char → Int → Int → Bool → Tiles → ErrorCode × Tiles
  | [], row, _, _, tiles =>
    if row < TILE_GRID_SQR_DIM then (ErrorCode.TILE_INVALID, tiles)
    else (ErrorCode.NO_ERROR, rotate_tile tiles)
  | character :: rest, row, col, lineTerminated, tiles =>
    if character = '\n' then
      if lineTerminated then
        if row < TILE_GRID_SQR_DIM then (ErrorCode.TILE_INVALID, tiles)
        else validate_tile_loop rest 0 0 true (initialise_new_tile tiles)
      else
        if col < TILE_GRID_SQR_DIM then (ErrorCode.TILE_INVALID, tiles)
        else validate_tile_loop rest (row + 1) 0 true tiles
    else
      match validate_current_position row col character (tiles.grid 0 (tiles.total - 1)) with
      | (false, _) => (ErrorCode.TILE_INVALID, tiles)
      | (true, tile) =>
        validate_tile_loop rest row (col + 1) false
          { tiles with grid := tiles_set tiles.grid 0 (tiles.total - 1) tile }

/-- The function `validate_tile_file`; `file` is `none` when the file cannot be
opened, else its characters. Returns the code and the catalogue as the call
leaves it. -/
def validate_tile_file (file : Option (List Char)) (tiles : Tiles) : ErrorCode × Tiles :=
  match file with
  | none => (ErrorCode.TILE_NOT_FOUND, tiles)
  | some content => validate_tile_loop content 0 0 false (initialise_new_tile tiles)

/-! ## token.c -/

/-- The constant `INT_MAX` of a 32-bit `int`. -/
def INT_MAX : Int := 2147483647

/-- The constant `LONG_MAX` of a 64-bit `long`; `LONG_MIN` is `-LONG_MAX - 1`. -/
def LONG_MAX : Int := 9223372036854775807

/-- The C library predicate `isspace` in the "C" locale. -/
def isspace (c : Char) : Bool :=
  c = ' ' ∨ c = '\t' ∨ c = '\n' ∨ c = Char.ofNat 11 ∨ c = Char.ofNat 12 ∨ c = '\r'

/-- The C library function `strtok` with the delimiter string " ", on the text
still to be scanned: the delimiters in front are skipped; `none` when nothing
is left, else the token and the text after the delimiter that ended it. -/
def strtok (string : List Char) : Option (List Char × List Char) :=
  match string.dropWhile (fun c => c = ' ') with
  | [] => none
  | c :: rest =>
    some ((c :: rest).takeWhile (fun c => c ≠ ' '),
      ((c :: rest).dropWhile (fun c => c ≠ ' ')).drop 1)

/-- The C library function `strtol` with base 10: white space in front is
skipped, then an optional sign and the longest run of decimal digits are read.
Returns the value, kept within the range of `long`, and the text from the
first character not read (`nonNumeric` of the source); with no digit nothing
is read, the value is 0 and the text is the whole string. -/
def strtol (nptr : List Char) : Int × List Char :=
  let body := nptr.dropWhile isspace
  let negative := body.head? = some '-'
  let unsigned := if body.head? = some '-' ∨ body.head? = some '+' then body.drop 1 else body
  let digits := unsigned.takeWhile Char.isDigit
  if digits = [] then (0, nptr)
  else
    let magnitude : Int := digits.foldl (fun acc d => 10 * acc + ((d.toNat : Int) - 48)) 0
    let value := if negative then -magnitude else magnitude
    (max (-LONG_MAX - 1) (min LONG_MAX value), unsigned.dropWhile Char.isDigit)

/-- The copying loop of `tokenise_string` and the loop after it that empties
the slots left: `slots` is `tokenLength - totalToken`, `currentToken` the
last result of `strtok`, `possible` the test `possibleTokens < tokenLength`,
which no iteration changes. -/
def tokenise_loop (possible : Bool) : Nat → Option (List Char × List Char) → List (List Char)
  | 0, _ => []
  | slots + 1, none => [] :: tokenise_loop possible slots none
  | slots + 1, some (currentToken, rest) =>
    if possible then currentToken :: tokenise_loop possible slots (strtok rest)
    else [] :: tokenise_loop possible slots none

/-- The function `tokenise_string`: the `tokenLength` tokens it leaves in
`tokenList`. `possibleTokens` counts the spaces of the string. -/
def tokenise_string (string : List Char) (tokenLength : Nat) : List (List Char) :=
  let possibleTokens := string.count ' '
  tokenise_loop (decide (possibleTokens < tokenLength)) tokenLength (strtok string)

/-- The loop of `convert_token_to_int` over the tokens from `tokenIndex` on;
returns the code and the array as the call leaves it. -/
def convert_token_loop : List (List Char) → Int → (Int → Int) → TokenCode × (Int → Int)
  | [], _, array => (TokenCode.NO_TOKEN_ERROR, array)
  | currentToken :: rest, tokenIndex, array =>
    if currentToken.length = 0 then (TokenCode.INVALID_INPUT, array)
    else
      let value := (strtol currentToken).1
      let nonNumeric := (strtol currentToken).2
      if value ≤ INT_MIN ∨ value ≥ INT_MAX ∨ nonNumeric ≠ [] then (TokenCode.INVALID_INPUT, array)
      else
        convert_token_loop rest (tokenIndex + 1)
          (fun i => if i = tokenIndex then value else array i)

/-- The function `convert_token_to_int`; `array` is the content of the
caller's array at the call, which the callers leave uninitialised. -/
def convert_token_to_int (token : List (List Char)) (array : Int → Int) (tokenLength : Nat) :
    TokenCode × (Int → Int) :=
  convert_token_loop (token.take tokenLength) 0 array

/-! ## parser.c -/

/-- Lines 61-78 of `parse_header`: the range checks on the four converted
header values `headerInfo[0..3]` and, when they pass, the assignments and the
resize of the board. Returns the result and the game as the call leaves it. -/
def parse_header_values (headerInfo : Int → Int) (game : Game) : Bool × Game :=
  let tile := game.tiles
  let totalTiles := tile.total
  let tileIndex := headerInfo 0
  let gameTurn := headerInfo 1
  let gameHeight := headerInfo 2
  let gameWidth := headerInfo 3
  if tileIndex < 0 ∨ tileIndex ≥ totalTiles ∨ gameTurn < 0 ∨ gameTurn > 1 ∨ gameHeight > 999 ∨
      gameHeight < 1 ∨ gameWidth > 999 ∨ gameWidth < 1 then (false, game)
  else
    (true,
      { game with
        tiles := { tile with current := tileIndex }
        turn := gameTurn
        gameBoard := reallocate_grid game.gameBoard gameHeight gameWidth })

/-- The function `correct_rotation`. -/
def correct_rotation (command : Command) : Bool :=
  [(0 : Int), 90, 180, 270].any fun rotation => decide (rotation = command.2.2)

/-- One line of standard input as `validate_tokens` reports it to
`human_prompt`: its code and, for `NO_TOKEN_ERROR`, the three integers read
into `command`. -/
abbrev PromptLine := TokenCode × Command

/-- The function `human_prompt` over the lines left on standard input, `int`
read as an integer; the empty list is the end of input. The first component is
`none` when the function returns false, else the game after the accepted move;
the second is the input left. `save_game` writes a file and changes no state.
A line is accepted by `valid_move`: this is the function of the code for lines
whose row and column are at least `INT_MIN + 2` and at most `INT_MAX - 3`
(`human_prompt_wrap_safe`); `human_prompt_wrap` is the function for every
line. -/
def human_prompt (game : Game) (currentPlayer : PlayerRef) :
    List PromptLine → Option Game × List PromptLine
  | [] => (none, [])
  | (errorCode, command) :: rest =>
    if errorCode = TokenCode.SAVE_FILE then human_prompt game currentPlayer rest
    else if errorCode = TokenCode.NO_TOKEN_ERROR ∧ correct_rotation command = true ∧
        valid_move command currentPlayer game.gameBoard game.tiles = true then
      (some (change_tiles (change_turn (place_move command currentPlayer game game.tiles))), rest)
    else human_prompt game currentPlayer rest

/-- The function `parse_header`. `headerInfo` is the content of the local
array of that name when it is declared; it is not initialised, so any value
may stand in it. The code returned by `convert_token_to_int` is not looked at.
Returns the result and the game as the call leaves it. -/
def parse_header (firstLine : List Char) (headerInfo : Int → Int) (game : Game) : Bool × Game :=
  let tokenLength := 4
  let tokens := tokenise_string firstLine tokenLength
  if tokens.any (fun token => token.length = 0) then (false, game)
  else parse_header_values (convert_token_to_int tokens headerInfo tokenLength).2 game

/-- The function `validate_dimension`. `dimension` is the content of the local
array of that name when it is declared. Returns the code and the game as the
call leaves it. -/
def validate_dimension (height width : List Char) (dimension : Int → Int) (game : Game) :
    ErrorCode × Game :=
  let tokens := [height, width]
  let converted := convert_token_to_int tokens dimension 2
  if converted.1 = TokenCode.INVALID_INPUT then (ErrorCode.DIM_INVALID, game)
  else
    let actualWidth := converted.2 1
    let actualHeight := converted.2 0
    if actualHeight < 1 ∨ actualHeight > 999 ∨ actualWidth < 1 ∨ actualWidth > 999 then
      (ErrorCode.DIM_INVALID, game)
    else
      (ErrorCode.NO_ERROR,
        { game with gameBoard := reallocate_grid game.gameBoard actualWidth actualHeight })

/-- Lines 367-375 of `parse_arguments`: the call of `validate_dimension` on the
arguments of the command line `fitz tilefile p1type p2type height width`, of
which `input[4]` is the height and `input[5]` the width. -/
def parse_arguments_dimension (input : Int → List Char) (dimension : Int → Int) (game : Game) :
    ErrorCode × Game :=
  validate_dimension (input 5) (input 4) dimension game

/-! ## grid.c, parser.c: saving and loading a game -/

/-- The function `valid_grid_content`; returns its result and the game as the
call leaves it. -/
def valid_grid_content (row col : Int) (value : Char) (game : Game) : Bool × Game :=
  let board := game.gameBoard
  let maxWidth := board.width
  let maxHeight := board.height
  if row ≥ maxHeight ∨ col ≥ maxWidth then (false, game)
  else if value = '#' then
    (true, { game with
      gameBoard := { board with grid := board_set board.grid row col (some PlayerRef.player2) } })
  else if value = '*' then
    (true, { game with
      gameBoard := { board with grid := board_set board.grid row col (some PlayerRef.player1) } })
  else if value = '.' then
    (true, { game with gameBoard := { board with grid := board_set board.grid row col none } })
  else (false, game)

/-- The function `check_final_dim`. -/
def check_final_dim (row maxHeight : Int) : ErrorCode :=
  if row ≠ maxHeight then ErrorCode.FILE_INVALID else ErrorCode.NO_ERROR

/-- The function `check_col`. -/
def check_col (col maxCol : Int) : Bool :=
  if col ≤ maxCol - 1 then false else true

/-- The C string a buffer holds once a terminator is written after its
characters: the characters before the first NUL. -/
def c_string (buffer : List Char) : List Char :=
  buffer.takeWhile fun c => c ≠ Char.ofNat 0

/-- The reading loop of `load_saved_game` over the characters left in the
file; the empty list is the end of the file. `firstLine` holds the characters
of the first line read so far, `headerInfo` is the content of the local array
of `parse_header` when it is declared. -/
def load_saved_loop : List Char → Bool → List Char → Int → Int → (Int → Int) → Game →
    ErrorCode × Game
  | [], _, _, row, _, _, game => (check_final_dim row game.gameBoard.height, game)
  | currentCharacter :: rest, isFirstLine, firstLine, row, col, headerInfo, game =>
    if currentCharacter = '\n' then
      if isFirstLine then
        match parse_header (c_string firstLine) headerInfo game with
        | (false, game) => (ErrorCode.FILE_INVALID, game)
        | (true, game) => load_saved_loop rest false firstLine 0 0 headerInfo game
      else if !check_col col game.gameBoard.width then (ErrorCode.FILE_INVALID, game)
      else load_saved_loop rest false firstLine (row + 1) 0 headerInfo game
    else if isFirstLine then
      load_saved_loop rest true (firstLine ++ [currentCharacter]) row (col + 1) headerInfo game
    else
      match valid_grid_content row col currentCharacter game with
      | (false, game) => (ErrorCode.FILE_INVALID, game)
      | (true, game) => load_saved_loop rest false firstLine row (col + 1) headerInfo game

/-- The function `load_saved_game`; `file` is `none` when the file cannot be
opened, else its characters. Returns the code and the game as the call leaves
it. -/
def load_saved_game (file : Option (List Char)) (headerInfo : Int → Int) (game : Game) :
    ErrorCode × Game :=
  match file with
  | none => (ErrorCode.FILE_INACCESS, game)
  | some content => load_saved_loop content true [] 0 0 headerInfo game

/-- The characters `fprintf` writes for `%d`: the decimal digits of the value,
most significant first, after a '-' for a negative value. -/
def print_int (n : Int) : List Char :=
  let digits :=
    if n.natAbs = 0 then ['0']
    else (Nat.digits 10 n.natAbs).reverse.map fun d => Char.ofNat (48 + d)
  if n < 0 then '-' :: digits else digits

/-- The characters `save_game` writes for a cell of the board: "." for `NULL`,
else the symbol of the player. -/
def save_cell (game : Game) : Option PlayerRef → List Char
  | none => ['.']
  | some currentPlace => (game.player currentPlace).symbol.toList

/-- The function `save_game`: the text it writes when the file opens. -/
def save_game (game : Game) : List Char :=
  let currentTile := game.tiles.current
  let currentTurn := game.turn
  let board := game.gameBoard
  let boardWidth := board.width
  let boardHeight := board.height
  (print_int currentTile ++ ' ' :: (print_int currentTurn ++ ' ' :: (print_int boardHeight ++
    ' ' :: (print_int boardWidth ++ ['\n'])))) ++
  (loop_range 0 (boardHeight - 1)).flatMap fun rows =>
    ((loop_range 0 (boardWidth - 1)).flatMap fun cols =>
      save_cell game (board.grid rows cols)) ++ ['\n']

/-! ## player.c, grid.c, game.c: the initial state -/

/-- The function `initialise_player`. `allocated` is the content of the memory
`malloc` returns: the symbol and the type are not set here. -/
def initialise_player (allocated : Player) (firstPlayer : Bool) : Player :=
  { allocated with
    firstPlayer := firstPlayer
    recentMove := (INT_MIN, INT_MIN) }

/-- The function `initialise_grid`: a board of one row and one column whose
cell is NULL. -/
def initialise_grid : Board :=
  { width := 1
    height := 1
    grid := fun _ _ => none }

/-- The function `initialise_game`; `allocated1` and `allocated2` are the
contents of the memory the two players are allocated in. -/
def initialise_game (allocated1 allocated2 : Player) : Game :=
  { player1 := initialise_player allocated1 true
    player2 := initialise_player allocated2 false
    gameBoard := initialise_grid
    tiles := initialise_tile_list
    recentMove := (INT_MIN, INT_MIN)
    turn := 0 }

/-! ## game.c: the game loop -/

/-- How `game_loop` ends: its return code, the player announced as winner (if
any) and the game as it is when the loop is left. -/
structure Outcome where
  code : ErrorCode
  winner : Option PlayerRef
  game : Game

/-- The function `game_loop`, `int` read as an integer: at most `turns`
iterations of its loop, each search with `fuel`; `none` when the iterations or
a search run out. `game_loop_wrap` is the loop in 32-bit arithmetic. -/
def game_loop : Nat → Nat → List PromptLine → Game → Option Outcome
  | 0, _, _, _ => none
  | turns + 1, fuel, input, game =>
    let turn := game.turn
    let currentPlayer := players turn
    let prevPlayer := players ((turn + 1).tmod 2)
    match check_possible_move fuel game currentPlayer with
    | none => none
    | some false => some { code := ErrorCode.NO_ERROR, winner := some prevPlayer, game := game }
    | some true =>
      match (game.player currentPlayer).type with
      | PlayerType.HUMAN =>
        match human_prompt game currentPlayer input with
        | (none, _) => some { code := ErrorCode.EOF_DETECTED, winner := none, game := game }
        | (some next, rest) => game_loop turns fuel rest next
      | PlayerType.P1_AUTO =>
        match algorithm_one fuel game players with
        | none => none
        | some next => game_loop turns fuel input next
      | PlayerType.P2_AUTO =>
        match algorithm_two fuel game currentPlayer with
        | none => none
        | some next => game_loop turns fuel input next

/-! ## game.c, parser.c: the moves in 32-bit arithmetic -/

/-- A loop `for (int i = lo; i <= hi; i++)` in 32-bit arithmetic whose body
changes a state, entered with the loop variable `i` and the state `state`. The
loop gives the state it ends with, and `none` when the body does or when the
fuel is used up before the loop ends. -/
def for_wrap_state {σ : Type} (body : Int → σ → Option σ) (hi : Int) :
    Nat → Int → σ → Option σ
  | 0, _, _ => none
  | fuel + 1, i, state =>
    if i ≤ hi then
      match body i state with
      | none => none
      | some next => for_wrap_state body hi fuel (wrap_int (i + 1)) next
    else some state

/-- The function `place_move` with every `int` operation taken modulo `2^32`;
the components of `command` are values of an `int`. The result is `none` when
a loop uses up the fuel. -/
def place_move_wrap (fuel : Nat) (command : Command) (playing : PlayerRef) (game : Game)
    (tiles : Tiles) : Option Game :=
  let centerY := command.1
  let centerX := command.2.1
  let offset := TILE_GRID_SQR_DIM.tdiv 2
  let currentIndex := tiles.current
  let rotationIndex := command.2.2.tdiv 90
  let currentTile := tiles.grid rotationIndex currentIndex
  let written :=
    for_wrap_state
      (fun y board =>
        let tileY := wrap_int (wrap_int (y - centerY) + offset)
        for_wrap_state
          (fun x board =>
            let tileX := wrap_int (wrap_int (x - centerX) + offset)
            some (if currentTile tileY tileX ≠ 0 then board_set board y x (some playing)
              else board))
          (wrap_int (centerX + offset)) fuel (wrap_int (centerX - offset)) board)
      (wrap_int (centerY + offset)) fuel (wrap_int (centerY - offset)) game.gameBoard.grid
  match written with
  | none => none
  | some board =>
    let game := { game with gameBoard := { game.gameBoard with grid := board } }
    let game := { game with recentMove := (centerY, centerX) }
    some (game.setRecentMove playing (centerY, centerX))

/-- The function `update_position_algorithm_one` in 32-bit arithmetic. -/
def update_position_algorithm_one_wrap (row boardHeight col boardWidth : Int) : Int × Int :=
  let currentRow := row
  let currentCol := col
  let currentCol := wrap_int (currentCol + 1)
  let (currentRow, currentCol) :=
    if currentCol > wrap_int (wrap_int (boardWidth - 1) + 2) then (wrap_int (currentRow + 1), -2)
    else (currentRow, currentCol)
  let currentRow :=
    if currentRow > wrap_int (wrap_int (boardHeight - 1) + 2) then -2 else currentRow
  (currentRow, currentCol)

/-- The function `update_position_algorithm_two` in 32-bit arithmetic. -/
def update_position_algorithm_two_wrap (row boardHeight col boardWidth : Int)
    (isFirstPlayer : Bool) : Int × Int :=
  let currentRow := row
  let currentCol := col
  if isFirstPlayer then
    let currentCol := wrap_int (currentCol + 1)
    let (currentRow, currentCol) :=
      if currentCol > wrap_int (wrap_int (boardWidth - 1) + 2) then
        (wrap_int (currentRow + 1), -2)
      else (currentRow, currentCol)
    if currentRow > wrap_int (wrap_int (boardHeight - 1) + 2) then (-2, -2)
    else (currentRow, currentCol)
  else
    let currentCol := wrap_int (currentCol - 1)
    let (currentRow, currentCol) :=
      if currentCol < -2 then (wrap_int (currentRow - 1), wrap_int (wrap_int (boardWidth - 1) + 2))
      else (currentRow, currentCol)
    if currentRow < -2 then
      (wrap_int (wrap_int (boardHeight - 1) + 2), wrap_int (wrap_int (boardWidth - 1) + 2))
    else (currentRow, currentCol)

/-- The inner position loop of `algorithm_one` in 32-bit arithmetic, for one
`theta`; every call of `valid_move` runs its loops with `loops` units of fuel,
and a call that uses them up ends the scan with `timeout`. -/
def algorithm_one_scan_wrap (loops : Nat) (game : Game) (currentPlayer : PlayerRef)
    (recentMove : Int × Int) (theta : Int) : Nat → Int → Int → Scan
  | 0, _, _ => .timeout
  | fuel + 1, row, col =>
    let command : Command := (row, col, theta)
    match valid_move_wrap loops command currentPlayer game.gameBoard game.tiles with
    | none => .timeout
    | some true => .found command
    | some false =>
      let next :=
        update_position_algorithm_one_wrap row game.gameBoard.height col game.gameBoard.width
      if next.1 ≠ recentMove.1 ∨ next.2 ≠ recentMove.2 then
        algorithm_one_scan_wrap loops game currentPlayer recentMove theta fuel next.1 next.2
      else .wrapped next.1 next.2

/-- The commit of an accepted command, common to `human_prompt`,
`algorithm_one` and `algorithm_two`: `place_move`, `change_turn`,
`change_tiles`, in 32-bit arithmetic. -/
def commit_wrap (fuel : Nat) (command : Command) (currentPlayer : PlayerRef) (game : Game) :
    Option Game :=
  match place_move_wrap fuel command currentPlayer game game.tiles with
  | none => none
  | some placed => some (change_tiles (change_turn placed))

/-- The outer loop of `algorithm_one` in 32-bit arithmetic, `theta` running
over the listed values; `none` when a loop ran out of fuel. -/
def algorithm_one_rotations_wrap (fuel : Nat) (game : Game) (currentPlayer : PlayerRef)
    (recentMove : Int × Int) : List Int → Int → Int → Option Game
  | [], _, _ => some game
  | theta :: rest, row, col =>
    match algorithm_one_scan_wrap fuel game currentPlayer recentMove theta fuel row col with
    | .found command => commit_wrap fuel command currentPlayer game
    | .wrapped row col =>
      algorithm_one_rotations_wrap fuel game currentPlayer recentMove rest row col
    | .timeout => none

/-- The function `algorithm_one` in 32-bit arithmetic, every loop with `fuel`
units of fuel; `none` when a loop ran out of fuel. -/
def algorithm_one_wrap (fuel : Nat) (game : Game) (totalPlayers : Int → PlayerRef) :
    Option Game :=
  let turn := game.turn
  let recentMove := game.recentMove
  let currentPlayer := totalPlayers turn
  let recentMove :=
    if recentMove.1 = INT_MIN ∧ recentMove.2 = INT_MIN then (-2, -2) else recentMove
  algorithm_one_rotations_wrap fuel game currentPlayer recentMove [0, 90, 180, 270]
    recentMove.1 recentMove.2

/-- The rotation loop of `algorithm_two` and of `check_possible_move` in 32-bit
arithmetic: the first `theta` of the list at which `valid_move` accepts
`(row, col, theta)`; the outer `none` when a call of `valid_move` used up its
fuel. -/
def first_rotation_wrap (loops : Nat) (game : Game) (currentPlayer : PlayerRef)
    (row col : Int) : List Int → Option (Option Command)
  | [] => some none
  | theta :: rest =>
    match valid_move_wrap loops (row, col, theta) currentPlayer game.gameBoard game.tiles with
    | none => none
    | some true => some (some (row, col, theta))
    | some false => first_rotation_wrap loops game currentPlayer row col rest

/-- The position loop of `algorithm_two` and of `check_possible_move` in 32-bit
arithmetic. -/
def algorithm_two_scan_wrap (loops : Nat) (game : Game) (currentPlayer : PlayerRef)
    (recentMove : Int × Int) (firstPlayer : Bool) : Nat → Int → Int → Scan
  | 0, _, _ => .timeout
  | fuel + 1, row, col =>
    match first_rotation_wrap loops game currentPlayer row col [0, 90, 180, 270] with
    | none => .timeout
    | some (some command) => .found command
    | some none =>
      let next := update_position_algorithm_two_wrap row game.gameBoard.height col
        game.gameBoard.width firstPlayer
      if next.1 ≠ recentMove.1 ∨ next.2 ≠ recentMove.2 then
        algorithm_two_scan_wrap loops game currentPlayer recentMove firstPlayer fuel
          next.1 next.2
      else .wrapped next.1 next.2

/-- The function `algorithm_two` in 32-bit arithmetic, every loop with `fuel`
units of fuel; `none` when a loop ran out of fuel. -/
def algorithm_two_wrap (fuel : Nat) (game : Game) (currentPlayer : PlayerRef) : Option Game :=
  let recentMove := (game.player currentPlayer).recentMove
  let firstPlayer := (game.player currentPlayer).firstPlayer
  let boardWidth := game.gameBoard.width
  let boardHeight := game.gameBoard.height
  let recentMove :=
    if recentMove.1 = INT_MIN ∧ recentMove.2 = INT_MIN then
      if firstPlayer then (-2, -2) else (wrap_int (boardWidth + 2), wrap_int (boardHeight + 2))
    else recentMove
  match algorithm_two_scan_wrap fuel game currentPlayer recentMove firstPlayer fuel
      recentMove.1 recentMove.2 with
  | .found command => commit_wrap fuel command currentPlayer game
  | .wrapped _ _ => some game
  | .timeout => none

/-- The function `check_possible_move` in 32-bit arithmetic, every loop with
`fuel` units of fuel; `none` when a loop ran out of fuel. -/
def check_possible_move_wrap (fuel : Nat) (game : Game) (currentPlayer : PlayerRef) :
    Option Bool :=
  let recentMove := (game.player currentPlayer).recentMove
  let recentMove :=
    if recentMove.1 = INT_MIN ∧ recentMove.2 = INT_MIN then (-2, -2) else recentMove
  match algorithm_two_scan_wrap fuel game currentPlayer recentMove true fuel
      recentMove.1 recentMove.2 with
  | .found _ => some true
  | .wrapped _ _ => some false
  | .timeout => none

/-- The function `human_prompt` in 32-bit arithmetic over the lines left on
standard input. The outer `none` is a loop of `valid_move` or `place_move`
that used up the fuel; else the first component is `none` when the function
returns false (end of input) and the game after the accepted move when it
returns true, and the second is the input left. -/
def human_prompt_wrap (fuel : Nat) (game : Game) (currentPlayer : PlayerRef) :
    List PromptLine → Option (Option Game × List PromptLine)
  | [] => some (none, [])
  | (errorCode, command) :: rest =>
    if errorCode = TokenCode.SAVE_FILE then human_prompt_wrap fuel game currentPlayer rest
    else if errorCode = TokenCode.NO_TOKEN_ERROR ∧ correct_rotation command = true then
      match valid_move_wrap fuel command currentPlayer game.gameBoard game.tiles with
      | none => none
      | some true =>
        match commit_wrap fuel command currentPlayer game with
        | none => none
        | some next => some (some next, rest)
      | some false => human_prompt_wrap fuel game currentPlayer rest
    else human_prompt_wrap fuel game currentPlayer rest

/-- The function `game_loop` in 32-bit arithmetic: at most `turns` iterations
of its loop, every other loop with `fuel` units of fuel; `none` when the
iterations or a loop run out. -/
def game_loop_wrap : Nat → Nat → List PromptLine → Game → Option Outcome
  | 0, _, _, _ => none
  | turns + 1, fuel, input, game =>
    let turn := game.turn
    let currentPlayer := players turn
    let prevPlayer := players ((turn + 1).tmod 2)
    match check_possible_move_wrap fuel game currentPlayer with
    | none => none
    | some false => some { code := ErrorCode.NO_ERROR, winner := some prevPlayer, game := game }
    | some true =>
      match (game.player currentPlayer).type with
      | PlayerType.HUMAN =>
        match human_prompt_wrap fuel game currentPlayer input with
        | none => none
        | some (none, _) =>
          some { code := ErrorCode.EOF_DETECTED, winner := none, game := game }
        | some (some next, rest) => game_loop_wrap turns fuel rest next
      | PlayerType.P1_AUTO =>
        match algorithm_one_wrap fuel game players with
        | none => none
        | some next => game_loop_wrap turns fuel input next
      | PlayerType.P2_AUTO =>
        match algorithm_two_wrap fuel game currentPlayer with
        | none => none
        | some next => game_loop_wrap turns fuel input next

/-- The test of `valid_move` at the board cell `(y, x)` in 32-bit arithmetic,
with the cells it reads in the order of evaluation of `&&` and `||`. -/
def valid_move_test_wrap (grid : Board) (tiles : Tiles)
    (rotationIndex centerY centerX offset : Int) (y x : Int) : Bool × List Access :=
  let currentIndex := tiles.current
  let tileY := wrap_int (wrap_int (y - centerY) + offset)
  let tileX := wrap_int (wrap_int (x - centerX) + offset)
  let readTile := Access.tile rotationIndex currentIndex tileY tileX
  if tiles.grid rotationIndex currentIndex tileY tileX ≠ 0 then
    if y < 0 ∨ y ≥ grid.height ∨ x < 0 ∨ x ≥ grid.width then (false, [readTile])
    else if grid.grid y x ≠ none then (false, [readTile, Access.board y x])
    else (true, [readTile, Access.board y x])
  else (true, [readTile])

/-- A loop `for (int i = lo; i <= hi; i++)` in 32-bit arithmetic with the
cells it reads: `body` gives for an index its result, as in `for_wrap`, and
the cells it reads; the cells read are listed also when the fuel is used up. -/
def for_wrap_reads (body : Int → Option Bool × List Access) (hi : Int) :
    Nat → Int → Option Bool × List Access
  | 0, _ => (none, [])
  | fuel + 1, i =>
    if i ≤ hi then
      match (body i).1 with
      | some true =>
        ((for_wrap_reads body hi fuel (wrap_int (i + 1))).1,
          (body i).2 ++ (for_wrap_reads body hi fuel (wrap_int (i + 1))).2)
      | result => (result, (body i).2)
    else (some true, [])

/-- The function `valid_move` in 32-bit arithmetic with the cells it reads:
the result of `valid_move_wrap` and the list of the cells read, in order. -/
def valid_move_wrap_reads (fuel : Nat) (command : Command) (_playing : PlayerRef) (grid : Board)
    (tiles : Tiles) : Option Bool × List Access :=
  let centerY := command.1
  let centerX := command.2.1
  let offset := TILE_GRID_SQR_DIM.tdiv 2
  let rotationIndex := command.2.2.tdiv 90
  for_wrap_reads
    (fun y =>
      for_wrap_reads
        (fun x =>
          (some (valid_move_test_wrap grid tiles rotationIndex centerY centerX offset y x).1,
            (valid_move_test_wrap grid tiles rotationIndex centerY centerX offset y x).2))
        (wrap_int (centerX + offset)) fuel (wrap_int (centerX - offset)))
    (wrap_int (centerY + offset)) fuel (wrap_int (centerY - offset))

/-! ## Scan order and the shape of the position loops -/

/-- The scan range of the searches on a board: anchors `(row, col)` with
`-2 ≤ row ≤ height + 1` and `-2 ≤ col ≤ width + 1`. -/
def in_scan_range (height width : Int) (p : Int × Int) : Prop :=
  (-2 ≤ p.1 ∧ p.1 ≤ height + 1) ∧ (-2 ≤ p.2 ∧ p.2 ≤ width + 1)

/-- Row-major position of an anchor in the scan range, column fastest, counted
from the top-left anchor `(-2, -2)`. -/
def scan_index (width : Int) (p : Int × Int) : Int :=
  (p.1 + 2) * (width + 4) + (p.2 + 2)

/-- Place of the anchor `p` in the cyclic row-major order of the scan range
that starts at, and includes, `start`: the number of anchors visited before
`p`. -/
def cyclic_rank (height width : Int) (start p : Int × Int) : Int :=
  (scan_index width p - scan_index width start) % ((height + 4) * (width + 4))

/-- The anchor a search starts from: the stored last move, or `(-2, -2)` when
the stored move is the unset marker `(INT_MIN, INT_MIN)`. -/
def ascending_start (recentMove : Int × Int) : Int × Int :=
  if recentMove.1 = INT_MIN ∧ recentMove.2 = INT_MIN then (-2, -2) else recentMove

/-- The shape shared by the position loops: `test` is the body up to its early
return, `next` the position update, `start` the anchor that ends the loop. -/
def cycle_scan (test : Int × Int → Option Command) (next : Int × Int → Int × Int)
    (start : Int × Int) : Nat → Int × Int → Scan
  | 0, _ => .timeout
  | fuel + 1, p =>
    match test p with
    | some command => .found command
    | none =>
      if (next p).1 ≠ start.1 ∨ (next p).2 ≠ start.2 then cycle_scan test next start fuel (next p)
      else .wrapped (next p).1 (next p).2

/-- The body of the loop of `algorithm_one` at one `theta`, as a test of the
anchor. -/
def test_one (game : Game) (currentPlayer : PlayerRef) (theta : Int) (p : Int × Int) :
    Option Command :=
  if valid_move (p.1, p.2, theta) currentPlayer game.gameBoard game.tiles then
    some (p.1, p.2, theta)
  else none

/-- The position update of `algorithm_one` as a map of anchors. -/
def step_one (game : Game) (p : Int × Int) : Int × Int :=
  update_position_algorithm_one p.1 game.gameBoard.height p.2 game.gameBoard.width

/-- The position update of `algorithm_two` as a map of anchors. -/
def step_two (game : Game) (firstPlayer : Bool) (p : Int × Int) : Int × Int :=
  update_position_algorithm_two p.1 game.gameBoard.height p.2 game.gameBoard.width firstPlayer

/-- Place of the anchor `p` in the cyclic order a player of `algorithm_two`
scans in from `start`: ascending row-major for a first player, descending
(the reverse order) for the other player. -/
def scan_rank (height width : Int) (firstPlayer : Bool) (start p : Int × Int) : Int :=
  if firstPlayer then cyclic_rank height width start p else cyclic_rank height width p start

/-- The position update `next` runs through the scan range in one cycle from
`start`, and `rank` counts its steps from `start`. -/
def scan_cycle (height width : Int) (next : Int × Int → Int × Int) (start : Int × Int)
    (rank : Int × Int → Int) : Prop :=
  (∀ k : Nat, in_scan_range height width (next^[k] start)) ∧
  (∀ k : Nat, (k : Int) < (height + 4) * (width + 4) → rank (next^[k] start) = (k : Int)) ∧
  (∀ a, in_scan_range height width a →
    0 ≤ rank a ∧ rank a < (height + 4) * (width + 4) ∧ next^[(rank a).toNat] start = a) ∧
  next^[((height + 4) * (width + 4)).toNat] start = start

/-- The anchor `algorithm_two` starts from: the player's last move, or for an
unset last move `(-2, -2)` for a first player and
`(boardWidth + 2, boardHeight + 2)` for the other player. -/
def two_start (game : Game) (currentPlayer : PlayerRef) : Int × Int :=
  if (game.player currentPlayer).recentMove.1 = INT_MIN ∧
      (game.player currentPlayer).recentMove.2 = INT_MIN then
    if (game.player currentPlayer).firstPlayer then (-2, -2)
    else (game.gameBoard.width + 2, game.gameBoard.height + 2)
  else (game.player currentPlayer).recentMove

/-- The body of the loop of `algorithm_two` and of `check_possible_move`, as a
test of the anchor. -/
def test_two (game : Game) (currentPlayer : PlayerRef) (p : Int × Int) : Option Command :=
  first_rotation game currentPlayer p.1 p.2 [0, 90, 180, 270]

/-! ## Text formats -/

/-- The integer a token denotes, as the C library reads it: optional white
space, an optional sign, decimal digits and nothing after them (values beyond
the range of `long` are kept at its ends); `none` for the empty token and for
every other text. -/
def integer_value (token : List Char) : Option Int :=
  if token ≠ [] ∧ (strtol token).2 = [] then some (strtol token).1 else none

/-- A header line made of four tokens with one space between neighbours. -/
def header_line (t0 t1 t2 t3 : List Char) : List Char :=
  t0 ++ ' ' :: (t1 ++ ' ' :: (t2 ++ ' ' :: t3))

/-- A line of a tile block: five characters, each ',' or '!'. -/
def tile_line_ok (line : List Char) : Prop :=
  line.length = 5 ∧ ∀ ch ∈ line, ch = ',' ∨ ch = '!'

/-- A tile block: five lines of a tile block. -/
def tile_block_ok (block : List (List Char)) : Prop :=
  block.length = 5 ∧ ∀ line ∈ block, tile_line_ok line

instance (line : List Char) : Decidable (tile_line_ok line) := by
  unfold tile_line_ok; infer_instance

instance (block : List (List Char)) : Decidable (tile_block_ok block) := by
  unfold tile_block_ok; infer_instance

/-- The text of a block: each of its lines followed by a newline. -/
def block_text (block : List (List Char)) : List Char :=
  block.flatMap (fun line => line ++ ['\n'])

/-- The text of a tile file made of the given blocks: the texts of the blocks
with one empty line between neighbours and nothing after the last. -/
def file_text : List (List (List Char)) → List Char
  | [] => []
  | [block] => block_text block
  | block :: next :: rest => block_text block ++ '\n' :: file_text (next :: rest)

/-- The character `c` of line `r` of a block. -/
def block_char (block : List (List Char)) (r c : Nat) : Char :=
  (block.getD r []).getD c ','

/-- The catalogue after `validate_tile_file` has read the marker `character`
at `(row, col)`: the cell of the rotation-0 layout of the last tile is written,
1 for '!' and 0 for ','. -/
def write_cell (tiles : Tiles) (row col : Int) (character : Char) : Tiles :=
  { tiles with
    grid := tiles_set tiles.grid 0 (tiles.total - 1)
      (mask_set (tiles.grid 0 (tiles.total - 1)) row col (if character = '!' then 1 else 0)) }

/-- The catalogue after the markers of a line have been read into row `row` of
the last tile, from column 0 on. -/
def write_line (tiles : Tiles) (row : Int) (line : List Char) : Tiles :=
  (line.foldl (fun (acc : Tiles × Int) ch => (write_cell acc.1 row acc.2 ch, acc.2 + 1))
    (tiles, 0)).1

/-- The catalogue after the lines of a block have been read into the last
tile, from row 0 on. -/
def write_block (tiles : Tiles) (block : List (List Char)) : Tiles :=
  (block.foldl (fun (acc : Tiles × Int) line => (write_line acc.1 acc.2 line, acc.2 + 1))
    (tiles, 0)).1

/-- The catalogue after the blocks of a file have been read: the first block
into the last tile, each further block into a tile that `initialise_new_tile`
adds. -/
def write_blocks : Tiles → List (List (List Char)) → Tiles
  | tiles, [] => tiles
  | tiles, [block] => write_block tiles block
  | tiles, block :: next :: rest =>
    write_blocks (initialise_new_tile (write_block tiles block)) (next :: rest)

/-- A tile file with one block whose markers are all ','. -/
def blank_block : List (List Char) :=
  [[',', ',', ',', ',', ','], [',', ',', ',', ',', ','], [',', ',', ',', ',', ','],
    [',', ',', ',', ',', ','], [',', ',', ',', ',', ',']]

/-! ## Counts of cells -/

/-- The number of empty cells of a board. -/
def empty_cells (board : Board) : Nat :=
  ((Finset.Icc 0 (board.height - 1) ×ˢ Finset.Icc 0 (board.width - 1)).filter
    fun p => board.grid p.1 p.2 = none).card

/-- The number of filled cells of a tile layout. -/
def filled_cells (tile : Mask) : Nat :=
  ((Finset.Icc 0 (TILE_GRID_SQR_DIM - 1) ×ˢ Finset.Icc 0 (TILE_GRID_SQR_DIM - 1)).filter
    fun p => tile p.1 p.2 ≠ 0).card

/-! ## The text of a saved game -/

/-- The owner a character of a saved grid stands for. -/
def saved_owner (value : Char) : Option PlayerRef :=
  if value = '#' then some PlayerRef.player2
  else if value = '*' then some PlayerRef.player1
  else none

/-- A row of a saved grid of the given width: `width` characters, each '.',
'*' or '#'. -/
def grid_row_ok (width : Int) (line : List Char) : Prop :=
  (line.length : Int) = width ∧ ∀ ch ∈ line, ch = '.' ∨ ch = '*' ∨ ch = '#'

instance (width : Int) (line : List Char) : Decidable (grid_row_ok width line) := by
  unfold grid_row_ok; infer_instance

/-- The text of the rows of a saved grid: each row followed by a newline. -/
def rows_text (rows : List (List Char)) : List Char :=
  rows.flatMap fun line => line ++ ['\n']

/-- The game after `valid_grid_content` has read the characters `cells` into
row `row` from column `col` on. -/
def read_cells : Game → Int → Int → List Char → Game
  | game, _, _, [] => game
  | game, row, col, value :: rest =>
    read_cells
      { game with
        gameBoard :=
          { game.gameBoard with
            grid := board_set game.gameBoard.grid row col (saved_owner value) } }
      row (col + 1) rest

/-- The game after the rows of a saved grid have been read from row `row`
on. -/
def read_rows : Game → Int → List (List Char) → Game
  | game, _, [] => game
  | game, row, line :: rest => read_rows (read_cells game row 0 line) (row + 1) rest

/-- The character `save_game` writes for a cell when the symbols of the two
players are "*" and "#". -/
def owner_char : Option PlayerRef → Char
  | none => '.'
  | some PlayerRef.player1 => '*'
  | some PlayerRef.player2 => '#'

/-- The rows of characters that stand for the cells of a board. -/
def saved_rows (board : Board) : List (List Char) :=
  (loop_range 0 (board.height - 1)).map fun r =>
    (loop_range 0 (board.width - 1)).map fun c => owner_char (board.grid r c)

/-! ## Sample states -/

/-- A layout whose only placeable cell is the centre `(2, 2)`. -/
def centre_mask : Mask := fun r c => if r = 2 ∧ c = 2 then 1 else 0

/-- A catalogue of one tile, the centre-only layout at every rotation. -/
def centre_tiles : Tiles :=
  { total := 1, current := 0, rotationIndex := 0, grid := fun _ _ => centre_mask }

/-- A board of the given size with no placement. -/
def empty_board (height width : Int) : Board :=
  { width := width, height := height, grid := fun _ _ => none }

/-- A player as `initialise_player` leaves it, of the automatic type 1. -/
def fresh_player (firstPlayer : Bool) : Player :=
  { symbol := "", type := PlayerType.P1_AUTO, recentMove := (INT_MIN, INT_MIN),
    firstPlayer := firstPlayer }

/-- A game before the first move on an empty board, with the one-tile
catalogue. -/
def fresh_game (height width : Int) : Game :=
  { player1 := fresh_player true
    player2 := fresh_player false
    gameBoard := empty_board height width
    tiles := centre_tiles
    turn := 0
    recentMove := (INT_MIN, INT_MIN) }

/-- A 1x2 board whose cell `(0, 0)` belongs to the second player. -/
def taken_board : Board :=
  { width := 2, height := 1
    grid := fun y x => if y = 0 ∧ x = 0 then some PlayerRef.player2 else none }

/-- A game on `taken_board` with the one-tile catalogue. -/
def taken_game : Game := { fresh_game 1 2 with gameBoard := taken_board }

/-- A 1x1 board whose cell belongs to the first player. -/
def full_board : Board :=
  { width := 1, height := 1, grid := fun _ _ => some PlayerRef.player1 }

/-- A game on `full_board` with the one-tile catalogue, no last move stored. -/
def full_game : Game := { fresh_game 1 1 with gameBoard := full_board }

/-- The game `full_game` with `(5, 5)` stored as the first player's last
move. -/
def stuck_game : Game :=
  { full_game with player1 := { fresh_player true with recentMove := (5, 5) } }

/-- The game `taken_game` with `(0, 0)` stored as the second player's last
move. -/
def second_game : Game :=
  { taken_game with player2 := { fresh_player false with recentMove := (0, 0) } }

/-- A game whose catalogue counts three tiles, the second one active. -/
def three_tile_game : Game :=
  { fresh_game 1 1 with tiles := { centre_tiles with total := 3, current := 1 } }

/-- The text of a tile file with one tile, the centre-only layout. -/
def centre_file : List Char :=
  ",,,,,\n,,,,,\n,,!,,\n,,,,,\n,,,,,\n".toList

/-- Three input lines as `validate_tokens` reports them: a save command, an
invalid line, and the move `0 0 0`. -/
def prompt_lines : List PromptLine :=
  [(TokenCode.SAVE_FILE, (0, 0, 0)), (TokenCode.INVALID_INPUT, (0, 0, 0)),
    (TokenCode.NO_TOKEN_ERROR, (0, 0, 0))]

/-- The game `taken_game` with the symbols `validate_player_type` gives the
players. -/
def symbol_game : Game :=
  { taken_game with
    player1 := { fresh_player true with symbol := "*" }
    player2 := { fresh_player false with symbol := "#" } }

/-- A catalogue of one tile with no placeable cell, as `validate_tile_file`
leaves it for a block of 25 markers ','. -/
def blank_tiles : Tiles :=
  { total := 1, current := 0, rotationIndex := 0, grid := fun _ _ _ _ => 0 }

/-- The game `fresh_game 1 1` with a human first player; the second player is
of the automatic type 1. -/
def human_game : Game :=
  { fresh_game 1 1 with player1 := { fresh_player true with type := PlayerType.HUMAN } }

/-- Two input lines as `validate_tokens` reports them: the moves
`2147483646 0 0` and `0 0 0`. -/
def limit_lines : List PromptLine :=
  [(TokenCode.NO_TOKEN_ERROR, (2147483646, 0, 0)), (TokenCode.NO_TOKEN_ERROR, (0, 0, 0))]

/-- The game `human_game` after the first player has typed `2147483646 0 0`,
the second player has moved and the first player has typed `0 0 0`: the cell
of the board belongs to the first player, who moved last at `(0, 0)`, the
second player's last move is `(2147483646, 0)`, and it is the second player's
turn. -/
def spin_game : Game :=
  { player1 := { fresh_player true with type := PlayerType.HUMAN, recentMove := (0, 0) }
    player2 := { fresh_player false with recentMove := (2147483646, 0) }
    gameBoard :=
      { width := 1, height := 1
        grid := board_set (fun _ _ => none) 0 0 (some PlayerRef.player1) }
    tiles := centre_tiles
    turn := 1
    recentMove := (0, 0) }

/-- The game `full_game` with `(0, 0)` stored as the second player's last
move. -/
def full_second_game : Game :=
  { full_game with player2 := { fresh_player false with recentMove := (0, 0) } }

/-! ## Lemmas -/

theorem mem_loop_range (lo hi i : Int) : i ∈ loop_range lo hi ↔ lo ≤ i ∧ i ≤ hi := by
  unfold loop_range
  constructor
  · intro h
    obtain ⟨k, hk, rfl⟩ := List.mem_map.mp h
    have := List.mem_range.mp hk
    omega
  · rintro ⟨h1, h2⟩
    refine List.mem_map.mpr ⟨(i - lo).toNat, List.mem_range.mpr (by omega), by omega⟩

theorem offset_eq : TILE_GRID_SQR_DIM.tdiv 2 = 2 := by decide

theorem valid_move_eq_true (row col theta : Int) (playing : PlayerRef) (grid : Board)
    (tiles : Tiles) :
    valid_move (row, col, theta) playing grid tiles = true ↔
      ∀ dr dc : Int, 0 ≤ dr → dr < 5 → 0 ≤ dc → dc < 5 →
        tiles.grid (theta.tdiv 90) tiles.current dr dc ≠ 0 →
          (0 ≤ row + dr - 2 ∧ row + dr - 2 < grid.height ∧
            0 ≤ col + dc - 2 ∧ col + dc - 2 < grid.width) ∧
          grid.grid (row + dr - 2) (col + dc - 2) = none := by
  simp only [valid_move, offset_eq, List.all_eq_true, mem_loop_range]
  constructor
  · intro h dr dc h1 h2 h3 h4 hf
    have := h (row + dr - 2) (by omega) (col + dc - 2) (by omega)
    have e1 : row + dr - 2 - row + 2 = dr := by omega
    have e2 : col + dc - 2 - col + 2 = dc := by omega
    simp only [e1, e2] at this
    simp [hf] at this
    obtain ⟨⟨⟨⟨a, b⟩, c⟩, d⟩, e⟩ := this
    exact ⟨⟨by omega, b, by omega, d⟩, e⟩
  · intro h y hy x hx
    by_cases hf : tiles.grid (theta.tdiv 90) tiles.current (y - row + 2) (x - col + 2) = 0
    · simp [hf]
    · have := h (y - row + 2) (x - col + 2) (by omega) (by omega) (by omega) (by omega) hf
      have e1 : row + (y - row + 2) - 2 = y := by omega
      have e2 : col + (x - col + 2) - 2 = x := by omega
      simp only [e1, e2] at this
      obtain ⟨⟨a, b, c, d⟩, e⟩ := this
      simp [hf, e]
      omega

theorem foldl_board_set_row (lx : List Int) (c : Int → Prop) [DecidablePred c]
    (board : Int → Int → Option PlayerRef) (y : Int) (v : Option PlayerRef) (y' x' : Int) :
    (lx.foldl (fun board x => if c x then board_set board y x v else board) board) y' x' =
      if y' = y ∧ x' ∈ lx ∧ c x' then v else board y' x' := by
  induction lx generalizing board with
  | nil => simp
  | cons a l ih =>
    rw [List.foldl_cons, ih]
    by_cases hy : y' = y
    · by_cases hx : x' = a
      · subst hx
        by_cases hc : c x'
        · simp [hy, hc, board_set]
        · simp [hy, hc]
      · by_cases hc : c a
        · simp [hy, hx, hc, board_set]
        · simp [hy, hx, hc]
    · by_cases hc : c a
      · simp [hy, hc, board_set]
      · simp [hy, hc]

theorem foldl_board_set_grid (ly lx : List Int) (c : Int → Int → Prop)
    [∀ y x, Decidable (c y x)] (board : Int → Int → Option PlayerRef) (v : Option PlayerRef)
    (y' x' : Int) :
    (ly.foldl (fun board y =>
        lx.foldl (fun board x => if c y x then board_set board y x v else board) board)
      board) y' x' =
      if y' ∈ ly ∧ x' ∈ lx ∧ c y' x' then v else board y' x' := by
  induction ly generalizing board with
  | nil => simp
  | cons a l ih =>
    rw [List.foldl_cons, ih, foldl_board_set_row]
    by_cases hy : y' = a
    · subst hy
      by_cases h : x' ∈ lx ∧ c y' x'
      · simp [h]
      · simp [h]
    · simp [hy]

/-- The board after `place_move`: a cell under a placeable tile cell holds the
player, every other cell is as before. -/
theorem place_move_grid (row col theta : Int) (playing : PlayerRef) (game : Game)
    (tiles : Tiles) (y x : Int) :
    (place_move (row, col, theta) playing game tiles).gameBoard.grid y x =
      if (row - 2 ≤ y ∧ y ≤ row + 2) ∧ (col - 2 ≤ x ∧ x ≤ col + 2) ∧
          tiles.grid (theta.tdiv 90) tiles.current (y - row + 2) (x - col + 2) ≠ 0
      then some playing else game.gameBoard.grid y x := by
  have h := foldl_board_set_grid (loop_range (row - 2) (row + 2)) (loop_range (col - 2) (col + 2))
    (fun y x => tiles.grid (theta.tdiv 90) tiles.current (y - row + 2) (x - col + 2) ≠ 0)
    game.gameBoard.grid (some playing) y x
  simp only [mem_loop_range] at h
  rw [← h]
  cases playing <;> simp only [place_move, offset_eq, Game.setRecentMove]

theorem place_move_height (command : Command) (playing : PlayerRef) (game : Game)
    (tiles : Tiles) :
    (place_move command playing game tiles).gameBoard.height = game.gameBoard.height := by
  cases playing <;> rfl

theorem place_move_width (command : Command) (playing : PlayerRef) (game : Game)
    (tiles : Tiles) :
    (place_move command playing game tiles).gameBoard.width = game.gameBoard.width := by
  cases playing <;> rfl

theorem loop_range_tile : loop_range 0 4 = [0, 1, 2, 3, 4] := by decide

theorem loop_range_rotations : loop_range 1 3 = [1, 2, 3] := by decide

/-- The cells `rotate_cells` writes: cell `(c, 4 - r)` of the result is cell
`(r, c)` of the source layout. -/
theorem rotate_cells_spec (last other : Mask) (r c : Int) (hr0 : 0 ≤ r) (hr : r < 5)
    (hc0 : 0 ≤ c) (hc : c < 5) :
    rotate_cells last other c (4 - r) = last r c := by
  have hr' : r = 0 ∨ r = 1 ∨ r = 2 ∨ r = 3 ∨ r = 4 := by omega
  have hc' : c = 0 ∨ c = 1 ∨ c = 2 ∨ c = 3 ∨ c = 4 := by omega
  have e : TILE_GRID_SQR_DIM - 1 = 4 := by decide
  unfold rotate_cells
  rw [e]
  simp only [loop_range_tile, List.foldl_cons, List.foldl_nil, mask_set]
  rcases hr' with rfl | rfl | rfl | rfl | rfl <;> rcases hc' with rfl | rfl | rfl | rfl | rfl <;>
    simp

theorem rotate_cells_apply (last other : Mask) (i j : Int) (hi0 : 0 ≤ i) (hi : i < 5)
    (hj0 : 0 ≤ j) (hj : j < 5) :
    rotate_cells last other i j = last (4 - j) i := by
  have h := rotate_cells_spec last other (4 - j) i (by omega) (by omega) hi0 hi
  have e : 4 - (4 - j) = j := by omega
  rw [e] at h
  exact h

theorem loop_range_nodup (lo hi : Int) : (loop_range lo hi).Nodup := by
  unfold loop_range
  refine List.Nodup.map ?_ (List.nodup_range _)
  intro a b h
  simp only at h
  omega

/-- One pass of the tile loop of `rotate_tile`, writing rotation index `k` from
rotation index `km`. -/
theorem foldl_tiles_set (k km : Int) (hk : km ≠ k) (l : List Int) (hl : l.Nodup)
    (grid : Int → Int → Mask) (k' t' : Int) :
    (l.foldl (fun grid t =>
        tiles_set grid k t (rotate_cells (grid km t) (grid k t))) grid) k' t' =
      if k' = k ∧ t' ∈ l then rotate_cells (grid km t') (grid k t') else grid k' t' := by
  induction l generalizing grid with
  | nil => simp
  | cons a l ih =>
    rw [List.foldl_cons, ih (List.nodup_cons.mp hl).2]
    by_cases h1 : k' = k
    · subst h1
      by_cases h2 : t' ∈ l
      · have hne : t' ≠ a := fun e => (List.nodup_cons.mp hl).1 (e ▸ h2)
        simp [h2, tiles_set, hne, hk]
      · by_cases h3 : t' = a
        · subst h3
          simp [h2, tiles_set]
        · simp [h2, h3, tiles_set]
    · simp [h1, tiles_set]

/-- The layouts after `rotate_tile`: rotation index 0 is untouched, and for a
tile of the catalogue each later index holds `rotate_cells` of the index
before it. -/
theorem rotate_tile_grid (tiles : Tiles) (t : Int) :
    (rotate_tile tiles).grid 0 t = tiles.grid 0 t ∧
    (0 ≤ t → t < tiles.total → ∀ k : Int, k = 1 ∨ k = 2 ∨ k = 3 →
      (rotate_tile tiles).grid k t =
        rotate_cells ((rotate_tile tiles).grid (k - 1) t) (tiles.grid k t)) := by
  have e : TOTAL_ROTATION - 1 = 3 := by decide
  have hn := loop_range_nodup 0 (tiles.total - 1)
  have p1 := foldl_tiles_set 1 0 (by decide) _ hn
  have p2 := foldl_tiles_set 2 1 (by decide) _ hn
  have p3 := foldl_tiles_set 3 2 (by decide) _ hn
  unfold rotate_tile
  simp only [e, loop_range_rotations, List.foldl_cons, List.foldl_nil]
  refine ⟨?_, ?_⟩
  · simp [p1, p2, p3]
  · intro h0 h1 k hk
    have hm : t ∈ loop_range 0 (tiles.total - 1) := (mem_loop_range _ _ _).mpr ⟨h0, by omega⟩
    rcases hk with rfl | rfl | rfl <;> simp [p1, p2, p3, hm]

/-! ### The position loops as instances of `cycle_scan` -/

theorem algorithm_one_scan_eq (game : Game) (currentPlayer : PlayerRef)
    (recentMove : Int × Int) (theta : Int) (fuel : Nat) (row col : Int) :
    algorithm_one_scan game currentPlayer recentMove theta fuel row col =
      cycle_scan (test_one game currentPlayer theta) (step_one game) recentMove fuel
        (row, col) := by
  induction fuel generalizing row col with
  | zero => rfl
  | succ n ih =>
    simp only [algorithm_one_scan, cycle_scan, test_one, step_one]
    by_cases hv : valid_move (row, col, theta) currentPlayer game.gameBoard game.tiles = true
    · simp [hv]
    · simp only [hv]
      simp only [ih]
      rfl

theorem algorithm_two_scan_eq (game : Game) (currentPlayer : PlayerRef)
    (recentMove : Int × Int) (firstPlayer : Bool) (fuel : Nat) (row col : Int) :
    algorithm_two_scan game currentPlayer recentMove firstPlayer fuel row col =
      cycle_scan (fun p => first_rotation game currentPlayer p.1 p.2 [0, 90, 180, 270])
        (step_two game firstPlayer) recentMove fuel (row, col) := by
  induction fuel generalizing row col with
  | zero => rfl
  | succ n ih =>
    simp only [algorithm_two_scan, cycle_scan, step_two]
    cases first_rotation game currentPlayer row col [0, 90, 180, 270] with
    | some command => rfl
    | none => simp only [ih]

/-! ### A loop over one cycle of `next` -/

theorem cycle_scan_wrapped (test : Int × Int → Option Command) (next : Int × Int → Int × Int)
    (start : Int × Int) (n : Nat)
    (hcyc : ∀ k : Nat, 0 < k → k < n → next^[k] start ≠ start)
    (hn : next^[n] start = start)
    (fuel i : Nat) (hi : i < n) (hfuel : n - i ≤ fuel)
    (hnone : ∀ j : Nat, i ≤ j → j < n → test (next^[j] start) = none) :
    cycle_scan test next start fuel (next^[i] start) = .wrapped start.1 start.2 := by
  induction fuel generalizing i with
  | zero => omega
  | succ m ih =>
    rw [cycle_scan, hnone i le_rfl hi]
    simp only
    rw [← Function.iterate_succ_apply' next i start, Nat.succ_eq_add_one]
    by_cases hlast : i + 1 = n
    · rw [hlast, hn]
      simp
    · have hne := hcyc (i + 1) (by omega) (by omega)
      have hne' : (next^[i + 1] start).1 ≠ start.1 ∨ (next^[i + 1] start).2 ≠ start.2 := by
        by_contra hcon
        push_neg at hcon
        exact hne (Prod.ext hcon.1 hcon.2)
      rw [if_pos hne']
      exact ih (i + 1) (by omega) (by omega) (fun j h1 h2 => hnone j (by omega) h2)

theorem cycle_scan_found (test : Int × Int → Option Command) (next : Int × Int → Int × Int)
    (start : Int × Int) (n : Nat)
    (hcyc : ∀ k : Nat, 0 < k → k < n → next^[k] start ≠ start)
    (k : Nat) (hk : k < n) (command : Command) (hsome : test (next^[k] start) = some command)
    (fuel i : Nat) (hi : i ≤ k) (hfuel : k - i + 1 ≤ fuel)
    (hnone : ∀ j : Nat, i ≤ j → j < k → test (next^[j] start) = none) :
    cycle_scan test next start fuel (next^[i] start) = .found command := by
  induction fuel generalizing i with
  | zero => omega
  | succ m ih =>
    by_cases hik : i = k
    · rw [cycle_scan, hik, hsome]
    · rw [cycle_scan, hnone i le_rfl (by omega)]
      simp only
      rw [← Function.iterate_succ_apply' next i start, Nat.succ_eq_add_one]
      have hne := hcyc (i + 1) (by omega) (by omega)
      have hne' : (next^[i + 1] start).1 ≠ start.1 ∨ (next^[i + 1] start).2 ≠ start.2 := by
        by_contra hcon
        push_neg at hcon
        exact hne (Prod.ext hcon.1 hcon.2)
      rw [if_pos hne']
      exact ih (i + 1) (by omega) (by omega) (fun j h1 h2 => hnone j (by omega) h2)

theorem cycle_scan_found_valid (test : Int × Int → Option Command)
    (next : Int × Int → Int × Int) (start : Int × Int) (fuel : Nat) (p : Int × Int)
    (command : Command) (h : cycle_scan test next start fuel p = .found command) :
    ∃ q, test q = some command := by
  induction fuel generalizing p with
  | zero => simp [cycle_scan] at h
  | succ m ih =>
    rw [cycle_scan] at h
    cases ht : test p with
    | some c =>
      rw [ht] at h
      simp only [Scan.found.injEq] at h
      exact ⟨p, h ▸ ht⟩
    | none =>
      rw [ht] at h
      simp only at h
      split at h
      · exact ih _ h
      · simp at h

/-! ### The ascending step on the scan range -/

theorem emod_wrap (a n : Int) (h1 : n ≤ a) (h2 : a < 2 * n) : a % n = a - n := by
  have h : (a - n + n) % n = (a - n) % n := Int.add_emod_self
  rw [show a - n + n = a by omega] at h
  rw [h]
  exact Int.emod_eq_of_lt (by omega) (by omega)

theorem scan_index_bounds (height width : Int) (hW : 1 ≤ width) (p : Int × Int)
    (hp : in_scan_range height width p) :
    0 ≤ scan_index width p ∧ scan_index width p < (height + 4) * (width + 4) := by
  obtain ⟨⟨h1, h2⟩, h3, h4⟩ := hp
  unfold scan_index
  have ha : 0 ≤ (p.1 + 2) * (width + 4) := mul_nonneg (by omega) (by omega)
  have hb : (p.1 + 2 + 1) * (width + 4) ≤ (height + 4) * (width + 4) :=
    mul_le_mul_of_nonneg_right (by omega) (by omega)
  have hc : (p.1 + 2 + 1) * (width + 4) = (p.1 + 2) * (width + 4) + (width + 4) := by ring
  constructor
  · omega
  · omega

theorem scan_index_injective (height width : Int) (hW : 1 ≤ width) (p q : Int × Int)
    (hp : in_scan_range height width p) (hq : in_scan_range height width q)
    (h : scan_index width p = scan_index width q) : p = q := by
  obtain ⟨⟨p1, p2⟩, p3, p4⟩ := hp
  obtain ⟨⟨q1, q2⟩, q3, q4⟩ := hq
  unfold scan_index at h
  have hrow : p.1 = q.1 := by
    rcases lt_trichotomy p.1 q.1 with hlt | heq | hgt
    · exfalso
      have hb : (p.1 + 2 + 1) * (width + 4) ≤ (q.1 + 2) * (width + 4) :=
        mul_le_mul_of_nonneg_right (by omega) (by omega)
      have hc : (p.1 + 2 + 1) * (width + 4) = (p.1 + 2) * (width + 4) + (width + 4) := by ring
      omega
    · exact heq
    · exfalso
      have hb : (q.1 + 2 + 1) * (width + 4) ≤ (p.1 + 2) * (width + 4) :=
        mul_le_mul_of_nonneg_right (by omega) (by omega)
      have hc : (q.1 + 2 + 1) * (width + 4) = (q.1 + 2) * (width + 4) + (width + 4) := by ring
      omega
  have hcol : p.2 = q.2 := by
    rw [hrow] at h
    omega
  exact Prod.ext hrow hcol

/-- On the scan range the two ascending updates agree. -/
theorem step_one_eq_step_two (game : Game) (p : Int × Int)
    (hp : in_scan_range game.gameBoard.height game.gameBoard.width p) :
    step_one game p = step_two game true p := by
  obtain ⟨⟨h1, h2⟩, h3, h4⟩ := hp
  simp only [step_one, step_two, update_position_algorithm_one, update_position_algorithm_two,
    if_true]
  by_cases hc : p.2 + 1 > game.gameBoard.width - 1 + 2
  · by_cases hr : p.1 + 1 > game.gameBoard.height - 1 + 2
    · simp [hc, hr]
    · simp [hc, hr]
  · have hr : ¬ (p.1 > game.gameBoard.height - 1 + 2) := by omega
    simp [hc, hr]

/-- The ascending update keeps an anchor in the scan range and moves it to the
next row-major position, the last one going back to the first. -/
theorem step_two_ascending (game : Game) (hH : 1 ≤ game.gameBoard.height)
    (hW : 1 ≤ game.gameBoard.width) (p : Int × Int)
    (hp : in_scan_range game.gameBoard.height game.gameBoard.width p) :
    in_scan_range game.gameBoard.height game.gameBoard.width (step_two game true p) ∧
    scan_index game.gameBoard.width (step_two game true p) =
      (scan_index game.gameBoard.width p + 1) %
        ((game.gameBoard.height + 4) * (game.gameBoard.width + 4)) := by
  have hb := scan_index_bounds _ _ hW p hp
  obtain ⟨⟨h1, h2⟩, h3, h4⟩ := hp
  have hprod : (game.gameBoard.height + 4) * (game.gameBoard.width + 4) =
      (game.gameBoard.height + 3) * (game.gameBoard.width + 4) + (game.gameBoard.width + 4) := by
    ring
  simp only [step_two, update_position_algorithm_two, if_true]
  by_cases hc : p.2 + 1 > game.gameBoard.width - 1 + 2
  · by_cases hr : p.1 + 1 > game.gameBoard.height - 1 + 2
    · simp only [hc, hr, if_true]
      have hrow : p.1 = game.gameBoard.height + 1 := by omega
      have hcol : p.2 = game.gameBoard.width + 1 := by omega
      refine ⟨⟨⟨by simp, by simp; omega⟩, by simp, by simp; omega⟩, ?_⟩
      unfold scan_index at hb ⊢
      rw [hrow, hcol] at hb ⊢
      have e : game.gameBoard.height + 1 + 2 = game.gameBoard.height + 3 := by ring
      rw [e] at hb ⊢
      have e2 : (game.gameBoard.height + 3) * (game.gameBoard.width + 4) +
          (game.gameBoard.width + 1 + 2) + 1 =
          (game.gameBoard.height + 4) * (game.gameBoard.width + 4) := by rw [hprod]; ring
      rw [e2, Int.emod_self]
      simp
    · simp only [hc, hr, if_true, if_false]
      have hcol : p.2 = game.gameBoard.width + 1 := by omega
      refine ⟨⟨⟨by simp; omega, by simp; omega⟩, by simp, by simp; omega⟩, ?_⟩
      unfold scan_index at hb ⊢
      simp only
      have hc1 : (p.1 + 1 + 2) * (game.gameBoard.width + 4) =
          (p.1 + 2) * (game.gameBoard.width + 4) + (game.gameBoard.width + 4) := by ring
      have hc2 : (p.1 + 1 + 2) * (game.gameBoard.width + 4) ≤
          (game.gameBoard.height + 3) * (game.gameBoard.width + 4) :=
        mul_le_mul_of_nonneg_right (by omega) (by omega)
      rw [Int.emod_eq_of_lt (by omega) (by omega)]
      omega
  · have hr : ¬ (p.1 > game.gameBoard.height - 1 + 2) := by omega
    simp only [hc, hr, if_false]
    refine ⟨⟨⟨by simp; omega, by simp; omega⟩, by simp; omega, by simp; omega⟩, ?_⟩
    unfold scan_index at hb ⊢
    simp only
    have hc2 : (p.1 + 2 + 1) * (game.gameBoard.width + 4) ≤
        (game.gameBoard.height + 4) * (game.gameBoard.width + 4) :=
      mul_le_mul_of_nonneg_right (by omega) (by omega)
    have hc1 : (p.1 + 2 + 1) * (game.gameBoard.width + 4) =
        (p.1 + 2) * (game.gameBoard.width + 4) + (game.gameBoard.width + 4) := by ring
    rw [Int.emod_eq_of_lt (by omega) (by omega)]
    omega

/-! ### One cycle of the ascending step -/

theorem scan_size_pos (height width : Int) (hH : 1 ≤ height) (hW : 1 ≤ width) :
    0 < (height + 4) * (width + 4) :=
  mul_pos (by omega) (by omega)

theorem iterate_step_two (game : Game) (hH : 1 ≤ game.gameBoard.height)
    (hW : 1 ≤ game.gameBoard.width) (start : Int × Int)
    (hs : in_scan_range game.gameBoard.height game.gameBoard.width start) (k : Nat) :
    in_scan_range game.gameBoard.height game.gameBoard.width ((step_two game true)^[k] start) ∧
    scan_index game.gameBoard.width ((step_two game true)^[k] start) =
      (scan_index game.gameBoard.width start + (k : Int)) %
        ((game.gameBoard.height + 4) * (game.gameBoard.width + 4)) := by
  induction k with
  | zero =>
    have hb := scan_index_bounds _ _ hW start hs
    refine ⟨hs, ?_⟩
    simp only [Function.iterate_zero, id_eq, Nat.cast_zero, add_zero]
    exact (Int.emod_eq_of_lt hb.1 hb.2).symm
  | succ k ih =>
    rw [Function.iterate_succ_apply']
    have h := step_two_ascending game hH hW _ ih.1
    refine ⟨h.1, ?_⟩
    rw [h.2, ih.2, Int.emod_add_emod]
    push_cast
    rw [add_assoc]

theorem cyclic_rank_bounds (height width : Int) (hH : 1 ≤ height) (hW : 1 ≤ width)
    (start p : Int × Int) :
    0 ≤ cyclic_rank height width start p ∧
    cyclic_rank height width start p < (height + 4) * (width + 4) := by
  have hpos := scan_size_pos height width hH hW
  exact ⟨Int.emod_nonneg _ (by omega), Int.emod_lt_of_pos _ hpos⟩

theorem emod_add_sub_emod (a k n : Int) (ha0 : 0 ≤ a) (ha : a < n) (hk0 : 0 ≤ k)
    (hk : k < n) : ((a + k) % n - a) % n = k := by
  by_cases hlt : a + k < n
  · have e1 : (a + k) % n = a + k := Int.emod_eq_of_lt (by omega) hlt
    rw [e1, show a + k - a = k by omega]
    exact Int.emod_eq_of_lt hk0 hk
  · have e1 : (a + k) % n = a + k - n := emod_wrap (a + k) n (by omega) (by omega)
    have e2 : (k - n + n) % n = (k - n) % n := Int.add_emod_self
    rw [e1, show a + k - n - a = k - n by omega, ← e2, sub_add_cancel]
    exact Int.emod_eq_of_lt hk0 hk

theorem cyclic_rank_iterate (game : Game) (hH : 1 ≤ game.gameBoard.height)
    (hW : 1 ≤ game.gameBoard.width) (start : Int × Int)
    (hs : in_scan_range game.gameBoard.height game.gameBoard.width start) (k : Nat)
    (hk : (k : Int) < (game.gameBoard.height + 4) * (game.gameBoard.width + 4)) :
    cyclic_rank game.gameBoard.height game.gameBoard.width start
      ((step_two game true)^[k] start) = (k : Int) := by
  have hb := scan_index_bounds _ _ hW start hs
  unfold cyclic_rank
  rw [(iterate_step_two game hH hW start hs k).2]
  exact emod_add_sub_emod _ _ _ hb.1 hb.2 (by omega) hk

theorem iterate_cyclic_rank (game : Game) (hH : 1 ≤ game.gameBoard.height)
    (hW : 1 ≤ game.gameBoard.width) (start p : Int × Int)
    (hs : in_scan_range game.gameBoard.height game.gameBoard.width start)
    (hp : in_scan_range game.gameBoard.height game.gameBoard.width p) :
    (step_two game true)^[(cyclic_rank game.gameBoard.height game.gameBoard.width
      start p).toNat] start = p := by
  have hr := cyclic_rank_bounds _ _ hH hW start p
  have hb := scan_index_bounds _ _ hW p hp
  have hit := iterate_step_two game hH hW start hs
    (cyclic_rank game.gameBoard.height game.gameBoard.width start p).toNat
  apply scan_index_injective _ _ hW _ _ hit.1 hp
  rw [hit.2, Int.toNat_of_nonneg hr.1]
  unfold cyclic_rank
  rw [Int.add_emod_emod, add_sub_cancel]
  exact Int.emod_eq_of_lt hb.1 hb.2

theorem iterate_ne_start (game : Game) (hH : 1 ≤ game.gameBoard.height)
    (hW : 1 ≤ game.gameBoard.width) (start : Int × Int)
    (hs : in_scan_range game.gameBoard.height game.gameBoard.width start) (k : Nat)
    (hk0 : 0 < k)
    (hk : k < ((game.gameBoard.height + 4) * (game.gameBoard.width + 4)).toNat) :
    (step_two game true)^[k] start ≠ start := by
  intro h
  have hpos := scan_size_pos _ _ hH hW
  have hr := cyclic_rank_iterate game hH hW start hs k (by omega)
  have h0 := cyclic_rank_iterate game hH hW start hs 0 (by simpa using hpos)
  rw [h] at hr
  simp only [Function.iterate_zero, id_eq] at h0
  rw [h0] at hr
  omega

theorem iterate_size (game : Game) (hH : 1 ≤ game.gameBoard.height)
    (hW : 1 ≤ game.gameBoard.width) (start : Int × Int)
    (hs : in_scan_range game.gameBoard.height game.gameBoard.width start) :
    (step_two game true)^[((game.gameBoard.height + 4) *
      (game.gameBoard.width + 4)).toNat] start = start := by
  have hpos := scan_size_pos _ _ hH hW
  have hb := scan_index_bounds _ _ hW start hs
  have hit := iterate_step_two game hH hW start hs
    ((game.gameBoard.height + 4) * (game.gameBoard.width + 4)).toNat
  apply scan_index_injective _ _ hW _ _ hit.1 hs
  rw [hit.2, Int.toNat_of_nonneg (by omega), Int.add_emod_self]
  exact Int.emod_eq_of_lt hb.1 hb.2

/-- The iterates of `step_one` from an anchor of the scan range are those of the
ascending `step_two`. -/
theorem iterate_step_one (game : Game) (hH : 1 ≤ game.gameBoard.height)
    (hW : 1 ≤ game.gameBoard.width) (start : Int × Int)
    (hs : in_scan_range game.gameBoard.height game.gameBoard.width start) (k : Nat) :
    (step_one game)^[k] start = (step_two game true)^[k] start := by
  induction k with
  | zero => rfl
  | succ k ih =>
    rw [Function.iterate_succ_apply', Function.iterate_succ_apply', ih]
    exact step_one_eq_step_two game _ (iterate_step_two game hH hW start hs k).1

/-! ### The position loops over the scan range -/

theorem scan_range_wrapped (game : Game) (hH : 1 ≤ game.gameBoard.height)
    (hW : 1 ≤ game.gameBoard.width) (start : Int × Int)
    (hs : in_scan_range game.gameBoard.height game.gameBoard.width start)
    (next : Int × Int → Int × Int)
    (hnext : ∀ k : Nat, next^[k] start = (step_two game true)^[k] start)
    (test : Int × Int → Option Command) (fuel : Nat)
    (hfuel : (game.gameBoard.height + 4) * (game.gameBoard.width + 4) ≤ (fuel : Int))
    (hnone : ∀ p, in_scan_range game.gameBoard.height game.gameBoard.width p → test p = none) :
    cycle_scan test next start fuel start = .wrapped start.1 start.2 := by
  have hpos := scan_size_pos _ _ hH hW
  have h := cycle_scan_wrapped test next start
    ((game.gameBoard.height + 4) * (game.gameBoard.width + 4)).toNat
    (fun k h0 h1 => by rw [hnext]; exact iterate_ne_start game hH hW start hs k h0 h1)
    (by rw [hnext]; exact iterate_size game hH hW start hs)
    fuel 0 (by omega) (by omega)
    (fun j _ _ => by
      rw [hnext]
      exact hnone _ (iterate_step_two game hH hW start hs j).1)
  exact h

theorem scan_range_found (game : Game) (hH : 1 ≤ game.gameBoard.height)
    (hW : 1 ≤ game.gameBoard.width) (start : Int × Int)
    (hs : in_scan_range game.gameBoard.height game.gameBoard.width start)
    (next : Int × Int → Int × Int)
    (hnext : ∀ k : Nat, next^[k] start = (step_two game true)^[k] start)
    (test : Int × Int → Option Command) (fuel : Nat)
    (hfuel : (game.gameBoard.height + 4) * (game.gameBoard.width + 4) ≤ (fuel : Int))
    (a : Int × Int) (ha : in_scan_range game.gameBoard.height game.gameBoard.width a)
    (command : Command) (hsome : test a = some command)
    (hnone : ∀ p, in_scan_range game.gameBoard.height game.gameBoard.width p →
      cyclic_rank game.gameBoard.height game.gameBoard.width start p <
        cyclic_rank game.gameBoard.height game.gameBoard.width start a → test p = none) :
    cycle_scan test next start fuel start = .found command := by
  have hr := cyclic_rank_bounds _ _ hH hW start a
  have hk := iterate_cyclic_rank game hH hW start a hs ha
  have h := cycle_scan_found test next start
    ((game.gameBoard.height + 4) * (game.gameBoard.width + 4)).toNat
    (fun k h0 h1 => by rw [hnext]; exact iterate_ne_start game hH hW start hs k h0 h1)
    (cyclic_rank game.gameBoard.height game.gameBoard.width start a).toNat (by omega)
    command (by rw [hnext, hk]; exact hsome)
    fuel 0 (by omega) (by omega)
    (fun j _ hj => by
      rw [hnext]
      apply hnone _ (iterate_step_two game hH hW start hs j).1
      rw [cyclic_rank_iterate game hH hW start hs j (by omega)]
      omega)
  exact h

/-- Over the scan range a position loop with enough fuel either finds the
result of the test at some anchor of the range, or no anchor of the range
passes the test and the loop ends back at its start. -/
theorem scan_range_total (game : Game) (hH : 1 ≤ game.gameBoard.height)
    (hW : 1 ≤ game.gameBoard.width) (start : Int × Int)
    (hs : in_scan_range game.gameBoard.height game.gameBoard.width start)
    (next : Int × Int → Int × Int)
    (hnext : ∀ k : Nat, next^[k] start = (step_two game true)^[k] start)
    (test : Int × Int → Option Command) (fuel : Nat)
    (hfuel : (game.gameBoard.height + 4) * (game.gameBoard.width + 4) ≤ (fuel : Int)) :
    (cycle_scan test next start fuel start = .wrapped start.1 start.2 ∧
      ∀ p, in_scan_range game.gameBoard.height game.gameBoard.width p → test p = none) ∨
    (∃ a command, in_scan_range game.gameBoard.height game.gameBoard.width a ∧
      test a = some command ∧ cycle_scan test next start fuel start = .found command) := by
  by_cases hex : ∃ p, in_scan_range game.gameBoard.height game.gameBoard.width p ∧
      (test p).isSome = true
  · right
    have hpos := scan_size_pos _ _ hH hW
    have hex' : ∃ k : Nat, (test ((step_two game true)^[k] start)).isSome = true := by
      obtain ⟨p, hp, hsome⟩ := hex
      exact ⟨_, by rw [iterate_cyclic_rank game hH hW start p hs hp]; exact hsome⟩
    have hmin := fun m => @Nat.find_min _ _ hex' m
    have hspec := Nat.find_spec hex'
    have hle : Nat.find hex' <
        ((game.gameBoard.height + 4) * (game.gameBoard.width + 4)).toNat := by
      obtain ⟨p, hp, hsome⟩ := hex
      have hr := cyclic_rank_bounds _ _ hH hW start p
      have : Nat.find hex' ≤
          (cyclic_rank game.gameBoard.height game.gameBoard.width start p).toNat :=
        Nat.find_min' hex' (by rw [iterate_cyclic_rank game hH hW start p hs hp]; exact hsome)
      omega
    obtain ⟨command, hcmd⟩ := Option.isSome_iff_exists.mp hspec
    refine ⟨_, command, (iterate_step_two game hH hW start hs (Nat.find hex')).1, hcmd, ?_⟩
    have h := cycle_scan_found test next start
      ((game.gameBoard.height + 4) * (game.gameBoard.width + 4)).toNat
      (fun k h0 h1 => by rw [hnext]; exact iterate_ne_start game hH hW start hs k h0 h1)
      (Nat.find hex') hle command (by rw [hnext]; exact hcmd)
      fuel 0 (by omega) (by omega)
      (fun j _ hj => by
        rw [hnext]
        have := hmin j hj
        simpa using this)
    exact h
  · left
    have hnone : ∀ p, in_scan_range game.gameBoard.height game.gameBoard.width p →
        test p = none := by
      intro p hp
      by_contra hne
      exact hex ⟨p, hp, Option.isSome_iff_ne_none.mpr hne⟩
    exact ⟨scan_range_wrapped game hH hW start hs next hnext test fuel hfuel hnone, hnone⟩

theorem ascending_start_range (height width : Int) (hH : 1 ≤ height) (hW : 1 ≤ width)
    (recentMove : Int × Int)
    (h : recentMove = (INT_MIN, INT_MIN) ∨ in_scan_range height width recentMove) :
    in_scan_range height width (ascending_start recentMove) := by
  unfold ascending_start
  split
  · exact ⟨⟨by simp, by simp; omega⟩, by simp, by simp; omega⟩
  · rcases h with h | h
    · rename_i hne
      rw [h] at hne
      simp at hne
    · exact h

theorem first_rotation_none (game : Game) (currentPlayer : PlayerRef) (row col : Int)
    (l : List Int) :
    first_rotation game currentPlayer row col l = none ↔
      ∀ theta ∈ l, valid_move (row, col, theta) currentPlayer game.gameBoard game.tiles = false := by
  induction l with
  | nil => simp [first_rotation]
  | cons t l ih =>
    unfold first_rotation
    by_cases hv : valid_move (row, col, t) currentPlayer game.gameBoard game.tiles = true
    · simp [hv]
    · simp [hv, ih]

theorem first_rotation_some (game : Game) (currentPlayer : PlayerRef) (row col : Int)
    (l : List Int) (command : Command)
    (h : first_rotation game currentPlayer row col l = some command) :
    valid_move command currentPlayer game.gameBoard game.tiles = true := by
  induction l with
  | nil => simp [first_rotation] at h
  | cons t l ih =>
    unfold first_rotation at h
    by_cases hv : valid_move (row, col, t) currentPlayer game.gameBoard game.tiles = true
    · simp only [hv, if_true, Option.some.injEq] at h
      rw [← h]
      exact hv
    · simp only [hv] at h
      exact ih h

/-- The characterisation of `check_possible_move` on a board with sides at
least 1 for a player whose last move is unset or in the scan range. -/
theorem check_possible_move_range (fuel : Nat) (game : Game) (currentPlayer : PlayerRef)
    (hH : 1 ≤ game.gameBoard.height) (hW : 1 ≤ game.gameBoard.width)
    (hmove : (game.player currentPlayer).recentMove = (INT_MIN, INT_MIN) ∨
      in_scan_range game.gameBoard.height game.gameBoard.width
        (game.player currentPlayer).recentMove)
    (hfuel : (game.gameBoard.height + 4) * (game.gameBoard.width + 4) ≤ (fuel : Int)) :
    ∃ b, check_possible_move fuel game currentPlayer = some b ∧
      (b = false ↔
        ∀ row col : Int, -2 ≤ row → row ≤ game.gameBoard.height + 1 →
          -2 ≤ col → col ≤ game.gameBoard.width + 1 →
          ∀ theta ∈ [(0 : Int), 90, 180, 270],
            valid_move (row, col, theta) currentPlayer game.gameBoard game.tiles = false) := by
  have hs := ascending_start_range _ _ hH hW _ hmove
  have hcheck : check_possible_move fuel game currentPlayer =
      match cycle_scan (fun p => first_rotation game currentPlayer p.1 p.2 [0, 90, 180, 270])
        (step_two game true) (ascending_start (game.player currentPlayer).recentMove) fuel
        (ascending_start (game.player currentPlayer).recentMove) with
      | .found _ => some true
      | .wrapped _ _ => some false
      | .timeout => none := by
    simp only [check_possible_move, algorithm_two_scan_eq]
    rfl
  rw [hcheck]
  rcases scan_range_total game hH hW _ hs (step_two game true) (fun _ => rfl)
    (fun p => first_rotation game currentPlayer p.1 p.2 [0, 90, 180, 270]) fuel hfuel with
    ⟨hw, hnone⟩ | ⟨a, command, ha, hsome, hf⟩
  · rw [hw]
    refine ⟨false, rfl, ?_⟩
    simp only [true_iff]
    intro row col h1 h2 h3 h4
    exact (first_rotation_none game currentPlayer row col _).mp
      (hnone (row, col) ⟨⟨h1, h2⟩, h3, h4⟩)
  · rw [hf]
    refine ⟨true, rfl, ?_⟩
    simp only [Bool.true_eq_false, false_iff]
    intro hall
    have hn := (first_rotation_none game currentPlayer a.1 a.2 _).mpr
      (hall a.1 a.2 ha.1.1 ha.1.2 ha.2.1 ha.2.2)
    rw [hn] at hsome
    exact absurd hsome (by simp)

/-! ### `algorithm_one` -/

theorem algorithm_one_eq (fuel : Nat) (game : Game) (totalPlayers : Int → PlayerRef) :
    algorithm_one fuel game totalPlayers =
      algorithm_one_rotations fuel game (totalPlayers game.turn)
        (ascending_start game.recentMove) [0, 90, 180, 270]
        (ascending_start game.recentMove).1 (ascending_start game.recentMove).2 := rfl

theorem algorithm_one_rotations_skip (fuel : Nat) (game : Game) (currentPlayer : PlayerRef)
    (hH : 1 ≤ game.gameBoard.height) (hW : 1 ≤ game.gameBoard.width) (start : Int × Int)
    (hs : in_scan_range game.gameBoard.height game.gameBoard.width start)
    (hfuel : (game.gameBoard.height + 4) * (game.gameBoard.width + 4) ≤ (fuel : Int))
    (theta : Int) (rest : List Int)
    (hnone : ∀ row col : Int, in_scan_range game.gameBoard.height game.gameBoard.width (row, col) →
      valid_move (row, col, theta) currentPlayer game.gameBoard game.tiles = false) :
    algorithm_one_rotations fuel game currentPlayer start (theta :: rest) start.1 start.2 =
      algorithm_one_rotations fuel game currentPlayer start rest start.1 start.2 := by
  have h := scan_range_wrapped game hH hW start hs (step_one game)
    (iterate_step_one game hH hW start hs) (test_one game currentPlayer theta) fuel hfuel
    (fun p hp => by simp [test_one, hnone p.1 p.2 hp])
  rw [algorithm_one_rotations, algorithm_one_scan_eq, h]

theorem algorithm_one_rotations_found (fuel : Nat) (game : Game) (currentPlayer : PlayerRef)
    (hH : 1 ≤ game.gameBoard.height) (hW : 1 ≤ game.gameBoard.width) (start : Int × Int)
    (hs : in_scan_range game.gameBoard.height game.gameBoard.width start)
    (hfuel : (game.gameBoard.height + 4) * (game.gameBoard.width + 4) ≤ (fuel : Int))
    (theta : Int) (rest : List Int) (row col : Int)
    (ha : in_scan_range game.gameBoard.height game.gameBoard.width (row, col))
    (hvalid : valid_move (row, col, theta) currentPlayer game.gameBoard game.tiles = true)
    (hfirst : ∀ r c : Int, in_scan_range game.gameBoard.height game.gameBoard.width (r, c) →
      cyclic_rank game.gameBoard.height game.gameBoard.width start (r, c) <
        cyclic_rank game.gameBoard.height game.gameBoard.width start (row, col) →
      valid_move (r, c, theta) currentPlayer game.gameBoard game.tiles = false) :
    algorithm_one_rotations fuel game currentPlayer start (theta :: rest) start.1 start.2 =
      some (change_tiles (change_turn
        (place_move (row, col, theta) currentPlayer game game.tiles))) := by
  have h := scan_range_found game hH hW start hs (step_one game)
    (iterate_step_one game hH hW start hs) (test_one game currentPlayer theta) fuel hfuel
    (row, col) ha (row, col, theta) (by simp [test_one, hvalid])
    (fun p hp hr => by simp [test_one, hfirst p.1 p.2 hp hr])
  rw [algorithm_one_rotations, algorithm_one_scan_eq, h]

/-- The move `algorithm_one` makes: the first legal combination in
rotation-major order, anchors taken in cyclic row-major order from the start. -/
theorem algorithm_one_commits (fuel : Nat) (game : Game) (totalPlayers : Int → PlayerRef)
    (row col theta : Int)
    (hH : 1 ≤ game.gameBoard.height) (hW : 1 ≤ game.gameBoard.width)
    (hfuel : (game.gameBoard.height + 4) * (game.gameBoard.width + 4) ≤ (fuel : Int))
    (hmove : game.recentMove = (INT_MIN, INT_MIN) ∨
      in_scan_range game.gameBoard.height game.gameBoard.width game.recentMove)
    (htheta : theta ∈ [(0 : Int), 90, 180, 270])
    (ha : in_scan_range game.gameBoard.height game.gameBoard.width (row, col))
    (hvalid : valid_move (row, col, theta) (totalPlayers game.turn) game.gameBoard
      game.tiles = true)
    (hfirst : ∀ r c : Int, in_scan_range game.gameBoard.height game.gameBoard.width (r, c) →
      cyclic_rank game.gameBoard.height game.gameBoard.width
          (ascending_start game.recentMove) (r, c) <
        cyclic_rank game.gameBoard.height game.gameBoard.width
          (ascending_start game.recentMove) (row, col) →
      valid_move (r, c, theta) (totalPlayers game.turn) game.gameBoard game.tiles = false)
    (hrot : ∀ t ∈ [(0 : Int), 90, 180, 270], t < theta → ∀ r c : Int,
      in_scan_range game.gameBoard.height game.gameBoard.width (r, c) →
      valid_move (r, c, t) (totalPlayers game.turn) game.gameBoard game.tiles = false) :
    algorithm_one fuel game totalPlayers =
      some (change_tiles (change_turn
        (place_move (row, col, theta) (totalPlayers game.turn) game game.tiles))) := by
  have hs := ascending_start_range _ _ hH hW _ hmove
  have skip := algorithm_one_rotations_skip fuel game (totalPlayers game.turn) hH hW _ hs hfuel
  have found := fun t rest => algorithm_one_rotations_found fuel game (totalPlayers game.turn)
    hH hW _ hs hfuel t rest row col ha
  rw [algorithm_one_eq]
  simp only [List.mem_cons, List.mem_singleton, List.not_mem_nil, or_false] at htheta
  rcases htheta with rfl | rfl | rfl | rfl
  · exact found _ _ hvalid hfirst
  · rw [skip 0 _ (hrot 0 (by simp) (by omega))]
    exact found _ _ hvalid hfirst
  · rw [skip 0 _ (hrot 0 (by simp) (by omega)), skip 90 _ (hrot 90 (by simp) (by omega))]
    exact found _ _ hvalid hfirst
  · rw [skip 0 _ (hrot 0 (by simp) (by omega)), skip 90 _ (hrot 90 (by simp) (by omega)),
      skip 180 _ (hrot 180 (by simp) (by omega))]
    exact found _ _ hvalid hfirst

/-! ### Occupied cells under a legal placement -/

theorem place_move_keeps (command : Command) (playing : PlayerRef) (game : Game)
    (tiles : Tiles) (hvalid : valid_move command playing game.gameBoard tiles = true)
    (y x : Int) (q : PlayerRef) (h : game.gameBoard.grid y x = some q) :
    (place_move command playing game tiles).gameBoard.grid y x = some q := by
  obtain ⟨row, col, theta⟩ := command
  rw [place_move_grid, if_neg]
  · exact h
  · rintro ⟨hy, hx, hf⟩
    have hv := (valid_move_eq_true row col theta playing game.gameBoard tiles).mp hvalid
      (y - row + 2) (x - col + 2) (by omega) (by omega) (by omega) (by omega) hf
    have e1 : row + (y - row + 2) - 2 = y := by omega
    have e2 : col + (x - col + 2) - 2 = x := by omega
    rw [e1, e2, h] at hv
    exact absurd hv.2 (by simp)

theorem change_board (game : Game) :
    (change_tiles (change_turn game)).gameBoard = game.gameBoard := rfl

theorem test_one_some (game : Game) (currentPlayer : PlayerRef) (theta : Int) (p : Int × Int)
    (command : Command) (h : test_one game currentPlayer theta p = some command) :
    valid_move command currentPlayer game.gameBoard game.tiles = true := by
  unfold test_one at h
  split at h
  · rename_i hv
    simp only [Option.some.injEq] at h
    rw [← h]
    exact hv
  · simp at h

/-- A result of `algorithm_one` is the game itself or the commit of a command
`valid_move` accepts. -/
theorem algorithm_one_rotations_result (fuel : Nat) (game : Game) (currentPlayer : PlayerRef)
    (recentMove : Int × Int) (l : List Int) (row col : Int) (g : Game)
    (h : algorithm_one_rotations fuel game currentPlayer recentMove l row col = some g) :
    g = game ∨ ∃ command, valid_move command currentPlayer game.gameBoard game.tiles = true ∧
      g = change_tiles (change_turn (place_move command currentPlayer game game.tiles)) := by
  induction l generalizing row col with
  | nil =>
    simp only [algorithm_one_rotations, Option.some.injEq] at h
    exact Or.inl h.symm
  | cons theta rest ih =>
    rw [algorithm_one_rotations] at h
    cases hscan : algorithm_one_scan game currentPlayer recentMove theta fuel row col with
    | found command =>
      rw [hscan] at h
      simp only [Option.some.injEq] at h
      rw [algorithm_one_scan_eq] at hscan
      obtain ⟨q, hq⟩ := cycle_scan_found_valid _ _ _ _ _ _ hscan
      exact Or.inr ⟨command, test_one_some _ _ _ _ _ hq, h.symm⟩
    | wrapped r c =>
      rw [hscan] at h
      exact ih r c h
    | timeout =>
      rw [hscan] at h
      simp at h

theorem algorithm_two_result (fuel : Nat) (game : Game) (currentPlayer : PlayerRef) (g : Game)
    (h : algorithm_two fuel game currentPlayer = some g) :
    g = game ∨ ∃ command, valid_move command currentPlayer game.gameBoard game.tiles = true ∧
      g = change_tiles (change_turn (place_move command currentPlayer game game.tiles)) := by
  unfold algorithm_two at h
  simp only at h
  split at h
  · rename_i command hscan
    simp only [Option.some.injEq] at h
    rw [algorithm_two_scan_eq] at hscan
    obtain ⟨q, hq⟩ := cycle_scan_found_valid _ _ _ _ _ _ hscan
    exact Or.inr ⟨command, first_rotation_some _ _ _ _ _ _ hq, h.symm⟩
  · simp only [Option.some.injEq] at h
    exact Or.inl h.symm
  · simp at h

/-! ### The centre-only tile -/

theorem tdiv_zero : (0 : Int).tdiv 90 = 0 := by decide

theorem centre_valid (game : Game) (playing : PlayerRef) (hcur : game.tiles.current = 0)
    (hmask : ∀ r c : Int, 0 ≤ r → r < 5 → 0 ≤ c → c < 5 →
      (game.tiles.grid 0 0 r c ≠ 0 ↔ r = 2 ∧ c = 2))
    (row col : Int) :
    valid_move (row, col, 0) playing game.gameBoard game.tiles = true ↔
      (0 ≤ row ∧ row < game.gameBoard.height ∧ 0 ≤ col ∧ col < game.gameBoard.width) ∧
        game.gameBoard.grid row col = none := by
  rw [valid_move_eq_true, tdiv_zero, hcur]
  constructor
  · intro h
    have h2 := h 2 2 (by omega) (by omega) (by omega) (by omega)
      ((hmask 2 2 (by omega) (by omega) (by omega) (by omega)).mpr ⟨rfl, rfl⟩)
    have e1 : row + 2 - 2 = row := by omega
    have e2 : col + 2 - 2 = col := by omega
    rw [e1, e2] at h2
    exact h2
  · intro h dr dc h1 h2 h3 h4 hf
    obtain ⟨rfl, rfl⟩ := (hmask dr dc h1 h2 h3 h4).mp hf
    have e1 : row + 2 - 2 = row := by omega
    have e2 : col + 2 - 2 = col := by omega
    rw [e1, e2]
    exact h

theorem cyclic_rank_origin (height width : Int) (hW : 1 ≤ width) (p : Int × Int)
    (hp : in_scan_range height width p) :
    cyclic_rank height width (-2, -2) p = scan_index width p := by
  have hb := scan_index_bounds height width hW p hp
  unfold cyclic_rank
  have e : scan_index width (-2, -2) = 0 := by simp [scan_index]
  rw [e, sub_zero]
  exact Int.emod_eq_of_lt hb.1 hb.2

/-- With the centre-only tile no anchor before `(0, 0)` in the row-major order
from `(-2, -2)` is legal. -/
theorem centre_before_origin (game : Game) (playing : PlayerRef)
    (hH : 1 ≤ game.gameBoard.height) (hW : 1 ≤ game.gameBoard.width)
    (hcur : game.tiles.current = 0)
    (hmask : ∀ r c : Int, 0 ≤ r → r < 5 → 0 ≤ c → c < 5 →
      (game.tiles.grid 0 0 r c ≠ 0 ↔ r = 2 ∧ c = 2))
    (r c : Int) (hp : in_scan_range game.gameBoard.height game.gameBoard.width (r, c))
    (hrank : cyclic_rank game.gameBoard.height game.gameBoard.width (-2, -2) (r, c) <
      cyclic_rank game.gameBoard.height game.gameBoard.width (-2, -2) (0, 0)) :
    valid_move (r, c, 0) playing game.gameBoard game.tiles = false := by
  have h0 : in_scan_range game.gameBoard.height game.gameBoard.width (0, 0) :=
    ⟨⟨by simp, by simp; omega⟩, by simp, by simp; omega⟩
  rw [cyclic_rank_origin _ _ hW _ hp, cyclic_rank_origin _ _ hW _ h0] at hrank
  rw [← Bool.not_eq_true, centre_valid game playing hcur hmask]
  rintro ⟨⟨h1, h2, h3, h4⟩, _⟩
  unfold scan_index at hrank
  simp only at hrank
  have hb : (0 + 2) * (game.gameBoard.width + 4) ≤ (r + 2) * (game.gameBoard.width + 4) :=
    mul_le_mul_of_nonneg_right (by omega) (by omega)
  omega

/-- The first move of `algorithm_one` with the centre-only tile on an empty
board. -/
theorem algorithm_one_centre (fuel : Nat) (game : Game) (totalPlayers : Int → PlayerRef)
    (hH : 1 ≤ game.gameBoard.height) (hW : 1 ≤ game.gameBoard.width)
    (hfuel : (game.gameBoard.height + 4) * (game.gameBoard.width + 4) ≤ (fuel : Int))
    (hempty : ∀ y x : Int, 0 ≤ y → y < game.gameBoard.height → 0 ≤ x →
      x < game.gameBoard.width → game.gameBoard.grid y x = none)
    (hcur : game.tiles.current = 0)
    (hmask : ∀ r c : Int, 0 ≤ r → r < 5 → 0 ≤ c → c < 5 →
      (game.tiles.grid 0 0 r c ≠ 0 ↔ r = 2 ∧ c = 2))
    (hunset : game.recentMove = (INT_MIN, INT_MIN)) :
    algorithm_one fuel game totalPlayers =
      some (change_tiles (change_turn
        (place_move (0, 0, 0) (totalPlayers game.turn) game game.tiles))) := by
  have hstart : ascending_start game.recentMove = (-2, -2) := by
    rw [hunset]
    rfl
  apply algorithm_one_commits fuel game totalPlayers 0 0 0 hH hW hfuel (Or.inl hunset)
    (by simp) ⟨⟨by simp, by simp; omega⟩, by simp, by simp; omega⟩
  · exact (centre_valid game _ hcur hmask 0 0).mpr
      ⟨⟨le_refl _, by omega, le_refl _, by omega⟩,
        hempty 0 0 (le_refl _) (by omega) (le_refl _) (by omega)⟩
  · rw [hstart]
    exact centre_before_origin game _ hH hW hcur hmask
  · intro t ht hlt
    simp only [List.mem_cons, List.mem_singleton, List.not_mem_nil, or_false] at ht
    omega

theorem place_move_tiles (command : Command) (playing : PlayerRef) (game : Game)
    (tiles : Tiles) : (place_move command playing game tiles).tiles = game.tiles := by
  cases playing <;> rfl

theorem centre_mask_filled (r c : Int) : centre_mask r c ≠ 0 ↔ r = 2 ∧ c = 2 := by
  unfold centre_mask
  by_cases h : r = 2 ∧ c = 2
  · simp [h]
  · simp [h]

theorem place_move_recent (row col theta : Int) (playing : PlayerRef) (game : Game)
    (tiles : Tiles) : (place_move (row, col, theta) playing game tiles).recentMove = (row, col) := by
  cases playing <;> rfl

/-! ### The descending step on the scan range -/

theorem emod_sub_one (a n : Int) (ha0 : 0 ≤ a) (ha : a < n) :
    (a - 1) % n = if a = 0 then n - 1 else a - 1 := by
  by_cases h : a = 0
  · rw [if_pos h, h]
    have e : (0 - 1 + n) % n = (0 - 1) % n := Int.add_emod_self
    have e2 : (0 - 1 + n) % n = 0 - 1 + n := Int.emod_eq_of_lt (by omega) (by omega)
    omega
  · rw [if_neg h]
    exact Int.emod_eq_of_lt (by omega) (by omega)

theorem scan_index_injective_cols (width : Int) (hW : 1 ≤ width) (p q : Int × Int)
    (hp : -2 ≤ p.2 ∧ p.2 ≤ width + 1) (hq : -2 ≤ q.2 ∧ q.2 ≤ width + 1)
    (h : scan_index width p = scan_index width q) : p = q := by
  unfold scan_index at h
  have hrow : p.1 = q.1 := by
    rcases lt_trichotomy p.1 q.1 with hlt | heq | hgt
    · exfalso
      have hb : (p.1 + 2 + 1) * (width + 4) ≤ (q.1 + 2) * (width + 4) :=
        mul_le_mul_of_nonneg_right (by omega) (by omega)
      have hc : (p.1 + 2 + 1) * (width + 4) = (p.1 + 2) * (width + 4) + (width + 4) := by ring
      omega
    · exact heq
    · exfalso
      have hb : (q.1 + 2 + 1) * (width + 4) ≤ (p.1 + 2) * (width + 4) :=
        mul_le_mul_of_nonneg_right (by omega) (by omega)
      have hc : (q.1 + 2 + 1) * (width + 4) = (q.1 + 2) * (width + 4) + (width + 4) := by ring
      omega
  have hcol : p.2 = q.2 := by
    rw [hrow] at h
    omega
  exact Prod.ext hrow hcol

/-- The descending update on an anchor with row at least -2 and column in the
scan range, other than `(-2, -2)`: the row-major position goes down by one. -/
theorem step_two_descending_dec (game : Game) (hW : 1 ≤ game.gameBoard.width) (p : Int × Int)
    (hrow : -2 ≤ p.1) (hcol : -2 ≤ p.2 ∧ p.2 ≤ game.gameBoard.width + 1)
    (hpos : 0 < scan_index game.gameBoard.width p) :
    (-2 ≤ (step_two game false p).1 ∧ (step_two game false p).1 ≤ p.1) ∧
    (-2 ≤ (step_two game false p).2 ∧ (step_two game false p).2 ≤ game.gameBoard.width + 1) ∧
    scan_index game.gameBoard.width (step_two game false p) =
      scan_index game.gameBoard.width p - 1 := by
  unfold scan_index at hpos ⊢
  simp only [step_two, update_position_algorithm_two, Bool.false_eq_true, if_false]
  by_cases hc : p.2 - 1 < -2
  · have hc2 : p.2 = -2 := by omega
    have hr : ¬ (p.1 - 1 < -2) := by
      intro hlt
      have : p.1 = -2 := by omega
      rw [this, hc2] at hpos
      simp at hpos
    simp only [hc, hr, if_true, if_false]
    refine ⟨⟨by omega, by omega⟩, ⟨by omega, by omega⟩, ?_⟩
    have e : (p.1 - 1 + 2 + 1) * (game.gameBoard.width + 4) =
        (p.1 - 1 + 2) * (game.gameBoard.width + 4) + (game.gameBoard.width + 4) := by ring
    have e2 : p.1 - 1 + 2 + 1 = p.1 + 2 := by ring
    rw [e2] at e
    omega
  · have hr : ¬ (p.1 < -2) := by omega
    simp only [hc, hr, if_false]
    refine ⟨⟨by omega, by omega⟩, ⟨by omega, by omega⟩, ?_⟩
    omega

theorem step_two_descending_origin (game : Game) :
    step_two game false (-2, -2) = (game.gameBoard.height + 1, game.gameBoard.width + 1) := by
  simp only [step_two, update_position_algorithm_two, Bool.false_eq_true, if_false]
  have h1 : (-2 : Int) - 1 < -2 := by omega
  simp only [h1, if_true]
  exact Prod.ext (by dsimp only; omega) (by dsimp only; omega)

theorem scan_index_zero (width : Int) (hW : 1 ≤ width) (p : Int × Int)
    (hcol : -2 ≤ p.2 ∧ p.2 ≤ width + 1) (h : scan_index width p = 0) : p = (-2, -2) := by
  apply scan_index_injective_cols width hW p (-2, -2) hcol ⟨by simp, by simp; omega⟩
  rw [h]
  simp [scan_index]

theorem scan_index_corner (height width : Int) :
    scan_index width (height + 1, width + 1) = (height + 4) * (width + 4) - 1 := by
  simp only [scan_index]
  ring

/-- The descending update keeps an anchor in the scan range and moves it to the
previous row-major position, the first one going to the last. -/
theorem step_two_descending (game : Game) (hH : 1 ≤ game.gameBoard.height)
    (hW : 1 ≤ game.gameBoard.width) (p : Int × Int)
    (hp : in_scan_range game.gameBoard.height game.gameBoard.width p) :
    in_scan_range game.gameBoard.height game.gameBoard.width (step_two game false p) ∧
    scan_index game.gameBoard.width (step_two game false p) =
      (scan_index game.gameBoard.width p - 1) %
        ((game.gameBoard.height + 4) * (game.gameBoard.width + 4)) := by
  have hb := scan_index_bounds _ _ hW p hp
  rw [emod_sub_one _ _ hb.1 hb.2]
  by_cases h0 : scan_index game.gameBoard.width p = 0
  · have hp0 := scan_index_zero _ hW p hp.2 h0
    rw [if_pos h0, hp0, step_two_descending_origin, scan_index_corner]
    exact ⟨⟨⟨by simp; omega, by simp⟩, by simp; omega, by simp⟩, rfl⟩
  · rw [if_neg h0]
    have h := step_two_descending_dec game hW p hp.1.1 hp.2 (by omega)
    exact ⟨⟨⟨h.1.1, by have := hp.1.2; omega⟩, h.2.1⟩, h.2.2⟩

theorem iterate_step_two_descending (game : Game) (hH : 1 ≤ game.gameBoard.height)
    (hW : 1 ≤ game.gameBoard.width) (start : Int × Int)
    (hs : in_scan_range game.gameBoard.height game.gameBoard.width start) (k : Nat) :
    in_scan_range game.gameBoard.height game.gameBoard.width
      ((step_two game false)^[k] start) ∧
    scan_index game.gameBoard.width ((step_two game false)^[k] start) =
      (scan_index game.gameBoard.width start - (k : Int)) %
        ((game.gameBoard.height + 4) * (game.gameBoard.width + 4)) := by
  induction k with
  | zero =>
    have hb := scan_index_bounds _ _ hW start hs
    refine ⟨hs, ?_⟩
    simp only [Function.iterate_zero, id_eq, Nat.cast_zero, sub_zero]
    exact (Int.emod_eq_of_lt hb.1 hb.2).symm
  | succ k ih =>
    rw [Function.iterate_succ_apply']
    have h := step_two_descending game hH hW _ ih.1
    refine ⟨h.1, ?_⟩
    rw [h.2, ih.2]
    have e := Int.emod_add_emod (scan_index game.gameBoard.width start - (k : Int))
      ((game.gameBoard.height + 4) * (game.gameBoard.width + 4)) (-1)
    push_cast
    rw [show scan_index game.gameBoard.width start - ((k : Int) + 1) =
      scan_index game.gameBoard.width start - (k : Int) + -1 by ring, ← e]
    rfl

theorem emod_sub_sub_emod (a k n : Int) (ha0 : 0 ≤ a) (ha : a < n) (hk0 : 0 ≤ k)
    (hk : k < n) : (a - (a - k) % n) % n = k := by
  by_cases hle : k ≤ a
  · have e1 : (a - k) % n = a - k := Int.emod_eq_of_lt (by omega) (by omega)
    rw [e1, show a - (a - k) = k by omega]
    exact Int.emod_eq_of_lt hk0 hk
  · have e0 : (a - k + n) % n = (a - k) % n := Int.add_emod_self
    have e1 : (a - k) % n = a - k + n := by
      rw [← e0]
      exact Int.emod_eq_of_lt (by omega) (by omega)
    have e2 : (k - n + n) % n = (k - n) % n := Int.add_emod_self
    rw [e1, show a - (a - k + n) = k - n by omega, ← e2, sub_add_cancel]
    exact Int.emod_eq_of_lt hk0 hk

/-- From an anchor of the scan range the ascending update of `algorithm_two`
runs through the range in one cycle. -/
theorem scan_cycle_ascending (game : Game) (hH : 1 ≤ game.gameBoard.height)
    (hW : 1 ≤ game.gameBoard.width) (start : Int × Int)
    (hs : in_scan_range game.gameBoard.height game.gameBoard.width start) :
    scan_cycle game.gameBoard.height game.gameBoard.width (step_two game true) start
      (cyclic_rank game.gameBoard.height game.gameBoard.width start) := by
  refine ⟨fun k => (iterate_step_two game hH hW start hs k).1,
    fun k hk => cyclic_rank_iterate game hH hW start hs k hk, ?_,
    iterate_size game hH hW start hs⟩
  intro a ha
  have hr := cyclic_rank_bounds _ _ hH hW start a
  exact ⟨hr.1, hr.2, iterate_cyclic_rank game hH hW start a hs ha⟩

/-- From an anchor of the scan range the descending update of `algorithm_two`
runs through the range in one cycle, in the reverse order. -/
theorem scan_cycle_descending (game : Game) (hH : 1 ≤ game.gameBoard.height)
    (hW : 1 ≤ game.gameBoard.width) (start : Int × Int)
    (hs : in_scan_range game.gameBoard.height game.gameBoard.width start) :
    scan_cycle game.gameBoard.height game.gameBoard.width (step_two game false) start
      (fun a => cyclic_rank game.gameBoard.height game.gameBoard.width a start) := by
  have hpos := scan_size_pos _ _ hH hW
  have hb := scan_index_bounds _ _ hW start hs
  refine ⟨fun k => (iterate_step_two_descending game hH hW start hs k).1, ?_, ?_, ?_⟩
  · intro k hk
    simp only [cyclic_rank]
    rw [(iterate_step_two_descending game hH hW start hs k).2]
    exact emod_sub_sub_emod _ _ _ hb.1 hb.2 (by omega) hk
  · intro a ha
    have hr := cyclic_rank_bounds _ _ hH hW a start
    have hba := scan_index_bounds _ _ hW a ha
    refine ⟨hr.1, hr.2, ?_⟩
    have hit := iterate_step_two_descending game hH hW start hs
      (cyclic_rank game.gameBoard.height game.gameBoard.width a start).toNat
    apply scan_index_injective _ _ hW _ _ hit.1 ha
    rw [hit.2, Int.toNat_of_nonneg hr.1]
    unfold cyclic_rank
    rw [Int.sub_emod, Int.emod_emod, ← Int.sub_emod, sub_sub_cancel]
    exact Int.emod_eq_of_lt hba.1 hba.2
  · have hit := iterate_step_two_descending game hH hW start hs
      ((game.gameBoard.height + 4) * (game.gameBoard.width + 4)).toNat
    apply scan_index_injective _ _ hW _ _ hit.1 hs
    rw [hit.2, Int.toNat_of_nonneg (by omega)]
    have e : (scan_index game.gameBoard.width start -
        (game.gameBoard.height + 4) * (game.gameBoard.width + 4) +
        (game.gameBoard.height + 4) * (game.gameBoard.width + 4)) %
        ((game.gameBoard.height + 4) * (game.gameBoard.width + 4)) =
        (scan_index game.gameBoard.width start -
        (game.gameBoard.height + 4) * (game.gameBoard.width + 4)) %
        ((game.gameBoard.height + 4) * (game.gameBoard.width + 4)) := Int.add_emod_self
    rw [← e, sub_add_cancel]
    exact Int.emod_eq_of_lt hb.1 hb.2

/-! ### A position loop over one cycle of the scan range -/

theorem scan_cycle_ne_start (height width : Int) (next : Int × Int → Int × Int)
    (start : Int × Int) (rank : Int × Int → Int)
    (hc : scan_cycle height width next start rank) (k : Nat) (hk0 : 0 < k)
    (hk : k < ((height + 4) * (width + 4)).toNat) : next^[k] start ≠ start := by
  intro h
  have h1 := hc.2.1 k (by omega)
  have h0 := hc.2.1 0 (by omega)
  rw [h] at h1
  simp only [Function.iterate_zero, id_eq] at h0
  rw [h0] at h1
  omega

theorem scan_cycle_wrapped (height width : Int) (hH : 1 ≤ height) (hW : 1 ≤ width)
    (next : Int × Int → Int × Int) (start : Int × Int) (rank : Int × Int → Int)
    (hc : scan_cycle height width next start rank)
    (test : Int × Int → Option Command) (fuel : Nat)
    (hfuel : (height + 4) * (width + 4) ≤ (fuel : Int))
    (hnone : ∀ p, in_scan_range height width p → test p = none) :
    cycle_scan test next start fuel start = .wrapped start.1 start.2 := by
  have hpos := scan_size_pos _ _ hH hW
  exact cycle_scan_wrapped test next start ((height + 4) * (width + 4)).toNat
    (scan_cycle_ne_start height width next start rank hc) hc.2.2.2
    fuel 0 (by omega) (by omega) (fun j _ _ => hnone _ (hc.1 j))

theorem scan_cycle_found (height width : Int) (hH : 1 ≤ height) (hW : 1 ≤ width)
    (next : Int × Int → Int × Int) (start : Int × Int) (rank : Int × Int → Int)
    (hc : scan_cycle height width next start rank)
    (test : Int × Int → Option Command) (fuel : Nat)
    (hfuel : (height + 4) * (width + 4) ≤ (fuel : Int))
    (a : Int × Int) (ha : in_scan_range height width a)
    (command : Command) (hsome : test a = some command)
    (hnone : ∀ p, in_scan_range height width p → rank p < rank a → test p = none) :
    cycle_scan test next start fuel start = .found command := by
  have hpos := scan_size_pos _ _ hH hW
  obtain ⟨hr0, hr1, hreach⟩ := hc.2.2.1 a ha
  exact cycle_scan_found test next start ((height + 4) * (width + 4)).toNat
    (scan_cycle_ne_start height width next start rank hc)
    (rank a).toNat (by omega) command (by rw [hreach]; exact hsome)
    fuel 0 (by omega) (by omega)
    (fun j _ hj => by
      apply hnone _ (hc.1 j)
      rw [hc.2.1 j (by omega)]
      omega)

theorem scan_cycle_total (height width : Int) (hH : 1 ≤ height) (hW : 1 ≤ width)
    (next : Int × Int → Int × Int) (start : Int × Int) (rank : Int × Int → Int)
    (hc : scan_cycle height width next start rank)
    (test : Int × Int → Option Command) (fuel : Nat)
    (hfuel : (height + 4) * (width + 4) ≤ (fuel : Int)) :
    (cycle_scan test next start fuel start = .wrapped start.1 start.2 ∧
      ∀ p, in_scan_range height width p → test p = none) ∨
    (∃ a command, in_scan_range height width a ∧ test a = some command ∧
      cycle_scan test next start fuel start = .found command) := by
  by_cases hex : ∃ p, in_scan_range height width p ∧ (test p).isSome = true
  · right
    have hpos := scan_size_pos _ _ hH hW
    have hex' : ∃ k : Nat, (test (next^[k] start)).isSome = true := by
      obtain ⟨p, hp, hsome⟩ := hex
      exact ⟨_, by rw [(hc.2.2.1 p hp).2.2]; exact hsome⟩
    have hmin := fun m => @Nat.find_min _ _ hex' m
    have hspec := Nat.find_spec hex'
    have hle : Nat.find hex' < ((height + 4) * (width + 4)).toNat := by
      obtain ⟨p, hp, hsome⟩ := hex
      obtain ⟨hr0, hr1, hreach⟩ := hc.2.2.1 p hp
      have : Nat.find hex' ≤ (rank p).toNat :=
        Nat.find_min' hex' (by rw [hreach]; exact hsome)
      omega
    obtain ⟨command, hcmd⟩ := Option.isSome_iff_exists.mp hspec
    refine ⟨_, command, hc.1 (Nat.find hex'), hcmd, ?_⟩
    exact cycle_scan_found test next start ((height + 4) * (width + 4)).toNat
      (scan_cycle_ne_start height width next start rank hc)
      (Nat.find hex') hle command hcmd fuel 0 (by omega) (by omega)
      (fun j _ hj => by
        have := hmin j hj
        simpa using this)
  · left
    have hnone : ∀ p, in_scan_range height width p → test p = none := by
      intro p hp
      by_contra hne
      exact hex ⟨p, hp, Option.isSome_iff_ne_none.mpr hne⟩
    exact ⟨scan_cycle_wrapped height width hH hW next start rank hc test fuel hfuel hnone,
      hnone⟩

/-! ### `algorithm_two` from a start in the scan range -/

theorem algorithm_two_eq (fuel : Nat) (game : Game) (currentPlayer : PlayerRef) :
    algorithm_two fuel game currentPlayer =
      match cycle_scan (test_two game currentPlayer)
        (step_two game (game.player currentPlayer).firstPlayer) (two_start game currentPlayer)
        fuel (two_start game currentPlayer) with
      | .found command =>
        some (change_tiles (change_turn (place_move command currentPlayer game game.tiles)))
      | .wrapped _ _ => some game
      | .timeout => none := by
  simp only [algorithm_two, algorithm_two_scan_eq]
  rfl

theorem two_start_range (game : Game) (currentPlayer : PlayerRef)
    (hH : 1 ≤ game.gameBoard.height) (hW : 1 ≤ game.gameBoard.width)
    (hmove : ((game.player currentPlayer).recentMove = (INT_MIN, INT_MIN) ∧
        (game.player currentPlayer).firstPlayer = true) ∨
      in_scan_range game.gameBoard.height game.gameBoard.width
        (game.player currentPlayer).recentMove) :
    two_start game currentPlayer = ascending_start (game.player currentPlayer).recentMove ∧
    in_scan_range game.gameBoard.height game.gameBoard.width (two_start game currentPlayer) := by
  have hr := ascending_start_range _ _ hH hW (game.player currentPlayer).recentMove
    (hmove.imp And.left id)
  have he : two_start game currentPlayer =
      ascending_start (game.player currentPlayer).recentMove := by
    unfold two_start ascending_start
    rcases hmove with ⟨h1, h2⟩ | h
    · simp [h1, h2]
    · have hne : ¬ ((game.player currentPlayer).recentMove.1 = INT_MIN ∧
          (game.player currentPlayer).recentMove.2 = INT_MIN) := by
        rintro ⟨e1, _⟩
        have := h.1.1
        rw [e1] at this
        simp [INT_MIN] at this
      simp [hne]
  exact ⟨he, he ▸ hr⟩

/-- From a start in the scan range the update of `algorithm_two` runs through
the range in one cycle, in the direction of the player's flag. -/
theorem scan_cycle_two (game : Game) (hH : 1 ≤ game.gameBoard.height)
    (hW : 1 ≤ game.gameBoard.width) (firstPlayer : Bool) (start : Int × Int)
    (hs : in_scan_range game.gameBoard.height game.gameBoard.width start) :
    scan_cycle game.gameBoard.height game.gameBoard.width (step_two game firstPlayer) start
      (scan_rank game.gameBoard.height game.gameBoard.width firstPlayer start) := by
  cases firstPlayer
  · exact scan_cycle_descending game hH hW start hs
  · exact scan_cycle_ascending game hH hW start hs

theorem first_rotation_eq_some (game : Game) (currentPlayer : PlayerRef) (row col theta : Int)
    (htheta : theta ∈ [(0 : Int), 90, 180, 270])
    (hvalid : valid_move (row, col, theta) currentPlayer game.gameBoard game.tiles = true)
    (hrot : ∀ t ∈ [(0 : Int), 90, 180, 270], t < theta →
      valid_move (row, col, t) currentPlayer game.gameBoard game.tiles = false) :
    first_rotation game currentPlayer row col [0, 90, 180, 270] = some (row, col, theta) := by
  simp only [List.mem_cons, List.mem_singleton, List.not_mem_nil, or_false] at htheta
  rcases htheta with rfl | rfl | rfl | rfl
  · simp [first_rotation, hvalid]
  · simp [first_rotation, hvalid, hrot 0 (by simp) (by omega)]
  · simp [first_rotation, hvalid, hrot 0 (by simp) (by omega), hrot 90 (by simp) (by omega)]
  · simp [first_rotation, hvalid, hrot 0 (by simp) (by omega), hrot 90 (by simp) (by omega),
      hrot 180 (by simp) (by omega)]

/-- The move `algorithm_two` makes from a start in the scan range: the first
legal combination in rotation-minor order, anchors in the cyclic order of the
player's direction. -/
theorem algorithm_two_commits (fuel : Nat) (game : Game) (currentPlayer : PlayerRef)
    (row col theta : Int)
    (hH : 1 ≤ game.gameBoard.height) (hW : 1 ≤ game.gameBoard.width)
    (hfuel : (game.gameBoard.height + 4) * (game.gameBoard.width + 4) ≤ (fuel : Int))
    (hmove : ((game.player currentPlayer).recentMove = (INT_MIN, INT_MIN) ∧
        (game.player currentPlayer).firstPlayer = true) ∨
      in_scan_range game.gameBoard.height game.gameBoard.width
        (game.player currentPlayer).recentMove)
    (htheta : theta ∈ [(0 : Int), 90, 180, 270])
    (ha : in_scan_range game.gameBoard.height game.gameBoard.width (row, col))
    (hvalid : valid_move (row, col, theta) currentPlayer game.gameBoard game.tiles = true)
    (hrot : ∀ t ∈ [(0 : Int), 90, 180, 270], t < theta →
      valid_move (row, col, t) currentPlayer game.gameBoard game.tiles = false)
    (hfirst : ∀ r c : Int, in_scan_range game.gameBoard.height game.gameBoard.width (r, c) →
      scan_rank game.gameBoard.height game.gameBoard.width
          (game.player currentPlayer).firstPlayer
          (ascending_start (game.player currentPlayer).recentMove) (r, c) <
        scan_rank game.gameBoard.height game.gameBoard.width
          (game.player currentPlayer).firstPlayer
          (ascending_start (game.player currentPlayer).recentMove) (row, col) →
      ∀ t ∈ [(0 : Int), 90, 180, 270],
        valid_move (r, c, t) currentPlayer game.gameBoard game.tiles = false) :
    algorithm_two fuel game currentPlayer =
      some (change_tiles (change_turn
        (place_move (row, col, theta) currentPlayer game game.tiles))) := by
  obtain ⟨he, hs⟩ := two_start_range game currentPlayer hH hW hmove
  have hc := scan_cycle_two game hH hW (game.player currentPlayer).firstPlayer _ hs
  have h := scan_cycle_found _ _ hH hW _ _ _ hc (test_two game currentPlayer) fuel hfuel
    (row, col) ha (row, col, theta)
    (first_rotation_eq_some game currentPlayer row col theta htheta hvalid hrot)
    (fun p hp hr => (first_rotation_none game currentPlayer p.1 p.2 _).mpr
      (hfirst p.1 p.2 hp (by rw [← he]; exact hr)))
  rw [algorithm_two_eq, h]

/-- From a start in the scan range `algorithm_two` with fuel for one cycle
either commits a command `valid_move` accepts or, when no combination of the
range is legal, returns the game unchanged. -/
theorem algorithm_two_total (fuel : Nat) (game : Game) (currentPlayer : PlayerRef)
    (hH : 1 ≤ game.gameBoard.height) (hW : 1 ≤ game.gameBoard.width)
    (hfuel : (game.gameBoard.height + 4) * (game.gameBoard.width + 4) ≤ (fuel : Int))
    (hmove : ((game.player currentPlayer).recentMove = (INT_MIN, INT_MIN) ∧
        (game.player currentPlayer).firstPlayer = true) ∨
      in_scan_range game.gameBoard.height game.gameBoard.width
        (game.player currentPlayer).recentMove) :
    (∃ command, valid_move command currentPlayer game.gameBoard game.tiles = true ∧
      algorithm_two fuel game currentPlayer =
        some (change_tiles (change_turn (place_move command currentPlayer game game.tiles)))) ∨
    (algorithm_two fuel game currentPlayer = some game ∧
      ∀ row col : Int, in_scan_range game.gameBoard.height game.gameBoard.width (row, col) →
        ∀ theta ∈ [(0 : Int), 90, 180, 270],
          valid_move (row, col, theta) currentPlayer game.gameBoard game.tiles = false) := by
  obtain ⟨_, hs⟩ := two_start_range game currentPlayer hH hW hmove
  have hc := scan_cycle_two game hH hW (game.player currentPlayer).firstPlayer _ hs
  rcases scan_cycle_total _ _ hH hW _ _ _ hc (test_two game currentPlayer) fuel hfuel with
    ⟨hw, hnone⟩ | ⟨a, command, _, hsome, hf⟩
  · right
    rw [algorithm_two_eq, hw]
    exact ⟨rfl, fun row col hp =>
      (first_rotation_none game currentPlayer row col _).mp (hnone (row, col) hp)⟩
  · left
    rw [algorithm_two_eq, hf]
    exact ⟨command, first_rotation_some _ _ _ _ _ _ hsome, rfl⟩

/-! ### `algorithm_one` and the probe: every case -/

theorem algorithm_one_rotations_total (fuel : Nat) (game : Game) (currentPlayer : PlayerRef)
    (hH : 1 ≤ game.gameBoard.height) (hW : 1 ≤ game.gameBoard.width) (start : Int × Int)
    (hs : in_scan_range game.gameBoard.height game.gameBoard.width start)
    (hfuel : (game.gameBoard.height + 4) * (game.gameBoard.width + 4) ≤ (fuel : Int))
    (l : List Int) :
    (∃ command, valid_move command currentPlayer game.gameBoard game.tiles = true ∧
      algorithm_one_rotations fuel game currentPlayer start l start.1 start.2 =
        some (change_tiles (change_turn (place_move command currentPlayer game game.tiles)))) ∨
    (algorithm_one_rotations fuel game currentPlayer start l start.1 start.2 = some game ∧
      ∀ theta ∈ l, ∀ row col : Int,
        in_scan_range game.gameBoard.height game.gameBoard.width (row, col) →
          valid_move (row, col, theta) currentPlayer game.gameBoard game.tiles = false) := by
  induction l with
  | nil =>
    right
    exact ⟨rfl, fun theta h => absurd h (List.not_mem_nil _)⟩
  | cons theta rest ih =>
    rcases scan_range_total game hH hW start hs (step_one game)
      (iterate_step_one game hH hW start hs) (test_one game currentPlayer theta) fuel hfuel with
      ⟨hw, hnone⟩ | ⟨a, command, _, hsome, hf⟩
    · have hinv : ∀ row col : Int,
          in_scan_range game.gameBoard.height game.gameBoard.width (row, col) →
            valid_move (row, col, theta) currentPlayer game.gameBoard game.tiles = false := by
        intro row col hp
        have h := hnone (row, col) hp
        unfold test_one at h
        by_contra hv
        rw [Bool.not_eq_false] at hv
        simp [hv] at h
      have hstep : algorithm_one_rotations fuel game currentPlayer start (theta :: rest)
          start.1 start.2 =
          algorithm_one_rotations fuel game currentPlayer start rest start.1 start.2 := by
        rw [algorithm_one_rotations, algorithm_one_scan_eq, hw]
      rw [hstep]
      rcases ih with h | ⟨h1, h2⟩
      · exact Or.inl h
      · right
        refine ⟨h1, ?_⟩
        intro t ht
        rcases List.mem_cons.mp ht with rfl | ht'
        · exact hinv
        · exact h2 t ht'
    · left
      refine ⟨command, test_one_some _ _ _ _ _ hsome, ?_⟩
      rw [algorithm_one_rotations, algorithm_one_scan_eq, hf]

/-- With fuel for one cycle `algorithm_one` either commits a command
`valid_move` accepts or, when no combination of the scan range is legal,
returns the game unchanged. -/
theorem algorithm_one_total (fuel : Nat) (game : Game) (totalPlayers : Int → PlayerRef)
    (hH : 1 ≤ game.gameBoard.height) (hW : 1 ≤ game.gameBoard.width)
    (hfuel : (game.gameBoard.height + 4) * (game.gameBoard.width + 4) ≤ (fuel : Int))
    (hmove : game.recentMove = (INT_MIN, INT_MIN) ∨
      in_scan_range game.gameBoard.height game.gameBoard.width game.recentMove) :
    (∃ command,
      valid_move command (totalPlayers game.turn) game.gameBoard game.tiles = true ∧
      algorithm_one fuel game totalPlayers =
        some (change_tiles (change_turn
          (place_move command (totalPlayers game.turn) game game.tiles)))) ∨
    (algorithm_one fuel game totalPlayers = some game ∧
      ∀ theta ∈ [(0 : Int), 90, 180, 270], ∀ row col : Int,
        in_scan_range game.gameBoard.height game.gameBoard.width (row, col) →
          valid_move (row, col, theta) (totalPlayers game.turn) game.gameBoard
            game.tiles = false) := by
  rw [algorithm_one_eq]
  exact algorithm_one_rotations_total fuel game _ hH hW _
    (ascending_start_range _ _ hH hW _ hmove) hfuel _

/-- The probe with fuel for one cycle: true with a legal combination in the
scan range, or false with none. -/
theorem check_possible_move_total (fuel : Nat) (game : Game) (currentPlayer : PlayerRef)
    (hH : 1 ≤ game.gameBoard.height) (hW : 1 ≤ game.gameBoard.width)
    (hmove : (game.player currentPlayer).recentMove = (INT_MIN, INT_MIN) ∨
      in_scan_range game.gameBoard.height game.gameBoard.width
        (game.player currentPlayer).recentMove)
    (hfuel : (game.gameBoard.height + 4) * (game.gameBoard.width + 4) ≤ (fuel : Int)) :
    (check_possible_move fuel game currentPlayer = some true ∧
      ∃ row col theta, in_scan_range game.gameBoard.height game.gameBoard.width (row, col) ∧
        theta ∈ [(0 : Int), 90, 180, 270] ∧
        valid_move (row, col, theta) currentPlayer game.gameBoard game.tiles = true) ∨
    (check_possible_move fuel game currentPlayer = some false ∧
      ∀ row col : Int, in_scan_range game.gameBoard.height game.gameBoard.width (row, col) →
        ∀ theta ∈ [(0 : Int), 90, 180, 270],
          valid_move (row, col, theta) currentPlayer game.gameBoard game.tiles = false) := by
  obtain ⟨b, hb, hiff⟩ := check_possible_move_range fuel game currentPlayer hH hW hmove hfuel
  cases b
  · right
    exact ⟨hb, fun row col hp => hiff.mp rfl row col hp.1.1 hp.1.2 hp.2.1 hp.2.2⟩
  · left
    refine ⟨hb, ?_⟩
    by_contra hno
    have hall : ∀ row col : Int, -2 ≤ row → row ≤ game.gameBoard.height + 1 →
        -2 ≤ col → col ≤ game.gameBoard.width + 1 →
        ∀ theta ∈ [(0 : Int), 90, 180, 270],
          valid_move (row, col, theta) currentPlayer game.gameBoard game.tiles = false := by
      intro row col h1 h2 h3 h4 theta ht
      by_contra hv
      rw [Bool.not_eq_false] at hv
      exact hno ⟨row, col, theta, ⟨⟨h1, h2⟩, h3, h4⟩, ht, hv⟩
    have := hiff.mpr hall
    simp at this

/-! ### Legal anchors lie in the scan range -/

theorem valid_move_player (command : Command) (p q : PlayerRef) (grid : Board)
    (tiles : Tiles) : valid_move command p grid tiles = valid_move command q grid tiles := rfl

/-- When some anchor is legal at a rotation, an anchor of the scan range is
legal at that rotation. -/
theorem valid_move_in_range (row col theta : Int) (playing : PlayerRef) (grid : Board)
    (tiles : Tiles) (hH : 1 ≤ grid.height) (hW : 1 ≤ grid.width)
    (hvalid : valid_move (row, col, theta) playing grid tiles = true) :
    ∃ a : Int × Int, in_scan_range grid.height grid.width a ∧
      valid_move (a.1, a.2, theta) playing grid tiles = true := by
  by_cases hex : ∃ dr dc : Int, (0 ≤ dr ∧ dr < 5 ∧ 0 ≤ dc ∧ dc < 5) ∧
      tiles.grid (theta.tdiv 90) tiles.current dr dc ≠ 0
  · obtain ⟨dr, dc, ⟨h1, h2, h3, h4⟩, hf⟩ := hex
    have h := (valid_move_eq_true row col theta playing grid tiles).mp hvalid dr dc h1 h2 h3 h4 hf
    exact ⟨(row, col), ⟨⟨by have := h.1.1; simp only; omega, by have := h.1.2.1; simp only; omega⟩,
      by have := h.1.2.2.1; simp only; omega, by have := h.1.2.2.2; simp only; omega⟩, hvalid⟩
  · refine ⟨(0, 0), ⟨⟨by simp, by simp; omega⟩, by simp, by simp; omega⟩, ?_⟩
    rw [valid_move_eq_true]
    intro dr dc h1 h2 h3 h4 hf
    exact absurd ⟨dr, dc, ⟨h1, h2, h3, h4⟩, hf⟩ hex

theorem first_rotation_some_mem (game : Game) (currentPlayer : PlayerRef) (row col : Int)
    (l : List Int) (command : Command)
    (h : first_rotation game currentPlayer row col l = some command) :
    ∃ theta ∈ l, command = (row, col, theta) := by
  induction l with
  | nil => simp [first_rotation] at h
  | cons t l ih =>
    unfold first_rotation at h
    by_cases hv : valid_move (row, col, t) currentPlayer game.gameBoard game.tiles = true
    · simp only [hv, if_true, Option.some.injEq] at h
      exact ⟨t, List.mem_cons_self _ _, h.symm⟩
    · simp only [hv] at h
      obtain ⟨theta, hm, he⟩ := ih h
      exact ⟨theta, List.mem_cons_of_mem _ hm, he⟩

/-- When the probe returns true, a combination of the scan range is legal. -/
theorem check_possible_move_true (fuel : Nat) (game : Game) (currentPlayer : PlayerRef)
    (hH : 1 ≤ game.gameBoard.height) (hW : 1 ≤ game.gameBoard.width)
    (h : check_possible_move fuel game currentPlayer = some true) :
    ∃ (a : Int × Int) (theta : Int),
      in_scan_range game.gameBoard.height game.gameBoard.width a ∧
      theta ∈ [(0 : Int), 90, 180, 270] ∧
      valid_move (a.1, a.2, theta) currentPlayer game.gameBoard game.tiles = true := by
  unfold check_possible_move at h
  simp only at h
  split at h
  · rename_i command hscan
    rw [algorithm_two_scan_eq] at hscan
    obtain ⟨q, hq⟩ := cycle_scan_found_valid _ _ _ _ _ _ hscan
    have hv := first_rotation_some _ _ _ _ _ _ hq
    obtain ⟨theta, hm, he⟩ := first_rotation_some_mem _ _ _ _ _ _ hq
    rw [he] at hv
    obtain ⟨a, ha, hva⟩ := valid_move_in_range _ _ _ _ _ _ hH hW hv
    exact ⟨a, theta, ha, hm, hva⟩
  · simp at h
  · simp at h

/-! ### A position loop whose start is never met again -/

theorem cycle_scan_timeout (test : Int × Int → Option Command)
    (next : Int × Int → Int × Int) (start : Int × Int)
    (hnever : ∀ k : Nat, 0 < k → next^[k] start ≠ start)
    (hnone : ∀ k : Nat, test (next^[k] start) = none) (fuel i : Nat) :
    cycle_scan test next start fuel (next^[i] start) = .timeout := by
  induction fuel generalizing i with
  | zero => rfl
  | succ m ih =>
    rw [cycle_scan, hnone i]
    simp only
    rw [← Function.iterate_succ_apply' next i start, Nat.succ_eq_add_one]
    have hne := hnever (i + 1) (by omega)
    have hne' : (next^[i + 1] start).1 ≠ start.1 ∨ (next^[i + 1] start).2 ≠ start.2 := by
      by_contra hcon
      push_neg at hcon
      exact hne (Prod.ext hcon.1 hcon.2)
    rw [if_pos hne']
    exact ih (i + 1)

theorem cycle_scan_found_never (test : Int × Int → Option Command)
    (next : Int × Int → Int × Int) (start : Int × Int)
    (hnever : ∀ k : Nat, 0 < k → next^[k] start ≠ start)
    (k : Nat) (hsome : (test (next^[k] start)).isSome = true) (fuel : Nat) (hfuel : k < fuel) :
    ∃ q command, test q = some command ∧
      cycle_scan test next start fuel start = .found command := by
  have hex : ∃ j : Nat, (test (next^[j] start)).isSome = true := ⟨k, hsome⟩
  have hmin := fun m => @Nat.find_min _ _ hex m
  have hle : Nat.find hex ≤ k := Nat.find_min' hex hsome
  obtain ⟨command, hcmd⟩ := Option.isSome_iff_exists.mp (Nat.find_spec hex)
  refine ⟨_, command, hcmd, ?_⟩
  exact cycle_scan_found test next start (Nat.find hex + 1)
    (fun j h0 _ => hnever j h0) (Nat.find hex) (by omega) command hcmd fuel 0 (by omega)
    (by omega)
    (fun j _ hj => by
      have := hmin j hj
      simpa using this)

/-! ### `algorithm_two` for the second player with no last move -/

theorem two_start_second_unset (game : Game) (currentPlayer : PlayerRef)
    (hunset : (game.player currentPlayer).recentMove = (INT_MIN, INT_MIN))
    (hsecond : (game.player currentPlayer).firstPlayer = false) :
    two_start game currentPlayer = (game.gameBoard.width + 2, game.gameBoard.height + 2) := by
  simp [two_start, hunset, hsecond]

/-- From `(boardWidth + 2, boardHeight + 2)` the descending update never comes
back to its start: after one step the anchor stays in the first row pass or in
the rows and columns the update wraps to. -/
theorem second_unset_never (game : Game) (hH : 1 ≤ game.gameBoard.height)
    (hW : 1 ≤ game.gameBoard.width) (k : Nat) (hk : 0 < k) :
    (step_two game false)^[k] (game.gameBoard.width + 2, game.gameBoard.height + 2) ≠
      (game.gameBoard.width + 2, game.gameBoard.height + 2) := by
  have hinv : ∀ j : Nat,
      let p := (step_two game false)^[j + 1]
        (game.gameBoard.width + 2, game.gameBoard.height + 2)
      (p.1 = game.gameBoard.width + 2 ∧ -2 ≤ p.2 ∧ p.2 ≤ game.gameBoard.height + 1) ∨
      (-2 ≤ p.1 ∧ (p.1 ≤ game.gameBoard.width + 1 ∨ p.1 ≤ game.gameBoard.height + 1) ∧
        -2 ≤ p.2 ∧ p.2 ≤ game.gameBoard.width + 1) := by
    intro j
    induction j with
    | zero =>
      left
      simp only [zero_add, Function.iterate_one, step_two, update_position_algorithm_two,
        Bool.false_eq_true, if_false]
      have h1 : ¬ (game.gameBoard.height + 2 - 1 < -2) := by omega
      have h2 : ¬ (game.gameBoard.width + 2 < -2) := by omega
      simp only [h1, h2, if_false]
      exact ⟨trivial, by omega, by omega⟩
    | succ j ih =>
      rw [Function.iterate_succ_apply']
      generalize (step_two game false)^[j + 1]
        (game.gameBoard.width + 2, game.gameBoard.height + 2) = p at ih
      simp only at ih
      simp only [step_two, update_position_algorithm_two, Bool.false_eq_true, if_false]
      by_cases hc : p.2 - 1 < -2
      · by_cases hr : p.1 - 1 < -2
        · simp only [hc, hr, if_true]
          omega
        · simp only [hc, hr, if_true, if_false]
          omega
      · by_cases hr : p.1 < -2
        · simp only [hc, hr, if_true, if_false]
          omega
        · simp only [hc, hr, if_false]
          omega
  obtain ⟨j, rfl⟩ : ∃ j, k = j + 1 := ⟨k - 1, by omega⟩
  intro h
  have := hinv j
  rw [h] at this
  simp only at this
  omega

theorem iterate_descending_slide (game : Game) (r c : Int) (hr : -2 ≤ r) (k : Nat)
    (hk : (k : Int) ≤ c + 2) :
    (step_two game false)^[k] (r, c) = (r, c - (k : Int)) := by
  induction k with
  | zero => simp
  | succ k ih =>
    rw [Function.iterate_succ_apply', ih (by omega)]
    simp only [step_two, update_position_algorithm_two, Bool.false_eq_true, if_false]
    have h1 : ¬ (c - (k : Int) - 1 < -2) := by omega
    have h2 : ¬ (r < -2) := by omega
    simp only [h1, h2, if_false]
    exact Prod.ext rfl (by push_cast; ring)

theorem iterate_descending_dec (game : Game) (hW : 1 ≤ game.gameBoard.width) (p : Int × Int)
    (hrow : -2 ≤ p.1) (hcol : -2 ≤ p.2 ∧ p.2 ≤ game.gameBoard.width + 1) (k : Nat)
    (hk : (k : Int) ≤ scan_index game.gameBoard.width p) :
    -2 ≤ ((step_two game false)^[k] p).1 ∧
    (-2 ≤ ((step_two game false)^[k] p).2 ∧
      ((step_two game false)^[k] p).2 ≤ game.gameBoard.width + 1) ∧
    scan_index game.gameBoard.width ((step_two game false)^[k] p) =
      scan_index game.gameBoard.width p - (k : Int) := by
  induction k with
  | zero => simp [hrow, hcol]
  | succ k ih =>
    have ih' := ih (by omega)
    rw [Function.iterate_succ_apply']
    have h := step_two_descending_dec game hW _ ih'.1 ih'.2.1 (by rw [ih'.2.2]; omega)
    refine ⟨h.1.1, h.2.1, ?_⟩
    rw [h.2.2, ih'.2.2]
    push_cast
    ring

/-- From `(boardWidth + 2, boardHeight + 2)` the descending update reaches the
bottom-right corner of the scan range. -/
theorem second_unset_corner (game : Game) (hH : 1 ≤ game.gameBoard.height)
    (hW : 1 ≤ game.gameBoard.width) :
    (step_two game false)^[1 + (((game.gameBoard.width + 4) *
        (game.gameBoard.width + 4)).toNat + (game.gameBoard.height + 4).toNat)]
      (game.gameBoard.width + 2, game.gameBoard.height + 2) =
      (game.gameBoard.height + 1, game.gameBoard.width + 1) := by
  have hsq : 0 < (game.gameBoard.width + 4) * (game.gameBoard.width + 4) :=
    mul_pos (by omega) (by omega)
  have hA : (step_two game false)^[(game.gameBoard.height + 4).toNat]
      (game.gameBoard.width + 2, game.gameBoard.height + 2) = (game.gameBoard.width + 2, -2) := by
    rw [iterate_descending_slide game _ _ (by omega) _ (by omega)]
    exact Prod.ext rfl (by dsimp only; omega)
  have hidx : scan_index game.gameBoard.width (game.gameBoard.width + 2, -2) =
      (game.gameBoard.width + 4) * (game.gameBoard.width + 4) := by
    simp only [scan_index]
    ring
  have hd := iterate_descending_dec game hW (game.gameBoard.width + 2, -2)
    (by dsimp only; omega) ⟨by simp, by dsimp only; omega⟩
    ((game.gameBoard.width + 4) * (game.gameBoard.width + 4)).toNat (by rw [hidx]; omega)
  have hB := scan_index_zero _ hW _ hd.2.1 (by rw [hd.2.2, hidx]; omega)
  rw [Function.iterate_add_apply, Function.iterate_add_apply, hA, hB, Function.iterate_one,
    step_two_descending_origin]

/-- From `(boardWidth + 2, boardHeight + 2)` the descending update reaches every
anchor of the scan range. -/
theorem second_unset_reach (game : Game) (hH : 1 ≤ game.gameBoard.height)
    (hW : 1 ≤ game.gameBoard.width) (a : Int × Int)
    (ha : in_scan_range game.gameBoard.height game.gameBoard.width a) :
    ∃ k : Nat,
      (k : Int) < (game.gameBoard.height + 4) * (game.gameBoard.width + 4) +
        (game.gameBoard.width + 4) * (game.gameBoard.width + 4) +
        (game.gameBoard.height + 4) + 1 ∧
      (step_two game false)^[k] (game.gameBoard.width + 2, game.gameBoard.height + 2) = a := by
  have hsq : 0 < (game.gameBoard.width + 4) * (game.gameBoard.width + 4) :=
    mul_pos (by omega) (by omega)
  have hcorner : in_scan_range game.gameBoard.height game.gameBoard.width
      (game.gameBoard.height + 1, game.gameBoard.width + 1) :=
    ⟨⟨by simp; omega, by simp⟩, by simp; omega, by simp⟩
  have hc := scan_cycle_descending game hH hW _ hcorner
  obtain ⟨hr0, hr1, hreach⟩ := hc.2.2.1 a ha
  refine ⟨(cyclic_rank game.gameBoard.height game.gameBoard.width a
      (game.gameBoard.height + 1, game.gameBoard.width + 1)).toNat +
    (1 + (((game.gameBoard.width + 4) * (game.gameBoard.width + 4)).toNat +
      (game.gameBoard.height + 4).toNat)), ?_, ?_⟩
  · simp only at hr0 hr1
    push_cast
    omega
  · rw [Function.iterate_add_apply, second_unset_corner game hH hW]
    exact hreach

theorem test_two_isSome (game : Game) (currentPlayer : PlayerRef) (a : Int × Int) (theta : Int)
    (htheta : theta ∈ [(0 : Int), 90, 180, 270])
    (hvalid : valid_move (a.1, a.2, theta) currentPlayer game.gameBoard game.tiles = true) :
    (test_two game currentPlayer a).isSome = true := by
  rw [Option.isSome_iff_ne_none]
  intro hn
  have := (first_rotation_none game currentPlayer a.1 a.2 _).mp hn theta htheta
  rw [hvalid] at this
  exact absurd this (by simp)

/-- A second player with no last move: when a combination of the scan range
is legal, `algorithm_two` commits a command `valid_move` accepts. -/
theorem algorithm_two_second_unset_commits (fuel : Nat) (game : Game)
    (currentPlayer : PlayerRef)
    (hH : 1 ≤ game.gameBoard.height) (hW : 1 ≤ game.gameBoard.width)
    (hfuel : (game.gameBoard.height + 4) * (game.gameBoard.width + 4) +
      (game.gameBoard.width + 4) * (game.gameBoard.width + 4) +
      (game.gameBoard.height + 4) + 1 ≤ (fuel : Int))
    (hunset : (game.player currentPlayer).recentMove = (INT_MIN, INT_MIN))
    (hsecond : (game.player currentPlayer).firstPlayer = false)
    (a : Int × Int) (theta : Int)
    (ha : in_scan_range game.gameBoard.height game.gameBoard.width a)
    (htheta : theta ∈ [(0 : Int), 90, 180, 270])
    (hvalid : valid_move (a.1, a.2, theta) currentPlayer game.gameBoard game.tiles = true) :
    ∃ command, valid_move command currentPlayer game.gameBoard game.tiles = true ∧
      algorithm_two fuel game currentPlayer =
        some (change_tiles (change_turn (place_move command currentPlayer game game.tiles))) := by
  obtain ⟨k, hk, hreach⟩ := second_unset_reach game hH hW a ha
  have hs := two_start_second_unset game currentPlayer hunset hsecond
  obtain ⟨q, command, hq, hfound⟩ := cycle_scan_found_never (test_two game currentPlayer)
    (step_two game false) (game.gameBoard.width + 2, game.gameBoard.height + 2)
    (second_unset_never game hH hW) k
    (by rw [hreach]; exact test_two_isSome game currentPlayer a theta htheta hvalid)
    fuel (by omega)
  refine ⟨command, first_rotation_some _ _ _ _ _ _ hq, ?_⟩
  rw [algorithm_two_eq, hs, hsecond, hfound]

/-- A second player with no last move: when no combination is legal at any
anchor, the loop of `algorithm_two` never ends. -/
theorem algorithm_two_second_unset_diverges (game : Game) (currentPlayer : PlayerRef)
    (hH : 1 ≤ game.gameBoard.height) (hW : 1 ≤ game.gameBoard.width)
    (hunset : (game.player currentPlayer).recentMove = (INT_MIN, INT_MIN))
    (hsecond : (game.player currentPlayer).firstPlayer = false)
    (hnone : ∀ row col : Int, ∀ theta ∈ [(0 : Int), 90, 180, 270],
      valid_move (row, col, theta) currentPlayer game.gameBoard game.tiles = false)
    (fuel : Nat) : algorithm_two fuel game currentPlayer = none := by
  have hs := two_start_second_unset game currentPlayer hunset hsecond
  have h := cycle_scan_timeout (test_two game currentPlayer) (step_two game false)
    (game.gameBoard.width + 2, game.gameBoard.height + 2) (second_unset_never game hH hW)
    (fun k => (first_rotation_none game currentPlayer _ _ _).mpr (hnone _ _)) fuel 0
  rw [algorithm_two_eq, hs, hsecond]
  rw [Function.iterate_zero, id_eq] at h
  rw [h]

/-! ### A fully occupied board -/

theorem full_board_invalid (row col theta : Int) (playing : PlayerRef) (grid : Board)
    (tiles : Tiles)
    (hfull : ∀ y x : Int, 0 ≤ y → y < grid.height → 0 ≤ x → x < grid.width →
      grid.grid y x ≠ none)
    (hfilled : ∃ dr dc : Int, (0 ≤ dr ∧ dr < 5 ∧ 0 ≤ dc ∧ dc < 5) ∧
      tiles.grid (theta.tdiv 90) tiles.current dr dc ≠ 0) :
    valid_move (row, col, theta) playing grid tiles = false := by
  rw [← Bool.not_eq_true, valid_move_eq_true]
  intro h
  obtain ⟨dr, dc, ⟨h1, h2, h3, h4⟩, hf⟩ := hfilled
  obtain ⟨⟨a, b, c, d⟩, e⟩ := h dr dc h1 h2 h3 h4 hf
  exact hfull _ _ a b c d e

theorem game_loop_no_move (turns fuel : Nat) (input : List PromptLine) (game : Game)
    (h : check_possible_move fuel game (players game.turn) = some false) :
    game_loop (turns + 1) fuel input game =
      some { code := ErrorCode.NO_ERROR, winner := some (players ((game.turn + 1).tmod 2)),
             game := game } := by
  simp only [game_loop, h]

theorem centre_tiles_filled (theta : Int) :
    ∃ dr dc : Int, (0 ≤ dr ∧ dr < 5 ∧ 0 ≤ dc ∧ dc < 5) ∧
      centre_tiles.grid (theta.tdiv 90) centre_tiles.current dr dc ≠ 0 :=
  ⟨2, 2, by decide, (centre_mask_filled 2 2).mpr ⟨rfl, rfl⟩⟩

theorem full_game_invalid (row col theta : Int) (playing : PlayerRef) :
    valid_move (row, col, theta) playing full_game.gameBoard full_game.tiles = false :=
  full_board_invalid row col theta playing full_game.gameBoard full_game.tiles
    (fun _ _ _ _ _ _ => by simp [full_game, full_board]) (centre_tiles_filled theta)

/-- On `stuck_game` the position loop of the first player, entered at the
stored move `(5, 5)` outside the scan range, does not end. -/
theorem stuck_game_scan (fuel : Nat) :
    cycle_scan (test_two stuck_game PlayerRef.player1) (step_two stuck_game true) (5, 5) fuel
      (5, 5) = Scan.timeout := by
  have hrange : ∀ k : Nat, in_scan_range 1 1 ((step_two stuck_game true)^[k + 1] (5, 5)) := by
    intro k
    induction k with
    | zero =>
      have e : (step_two stuck_game true)^[0 + 1] (5, 5) = (-2, -2) := by decide
      rw [e]
      exact ⟨⟨by decide, by decide⟩, by decide, by decide⟩
    | succ k ih =>
      rw [Function.iterate_succ_apply']
      exact (step_two_ascending stuck_game (by decide) (by decide) _ ih).1
  have hnever : ∀ k : Nat, 0 < k → (step_two stuck_game true)^[k] (5, 5) ≠ (5, 5) := by
    intro k hk h
    obtain ⟨j, rfl⟩ : ∃ j, k = j + 1 := ⟨k - 1, by omega⟩
    have := hrange j
    rw [h] at this
    exact absurd this.1.2 (by decide)
  have h := cycle_scan_timeout (test_two stuck_game PlayerRef.player1)
    (step_two stuck_game true) (5, 5) hnever
    (fun k => (first_rotation_none stuck_game PlayerRef.player1 _ _ _).mpr
      (fun theta _ => full_game_invalid _ _ theta PlayerRef.player1)) fuel 0
  rw [Function.iterate_zero, id_eq] at h
  exact h

/-- On `stuck_game` the probe for the first player, whose stored last move
`(5, 5)` is outside the scan range, never ends. -/
theorem stuck_game_probe (fuel : Nat) :
    check_possible_move fuel stuck_game PlayerRef.player1 = none := by
  have h := stuck_game_scan fuel
  have hcheck : check_possible_move fuel stuck_game PlayerRef.player1 =
      match cycle_scan (test_two stuck_game PlayerRef.player1) (step_two stuck_game true)
        (5, 5) fuel (5, 5) with
      | .found _ => some true
      | .wrapped _ _ => some false
      | .timeout => none := by
    simp only [check_possible_move, algorithm_two_scan_eq]
    rfl
  rw [hcheck, h]

/-- On `stuck_game`, where no combination is legal, `algorithm_two` for the
first player, whose stored move `(5, 5)` is outside the scan range, does not
return. -/
theorem stuck_game_algorithm_two (fuel : Nat) :
    algorithm_two fuel stuck_game PlayerRef.player1 = none := by
  have e : two_start stuck_game PlayerRef.player1 = (5, 5) := by decide
  rw [algorithm_two_eq, e]
  have h := stuck_game_scan fuel
  have hf : (stuck_game.player PlayerRef.player1).firstPlayer = true := rfl
  rw [hf, h]

/-! ### Turn and active tile after a commit -/

theorem place_move_turn (command : Command) (playing : PlayerRef) (game : Game)
    (tiles : Tiles) : (place_move command playing game tiles).turn = game.turn := by
  cases playing <;> rfl

theorem commit_turn_tiles (command : Command) (playing : PlayerRef) (game : Game)
    (hturn : game.turn = 0 ∨ game.turn = 1) (hcur : 0 ≤ game.tiles.current)
    (htotal : 1 ≤ game.tiles.total) :
    (change_tiles (change_turn (place_move command playing game game.tiles))).turn =
      1 - game.turn ∧
    (change_tiles (change_turn (place_move command playing game game.tiles))).tiles.current =
      (game.tiles.current + 1) % game.tiles.total ∧
    (change_tiles (change_turn (place_move command playing game game.tiles))).tiles.total =
      game.tiles.total := by
  have ht := place_move_tiles command playing game game.tiles
  have hn := place_move_turn command playing game game.tiles
  refine ⟨?_, ?_, ?_⟩
  · show ((place_move command playing game game.tiles).turn + 1).tmod 2 = 1 - game.turn
    rw [hn]
    rcases hturn with h | h <;> rw [h] <;> decide
  · show ((place_move command playing game game.tiles).tiles.current + 1).tmod
      (place_move command playing game game.tiles).tiles.total = _
    rw [ht]
    exact Int.tmod_eq_emod (by omega) (by omega)
  · show (place_move command playing game game.tiles).tiles.total = _
    rw [ht]

theorem human_prompt_result (game : Game) (currentPlayer : PlayerRef)
    (input rest : List PromptLine) (g : Game)
    (h : human_prompt game currentPlayer input = (some g, rest)) :
    ∃ command, correct_rotation command = true ∧
      valid_move command currentPlayer game.gameBoard game.tiles = true ∧
      g = change_tiles (change_turn (place_move command currentPlayer game game.tiles)) := by
  induction input with
  | nil => simp [human_prompt] at h
  | cons line more ih =>
    obtain ⟨errorCode, command⟩ := line
    unfold human_prompt at h
    split at h
    · exact ih h
    · split at h
      · rename_i hacc
        simp only [Prod.mk.injEq, Option.some.injEq] at h
        exact ⟨command, hacc.2.1, hacc.2.2, h.1.symm⟩
      · exact ih h

/-! ### The active tile index -/

theorem change_tiles_iterate (game : Game) (htotal : 1 ≤ game.tiles.total)
    (hcur : 0 ≤ game.tiles.current) (hlt : game.tiles.current < game.tiles.total) (k : Nat) :
    change_tiles^[k] game =
      { game with
        tiles := { game.tiles with
          current := (game.tiles.current + (k : Int)) % game.tiles.total } } := by
  induction k with
  | zero =>
    simp only [Function.iterate_zero, id_eq, Nat.cast_zero, add_zero]
    rw [Int.emod_eq_of_lt hcur hlt]
  | succ k ih =>
    rw [Function.iterate_succ_apply', ih]
    simp only [change_tiles]
    have h0 : 0 ≤ (game.tiles.current + (k : Int)) % game.tiles.total :=
      Int.emod_nonneg _ (by omega)
    rw [Int.tmod_eq_emod (by omega) (by omega), Int.emod_add_emod]
    push_cast
    rw [add_assoc]

theorem change_tiles_bounds (game : Game) (hcur : 0 ≤ game.tiles.current)
    (hlt : game.tiles.current < game.tiles.total) :
    0 ≤ (change_tiles game).tiles.current ∧
    (change_tiles game).tiles.current < (change_tiles game).tiles.total ∧
    (change_tiles game).tiles.total = game.tiles.total := by
  refine ⟨?_, ?_, rfl⟩
  · exact Int.tmod_nonneg _ (by omega)
  · exact Int.tmod_lt_of_pos _ (by omega)

theorem initialise_new_tile_total (tiles : Tiles) :
    (initialise_new_tile tiles).total = tiles.total + 1 ∧
    (initialise_new_tile tiles).current = tiles.current := ⟨rfl, rfl⟩

theorem validate_tile_loop_total (content : List Char) (row col : Int) (lineTerminated : Bool)
    (tiles after : Tiles)
    (h : validate_tile_loop content row col lineTerminated tiles =
      (ErrorCode.NO_ERROR, after)) :
    tiles.total ≤ after.total ∧ after.current = tiles.current := by
  induction content generalizing row col lineTerminated tiles with
  | nil =>
    unfold validate_tile_loop at h
    split at h
    · simp at h
    · simp only [Prod.mk.injEq, true_and] at h
      rw [← h]
      exact ⟨le_refl _, rfl⟩
  | cons character rest ih =>
    unfold validate_tile_loop at h
    split at h
    · split at h
      · split at h
        · simp at h
        · have := ih _ _ _ _ h
          have hn := initialise_new_tile_total tiles
          rw [hn.1, hn.2] at this
          exact ⟨by omega, this.2⟩
      · split at h
        · simp at h
        · exact ih _ _ _ _ h
    · split at h
      · simp at h
      · have := ih _ _ _ _ h
        exact this

theorem validate_tile_file_total (file : Option (List Char)) (tiles after : Tiles)
    (h : validate_tile_file file tiles = (ErrorCode.NO_ERROR, after)) :
    tiles.total + 1 ≤ after.total ∧ after.current = tiles.current := by
  unfold validate_tile_file at h
  split at h
  · simp at h
  · have := validate_tile_loop_total _ _ _ _ _ _ h
    have hn := initialise_new_tile_total tiles
    rw [hn.1, hn.2] at this
    exact this

theorem parse_header_values_current (headerInfo : Int → Int) (game after : Game)
    (h : parse_header_values headerInfo game = (true, after)) :
    0 ≤ after.tiles.current ∧ after.tiles.current < after.tiles.total ∧
    after.tiles.current = headerInfo 0 ∧ after.tiles.total = game.tiles.total := by
  unfold parse_header_values at h
  simp only at h
  split at h
  · simp at h
  · rename_i hchk
    simp only [Prod.mk.injEq, true_and] at h
    rw [← h]
    exact ⟨by dsimp only; omega, by dsimp only; omega, rfl, rfl⟩

/-! ### Sample states -/

theorem player_with_turn (game : Game) (turn : Int) (p : PlayerRef) :
    Game.player { game with turn := turn } p = game.player p := by
  cases p <;> rfl

theorem centre_tiles_valid (row col theta : Int) (playing : PlayerRef) (grid : Board) :
    valid_move (row, col, theta) playing grid centre_tiles = true ↔
      (0 ≤ row ∧ row < grid.height ∧ 0 ≤ col ∧ col < grid.width) ∧
        grid.grid row col = none := by
  rw [valid_move_eq_true]
  have e1 : row + 2 - 2 = row := by omega
  have e2 : col + 2 - 2 = col := by omega
  constructor
  · intro h
    have h2 := h 2 2 (by omega) (by omega) (by omega) (by omega)
      ((centre_mask_filled 2 2).mpr ⟨rfl, rfl⟩)
    rw [e1, e2] at h2
    exact h2
  · intro h dr dc _ _ _ _ hf
    obtain ⟨rfl, rfl⟩ := (centre_mask_filled dr dc).mp hf
    rw [e1, e2]
    exact h

/-- On `second_game` the only legal anchor is `(0, 1)`. -/
theorem second_game_valid (row col theta : Int) (playing : PlayerRef) :
    valid_move (row, col, theta) playing second_game.gameBoard second_game.tiles = true ↔
      row = 0 ∧ col = 1 := by
  have h := centre_tiles_valid row col theta playing taken_board
  constructor
  · intro hv
    obtain ⟨⟨h1, h2, h3, h4⟩, he⟩ := h.mp hv
    have hh : taken_board.height = 1 := rfl
    have hw : taken_board.width = 2 := rfl
    rw [hh] at h2
    rw [hw] at h4
    have hr : row = 0 := by omega
    refine ⟨hr, ?_⟩
    by_contra hc
    have hc0 : col = 0 := by omega
    rw [hr, hc0] at he
    revert he
    decide
  · rintro ⟨rfl, rfl⟩
    exact h.mpr ⟨⟨by decide, by decide, by decide, by decide⟩, by decide⟩

/-! ### The grid after `reallocate_grid`, the initial state -/

theorem reallocate_grid_cell (board : Board) (height width y x : Int) :
    (reallocate_grid board height width).grid y x =
      if (0 ≤ y ∧ y < height) ∧ (0 ≤ x ∧ x < width) then none else board.grid y x := by
  have h := foldl_board_set_grid (loop_range 0 (height - 1)) (loop_range 0 (width - 1))
    (fun _ _ => True) board.grid none y x
  simp only [if_true, mem_loop_range, and_true] at h
  unfold reallocate_grid
  dsimp only
  rw [h]
  by_cases hc : (0 ≤ y ∧ y < height) ∧ (0 ≤ x ∧ x < width)
  · rw [if_pos hc, if_pos ⟨⟨hc.1.1, by omega⟩, hc.2.1, by omega⟩]
  · rw [if_neg hc, if_neg]
    rintro ⟨⟨h1, h2⟩, h3, h4⟩
    exact hc ⟨⟨h1, by omega⟩, h3, by omega⟩

/-! ### Tokens and their conversion -/

theorem integer_value_eq_some (token : List Char) (v : Int) :
    integer_value token = some v ↔ token ≠ [] ∧ (strtol token).2 = [] ∧ (strtol token).1 = v := by
  unfold integer_value
  by_cases h : token ≠ [] ∧ (strtol token).2 = []
  · rw [if_pos h]
    simp only [Option.some.injEq]
    exact ⟨fun e => ⟨h.1, h.2, e⟩, fun e => e.2.2⟩
  · rw [if_neg h]
    constructor
    · intro e
      cases e
    · rintro ⟨h1, h2, _⟩
      exact absurd ⟨h1, h2⟩ h

theorem integer_value_eq_none (token : List Char) :
    integer_value token = none ↔ token = [] ∨ (strtol token).2 ≠ [] := by
  unfold integer_value
  by_cases h : token ≠ [] ∧ (strtol token).2 = []
  · rw [if_pos h]
    simp only [false_iff, not_or, not_not, reduceCtorEq]
    exact h
  · rw [if_neg h]
    simp only [true_iff]
    by_cases h1 : token = []
    · exact Or.inl h1
    · exact Or.inr fun h2 => h ⟨h1, h2⟩

/-- One iteration of `convert_token_to_int` on a token that converts. -/
theorem convert_token_loop_some (currentToken : List Char) (rest : List (List Char))
    (tokenIndex v : Int) (array : Int → Int) (h : integer_value currentToken = some v)
    (h1 : INT_MIN < v) (h2 : v < INT_MAX) :
    convert_token_loop (currentToken :: rest) tokenIndex array =
      convert_token_loop rest (tokenIndex + 1) (fun i => if i = tokenIndex then v else array i) := by
  obtain ⟨hne, hrest, hval⟩ := (integer_value_eq_some _ _).mp h
  have hlen : ¬ currentToken.length = 0 := fun e => hne (List.length_eq_zero.mp e)
  rw [convert_token_loop, if_neg hlen]
  dsimp only
  rw [hrest, hval, if_neg]
  intro hc
  rcases hc with hc | hc | hc
  · omega
  · omega
  · exact hc rfl

/-- One iteration of `convert_token_to_int` on a token that does not convert. -/
theorem convert_token_loop_invalid (currentToken : List Char) (rest : List (List Char))
    (tokenIndex : Int) (array : Int → Int)
    (h : ∀ v, integer_value currentToken = some v → v ≤ INT_MIN ∨ v ≥ INT_MAX) :
    convert_token_loop (currentToken :: rest) tokenIndex array =
      (TokenCode.INVALID_INPUT, array) := by
  rw [convert_token_loop]
  by_cases hlen : currentToken.length = 0
  · rw [if_pos hlen]
  · rw [if_neg hlen]
    dsimp only
    rw [if_pos]
    by_cases hrest : (strtol currentToken).2 = []
    · have hv : integer_value currentToken = some (strtol currentToken).1 :=
        (integer_value_eq_some _ _).mpr ⟨fun e => hlen (by rw [e]; rfl), hrest, rfl⟩
      rcases h _ hv with hc | hc
      · exact Or.inl hc
      · exact Or.inr (Or.inl hc)
    · exact Or.inr (Or.inr hrest)

theorem takeWhile_no_space (token rest : List Char) (h : ' ' ∉ token) :
    (token ++ ' ' :: rest).takeWhile (fun c => c ≠ ' ') = token := by
  induction token with
  | nil => simp
  | cons c t ih =>
    have hc : c ≠ ' ' := fun e => h (by rw [e]; exact List.mem_cons_self _ _)
    have ht : ' ' ∉ t := fun e => h (List.mem_cons_of_mem _ e)
    rw [List.cons_append, List.takeWhile_cons, if_pos (by simpa using hc), ih ht]

theorem dropWhile_no_space (token rest : List Char) (h : ' ' ∉ token) :
    (token ++ ' ' :: rest).dropWhile (fun c => c ≠ ' ') = ' ' :: rest := by
  induction token with
  | nil => simp
  | cons c t ih =>
    have hc : c ≠ ' ' := fun e => h (by rw [e]; exact List.mem_cons_self _ _)
    have ht : ' ' ∉ t := fun e => h (List.mem_cons_of_mem _ e)
    rw [List.cons_append, List.dropWhile_cons, if_pos (by simpa using hc), ih ht]

theorem takeWhile_no_space_end (token : List Char) (h : ' ' ∉ token) :
    token.takeWhile (fun c => c ≠ ' ') = token := by
  induction token with
  | nil => simp
  | cons c t ih =>
    have hc : c ≠ ' ' := fun e => h (by rw [e]; exact List.mem_cons_self _ _)
    have ht : ' ' ∉ t := fun e => h (List.mem_cons_of_mem _ e)
    rw [List.takeWhile_cons, if_pos (by simpa using hc), ih ht]

theorem dropWhile_no_space_end (token : List Char) (h : ' ' ∉ token) :
    token.dropWhile (fun c => c ≠ ' ') = [] := by
  induction token with
  | nil => simp
  | cons c t ih =>
    have hc : c ≠ ' ' := fun e => h (by rw [e]; exact List.mem_cons_self _ _)
    have ht : ' ' ∉ t := fun e => h (List.mem_cons_of_mem _ e)
    rw [List.dropWhile_cons, if_pos (by simpa using hc), ih ht]

/-- The call of `strtok` on a token followed by a space. -/
theorem strtok_token (token rest : List Char) (hne : token ≠ []) (h : ' ' ∉ token) :
    strtok (token ++ ' ' :: rest) = some (token, rest) := by
  obtain ⟨c, t, rfl⟩ := List.exists_cons_of_ne_nil hne
  have hc : c ≠ ' ' := fun e => h (by rw [e]; exact List.mem_cons_self _ _)
  have e1 : ((c :: t) ++ ' ' :: rest).dropWhile (fun c => c = ' ') = c :: (t ++ ' ' :: rest) := by
    rw [List.cons_append, List.dropWhile_cons, if_neg (by simpa using hc)]
  unfold strtok
  rw [e1]
  dsimp only
  have e2 := takeWhile_no_space (c :: t) rest h
  have e3 := dropWhile_no_space (c :: t) rest h
  rw [List.cons_append] at e2 e3
  rw [e2, e3]
  rfl

/-- The call of `strtok` on a token that ends the string. -/
theorem strtok_last (token : List Char) (hne : token ≠ []) (h : ' ' ∉ token) :
    strtok token = some (token, []) := by
  obtain ⟨c, t, rfl⟩ := List.exists_cons_of_ne_nil hne
  have hc : c ≠ ' ' := fun e => h (by rw [e]; exact List.mem_cons_self _ _)
  have e1 : (c :: t).dropWhile (fun c => c = ' ') = c :: t := by
    rw [List.dropWhile_cons, if_neg (by simpa using hc)]
  unfold strtok
  rw [e1]
  dsimp only
  rw [takeWhile_no_space_end (c :: t) h, dropWhile_no_space_end (c :: t) h]
  rfl

theorem count_no_space (token : List Char) (h : ' ' ∉ token) : token.count ' ' = 0 :=
  List.count_eq_zero.mpr h

/-- The tokens of a header line of four tokens with single spaces. -/
theorem tokenise_header_line (t0 t1 t2 t3 : List Char)
    (n0 : t0 ≠ []) (n1 : t1 ≠ []) (n2 : t2 ≠ []) (n3 : t3 ≠ [])
    (s0 : ' ' ∉ t0) (s1 : ' ' ∉ t1) (s2 : ' ' ∉ t2) (s3 : ' ' ∉ t3) :
    tokenise_string (header_line t0 t1 t2 t3) 4 = [t0, t1, t2, t3] := by
  have hcount : (header_line t0 t1 t2 t3).count ' ' = 3 := by
    unfold header_line
    simp only [List.count_append, List.count_cons_self, count_no_space _ s0,
      count_no_space _ s1, count_no_space _ s2, count_no_space _ s3]
  unfold tokenise_string
  dsimp only
  rw [hcount]
  unfold header_line
  rw [strtok_token t0 _ n0 s0]
  simp only [tokenise_loop, strtok_token t1 _ n1 s1, strtok_token t2 _ n2 s2,
    strtok_last t3 n3 s3, Nat.reduceLT, decide_True, if_true]

/-! ### `parse_header` and `validate_dimension` -/

theorem integer_value_ne_nil (token : List Char) (v : Int) (h : integer_value token = some v) :
    token ≠ [] :=
  ((integer_value_eq_some token v).mp h).1

/-- The header values `parse_header` checks when the four tokens convert. -/
theorem parse_header_converted (t0 t1 t2 t3 : List Char) (v0 v1 v2 v3 : Int)
    (headerInfo : Int → Int) (game : Game)
    (s0 : ' ' ∉ t0) (s1 : ' ' ∉ t1) (s2 : ' ' ∉ t2) (s3 : ' ' ∉ t3)
    (e0 : integer_value t0 = some v0) (e1 : integer_value t1 = some v1)
    (e2 : integer_value t2 = some v2) (e3 : integer_value t3 = some v3)
    (i0 : INT_MIN < v0 ∧ v0 < INT_MAX) (i1 : INT_MIN < v1 ∧ v1 < INT_MAX)
    (i2 : INT_MIN < v2 ∧ v2 < INT_MAX) (i3 : INT_MIN < v3 ∧ v3 < INT_MAX) :
    ∃ converted : Int → Int,
      converted 0 = v0 ∧ converted 1 = v1 ∧ converted 2 = v2 ∧ converted 3 = v3 ∧
      parse_header (header_line t0 t1 t2 t3) headerInfo game =
        parse_header_values converted game := by
  have n0 := integer_value_ne_nil _ _ e0
  have n1 := integer_value_ne_nil _ _ e1
  have n2 := integer_value_ne_nil _ _ e2
  have n3 := integer_value_ne_nil _ _ e3
  have hany : [t0, t1, t2, t3].any (fun token => decide (token.length = 0)) = false := by
    simp [n0, n1, n2, n3]
  have hconv : convert_token_to_int [t0, t1, t2, t3] headerInfo 4 =
      (TokenCode.NO_TOKEN_ERROR, fun i =>
        if i = 0 + 1 + 1 + 1 then v3 else if i = 0 + 1 + 1 then v2 else if i = 0 + 1 then v1
        else if i = 0 then v0 else headerInfo i) := by
    unfold convert_token_to_int
    rw [show List.take 4 [t0, t1, t2, t3] = [t0, t1, t2, t3] from rfl,
      convert_token_loop_some _ _ _ _ _ e0 i0.1 i0.2,
      convert_token_loop_some _ _ _ _ _ e1 i1.1 i1.2,
      convert_token_loop_some _ _ _ _ _ e2 i2.1 i2.2,
      convert_token_loop_some _ _ _ _ _ e3 i3.1 i3.2, convert_token_loop]
  refine ⟨(convert_token_to_int [t0, t1, t2, t3] headerInfo 4).2, ?_, ?_, ?_, ?_, ?_⟩
  · rw [hconv]
    simp
  · rw [hconv]
    simp
  · rw [hconv]
    simp
  · rw [hconv]
    simp
  · unfold parse_header
    dsimp only
    rw [tokenise_header_line t0 t1 t2 t3 n0 n1 n2 n3 s0 s1 s2 s3, hany]
    rfl

/-- The result of the range checks of `parse_header`. -/
theorem parse_header_values_false (headerInfo : Int → Int) (game : Game) :
    ((parse_header_values headerInfo game).1 = false ↔
      (headerInfo 0 < 0 ∨ headerInfo 0 ≥ game.tiles.total ∨ headerInfo 1 < 0 ∨
        headerInfo 1 > 1 ∨ headerInfo 2 > 999 ∨ headerInfo 2 < 1 ∨ headerInfo 3 > 999 ∨
        headerInfo 3 < 1)) ∧
    ((parse_header_values headerInfo game).1 = false →
      (parse_header_values headerInfo game).2 = game) := by
  unfold parse_header_values
  dsimp only
  split
  · rename_i h
    exact ⟨⟨fun _ => h, fun _ => rfl⟩, fun _ => rfl⟩
  · rename_i h
    refine ⟨⟨fun e => ?_, fun e => absurd e h⟩, fun e => ?_⟩
    · cases e
    · cases e

/-- A call of `parse_header` that returns false leaves the game as it was. -/
theorem parse_header_false_keeps (firstLine : List Char) (headerInfo : Int → Int)
    (game : Game) (h : (parse_header firstLine headerInfo game).1 = false) :
    (parse_header firstLine headerInfo game).2 = game := by
  unfold parse_header at h ⊢
  dsimp only at h ⊢
  split
  · rfl
  · rename_i hany
    rw [if_neg hany] at h
    exact (parse_header_values_false _ game).2 h

/-- The state after the range checks of `parse_header` have passed. -/
theorem parse_header_values_true (headerInfo : Int → Int) (game : Game)
    (h : 0 ≤ headerInfo 0 ∧ headerInfo 0 < game.tiles.total ∧ 0 ≤ headerInfo 1 ∧
      headerInfo 1 ≤ 1 ∧ 1 ≤ headerInfo 2 ∧ headerInfo 2 ≤ 999 ∧ 1 ≤ headerInfo 3 ∧
      headerInfo 3 ≤ 999) :
    parse_header_values headerInfo game =
      (true,
        { game with
          tiles := { game.tiles with current := headerInfo 0 }
          turn := headerInfo 1
          gameBoard := reallocate_grid game.gameBoard (headerInfo 2) (headerInfo 3) }) := by
  unfold parse_header_values
  dsimp only
  rw [if_neg]
  omega

/-- The conversion of the two tokens of `validate_dimension`. -/
theorem convert_dimension (height width : List Char) (dimension : Int → Int) :
    (∀ vh vw, integer_value height = some vh → integer_value width = some vw →
      INT_MIN < vh → vh < INT_MAX → INT_MIN < vw → vw < INT_MAX →
      (convert_token_to_int [height, width] dimension 2).1 = TokenCode.NO_TOKEN_ERROR ∧
      (convert_token_to_int [height, width] dimension 2).2 0 = vh ∧
      (convert_token_to_int [height, width] dimension 2).2 1 = vw) ∧
    ((∀ vh, integer_value height = some vh → vh ≤ INT_MIN ∨ vh ≥ INT_MAX) →
      (convert_token_to_int [height, width] dimension 2).1 = TokenCode.INVALID_INPUT) ∧
    ((∀ vw, integer_value width = some vw → vw ≤ INT_MIN ∨ vw ≥ INT_MAX) →
      (convert_token_to_int [height, width] dimension 2).1 = TokenCode.INVALID_INPUT) := by
  have htake : List.take 2 [height, width] = [height, width] := rfl
  refine ⟨?_, ?_, ?_⟩
  · intro vh vw eh ew h1 h2 h3 h4
    unfold convert_token_to_int
    rw [htake, convert_token_loop_some _ _ _ _ _ eh h1 h2,
      convert_token_loop_some _ _ _ _ _ ew h3 h4, convert_token_loop]
    simp
  · intro h
    unfold convert_token_to_int
    rw [htake, convert_token_loop_invalid _ _ _ _ h]
  · intro h
    unfold convert_token_to_int
    rw [htake]
    by_cases hh : ∀ vh, integer_value height = some vh → vh ≤ INT_MIN ∨ vh ≥ INT_MAX
    · rw [convert_token_loop_invalid _ _ _ _ hh]
    · have hh2 : ∃ vh, integer_value height = some vh ∧ INT_MIN < vh ∧ vh < INT_MAX := by
        by_contra hc
        apply hh
        intro vh e
        by_contra hc2
        exact hc ⟨vh, e, by omega, by omega⟩
      obtain ⟨vh, eh, h1, h2⟩ := hh2
      rw [convert_token_loop_some _ _ _ _ _ eh h1 h2, convert_token_loop_invalid _ _ _ _ h]

/-- The result of `validate_dimension` on two tokens that are integers in the
range 1..999: the first argument of `reallocate_grid` is the value of the
token `width`. -/
theorem validate_dimension_valid (height width : List Char) (vh vw : Int)
    (dimension : Int → Int) (game : Game)
    (eh : integer_value height = some vh) (ew : integer_value width = some vw)
    (hh : 1 ≤ vh ∧ vh ≤ 999) (hw : 1 ≤ vw ∧ vw ≤ 999) :
    validate_dimension height width dimension game =
      (ErrorCode.NO_ERROR, { game with gameBoard := reallocate_grid game.gameBoard vw vh }) := by
  have hmin : INT_MIN = -2147483648 := rfl
  have hmax : INT_MAX = 2147483647 := rfl
  obtain ⟨c, c0, c1⟩ := (convert_dimension height width dimension).1 vh vw eh ew
    (by omega) (by omega) (by omega) (by omega)
  unfold validate_dimension
  dsimp only
  rw [c, c0, c1, if_neg (by decide), if_neg (by omega)]

/-- The result of `validate_dimension` on tokens of which one is no integer in
the range 1..999. -/
theorem validate_dimension_invalid (height width : List Char) (dimension : Int → Int)
    (game : Game)
    (h : (∀ vh, integer_value height = some vh → vh < 1 ∨ 999 < vh) ∨
      (∀ vw, integer_value width = some vw → vw < 1 ∨ 999 < vw)) :
    validate_dimension height width dimension game = (ErrorCode.DIM_INVALID, game) := by
  have hmin : INT_MIN = -2147483648 := rfl
  have hmax : INT_MAX = 2147483647 := rfl
  unfold validate_dimension
  dsimp only
  by_cases hc : (convert_token_to_int [height, width] dimension 2).1 = TokenCode.INVALID_INPUT
  · rw [if_pos hc]
  · rw [if_neg hc, if_pos]
    have hvh : ∃ vh, integer_value height = some vh ∧ INT_MIN < vh ∧ vh < INT_MAX := by
      by_contra hn
      apply hc
      apply (convert_dimension height width dimension).2.1
      intro vh e
      by_contra hc2
      exact hn ⟨vh, e, by omega, by omega⟩
    have hvw : ∃ vw, integer_value width = some vw ∧ INT_MIN < vw ∧ vw < INT_MAX := by
      by_contra hn
      apply hc
      apply (convert_dimension height width dimension).2.2
      intro vw e
      by_contra hc2
      exact hn ⟨vw, e, by omega, by omega⟩
    obtain ⟨vh, eh, h1, h2⟩ := hvh
    obtain ⟨vw, ew, h3, h4⟩ := hvw
    obtain ⟨_, c0, c1⟩ := (convert_dimension height width dimension).1 vh vw eh ew h1 h2 h3 h4
    rw [c0, c1]
    rcases h with h | h
    · have := h vh eh
      omega
    · have := h vw ew
      omega

/-! ### The loop of `validate_tile_file` on a file made of blocks -/

theorem loop_marker (character : Char) (rest : List Char) (row col : Int)
    (lineTerminated : Bool) (tiles : Tiles) (hrow : row < 5) (hcol : col < 5)
    (hch : character = ',' ∨ character = '!') :
    validate_tile_loop (character :: rest) row col lineTerminated tiles =
      validate_tile_loop rest row (col + 1) false (write_cell tiles row col character) := by
  have hnl : character ≠ '\n' := by
    rcases hch with h | h <;> rw [h] <;> decide
  have hdim : ¬ (row ≥ TILE_GRID_SQR_DIM ∨ col ≥ TILE_GRID_SQR_DIM) := by
    have e : TILE_GRID_SQR_DIM = 5 := rfl
    omega
  rw [validate_tile_loop, if_neg hnl]
  unfold validate_current_position
  rw [if_neg hdim]
  rcases hch with h | h
  · subst h
    rfl
  · subst h
    rfl

theorem loop_line_end (rest : List Char) (row col : Int) (tiles : Tiles) (hcol : 5 ≤ col) :
    validate_tile_loop ('\n' :: rest) row col false tiles =
      validate_tile_loop rest (row + 1) 0 true tiles := by
  have hdim : ¬ col < TILE_GRID_SQR_DIM := by
    have e : TILE_GRID_SQR_DIM = 5 := rfl
    omega
  rw [validate_tile_loop, if_pos rfl, if_neg (by decide), if_neg hdim]

theorem loop_block_end (rest : List Char) (row col : Int) (tiles : Tiles) (hrow : 5 ≤ row) :
    validate_tile_loop ('\n' :: rest) row col true tiles =
      validate_tile_loop rest 0 0 true (initialise_new_tile tiles) := by
  have hdim : ¬ row < TILE_GRID_SQR_DIM := by
    have e : TILE_GRID_SQR_DIM = 5 := rfl
    omega
  rw [validate_tile_loop, if_pos rfl, if_pos rfl, if_neg hdim]

theorem loop_file_end (row col : Int) (lineTerminated : Bool) (tiles : Tiles) (hrow : 5 ≤ row) :
    validate_tile_loop [] row col lineTerminated tiles =
      (ErrorCode.NO_ERROR, rotate_tile tiles) := by
  have hdim : ¬ row < TILE_GRID_SQR_DIM := by
    have e : TILE_GRID_SQR_DIM = 5 := rfl
    omega
  rw [validate_tile_loop, if_neg hdim]

theorem tile_line_ok_cases (line : List Char) (h : tile_line_ok line) :
    ∃ a b c d e, line = [a, b, c, d, e] ∧ (a = ',' ∨ a = '!') ∧ (b = ',' ∨ b = '!') ∧
      (c = ',' ∨ c = '!') ∧ (d = ',' ∨ d = '!') ∧ (e = ',' ∨ e = '!') := by
  obtain ⟨hlen, hch⟩ := h
  match line, hlen, hch with
  | [a, b, c, d, e], _, hch =>
    exact ⟨a, b, c, d, e, rfl, hch a (by simp), hch b (by simp), hch c (by simp),
      hch d (by simp), hch e (by simp)⟩

theorem tile_block_ok_cases (block : List (List Char)) (h : tile_block_ok block) :
    ∃ l0 l1 l2 l3 l4, block = [l0, l1, l2, l3, l4] ∧ tile_line_ok l0 ∧ tile_line_ok l1 ∧
      tile_line_ok l2 ∧ tile_line_ok l3 ∧ tile_line_ok l4 := by
  obtain ⟨hlen, hl⟩ := h
  match block, hlen, hl with
  | [l0, l1, l2, l3, l4], _, hl =>
    exact ⟨l0, l1, l2, l3, l4, rfl, hl l0 (by simp), hl l1 (by simp), hl l2 (by simp),
      hl l3 (by simp), hl l4 (by simp)⟩

/-- The loop of `validate_tile_file` over a line of a block. -/
theorem loop_line (line rest : List Char) (row : Int) (lineTerminated : Bool) (tiles : Tiles)
    (hrow : row < 5) (h : tile_line_ok line) :
    validate_tile_loop (line ++ '\n' :: rest) row 0 lineTerminated tiles =
      validate_tile_loop rest (row + 1) 0 true (write_line tiles row line) := by
  obtain ⟨a, b, c, d, e, rfl, ha, hb, hc, hd, he⟩ := tile_line_ok_cases line h
  show validate_tile_loop (a :: b :: c :: d :: e :: '\n' :: rest) row 0 lineTerminated tiles = _
  rw [loop_marker a _ row _ _ _ hrow (by decide) ha,
    loop_marker b _ row _ _ _ hrow (by decide) hb,
    loop_marker c _ row _ _ _ hrow (by decide) hc,
    loop_marker d _ row _ _ _ hrow (by decide) hd,
    loop_marker e _ row _ _ _ hrow (by decide) he,
    loop_line_end _ row _ _ (by decide)]
  rfl

/-- The loop of `validate_tile_file` over a block. -/
theorem loop_block (block : List (List Char)) (rest : List Char) (lineTerminated : Bool)
    (tiles : Tiles) (h : tile_block_ok block) :
    validate_tile_loop (block_text block ++ rest) 0 0 lineTerminated tiles =
      validate_tile_loop rest 5 0 true (write_block tiles block) := by
  obtain ⟨l0, l1, l2, l3, l4, rfl, h0, h1, h2, h3, h4⟩ := tile_block_ok_cases block h
  have e : block_text [l0, l1, l2, l3, l4] ++ rest =
      l0 ++ '\n' :: (l1 ++ '\n' :: (l2 ++ '\n' :: (l3 ++ '\n' :: (l4 ++ '\n' :: rest)))) := by
    simp [block_text]
  rw [e, loop_line l0 _ 0 _ _ (by decide) h0, loop_line l1 _ _ _ _ (by decide) h1,
    loop_line l2 _ _ _ _ (by decide) h2, loop_line l3 _ _ _ _ (by decide) h3,
    loop_line l4 _ _ _ _ (by decide) h4]
  rfl

/-- The loop of `validate_tile_file` over a file made of blocks. -/
theorem loop_blocks (blocks : List (List (List Char))) (hne : blocks ≠ [])
    (hok : ∀ block ∈ blocks, tile_block_ok block) (lineTerminated : Bool) (tiles : Tiles) :
    validate_tile_loop (file_text blocks) 0 0 lineTerminated tiles =
      (ErrorCode.NO_ERROR, rotate_tile (write_blocks tiles blocks)) := by
  induction blocks generalizing lineTerminated tiles with
  | nil => exact absurd rfl hne
  | cons block rest ih =>
    cases rest with
    | nil =>
      have e := loop_block block [] lineTerminated tiles (hok block (by simp))
      rw [List.append_nil] at e
      rw [file_text, e, loop_file_end _ _ _ _ (by decide)]
      rfl
    | cons next rest =>
      rw [file_text, loop_block block _ lineTerminated tiles (hok block (by simp)),
        loop_block_end _ _ _ _ (by decide),
        ih (by simp) (fun b hb => hok b (List.mem_cons_of_mem _ hb))]
      rfl

/-! ### The files `validate_tile_file` accepts -/

theorem loop_accepts_marker (content : List Char) (row col : Int) (lineTerminated : Bool)
    (tiles : Tiles) (hrow : row < 5) (hcol : col < 5)
    (h : (validate_tile_loop content row col lineTerminated tiles).1 = ErrorCode.NO_ERROR) :
    ∃ character rest, content = character :: rest ∧ (character = ',' ∨ character = '!') := by
  have e : TILE_GRID_SQR_DIM = 5 := rfl
  cases content with
  | nil =>
    rw [validate_tile_loop, if_pos (by omega)] at h
    cases h
  | cons character rest =>
    refine ⟨character, rest, rfl, ?_⟩
    by_contra hch
    rw [validate_tile_loop] at h
    by_cases hnl : character = '\n'
    · rw [if_pos hnl] at h
      cases lineTerminated with
      | true =>
        rw [if_pos rfl, if_pos (by omega)] at h
        cases h
      | false =>
        rw [if_neg (by decide), if_pos (by omega)] at h
        cases h
    · rw [if_neg hnl] at h
      have hv : validate_current_position row col character
          (tiles.grid 0 (tiles.total - 1)) = (false, tiles.grid 0 (tiles.total - 1)) := by
        unfold validate_current_position
        rw [if_neg (by omega), if_neg (fun e1 => hch (Or.inl e1)),
          if_neg (fun e1 => hch (Or.inr e1))]
      rw [hv] at h
      cases h

theorem loop_accepts_line_end (content : List Char) (row col : Int) (tiles : Tiles)
    (hrow : row < 5) (hcol : 5 ≤ col)
    (h : (validate_tile_loop content row col false tiles).1 = ErrorCode.NO_ERROR) :
    ∃ rest, content = '\n' :: rest := by
  have e : TILE_GRID_SQR_DIM = 5 := rfl
  cases content with
  | nil =>
    rw [validate_tile_loop, if_pos (by omega)] at h
    cases h
  | cons character rest =>
    by_cases hnl : character = '\n'
    · exact ⟨rest, by rw [hnl]⟩
    · rw [validate_tile_loop, if_neg hnl] at h
      have hv : validate_current_position row col character
          (tiles.grid 0 (tiles.total - 1)) = (false, tiles.grid 0 (tiles.total - 1)) := by
        unfold validate_current_position
        rw [if_pos (Or.inr (by omega))]
      rw [hv] at h
      cases h

theorem loop_accepts_block_end (content : List Char) (row col : Int) (tiles : Tiles)
    (hrow : 5 ≤ row)
    (h : (validate_tile_loop content row col true tiles).1 = ErrorCode.NO_ERROR) :
    content = [] ∨ ∃ rest, content = '\n' :: rest := by
  have e : TILE_GRID_SQR_DIM = 5 := rfl
  cases content with
  | nil => exact Or.inl rfl
  | cons character rest =>
    by_cases hnl : character = '\n'
    · exact Or.inr ⟨rest, by rw [hnl]⟩
    · rw [validate_tile_loop, if_neg hnl] at h
      have hv : validate_current_position row col character
          (tiles.grid 0 (tiles.total - 1)) = (false, tiles.grid 0 (tiles.total - 1)) := by
        unfold validate_current_position
        rw [if_pos (Or.inl (by omega))]
      rw [hv] at h
      cases h

/-- An accepted text starts, at the start of a row, with a line of a block. -/
theorem loop_accepts_line (content : List Char) (row : Int) (lineTerminated : Bool)
    (tiles : Tiles) (hrow : row < 5)
    (h : (validate_tile_loop content row 0 lineTerminated tiles).1 = ErrorCode.NO_ERROR) :
    ∃ line rest, tile_line_ok line ∧ content = line ++ '\n' :: rest := by
  obtain ⟨a, r1, rfl, ha⟩ := loop_accepts_marker _ _ _ _ _ hrow (by decide) h
  rw [loop_marker a _ row _ _ _ hrow (by decide) ha] at h
  obtain ⟨b, r2, rfl, hb⟩ := loop_accepts_marker _ _ _ _ _ hrow (by decide) h
  rw [loop_marker b _ row _ _ _ hrow (by decide) hb] at h
  obtain ⟨c, r3, rfl, hc⟩ := loop_accepts_marker _ _ _ _ _ hrow (by decide) h
  rw [loop_marker c _ row _ _ _ hrow (by decide) hc] at h
  obtain ⟨d, r4, rfl, hd⟩ := loop_accepts_marker _ _ _ _ _ hrow (by decide) h
  rw [loop_marker d _ row _ _ _ hrow (by decide) hd] at h
  obtain ⟨e, r5, rfl, he⟩ := loop_accepts_marker _ _ _ _ _ hrow (by decide) h
  rw [loop_marker e _ row _ _ _ hrow (by decide) he] at h
  obtain ⟨rest, rfl⟩ := loop_accepts_line_end _ _ _ _ hrow (by decide) h
  refine ⟨[a, b, c, d, e], rest, ⟨rfl, ?_⟩, rfl⟩
  intro ch hch
  simp only [List.mem_cons, List.mem_singleton, List.not_mem_nil, or_false] at hch
  rcases hch with rfl | rfl | rfl | rfl | rfl <;> assumption

/-- An accepted text starts, at the start of a tile, with a block. -/
theorem loop_accepts_block (content : List Char) (lineTerminated : Bool) (tiles : Tiles)
    (h : (validate_tile_loop content 0 0 lineTerminated tiles).1 = ErrorCode.NO_ERROR) :
    ∃ block rest, tile_block_ok block ∧ content = block_text block ++ rest := by
  obtain ⟨l0, r0, h0, rfl⟩ := loop_accepts_line _ _ _ _ (by decide) h
  rw [loop_line l0 _ _ _ _ (by decide) h0] at h
  obtain ⟨l1, r1, h1, rfl⟩ := loop_accepts_line _ _ _ _ (by decide) h
  rw [loop_line l1 _ _ _ _ (by decide) h1] at h
  obtain ⟨l2, r2, h2, rfl⟩ := loop_accepts_line _ _ _ _ (by decide) h
  rw [loop_line l2 _ _ _ _ (by decide) h2] at h
  obtain ⟨l3, r3, h3, rfl⟩ := loop_accepts_line _ _ _ _ (by decide) h
  rw [loop_line l3 _ _ _ _ (by decide) h3] at h
  obtain ⟨l4, r4, h4, rfl⟩ := loop_accepts_line _ _ _ _ (by decide) h
  refine ⟨[l0, l1, l2, l3, l4], r4, ⟨rfl, ?_⟩, by simp [block_text]⟩
  intro line hl
  simp only [List.mem_cons, List.mem_singleton, List.not_mem_nil, or_false] at hl
  rcases hl with rfl | rfl | rfl | rfl | rfl <;> assumption

theorem block_text_length (block : List (List Char)) (h : tile_block_ok block) :
    (block_text block).length = 30 := by
  obtain ⟨l0, l1, l2, l3, l4, rfl, h0, h1, h2, h3, h4⟩ := tile_block_ok_cases block h
  simp [block_text, h0.1, h1.1, h2.1, h3.1, h4.1]

/-- An accepted text is the text of one or more blocks. -/
theorem loop_accepts_blocks (n : Nat) (content : List Char) (hn : content.length ≤ n)
    (lineTerminated : Bool) (tiles : Tiles)
    (h : (validate_tile_loop content 0 0 lineTerminated tiles).1 = ErrorCode.NO_ERROR) :
    ∃ blocks, blocks ≠ [] ∧ (∀ block ∈ blocks, tile_block_ok block) ∧
      content = file_text blocks := by
  induction n generalizing content lineTerminated tiles with
  | zero =>
    have e : content = [] := List.length_eq_zero.mp (by omega)
    subst e
    rw [validate_tile_loop, if_pos (by decide)] at h
    cases h
  | succ n ih =>
    obtain ⟨block, rest, hb, rfl⟩ := loop_accepts_block _ _ _ h
    rw [loop_block block rest _ _ hb] at h
    rcases loop_accepts_block_end _ _ _ _ (by decide) h with rfl | ⟨rest2, rfl⟩
    · refine ⟨[block], by simp, ?_, by simp [file_text]⟩
      intro b hb2
      rw [List.mem_singleton] at hb2
      rw [hb2]
      exact hb
    · rw [loop_block_end _ _ _ _ (by decide)] at h
      have hlen : rest2.length ≤ n := by
        rw [List.length_append, block_text_length block hb, List.length_cons] at hn
        omega
      obtain ⟨blocks, hne, hok, rfl⟩ := ih rest2 hlen _ _ h
      obtain ⟨next, more, rfl⟩ := List.exists_cons_of_ne_nil hne
      refine ⟨block :: next :: more, by simp, ?_, by rw [file_text]⟩
      intro b hb2
      rcases List.mem_cons.mp hb2 with e | e
      · rw [e]
        exact hb
      · exact hok b e

/-! ### The cells `validate_tile_file` writes -/

theorem write_cell_grid (tiles : Tiles) (row col : Int) (character : Char) (k i r c : Int) :
    (write_cell tiles row col character).grid k i r c =
      if (k = 0 ∧ i = tiles.total - 1) ∧ r = row ∧ c = col then
        (if character = '!' then 1 else 0)
      else tiles.grid k i r c := by
  unfold write_cell tiles_set mask_set
  dsimp only
  by_cases h1 : k = 0 ∧ i = tiles.total - 1
  · by_cases h2 : r = row ∧ c = col
    · simp only [h1, h2, and_self, if_true]
    · simp only [h1, h2, and_self, and_false, if_true, if_false]
  · simp only [h1, false_and, if_false]

theorem write_line_total (tiles : Tiles) (row : Int) (line : List Char) :
    (write_line tiles row line).total = tiles.total := by
  unfold write_line
  suffices h : ∀ (l : List Char) (acc : Tiles × Int),
      (l.foldl (fun (acc : Tiles × Int) ch => (write_cell acc.1 row acc.2 ch, acc.2 + 1))
        acc).1.total = acc.1.total from h line (tiles, 0)
  intro l
  induction l with
  | nil => intro acc; rfl
  | cons a l ih =>
    intro acc
    rw [List.foldl_cons, ih]
    rfl

/-- The cells after a line of a block has been read into row `row`. -/
theorem write_line_grid (tiles : Tiles) (row : Int) (line : List Char) (h : tile_line_ok line)
    (k i r c : Int) :
    (write_line tiles row line).grid k i r c =
      if (k = 0 ∧ i = tiles.total - 1) ∧ r = row ∧ (0 ≤ c ∧ c < 5) then
        (if line.getD c.toNat ',' = '!' then 1 else 0)
      else tiles.grid k i r c := by
  obtain ⟨a, b, cc, d, e, rfl, -⟩ := tile_line_ok_cases line h
  show (write_cell (write_cell (write_cell (write_cell (write_cell tiles row 0 a) row (0 + 1) b)
    row (0 + 1 + 1) cc) row (0 + 1 + 1 + 1) d) row (0 + 1 + 1 + 1 + 1) e).grid k i r c = _
  simp only [write_cell_grid]
  have ht : ∀ (t : Tiles) (x : Int) (ch : Char), (write_cell t row x ch).total = t.total :=
    fun _ _ _ => rfl
  simp only [ht]
  by_cases h1 : (k = 0 ∧ i = tiles.total - 1) ∧ r = row
  · by_cases h2 : 0 ≤ c ∧ c < 5
    · obtain ⟨h3, h4⟩ := h2
      interval_cases c <;> simp [h1.1, h1.2]
    · have n0 : c ≠ 0 := fun hx => h2 (by omega)
      have n1 : c ≠ 0 + 1 := fun hx => h2 (by omega)
      have n2 : c ≠ 0 + 1 + 1 := fun hx => h2 (by omega)
      have n3 : c ≠ 0 + 1 + 1 + 1 := fun hx => h2 (by omega)
      have n4 : c ≠ 0 + 1 + 1 + 1 + 1 := fun hx => h2 (by omega)
      simp only [n0, n1, n2, n3, n4, h2, and_false, if_false]
  · have hn : ∀ x : Int, ¬ ((k = 0 ∧ i = tiles.total - 1) ∧ r = row ∧ c = x) :=
      fun x hx => h1 ⟨hx.1, hx.2.1⟩
    have hm : ¬ ((k = 0 ∧ i = tiles.total - 1) ∧ r = row ∧ (0 ≤ c ∧ c < 5)) :=
      fun hx => h1 ⟨hx.1, hx.2.1⟩
    simp only [hn, hm, if_false]

theorem write_block_total (tiles : Tiles) (block : List (List Char)) :
    (write_block tiles block).total = tiles.total := by
  unfold write_block
  suffices h : ∀ (l : List (List Char)) (acc : Tiles × Int),
      (l.foldl (fun (acc : Tiles × Int) line => (write_line acc.1 acc.2 line, acc.2 + 1))
        acc).1.total = acc.1.total from h block (tiles, 0)
  intro l
  induction l with
  | nil => intro acc; rfl
  | cons a l ih =>
    intro acc
    rw [List.foldl_cons, ih]
    exact write_line_total _ _ _

/-- The cells after a block has been read into the last tile. -/
theorem write_block_grid (tiles : Tiles) (block : List (List Char)) (h : tile_block_ok block)
    (k i r c : Int) :
    (write_block tiles block).grid k i r c =
      if (k = 0 ∧ i = tiles.total - 1) ∧ (0 ≤ r ∧ r < 5) ∧ (0 ≤ c ∧ c < 5) then
        (if block_char block r.toNat c.toNat = '!' then 1 else 0)
      else tiles.grid k i r c := by
  obtain ⟨l0, l1, l2, l3, l4, rfl, h0, h1, h2, h3, h4⟩ := tile_block_ok_cases block h
  show (write_line (write_line (write_line (write_line (write_line tiles 0 l0) (0 + 1) l1)
    (0 + 1 + 1) l2) (0 + 1 + 1 + 1) l3) (0 + 1 + 1 + 1 + 1) l4).grid k i r c = _
  rw [write_line_grid _ _ _ h4, write_line_grid _ _ _ h3, write_line_grid _ _ _ h2,
    write_line_grid _ _ _ h1, write_line_grid _ _ _ h0]
  simp only [write_line_total]
  by_cases hk : k = 0 ∧ i = tiles.total - 1
  · by_cases hc : 0 ≤ c ∧ c < 5
    · by_cases hr : 0 ≤ r ∧ r < 5
      · obtain ⟨h5, h6⟩ := hr
        interval_cases r <;> simp [hk.1, hk.2, hc.1, hc.2, block_char]
      · have n0 : r ≠ 0 := fun hx => hr (by omega)
        have n1 : r ≠ 0 + 1 := fun hx => hr (by omega)
        have n2 : r ≠ 0 + 1 + 1 := fun hx => hr (by omega)
        have n3 : r ≠ 0 + 1 + 1 + 1 := fun hx => hr (by omega)
        have n4 : r ≠ 0 + 1 + 1 + 1 + 1 := fun hx => hr (by omega)
        simp only [n0, n1, n2, n3, n4, hr, false_and, and_false, if_false]
    · simp only [hc, and_false, if_false]
  · simp only [hk, false_and, if_false]

theorem foldl_tiles_set_other (l : List Int) (grid : Int → Int → Mask) (t : Int) (tile : Mask)
    (k i : Int) (h : i ≠ t) :
    (l.foldl (fun grid rotationIndex => tiles_set grid rotationIndex t tile) grid) k i =
      grid k i := by
  induction l generalizing grid with
  | nil => rfl
  | cons a l ih =>
    rw [List.foldl_cons, ih]
    unfold tiles_set
    rw [if_neg (fun hx => h hx.2)]

/-- The function `initialise_new_tile` leaves the layouts of the tiles there were. -/
theorem initialise_new_tile_keeps (tiles : Tiles) (k i : Int) (h : i ≠ tiles.total) :
    (initialise_new_tile tiles).grid k i = tiles.grid k i :=
  foldl_tiles_set_other _ _ _ _ k i h

theorem write_blocks_total (blocks : List (List (List Char))) (hne : blocks ≠ [])
    (tiles : Tiles) :
    (write_blocks tiles blocks).total = tiles.total + blocks.length - 1 := by
  induction blocks generalizing tiles with
  | nil => exact absurd rfl hne
  | cons block rest ih =>
    cases rest with
    | nil =>
      rw [write_blocks, write_block_total, List.length_singleton]
      omega
    | cons next rest =>
      rw [write_blocks, ih (by simp), (initialise_new_tile_total _).1, write_block_total]
      simp only [List.length_cons]
      push_cast
      omega

/-- Reading blocks leaves the layouts of the tiles before the last one. -/
theorem write_blocks_keeps (blocks : List (List (List Char)))
    (hok : ∀ block ∈ blocks, tile_block_ok block) (tiles : Tiles) (k i : Int)
    (h : i < tiles.total - 1) :
    (write_blocks tiles blocks).grid k i = tiles.grid k i := by
  induction blocks generalizing tiles with
  | nil => rfl
  | cons block rest ih =>
    have hb : (write_block tiles block).grid k i = tiles.grid k i := by
      funext r c
      rw [write_block_grid _ _ (hok block (by simp)), if_neg]
      intro hx
      omega
    cases rest with
    | nil => exact hb
    | cons next rest =>
      rw [write_blocks, ih (fun b hb2 => hok b (List.mem_cons_of_mem _ hb2)),
        initialise_new_tile_keeps, hb]
      · rw [write_block_total]
        omega
      · rw [(initialise_new_tile_total _).1, write_block_total]
        omega

/-- The cells after the blocks of a file have been read. -/
theorem write_blocks_grid (blocks : List (List (List Char)))
    (hok : ∀ block ∈ blocks, tile_block_ok block) (tiles : Tiles) (j r c : Nat)
    (hj : j < blocks.length) (hr : r < 5) (hc : c < 5) :
    (write_blocks tiles blocks).grid 0 (tiles.total - 1 + j) r c =
      if block_char (blocks.getD j []) r c = '!' then 1 else 0 := by
  induction blocks generalizing tiles j with
  | nil => exact absurd hj (by simp)
  | cons block rest ih =>
    have hb : (write_block tiles block).grid 0 (tiles.total - 1) r c =
        if block_char block r c = '!' then 1 else 0 := by
      rw [write_block_grid _ _ (hok block (by simp)),
        if_pos ⟨⟨rfl, rfl⟩, ⟨by omega, by omega⟩, by omega, by omega⟩]
      simp
    cases rest with
    | nil =>
      have e : j = 0 := by
        simp only [List.length_singleton] at hj
        omega
      subst e
      simp only [Nat.cast_zero, add_zero, List.getD_cons_zero]
      exact hb
    | cons next rest =>
      rw [write_blocks]
      cases j with
      | zero =>
        simp only [Nat.cast_zero, add_zero, List.getD_cons_zero]
        rw [write_blocks_keeps _ (fun b hb2 => hok b (List.mem_cons_of_mem _ hb2)),
          initialise_new_tile_keeps, hb]
        · rw [write_block_total]
          omega
        · rw [(initialise_new_tile_total _).1, write_block_total]
          omega
      | succ j =>
        have hj2 : j < (next :: rest).length := by
          have e : (block :: next :: rest).length = (next :: rest).length + 1 := rfl
          omega
        have := ih (fun b hb2 => hok b (List.mem_cons_of_mem _ hb2))
          (initialise_new_tile (write_block tiles block)) j hj2
        rw [(initialise_new_tile_total _).1, write_block_total] at this
        have e : tiles.total - 1 + ((j + 1 : Nat) : Int) = tiles.total + 1 - 1 + (j : Int) := by
          push_cast
          omega
        rw [List.getD_cons_succ, ← this, e]

/-- The result of `validate_tile_file` on a file made of blocks. -/
theorem validate_tile_file_blocks (blocks : List (List (List Char))) (hne : blocks ≠ [])
    (hok : ∀ block ∈ blocks, tile_block_ok block) (tiles : Tiles) :
    validate_tile_file (some (file_text blocks)) tiles =
      (ErrorCode.NO_ERROR, rotate_tile (write_blocks (initialise_new_tile tiles) blocks)) ∧
    (rotate_tile (write_blocks (initialise_new_tile tiles) blocks)).total =
      tiles.total + blocks.length ∧
    ∀ j r c : Nat, j < blocks.length → r < 5 → c < 5 →
      (rotate_tile (write_blocks (initialise_new_tile tiles) blocks)).grid 0 (tiles.total + j)
          r c =
        if block_char (blocks.getD j []) r c = '!' then 1 else 0 := by
  refine ⟨loop_blocks blocks hne hok false _, ?_, ?_⟩
  · show (write_blocks (initialise_new_tile tiles) blocks).total = _
    rw [write_blocks_total blocks hne, (initialise_new_tile_total _).1]
    omega
  · intro j r c hj hr hc
    rw [(rotate_tile_grid _ _).1]
    have := write_blocks_grid blocks hok (initialise_new_tile tiles) j r c hj hr hc
    rw [(initialise_new_tile_total _).1] at this
    have e : tiles.total + (j : Int) = tiles.total + 1 - 1 + (j : Int) := by omega
    rw [← this, e]

theorem validate_tile_loop_codes (content : List Char) (row col : Int) (lineTerminated : Bool)
    (tiles : Tiles) :
    (validate_tile_loop content row col lineTerminated tiles).1 = ErrorCode.NO_ERROR ∨
    (validate_tile_loop content row col lineTerminated tiles).1 = ErrorCode.TILE_INVALID := by
  induction content generalizing row col lineTerminated tiles with
  | nil =>
    rw [validate_tile_loop]
    split
    · exact Or.inr rfl
    · exact Or.inl rfl
  | cons character rest ih =>
    rw [validate_tile_loop]
    split
    · split
      · split
        · exact Or.inr rfl
        · exact ih _ _ _ _
      · split
        · exact Or.inr rfl
        · exact ih _ _ _ _
    · split
      · exact Or.inr rfl
      · exact ih _ _ _ _

/-- A block holds the marker '!' at some place exactly when one of its lines does. -/
theorem block_char_marker (block : List (List Char)) (h : tile_block_ok block) :
    (∃ r c : Nat, r < 5 ∧ c < 5 ∧ block_char block r c = '!') ↔
      ∃ line ∈ block, '!' ∈ line := by
  constructor
  · rintro ⟨r, c, hr, hc, e⟩
    have hr2 : r < block.length := by rw [h.1]; exact hr
    have e1 : block.getD r [] = block[r] := List.getD_eq_getElem _ _ hr2
    have hm : block[r] ∈ block := List.getElem_mem hr2
    have hc2 : c < (block[r]).length := by rw [(h.2 _ hm).1]; exact hc
    refine ⟨block[r], hm, ?_⟩
    unfold block_char at e
    rw [e1, List.getD_eq_getElem _ _ hc2] at e
    rw [← e]
    exact List.getElem_mem hc2
  · rintro ⟨line, hl, hm⟩
    obtain ⟨r, hr, rfl⟩ := List.mem_iff_getElem.mp hl
    obtain ⟨c, hc, e⟩ := List.mem_iff_getElem.mp hm
    refine ⟨r, c, by rw [← h.1]; exact hr, by rw [← (h.2 _ hl).1]; exact hc, ?_⟩
    unfold block_char
    rw [List.getD_eq_getElem _ _ hr, List.getD_eq_getElem _ _ hc, e]

/-- From the command line the board gets the height `input[4]` and the width
`input[5]`: `parse_arguments` passes the two tokens in the other order than
`validate_dimension` declares them. -/
theorem parse_arguments_dimension_valid (input : Int → List Char) (vh vw : Int)
    (dimension : Int → Int) (game : Game)
    (eh : integer_value (input 4) = some vh) (ew : integer_value (input 5) = some vw)
    (hh : 1 ≤ vh ∧ vh ≤ 999) (hw : 1 ≤ vw ∧ vw ≤ 999) :
    parse_arguments_dimension input dimension game =
      (ErrorCode.NO_ERROR, { game with gameBoard := reallocate_grid game.gameBoard vh vw }) :=
  validate_dimension_valid (input 5) (input 4) vw vh dimension game ew eh hw hh

/-- A header line that leaves one of the four tokens empty is rejected. -/
theorem parse_header_empty_token (firstLine : List Char) (headerInfo : Int → Int) (game : Game)
    (h : (tokenise_string firstLine 4).any (fun token => token.length = 0) = true) :
    parse_header firstLine headerInfo game = (false, game) := by
  unfold parse_header
  dsimp only
  rw [if_pos h]

/-! ### The steps as single cycles of the scan range -/

/-- A step that runs through the scan range in one cycle returns to its start
after `(height + 4) * (width + 4)` steps, not before, and meets every anchor
of the range at exactly one step count below that. -/
theorem scan_cycle_single (height width : Int) (next : Int × Int → Int × Int)
    (start : Int × Int) (rank : Int × Int → Int)
    (hc : scan_cycle height width next start rank) :
    next^[((height + 4) * (width + 4)).toNat] start = start ∧
    (∀ k : Nat, 0 < k → k < ((height + 4) * (width + 4)).toNat → next^[k] start ≠ start) ∧
    (∀ a, in_scan_range height width a →
      ∃! k : Nat, k < ((height + 4) * (width + 4)).toNat ∧ next^[k] start = a) := by
  refine ⟨hc.2.2.2, fun k hk0 hk => scan_cycle_ne_start height width next start rank hc k hk0 hk,
    ?_⟩
  intro a ha
  obtain ⟨h0, h1, h2⟩ := hc.2.2.1 a ha
  refine ⟨(rank a).toNat, ⟨by omega, h2⟩, ?_⟩
  rintro k ⟨hk, hka⟩
  have := hc.2.1 k (by omega)
  rw [hka] at this
  omega

theorem step_two_eq (H W : Int) (firstPlayer : Bool) :
    step_two (fresh_game H W) firstPlayer =
      fun p => update_position_algorithm_two p.1 H p.2 W firstPlayer := rfl

theorem step_one_eq (H W : Int) :
    step_one (fresh_game H W) = fun p => update_position_algorithm_one p.1 H p.2 W := rfl

/-! ### The probe and the anchors outside the scan range -/

/-- An anchor at which a tile with a filled cell can be placed lies in the scan
range. -/
theorem valid_move_anchor_range (row col theta : Int) (playing : PlayerRef) (grid : Board)
    (tiles : Tiles)
    (hfilled : ∃ dr dc : Int, (0 ≤ dr ∧ dr < 5 ∧ 0 ≤ dc ∧ dc < 5) ∧
      tiles.grid (theta.tdiv 90) tiles.current dr dc ≠ 0)
    (hvalid : valid_move (row, col, theta) playing grid tiles = true) :
    (-2 ≤ row ∧ row ≤ grid.height + 1) ∧ (-2 ≤ col ∧ col ≤ grid.width + 1) := by
  obtain ⟨dr, dc, ⟨h1, h2, h3, h4⟩, hf⟩ := hfilled
  have h := ((valid_move_eq_true row col theta playing grid tiles).mp hvalid
    dr dc h1 h2 h3 h4 hf).1
  omega

/-- A position loop that ends by its loop condition has met its start again,
after testing every anchor on the way. -/
theorem cycle_scan_wrapped_steps (test : Int × Int → Option Command)
    (next : Int × Int → Int × Int) (start : Int × Int) (fuel i : Nat) (row col : Int)
    (h : cycle_scan test next start fuel (next^[i] start) = .wrapped row col) :
    ∃ k : Nat, i < k ∧ next^[k] start = start ∧
      ∀ j : Nat, i ≤ j → j < k → test (next^[j] start) = none := by
  induction fuel generalizing i with
  | zero =>
    rw [cycle_scan] at h
    cases h
  | succ fuel ih =>
    rw [cycle_scan] at h
    cases ht : test (next^[i] start) with
    | some command =>
      rw [ht] at h
      cases h
    | none =>
      rw [ht] at h
      dsimp only at h
      have e : next (next^[i] start) = next^[i + 1] start :=
        (Function.iterate_succ_apply' next i start).symm
      by_cases hc : (next (next^[i] start)).1 ≠ start.1 ∨ (next (next^[i] start)).2 ≠ start.2
      · rw [if_pos hc, e] at h
        obtain ⟨k, hk, hks, hnone⟩ := ih (i + 1) h
        refine ⟨k, by omega, hks, ?_⟩
        intro j hj1 hj2
        by_cases hji : j = i
        · rw [hji]
          exact ht
        · exact hnone j (by omega) hj2
      · refine ⟨i + 1, by omega, ?_, ?_⟩
        · rw [← e]
          have h1 : (next (next^[i] start)).1 = start.1 := by
            by_contra hn
            exact hc (Or.inl hn)
          have h2 : (next (next^[i] start)).2 = start.2 := by
            by_contra hn
            exact hc (Or.inr hn)
          exact Prod.ext h1 h2
        · intro j hj1 hj2
          have hji : j = i := by omega
          rw [hji]
          exact ht

/-- A step never meets again a start that lies outside a set the step enters
and stays in. -/
theorem iterate_never_back {α : Type} (f : α → α) (s : α) (inv : α → Prop)
    (hstep : ∀ p, inv p → inv (f p)) (hfirst : inv (f s)) (hs : ¬ inv s) (k : Nat)
    (hk : 0 < k) : f^[k] s ≠ s := by
  have hall : ∀ n : Nat, inv (f^[n + 1] s) := by
    intro n
    induction n with
    | zero => exact hfirst
    | succ n ih =>
      rw [Function.iterate_succ_apply']
      exact hstep _ ih
  obtain ⟨n, rfl⟩ : ∃ n, k = n + 1 := ⟨k - 1, by omega⟩
  intro e
  exact hs (e ▸ hall n)

/-- The ascending step never meets again a start outside the scan range. -/
theorem step_two_never_back (game : Game) (hH : 1 ≤ game.gameBoard.height)
    (hW : 1 ≤ game.gameBoard.width) (start : Int × Int)
    (hs : ¬ in_scan_range game.gameBoard.height game.gameBoard.width start) (k : Nat)
    (hk : 0 < k) : (step_two game true)^[k] start ≠ start := by
  have hstep : ∀ p : Int × Int, step_two game true p =
      if p.2 + 1 > game.gameBoard.width - 1 + 2 then
        (if p.1 + 1 > game.gameBoard.height - 1 + 2 then (-2, -2) else (p.1 + 1, -2))
      else (if p.1 > game.gameBoard.height - 1 + 2 then (-2, -2) else (p.1, p.2 + 1)) := by
    intro p
    simp only [step_two, update_position_algorithm_two, if_true]
    by_cases h1 : p.2 + 1 > game.gameBoard.width - 1 + 2
    · simp only [h1, if_true]
    · simp only [h1, if_false]
  by_cases hA : start.1 > game.gameBoard.height + 1
  · refine iterate_never_back _ start
      (in_scan_range game.gameBoard.height game.gameBoard.width) ?_ ?_ hs k hk
    · intro p hp
      exact (step_two_ascending game hH hW p hp).1
    · rw [hstep]
      have h1 : start.1 + 1 > game.gameBoard.height - 1 + 2 := by omega
      have h2 : start.1 > game.gameBoard.height - 1 + 2 := by omega
      simp only [h1, h2, if_true, ite_self]
      exact ⟨⟨by simp, by simp only; omega⟩, by simp, by simp only; omega⟩
  · by_cases hB : start.2 > game.gameBoard.width + 1
    · refine iterate_never_back _ start (fun p => p.2 ≤ game.gameBoard.width + 1) ?_ ?_
        (fun hx => by omega) k hk
      · intro p hp
        rw [hstep]
        split_ifs <;> (try simp only) <;> omega
      · rw [hstep]
        beta_reduce
        split_ifs <;> (try simp only) <;> omega
    · by_cases hC : start.1 < -2
      · refine iterate_never_back _ start
          (fun p => p.1 > start.1 ∨ (p.1 = start.1 ∧ p.2 > start.2)) ?_ ?_
          (fun hx => by
            have hx2 : start.1 > start.1 ∨ (start.1 = start.1 ∧ start.2 > start.2) := hx
            omega) k hk
        · intro p hp
          rw [hstep]
          split_ifs <;> (try simp only) <;> omega
        · rw [hstep]
          beta_reduce
          split_ifs <;> (try simp only) <;> first | omega | exact Or.inr ⟨trivial, by omega⟩
      · have hD : start.2 < -2 := by
          by_contra hn
          exact hs ⟨⟨by omega, by omega⟩, by omega, by omega⟩
        refine iterate_never_back _ start (fun p => p.2 > start.2) ?_ ?_
          (fun hx => by omega) k hk
        · intro p hp
          rw [hstep]
          split_ifs <;> (try simp only) <;> omega
        · rw [hstep]
          beta_reduce
          split_ifs <;> (try simp only) <;> omega

/-- When the probe returns false, no anchor of the scan range takes the active
tile at any of the four rotations, whatever last move is stored. -/
theorem check_possible_move_false (fuel : Nat) (game : Game) (currentPlayer : PlayerRef)
    (hH : 1 ≤ game.gameBoard.height) (hW : 1 ≤ game.gameBoard.width)
    (h : check_possible_move fuel game currentPlayer = some false) :
    ∀ a : Int × Int, in_scan_range game.gameBoard.height game.gameBoard.width a →
      ∀ theta ∈ [(0 : Int), 90, 180, 270],
        valid_move (a.1, a.2, theta) currentPlayer game.gameBoard game.tiles = false := by
  unfold check_possible_move at h
  dsimp only at h
  rw [algorithm_two_scan_eq] at h
  generalize hstart : (if (game.player currentPlayer).recentMove.1 = INT_MIN ∧
      (game.player currentPlayer).recentMove.2 = INT_MIN then ((-2 : Int), (-2 : Int))
    else (game.player currentPlayer).recentMove) = start at h
  cases hscan : cycle_scan
      (fun p => first_rotation game currentPlayer p.1 p.2 [0, 90, 180, 270])
      (step_two game true) start fuel (start.1, start.2) with
  | found command =>
    rw [hscan] at h
    cases h
  | timeout =>
    rw [hscan] at h
    cases h
  | wrapped row col =>
    obtain ⟨k, hk0, hks, hnone⟩ := cycle_scan_wrapped_steps _ _ start fuel 0 row col hscan
    by_cases hs : in_scan_range game.gameBoard.height game.gameBoard.width start
    · have hc := scan_cycle_ascending game hH hW start hs
      have hkN : ((game.gameBoard.height + 4) * (game.gameBoard.width + 4)).toNat ≤ k := by
        by_contra hn
        exact scan_cycle_ne_start _ _ _ _ _ hc k hk0 (by omega) hks
      intro a ha theta htheta
      obtain ⟨h0, h1, h2⟩ := hc.2.2.1 a ha
      have ht := hnone (cyclic_rank game.gameBoard.height game.gameBoard.width start a).toNat
        (Nat.zero_le _) (by omega)
      rw [h2] at ht
      exact (first_rotation_none game currentPlayer a.1 a.2 _).mp ht theta htheta
    · exact absurd hks (step_two_never_back game hH hW start hs k hk0)

/-! ### The cells `valid_move` reads and `place_move` writes -/

theorem scan_cells_fst {α : Type} (body : α → Bool × List Access) (l : List α) :
    (scan_cells body l).1 = l.all fun a => (body a).1 := by
  induction l with
  | nil => rfl
  | cons a l ih =>
    rw [scan_cells, List.all_cons]
    cases h : (body a).1 with
    | true => simp [ih]
    | false => simp

theorem scan_cells_mem {α : Type} (body : α → Bool × List Access) (l : List α) (x : Access)
    (h : x ∈ (scan_cells body l).2) : ∃ a ∈ l, x ∈ (body a).2 := by
  induction l with
  | nil => cases h
  | cons a l ih =>
    rw [scan_cells] at h
    cases hb : (body a).1 with
    | true =>
      rw [hb] at h
      simp only [if_true, List.mem_append] at h
      rcases h with h | h
      · exact ⟨a, List.mem_cons_self _ _, h⟩
      · obtain ⟨b, hb1, hb2⟩ := ih h
        exact ⟨b, List.mem_cons_of_mem _ hb1, hb2⟩
    | false =>
      rw [hb] at h
      exact ⟨a, List.mem_cons_self _ _, h⟩

theorem valid_move_test_fst (grid : Board) (tiles : Tiles)
    (rotationIndex centerY centerX offset y x : Int) :
    (valid_move_test grid tiles rotationIndex centerY centerX offset y x).1 =
      !(decide (tiles.grid rotationIndex tiles.current (y - centerY + offset)
            (x - centerX + offset) ≠ 0) &&
        (decide (y < 0) || decide (y ≥ grid.height) || decide (x < 0) || decide (x ≥ grid.width)
          || decide (grid.grid y x ≠ none))) := by
  unfold valid_move_test
  dsimp only
  by_cases h1 : tiles.grid rotationIndex tiles.current (y - centerY + offset)
      (x - centerX + offset) ≠ 0
  · rw [if_pos h1]
    by_cases h2 : y < 0 ∨ y ≥ grid.height ∨ x < 0 ∨ x ≥ grid.width
    · rw [if_pos h2]
      rcases h2 with h | h | h | h <;> simp [h1, h]
    · rw [if_neg h2]
      have n1 : ¬ y < 0 := fun h => h2 (Or.inl h)
      have n2 : ¬ y ≥ grid.height := fun h => h2 (Or.inr (Or.inl h))
      have n3 : ¬ x < 0 := fun h => h2 (Or.inr (Or.inr (Or.inl h)))
      have n4 : ¬ x ≥ grid.width := fun h => h2 (Or.inr (Or.inr (Or.inr h)))
      by_cases h3 : grid.grid y x ≠ none
      · rw [if_pos h3]
        simp [h1, h3]
      · rw [if_neg h3]
        simp [h1, n1, n2, n3, n4, h3]
  · rw [if_neg h1]
    simp [h1]

/-- The function with the list of reads returns what `valid_move` returns. -/
theorem valid_move_reads_fst (command : Command) (playing : PlayerRef) (grid : Board)
    (tiles : Tiles) :
    (valid_move_reads command playing grid tiles).1 = valid_move command playing grid tiles := by
  unfold valid_move_reads valid_move
  dsimp only
  rw [scan_cells_fst]
  congr 1
  funext y
  rw [scan_cells_fst]
  congr 1
  funext x
  rw [valid_move_test_fst]

/-- Every cell `valid_move` reads is inside the storage. -/
theorem valid_move_reads_ok (row col theta : Int) (playing : PlayerRef) (grid : Board)
    (tiles : Tiles) (htheta : theta ∈ [(0 : Int), 90, 180, 270]) (a : Access)
    (h : a ∈ (valid_move_reads (row, col, theta) playing grid tiles).2) :
    access_ok grid tiles a := by
  have hk : 0 ≤ theta.tdiv 90 ∧ theta.tdiv 90 < TOTAL_ROTATION := by
    simp only [List.mem_cons, List.mem_singleton, List.not_mem_nil, or_false] at htheta
    rcases htheta with rfl | rfl | rfl | rfl <;> decide
  unfold valid_move_reads at h
  dsimp only at h
  obtain ⟨y, hy, h⟩ := scan_cells_mem _ _ a h
  obtain ⟨x, hx, h⟩ := scan_cells_mem _ _ a h
  rw [mem_loop_range, offset_eq] at hy hx
  have e5 : TILE_GRID_SQR_DIM = 5 := rfl
  have htile : access_ok grid tiles
      (Access.tile (theta.tdiv 90) tiles.current (y - row + TILE_GRID_SQR_DIM.tdiv 2)
        (x - col + TILE_GRID_SQR_DIM.tdiv 2)) := by
    rw [offset_eq]
    exact ⟨hk, rfl, ⟨by omega, by omega⟩, by omega, by omega⟩
  unfold valid_move_test at h
  dsimp only at h
  split at h
  · split at h
    · rw [List.mem_singleton] at h
      rw [h]
      exact htile
    · rename_i hin
      have hb : access_ok grid tiles (Access.board y x) :=
        ⟨⟨by omega, by omega⟩, by omega, by omega⟩
      split at h
      · simp only [List.mem_cons, List.mem_singleton, List.not_mem_nil, or_false] at h
        rcases h with h | h
        · rw [h]
          exact htile
        · rw [h]
          exact hb
      · simp only [List.mem_cons, List.mem_singleton, List.not_mem_nil, or_false] at h
        rcases h with h | h
        · rw [h]
          exact htile
        · rw [h]
          exact hb
  · rw [List.mem_singleton] at h
    rw [h]
    exact htile

theorem foldl_flatMap {α β γ : Type} (f : γ → β → γ) (g : α → List β) (l : List α) (b : γ) :
    (l.flatMap g).foldl f b = l.foldl (fun acc a => (g a).foldl f acc) b := by
  induction l generalizing b with
  | nil => rfl
  | cons a l ih =>
    rw [List.flatMap_cons, List.foldl_append, List.foldl_cons, ih]

/-- The board after `place_move` is the board before it with the listed cells
written, in order. -/
theorem place_move_writes_grid (command : Command) (playing : PlayerRef) (game : Game)
    (tiles : Tiles) :
    (place_move command playing game tiles).gameBoard.grid =
      (place_move_writes command tiles).foldl
        (fun board p => board_set board p.1 p.2 (some playing)) game.gameBoard.grid := by
  have e : (place_move command playing game tiles).gameBoard.grid =
      (loop_range (command.1 - TILE_GRID_SQR_DIM.tdiv 2)
          (command.1 + TILE_GRID_SQR_DIM.tdiv 2)).foldl
        (fun board y =>
          (loop_range (command.2.1 - TILE_GRID_SQR_DIM.tdiv 2)
              (command.2.1 + TILE_GRID_SQR_DIM.tdiv 2)).foldl
            (fun board x =>
              if tiles.grid (command.2.2.tdiv 90) tiles.current
                  (y - command.1 + TILE_GRID_SQR_DIM.tdiv 2)
                  (x - command.2.1 + TILE_GRID_SQR_DIM.tdiv 2) ≠ 0
              then board_set board y x (some playing) else board)
            board)
        game.gameBoard.grid := by
    cases playing <;> rfl
  rw [e]
  unfold place_move_writes
  dsimp only
  rw [foldl_flatMap]
  congr 1
  funext board y
  rw [foldl_flatMap]
  congr 1
  funext board x
  split <;> rfl

/-- The cells `place_move` writes and reads are inside the storage when
`valid_move` holds. -/
theorem place_move_accesses_ok (row col theta : Int) (playing : PlayerRef) (grid : Board)
    (tiles : Tiles) (htheta : theta ∈ [(0 : Int), 90, 180, 270])
    (hvalid : valid_move (row, col, theta) playing grid tiles = true) :
    (∀ p ∈ place_move_writes (row, col, theta) tiles, access_ok grid tiles (Access.board p.1 p.2)) ∧
    (∀ a ∈ place_move_reads (row, col, theta) tiles, access_ok grid tiles a) := by
  have hk : 0 ≤ theta.tdiv 90 ∧ theta.tdiv 90 < TOTAL_ROTATION := by
    simp only [List.mem_cons, List.mem_singleton, List.not_mem_nil, or_false] at htheta
    rcases htheta with rfl | rfl | rfl | rfl <;> decide
  have e5 : TILE_GRID_SQR_DIM = 5 := rfl
  refine ⟨?_, ?_⟩
  · intro p hp
    unfold place_move_writes at hp
    dsimp only at hp
    obtain ⟨y, hy, hp⟩ := List.mem_flatMap.mp hp
    obtain ⟨x, hx, hp⟩ := List.mem_flatMap.mp hp
    rw [mem_loop_range, offset_eq] at hy hx
    rw [offset_eq] at hp
    split at hp
    · rename_i hf
      rw [List.mem_singleton] at hp
      rw [hp]
      have h := ((valid_move_eq_true row col theta playing grid tiles).mp hvalid
        (y - row + 2) (x - col + 2) (by omega) (by omega) (by omega) (by omega) hf).1
      exact ⟨⟨by dsimp only; omega, by dsimp only; omega⟩, by dsimp only; omega,
        by dsimp only; omega⟩
    · cases hp
  · intro a ha
    unfold place_move_reads at ha
    dsimp only at ha
    obtain ⟨y, hy, ha⟩ := List.mem_flatMap.mp ha
    obtain ⟨x, hx, ha⟩ := List.mem_map.mp ha
    rw [mem_loop_range, offset_eq] at hy hx
    rw [offset_eq] at ha
    rw [← ha]
    exact ⟨hk, rfl, ⟨by omega, by omega⟩, by omega, by omega⟩

/-! ### `valid_move` in 32-bit arithmetic -/

theorem wrap_int_eq (n : Int) (h1 : -2147483648 ≤ n) (h2 : n ≤ 2147483647) : wrap_int n = n := by
  unfold wrap_int
  rw [Int.emod_eq_of_lt (by omega) (by omega)]
  omega

theorem loop_range_cons (lo hi : Int) (h : lo ≤ hi) :
    loop_range lo hi = lo :: loop_range (lo + 1) hi := by
  unfold loop_range
  have e : (hi + 1 - lo).toNat = (hi + 1 - (lo + 1)).toNat + 1 := by omega
  rw [e, List.range_succ_eq_map, List.map_cons, List.map_map]
  congr 1
  · simp
  · apply List.map_congr_left
    intro i _
    simp only [Function.comp_apply, Nat.succ_eq_add_one]
    push_cast
    omega

theorem loop_range_nil (lo hi : Int) (h : hi < lo) : loop_range lo hi = [] := by
  unfold loop_range
  have e : (hi + 1 - lo).toNat = 0 := by omega
  rw [e]
  rfl

/-- A 32-bit loop whose bounds stay away from the ends of `int` runs over the
integers from `lo` to `hi`. -/
theorem for_wrap_range (body : Int → Option Bool) (b : Int → Bool) (hi : Int)
    (hhi : hi < 2147483647) (fuel : Nat) (lo : Int) (hlo : -2147483648 ≤ lo)
    (hle : lo ≤ hi + 1) (hfuel : hi + 1 - lo < (fuel : Int))
    (hb : ∀ i, lo ≤ i → i ≤ hi → body i = some (b i)) :
    for_wrap body hi fuel lo = some ((loop_range lo hi).all b) := by
  induction fuel generalizing lo with
  | zero =>
    simp only [Nat.cast_zero] at hfuel
    omega
  | succ fuel ih =>
    rw [for_wrap]
    by_cases h : lo ≤ hi
    · rw [if_pos h, hb lo (le_refl _) h, loop_range_cons lo hi h, List.all_cons]
      cases hbl : b lo with
      | false => rfl
      | true =>
        dsimp only
        rw [wrap_int_eq (lo + 1) (by omega) (by omega),
          ih (lo + 1) (by omega) (by omega) (by push_cast at hfuel; omega)
            (fun i h1 h2 => hb i (by omega) h2)]
        simp
    · rw [if_neg h, loop_range_nil lo hi (by omega)]
      rfl

/-- At an anchor whose row and column are at least `INT_MIN + 2` and at most
`INT_MAX - 3` no operation of `valid_move` overflows, and the 32-bit function
returns what the rule on the integers gives. -/
theorem valid_move_wrap_safe (fuel : Nat) (row col theta : Int) (playing : PlayerRef)
    (grid : Board) (tiles : Tiles) (hfuel : 6 ≤ fuel)
    (hrow : INT_MIN + 2 ≤ row ∧ row ≤ INT_MAX - 3)
    (hcol : INT_MIN + 2 ≤ col ∧ col ≤ INT_MAX - 3) :
    valid_move_wrap fuel (row, col, theta) playing grid tiles =
      some (valid_move (row, col, theta) playing grid tiles) := by
  have hmin : INT_MIN = -2147483648 := rfl
  have hmax : INT_MAX = 2147483647 := rfl
  unfold valid_move_wrap valid_move
  dsimp only
  rw [offset_eq, wrap_int_eq (row + 2) (by omega) (by omega),
    wrap_int_eq (row - 2) (by omega) (by omega), wrap_int_eq (col + 2) (by omega) (by omega),
    wrap_int_eq (col - 2) (by omega) (by omega)]
  apply for_wrap_range _ _ _ (by omega) fuel _ (by omega) (by omega)
    (by have : (6 : Int) ≤ (fuel : Int) := by exact_mod_cast hfuel
        omega)
  intro y hy1 hy2
  apply for_wrap_range _ _ _ (by omega) fuel _ (by omega) (by omega)
    (by have : (6 : Int) ≤ (fuel : Int) := by exact_mod_cast hfuel
        omega)
  intro x hx1 hx2
  rw [wrap_int_eq (y - row) (by omega) (by omega), wrap_int_eq (y - row + 2) (by omega) (by omega),
    wrap_int_eq (x - col) (by omega) (by omega), wrap_int_eq (x - col + 2) (by omega) (by omega)]

/-! ### Empty cells under a placement -/

/-- A legal placement takes as many empty cells from the board as the layout
used has filled cells. -/
theorem place_move_empty_cells (row col theta : Int) (playing : PlayerRef) (game : Game)
    (tiles : Tiles)
    (hvalid : valid_move (row, col, theta) playing game.gameBoard tiles = true) :
    empty_cells (place_move (row, col, theta) playing game tiles).gameBoard +
        filled_cells (tiles.grid (theta.tdiv 90) tiles.current) =
      empty_cells game.gameBoard := by
  have e5 : TILE_GRID_SQR_DIM - 1 = 4 := by decide
  have hv := (valid_move_eq_true row col theta playing game.gameBoard tiles).mp hvalid
  unfold empty_cells filled_cells
  rw [place_move_height, place_move_width, e5]
  set F := (Finset.Icc (0 : Int) 4 ×ˢ Finset.Icc (0 : Int) 4).filter
    (fun p => tiles.grid (theta.tdiv 90) tiles.current p.1 p.2 ≠ 0) with hF
  set E := (Finset.Icc 0 (game.gameBoard.height - 1) ×ˢ
      Finset.Icc 0 (game.gameBoard.width - 1)).filter
    (fun p => game.gameBoard.grid p.1 p.2 = none) with hE
  have hinj : Function.Injective (fun p : Int × Int => (row + p.1 - 2, col + p.2 - 2)) := by
    intro p q h
    simp only [Prod.mk.injEq] at h
    exact Prod.ext (by omega) (by omega)
  have hCE : F.image (fun p : Int × Int => (row + p.1 - 2, col + p.2 - 2)) ⊆ E := by
    intro p hp
    obtain ⟨q, hq, rfl⟩ := Finset.mem_image.mp hp
    rw [hF, Finset.mem_filter, Finset.mem_product, Finset.mem_Icc, Finset.mem_Icc] at hq
    obtain ⟨⟨⟨h1, h2⟩, h3, h4⟩, hf⟩ := hq
    obtain ⟨hb, he⟩ := hv q.1 q.2 h1 (by omega) h3 (by omega) hf
    rw [hE, Finset.mem_filter, Finset.mem_product, Finset.mem_Icc, Finset.mem_Icc]
    exact ⟨⟨⟨hb.1, by omega⟩, hb.2.2.1, by omega⟩, he⟩
  have hsd : (Finset.Icc 0 (game.gameBoard.height - 1) ×ˢ
        Finset.Icc 0 (game.gameBoard.width - 1)).filter
      (fun p => (place_move (row, col, theta) playing game tiles).gameBoard.grid p.1 p.2 = none)
      = E \ F.image (fun p : Int × Int => (row + p.1 - 2, col + p.2 - 2)) := by
    ext p
    rw [Finset.mem_sdiff, hE, Finset.mem_filter, Finset.mem_filter, place_move_grid]
    have hcov : p ∈ F.image (fun p : Int × Int => (row + p.1 - 2, col + p.2 - 2)) ↔
        ((row - 2 ≤ p.1 ∧ p.1 ≤ row + 2) ∧ (col - 2 ≤ p.2 ∧ p.2 ≤ col + 2) ∧
          tiles.grid (theta.tdiv 90) tiles.current (p.1 - row + 2) (p.2 - col + 2) ≠ 0) := by
      rw [Finset.mem_image]
      constructor
      · rintro ⟨q, hq, rfl⟩
        rw [hF, Finset.mem_filter, Finset.mem_product, Finset.mem_Icc, Finset.mem_Icc] at hq
        obtain ⟨⟨⟨h1, h2⟩, h3, h4⟩, hf⟩ := hq
        refine ⟨⟨by dsimp only; omega, by dsimp only; omega⟩,
          ⟨by dsimp only; omega, by dsimp only; omega⟩, ?_⟩
        have e1 : row + q.1 - 2 - row + 2 = q.1 := by omega
        have e2 : col + q.2 - 2 - col + 2 = q.2 := by omega
        dsimp only
        rw [e1, e2]
        exact hf
      · rintro ⟨⟨h1, h2⟩, ⟨h3, h4⟩, hf⟩
        refine ⟨(p.1 - row + 2, p.2 - col + 2), ?_, ?_⟩
        · rw [hF, Finset.mem_filter, Finset.mem_product, Finset.mem_Icc, Finset.mem_Icc]
          exact ⟨⟨⟨by dsimp only; omega, by dsimp only; omega⟩, by dsimp only; omega,
            by dsimp only; omega⟩, hf⟩
        · exact Prod.ext (by dsimp only; omega) (by dsimp only; omega)
    rw [hcov]
    by_cases hc : (row - 2 ≤ p.1 ∧ p.1 ≤ row + 2) ∧ (col - 2 ≤ p.2 ∧ p.2 ≤ col + 2) ∧
        tiles.grid (theta.tdiv 90) tiles.current (p.1 - row + 2) (p.2 - col + 2) ≠ 0
    · rw [if_pos hc]
      constructor
      · rintro ⟨_, h⟩
        cases h
      · rintro ⟨_, h⟩
        exact absurd hc h
    · rw [if_neg hc]
      exact ⟨fun h => ⟨h, hc⟩, fun h => h.1⟩
  rw [hsd, ← Finset.card_image_of_injective F hinj]
  exact Finset.card_sdiff_add_card_eq_card hCE

/-- A board has at most as many empty cells as it has cells. -/
theorem empty_cells_le (board : Board) :
    empty_cells board ≤ board.height.toNat * board.width.toNat := by
  unfold empty_cells
  refine le_trans (Finset.card_filter_le _ _) ?_
  rw [Finset.card_product, Int.card_Icc, Int.card_Icc]
  have e1 : (board.height - 1 + 1 - 0).toNat = board.height.toNat := by
    congr 1
    omega
  have e2 : (board.width - 1 + 1 - 0).toNat = board.width.toNat := by
    congr 1
    omega
  rw [e1, e2]

/-! ### The loop of `load_saved_game` on the rows of a grid -/

theorem read_cells_dims (game : Game) (row col : Int) (cells : List Char) :
    (read_cells game row col cells).gameBoard.height = game.gameBoard.height ∧
    (read_cells game row col cells).gameBoard.width = game.gameBoard.width := by
  induction cells generalizing game col with
  | nil => exact ⟨rfl, rfl⟩
  | cons value rest ih =>
    rw [read_cells]
    exact ih _ _

theorem read_rows_dims (game : Game) (row : Int) (rows : List (List Char)) :
    (read_rows game row rows).gameBoard.height = game.gameBoard.height ∧
    (read_rows game row rows).gameBoard.width = game.gameBoard.width := by
  induction rows generalizing game row with
  | nil => exact ⟨rfl, rfl⟩
  | cons line rest ih =>
    rw [read_rows]
    have h1 := ih (read_cells game row 0 line) (row + 1)
    have h2 := read_cells_dims game row 0 line
    exact ⟨h1.1.trans h2.1, h1.2.trans h2.2⟩

/-- The call of `valid_grid_content` on a marker inside the board. -/
theorem valid_grid_content_marker (row col : Int) (value : Char) (game : Game)
    (hrow : row < game.gameBoard.height) (hcol : col < game.gameBoard.width)
    (hv : value = '.' ∨ value = '*' ∨ value = '#') :
    valid_grid_content row col value game =
      (true, { game with
        gameBoard := { game.gameBoard with
          grid := board_set game.gameBoard.grid row col (saved_owner value) } }) := by
  unfold valid_grid_content
  dsimp only
  rw [if_neg (by omega)]
  rcases hv with h | h | h <;> subst h <;> rfl

/-- The call of `valid_grid_content` on any other character, or outside the
board. -/
theorem valid_grid_content_false (row col : Int) (value : Char) (game : Game)
    (h : (row ≥ game.gameBoard.height ∨ col ≥ game.gameBoard.width) ∨
      ¬ (value = '.' ∨ value = '*' ∨ value = '#')) :
    valid_grid_content row col value game = (false, game) := by
  unfold valid_grid_content
  dsimp only
  by_cases hb : row ≥ game.gameBoard.height ∨ col ≥ game.gameBoard.width
  · rw [if_pos hb]
  · rw [if_neg hb]
    rcases h with h | h
    · exact absurd h hb
    · rw [if_neg (fun e => h (Or.inr (Or.inr e))), if_neg (fun e => h (Or.inr (Or.inl e))),
        if_neg (fun e => h (Or.inl e))]

theorem load_loop_marker (value : Char) (rest firstLine : List Char) (row col : Int)
    (headerInfo : Int → Int) (game : Game)
    (hrow : row < game.gameBoard.height) (hcol : col < game.gameBoard.width)
    (hv : value = '.' ∨ value = '*' ∨ value = '#') :
    load_saved_loop (value :: rest) false firstLine row col headerInfo game =
      load_saved_loop rest false firstLine row (col + 1) headerInfo
        (read_cells game row col [value]) := by
  have hnl : value ≠ '\n' := by
    rcases hv with h | h | h <;> rw [h] <;> decide
  rw [load_saved_loop, if_neg hnl, if_neg (by decide),
    valid_grid_content_marker row col value game hrow hcol hv]
  rfl

theorem load_loop_line_end (rest firstLine : List Char) (row col : Int)
    (headerInfo : Int → Int) (game : Game) (hcol : game.gameBoard.width ≤ col) :
    load_saved_loop ('\n' :: rest) false firstLine row col headerInfo game =
      load_saved_loop rest false firstLine (row + 1) 0 headerInfo game := by
  have hc : check_col col game.gameBoard.width = true := by
    unfold check_col
    rw [if_neg (by omega)]
  rw [load_saved_loop, if_pos rfl, if_neg (by decide), hc]
  rfl

/-- The loop of `load_saved_game` over markers of one row. -/
theorem load_loop_cells (cells rest firstLine : List Char) (row col : Int)
    (headerInfo : Int → Int) (game : Game) (hrow : row < game.gameBoard.height)
    (hcol : col + (cells.length : Int) ≤ game.gameBoard.width)
    (hv : ∀ ch ∈ cells, ch = '.' ∨ ch = '*' ∨ ch = '#') :
    load_saved_loop (cells ++ rest) false firstLine row col headerInfo game =
      load_saved_loop rest false firstLine row (col + (cells.length : Int)) headerInfo
        (read_cells game row col cells) := by
  induction cells generalizing col game with
  | nil =>
    simp only [List.nil_append, List.length_nil, Nat.cast_zero, add_zero]
    rfl
  | cons value more ih =>
    have hlen : ((value :: more).length : Int) = (more.length : Int) + 1 := by
      simp only [List.length_cons]
      push_cast
      rfl
    rw [hlen] at hcol
    rw [List.cons_append,
      load_loop_marker value _ firstLine row col headerInfo game hrow (by omega)
        (hv value (List.mem_cons_self _ _)),
      ih (col + 1) (read_cells game row col [value]) hrow (by
        have := (read_cells_dims game row col [value]).2
        omega) (fun ch hch => hv ch (List.mem_cons_of_mem _ hch)), hlen]
    have e : col + 1 + (more.length : Int) = col + ((more.length : Int) + 1) := by omega
    rw [e]
    rfl

/-- The loop of `load_saved_game` over a row of the grid. -/
theorem load_loop_line (line rest firstLine : List Char) (row : Int)
    (headerInfo : Int → Int) (game : Game) (hrow : row < game.gameBoard.height)
    (h : grid_row_ok game.gameBoard.width line) :
    load_saved_loop (line ++ '\n' :: rest) false firstLine row 0 headerInfo game =
      load_saved_loop rest false firstLine (row + 1) 0 headerInfo
        (read_cells game row 0 line) := by
  rw [load_loop_cells line _ firstLine row 0 headerInfo game hrow (by rw [h.1]; omega) h.2,
    load_loop_line_end _ _ _ _ _ _ (by
      rw [(read_cells_dims game row 0 line).2, h.1]
      omega)]

/-- The loop of `load_saved_game` over rows of the grid. -/
theorem load_loop_rows (rows : List (List Char)) (rest firstLine : List Char) (row : Int)
    (headerInfo : Int → Int) (game : Game)
    (hrow : row + (rows.length : Int) ≤ game.gameBoard.height)
    (h : ∀ line ∈ rows, grid_row_ok game.gameBoard.width line) :
    load_saved_loop (rows_text rows ++ rest) false firstLine row 0 headerInfo game =
      load_saved_loop rest false firstLine (row + (rows.length : Int)) 0 headerInfo
        (read_rows game row rows) := by
  induction rows generalizing row game with
  | nil =>
    simp only [rows_text, List.flatMap_nil, List.nil_append, List.length_nil, Nat.cast_zero,
      add_zero]
    rfl
  | cons line more ih =>
    have hlen : ((line :: more).length : Int) = (more.length : Int) + 1 := by
      simp only [List.length_cons]
      push_cast
      rfl
    rw [hlen] at hrow
    have e : rows_text (line :: more) ++ rest = line ++ '\n' :: (rows_text more ++ rest) := by
      simp [rows_text]
    have hd := read_cells_dims game row 0 line
    rw [e, load_loop_line line _ firstLine row headerInfo game (by omega)
        (h line (List.mem_cons_self _ _)),
      ih (row + 1) (read_cells game row 0 line) (by rw [hd.1]; omega)
        (fun l hl => by rw [hd.2]; exact h l (List.mem_cons_of_mem _ hl)), hlen]
    have e2 : row + 1 + (more.length : Int) = row + ((more.length : Int) + 1) := by omega
    rw [e2]
    rfl

/-- The loop of `load_saved_game` over the first line of the file. -/
theorem load_loop_header (header rest firstLine : List Char) (row col : Int)
    (headerInfo : Int → Int) (game : Game) (hnl : '\n' ∉ header) :
    load_saved_loop (header ++ '\n' :: rest) true firstLine row col headerInfo game =
      match parse_header (c_string (firstLine ++ header)) headerInfo game with
      | (false, game) => (ErrorCode.FILE_INVALID, game)
      | (true, game) => load_saved_loop rest false (firstLine ++ header) 0 0 headerInfo game := by
  induction header generalizing firstLine col with
  | nil =>
    rw [List.nil_append, List.append_nil, load_saved_loop, if_pos rfl, if_pos rfl]
  | cons ch more ih =>
    have hch : ch ≠ '\n' := fun e => hnl (by rw [e]; exact List.mem_cons_self _ _)
    rw [List.cons_append, load_saved_loop, if_neg hch, if_pos rfl,
      ih (firstLine ++ [ch]) (col + 1) (fun e => hnl (List.mem_cons_of_mem _ e))]
    simp only [List.append_assoc, List.singleton_append]

/-! ### The files `load_saved_game` accepts -/

theorem load_accepts_marker (content firstLine : List Char) (row col : Int)
    (headerInfo : Int → Int) (game : Game)
    (hrow : row < game.gameBoard.height) (hcol : col < game.gameBoard.width)
    (h : (load_saved_loop content false firstLine row col headerInfo game).1 =
      ErrorCode.NO_ERROR) :
    ∃ value rest, content = value :: rest ∧ (value = '.' ∨ value = '*' ∨ value = '#') := by
  cases content with
  | nil =>
    rw [load_saved_loop, check_final_dim, if_pos (by omega)] at h
    cases h
  | cons value rest =>
    refine ⟨value, rest, rfl, ?_⟩
    by_contra hv
    rw [load_saved_loop] at h
    by_cases hnl : value = '\n'
    · have hc : check_col col game.gameBoard.width = false := by
        unfold check_col
        rw [if_pos (by omega)]
      rw [if_pos hnl, if_neg (by decide), hc] at h
      cases h
    · rw [if_neg hnl, if_neg (by decide),
        valid_grid_content_false row col value game (Or.inr hv)] at h
      cases h

theorem load_accepts_line_end (content firstLine : List Char) (row col : Int)
    (headerInfo : Int → Int) (game : Game)
    (hrow : row < game.gameBoard.height) (hcol : game.gameBoard.width ≤ col)
    (h : (load_saved_loop content false firstLine row col headerInfo game).1 =
      ErrorCode.NO_ERROR) :
    ∃ rest, content = '\n' :: rest := by
  cases content with
  | nil =>
    rw [load_saved_loop, check_final_dim, if_pos (by omega)] at h
    cases h
  | cons value rest =>
    by_cases hnl : value = '\n'
    · exact ⟨rest, by rw [hnl]⟩
    · rw [load_saved_loop, if_neg hnl, if_neg (by decide),
        valid_grid_content_false row col value game (Or.inl (Or.inr (by omega)))] at h
      cases h

theorem load_accepts_file_end (content firstLine : List Char) (row col : Int)
    (headerInfo : Int → Int) (game : Game)
    (hrow : game.gameBoard.height ≤ row) (hcol : col < game.gameBoard.width)
    (h : (load_saved_loop content false firstLine row col headerInfo game).1 =
      ErrorCode.NO_ERROR) :
    content = [] := by
  cases content with
  | nil => rfl
  | cons value rest =>
    rw [load_saved_loop] at h
    by_cases hnl : value = '\n'
    · have hc : check_col col game.gameBoard.width = false := by
        unfold check_col
        rw [if_pos (by omega)]
      rw [if_pos hnl, if_neg (by decide), hc] at h
      cases h
    · rw [if_neg hnl, if_neg (by decide),
        valid_grid_content_false row col value game (Or.inl (Or.inl (by omega)))] at h
      cases h

/-- An accepted text goes on, inside a row, with the markers left of the row
and a newline. -/
theorem load_accepts_cells (n : Nat) (content firstLine : List Char) (row col : Int)
    (headerInfo : Int → Int) (game : Game)
    (hrow : row < game.gameBoard.height) (hn : col + (n : Int) = game.gameBoard.width)
    (h : (load_saved_loop content false firstLine row col headerInfo game).1 =
      ErrorCode.NO_ERROR) :
    ∃ cells rest, (∀ ch ∈ cells, ch = '.' ∨ ch = '*' ∨ ch = '#') ∧ cells.length = n ∧
      content = cells ++ '\n' :: rest := by
  induction n generalizing content col game with
  | zero =>
    obtain ⟨rest, rfl⟩ := load_accepts_line_end content firstLine row col headerInfo game hrow
      (by simp only [Nat.cast_zero] at hn; omega) h
    exact ⟨[], rest, by simp, rfl, rfl⟩
  | succ n ih =>
    have hcol : col < game.gameBoard.width := by
      push_cast at hn
      omega
    obtain ⟨value, rest1, rfl, hv⟩ :=
      load_accepts_marker content firstLine row col headerInfo game hrow hcol h
    rw [load_loop_marker value rest1 firstLine row col headerInfo game hrow hcol hv] at h
    have hd := read_cells_dims game row col [value]
    obtain ⟨cells, rest, hc, hlen, rfl⟩ := ih rest1 (col + 1) (read_cells game row col [value])
      (by rw [hd.1]; exact hrow) (by rw [hd.2]; push_cast at hn; omega) h
    refine ⟨value :: cells, rest, ?_, by rw [List.length_cons, hlen], rfl⟩
    intro ch hch
    rcases List.mem_cons.mp hch with e | e
    · rw [e]
      exact hv
    · exact hc ch e

/-- An accepted text is, from the start of a row on, the text of the rows left
of the grid. -/
theorem load_accepts_rows (n : Nat) (content firstLine : List Char) (row : Int)
    (headerInfo : Int → Int) (game : Game)
    (hn : row + (n : Int) = game.gameBoard.height) (hW : 1 ≤ game.gameBoard.width)
    (h : (load_saved_loop content false firstLine row 0 headerInfo game).1 =
      ErrorCode.NO_ERROR) :
    ∃ rows : List (List Char), rows.length = n ∧
      (∀ line ∈ rows, grid_row_ok game.gameBoard.width line) ∧ content = rows_text rows := by
  induction n generalizing content row game with
  | zero =>
    have e := load_accepts_file_end content firstLine row 0 headerInfo game
      (by simp only [Nat.cast_zero] at hn; omega) (by omega) h
    exact ⟨[], rfl, by simp, by rw [e]; rfl⟩
  | succ n ih =>
    have hrow : row < game.gameBoard.height := by
      push_cast at hn
      omega
    obtain ⟨line, rest, hv, hlen, rfl⟩ := load_accepts_cells game.gameBoard.width.toNat content
      firstLine row 0 headerInfo game hrow (by omega) h
    have hok : grid_row_ok game.gameBoard.width line := ⟨by rw [hlen]; omega, hv⟩
    rw [load_loop_line line rest firstLine row headerInfo game hrow hok] at h
    have hd := read_cells_dims game row 0 line
    obtain ⟨rows, hrl, hrows, rfl⟩ := ih rest (row + 1) (read_cells game row 0 line)
      (by rw [hd.1]; push_cast at hn; omega) (by rw [hd.2]; exact hW) h
    refine ⟨line :: rows, by rw [List.length_cons, hrl], ?_, by simp [rows_text]⟩
    intro l hl
    rcases List.mem_cons.mp hl with e | e
    · rw [e]
      exact hok
    · have := hrows l e
      rw [hd.2] at this
      exact this

/-! ### The cells `load_saved_game` writes -/

/-- The cells after the markers of a row have been read. -/
theorem read_cells_grid (game : Game) (row col : Int) (cells : List Char) (y x : Int) :
    (read_cells game row col cells).gameBoard.grid y x =
      if y = row ∧ (col ≤ x ∧ x < col + (cells.length : Int)) then
        saved_owner (cells.getD (x - col).toNat '.')
      else game.gameBoard.grid y x := by
  induction cells generalizing game col with
  | nil =>
    rw [read_cells, if_neg]
    simp only [List.length_nil, Nat.cast_zero, add_zero]
    omega
  | cons value more ih =>
    have hlen : ((value :: more).length : Int) = (more.length : Int) + 1 := by
      simp only [List.length_cons]
      push_cast
      rfl
    rw [read_cells, ih, hlen]
    by_cases hy : y = row
    · by_cases hx : x = col
      · have e0 : (x - col).toNat = 0 := by omega
        rw [if_neg (by omega), if_pos ⟨hy, by omega, by omega⟩, e0, List.getD_cons_zero]
        show board_set game.gameBoard.grid row col (saved_owner value) y x = _
        unfold board_set
        rw [if_pos ⟨hy, hx⟩]
      · by_cases hin : col + 1 ≤ x ∧ x < col + 1 + (more.length : Int)
        · have e1 : (x - col).toNat = (x - (col + 1)).toNat + 1 := by omega
          rw [if_pos ⟨hy, hin⟩, if_pos ⟨hy, by omega, by omega⟩, e1, List.getD_cons_succ]
        · rw [if_neg (fun h => hin h.2), if_neg (by omega)]
          show board_set game.gameBoard.grid row col (saved_owner value) y x = _
          unfold board_set
          rw [if_neg (fun h => hx h.2)]
    · rw [if_neg (fun h => hy h.1), if_neg (fun h => hy h.1)]
      show board_set game.gameBoard.grid row col (saved_owner value) y x = _
      unfold board_set
      rw [if_neg (fun h => hy h.1)]

/-- The cells after rows of the grid have been read. -/
theorem read_rows_grid (game : Game) (row : Int) (rows : List (List Char))
    (h : ∀ line ∈ rows, grid_row_ok game.gameBoard.width line) (y x : Int) :
    (read_rows game row rows).gameBoard.grid y x =
      if (row ≤ y ∧ y < row + (rows.length : Int)) ∧ (0 ≤ x ∧ x < game.gameBoard.width) then
        saved_owner ((rows.getD (y - row).toNat []).getD x.toNat '.')
      else game.gameBoard.grid y x := by
  induction rows generalizing game row with
  | nil =>
    rw [read_rows, if_neg]
    simp only [List.length_nil, Nat.cast_zero, add_zero]
    omega
  | cons line more ih =>
    have hlen : ((line :: more).length : Int) = (more.length : Int) + 1 := by
      simp only [List.length_cons]
      push_cast
      rfl
    have hd := read_cells_dims game row 0 line
    have hl := h line (List.mem_cons_self _ _)
    rw [read_rows, ih (read_cells game row 0 line) (row + 1)
      (fun l hl2 => by rw [hd.2]; exact h l (List.mem_cons_of_mem _ hl2)), hd.2, hlen,
      read_cells_grid, hl.1, zero_add]
    by_cases hx : 0 ≤ x ∧ x < game.gameBoard.width
    · by_cases hy : y = row
      · have e0 : (y - row).toNat = 0 := by omega
        have e1 : (x - 0).toNat = x.toNat := by
          congr 1
          omega
        rw [if_neg (by omega), if_pos ⟨hy, hx⟩, if_pos ⟨by omega, hx⟩, e0, List.getD_cons_zero,
          e1]
      · by_cases hin : row + 1 ≤ y ∧ y < row + 1 + (more.length : Int)
        · have e1 : (y - row).toNat = (y - (row + 1)).toNat + 1 := by omega
          rw [if_pos ⟨hin, hx⟩, if_pos ⟨by omega, hx⟩, e1, List.getD_cons_succ]
        · rw [if_neg (fun h => hin h.1), if_neg (fun h => hy h.1), if_neg (by omega)]
    · rw [if_neg (fun h => hx h.2), if_neg (fun h => hx h.2), if_neg (fun h => hx h.2)]

/-- The result of the loop of `load_saved_game` on the rows of a grid of the
height and width of the board. -/
theorem load_rows_result (rows : List (List Char)) (firstLine : List Char)
    (headerInfo : Int → Int) (game : Game)
    (hlen : (rows.length : Int) = game.gameBoard.height)
    (h : ∀ line ∈ rows, grid_row_ok game.gameBoard.width line) :
    load_saved_loop (rows_text rows) false firstLine 0 0 headerInfo game =
      (ErrorCode.NO_ERROR, read_rows game 0 rows) := by
  have e := load_loop_rows rows [] firstLine 0 headerInfo game (by omega) h
  rw [List.append_nil] at e
  rw [e, load_saved_loop, check_final_dim, (read_rows_dims game 0 rows).1, if_neg (by omega)]

theorem load_saved_loop_codes (content firstLine : List Char) (isFirstLine : Bool)
    (row col : Int) (headerInfo : Int → Int) (game : Game) :
    (load_saved_loop content isFirstLine firstLine row col headerInfo game).1 =
        ErrorCode.NO_ERROR ∨
      (load_saved_loop content isFirstLine firstLine row col headerInfo game).1 =
        ErrorCode.FILE_INVALID := by
  induction content generalizing isFirstLine firstLine row col game with
  | nil =>
    rw [load_saved_loop, check_final_dim]
    split
    · exact Or.inr rfl
    · exact Or.inl rfl
  | cons ch rest ih =>
    rw [load_saved_loop]
    split
    · split
      · split
        · exact Or.inr rfl
        · exact ih _ _ _ _ _
      · split
        · exact Or.inr rfl
        · exact ih _ _ _ _ _
    · split
      · exact ih _ _ _ _ _
      · split
        · exact Or.inr rfl
        · exact ih _ _ _ _ _

theorem read_cells_keeps (game : Game) (row col : Int) (cells : List Char) :
    (read_cells game row col cells).tiles = game.tiles ∧
    (read_cells game row col cells).turn = game.turn := by
  induction cells generalizing game col with
  | nil => exact ⟨rfl, rfl⟩
  | cons value rest ih =>
    rw [read_cells]
    exact ih _ _

theorem read_rows_keeps (game : Game) (row : Int) (rows : List (List Char)) :
    (read_rows game row rows).tiles = game.tiles ∧
    (read_rows game row rows).turn = game.turn := by
  induction rows generalizing game row with
  | nil => exact ⟨rfl, rfl⟩
  | cons line rest ih =>
    rw [read_rows]
    have h1 := ih (read_cells game row 0 line) (row + 1)
    have h2 := read_cells_keeps game row 0 line
    exact ⟨h1.1.trans h2.1, h1.2.trans h2.2⟩

/-- A header that `parse_header` accepts leaves a board of 1 to 999 rows and
columns. -/
theorem parse_header_true_dims (firstLine : List Char) (headerInfo : Int → Int) (game : Game)
    (h : (parse_header firstLine headerInfo game).1 = true) :
    (1 ≤ (parse_header firstLine headerInfo game).2.gameBoard.height ∧
      (parse_header firstLine headerInfo game).2.gameBoard.height ≤ 999) ∧
    (1 ≤ (parse_header firstLine headerInfo game).2.gameBoard.width ∧
      (parse_header firstLine headerInfo game).2.gameBoard.width ≤ 999) := by
  unfold parse_header at h ⊢
  dsimp only at h ⊢
  split at h
  · cases h
  · rename_i hany
    rw [if_neg hany]
    unfold parse_header_values at h ⊢
    dsimp only at h ⊢
    split at h
    · cases h
    · rename_i hchk
      rw [if_neg hchk]
      dsimp only [reallocate_grid]
      omega

/-- The call of `load_saved_game` on a file whose first line is a header that
`parse_header` accepts: the loop goes on with the rest of the file on the game
the header leaves. -/
theorem load_saved_game_header (header rest : List Char) (headerInfo : Int → Int) (game : Game)
    (hnl : '\n' ∉ header)
    (hp : (parse_header (c_string header) headerInfo game).1 = true) :
    load_saved_game (some (header ++ '\n' :: rest)) headerInfo game =
      load_saved_loop rest false header 0 0 headerInfo
        (parse_header (c_string header) headerInfo game).2 := by
  unfold load_saved_game
  dsimp only
  rw [load_loop_header header rest [] 0 0 headerInfo game hnl, List.nil_append]
  have e : parse_header (c_string header) headerInfo game =
      (true, (parse_header (c_string header) headerInfo game).2) := Prod.ext hp rfl
  rw [e]

/-! ### Printing an integer and reading it back -/

theorem digit_char_facts :
    ∀ d : Nat, d < 10 →
      (Char.ofNat (48 + d)).isDigit = true ∧ isspace (Char.ofNat (48 + d)) = false ∧
      Char.ofNat (48 + d) ≠ '-' ∧ Char.ofNat (48 + d) ≠ '+' ∧ Char.ofNat (48 + d) ≠ ' ' ∧
      Char.ofNat (48 + d) ≠ '\n' ∧ Char.ofNat (48 + d) ≠ Char.ofNat 0 ∧
      ((Char.ofNat (48 + d)).toNat : Int) - 48 = (d : Int) := by
  decide

/-- The characters `%d` writes for a value that is not negative are decimal
digits, at least one. -/
theorem print_int_digits (n : Int) (hn : 0 ≤ n) :
    print_int n ≠ [] ∧ ∀ ch ∈ print_int n, ∃ d : Nat, d < 10 ∧ ch = Char.ofNat (48 + d) := by
  unfold print_int
  dsimp only
  rw [if_neg (by omega)]
  by_cases h0 : n.natAbs = 0
  · rw [if_pos h0]
    refine ⟨by simp, ?_⟩
    intro ch hch
    rw [List.mem_singleton] at hch
    exact ⟨0, by decide, hch⟩
  · rw [if_neg h0]
    refine ⟨?_, ?_⟩
    · intro e
      rw [List.map_eq_nil_iff, List.reverse_eq_nil_iff] at e
      exact h0 (Nat.digits_eq_nil_iff_eq_zero.mp e)
    · intro ch hch
      obtain ⟨d, hd, rfl⟩ := List.mem_map.mp hch
      rw [List.mem_reverse] at hd
      exact ⟨d, Nat.digits_lt_base (by decide) hd, rfl⟩

theorem takeWhile_all {α : Type} (p : α → Bool) (l : List α) (h : ∀ a ∈ l, p a = true) :
    l.takeWhile p = l := by
  induction l with
  | nil => rfl
  | cons a l ih =>
    rw [List.takeWhile_cons, h a (List.mem_cons_self _ _)]
    simp only [if_true]
    rw [ih (fun b hb => h b (List.mem_cons_of_mem _ hb))]

theorem dropWhile_all {α : Type} (p : α → Bool) (l : List α) (h : ∀ a ∈ l, p a = true) :
    l.dropWhile p = [] := by
  induction l with
  | nil => rfl
  | cons a l ih =>
    rw [List.dropWhile_cons, h a (List.mem_cons_self _ _)]
    simp only [if_true]
    exact ih (fun b hb => h b (List.mem_cons_of_mem _ hb))

/-- The value `strtol` computes from the digits `%d` writes. -/
theorem print_int_value (n : Nat) :
    (print_int (n : Int)).foldl (fun (acc : Int) d => 10 * acc + ((d.toNat : Int) - 48)) 0 =
      (n : Int) := by
  unfold print_int
  dsimp only
  rw [if_neg (by omega), Int.natAbs_ofNat]
  by_cases h0 : n = 0
  · rw [if_pos h0, h0]
    decide
  · rw [if_neg h0]
    have key : ∀ L : List Nat, (∀ d ∈ L, d < 10) →
        (L.reverse.map fun d => Char.ofNat (48 + d)).foldl
          (fun (acc : Int) d => 10 * acc + ((d.toNat : Int) - 48)) 0 =
          ((Nat.ofDigits 10 L : Nat) : Int) := by
      intro L
      induction L with
      | nil =>
        intro _
        rfl
      | cons d L ih =>
        intro hL
        rw [List.reverse_cons, List.map_append, List.foldl_append,
          ih (fun x hx => hL x (List.mem_cons_of_mem _ hx)), List.map_singleton,
          List.foldl_cons, List.foldl_nil,
          (digit_char_facts d (hL d (List.mem_cons_self _ _))).2.2.2.2.2.2.2, Nat.ofDigits_cons]
        push_cast
        ring
    rw [key _ (fun d hd => Nat.digits_lt_base (by decide) hd), Nat.ofDigits_digits]

/-- A value that is not negative and fits a `long` is read back by `strtol`
from the characters `%d` writes for it. -/
theorem integer_value_print_int (n : Int) (hn : 0 ≤ n) (hmax : n ≤ LONG_MAX) :
    integer_value (print_int n) = some n := by
  obtain ⟨hne, hdig⟩ := print_int_digits n hn
  obtain ⟨c, t, hct⟩ := List.exists_cons_of_ne_nil hne
  have hc : ∃ d : Nat, d < 10 ∧ c = Char.ofNat (48 + d) :=
    hdig c (by rw [hct]; exact List.mem_cons_self _ _)
  obtain ⟨d, hd, hcd⟩ := hc
  have fc := digit_char_facts d hd
  rw [← hcd] at fc
  have hall : ∀ ch ∈ print_int n, ch.isDigit = true := by
    intro ch hch
    obtain ⟨e, he, rfl⟩ := hdig ch hch
    exact (digit_char_facts e he).1
  have hval := print_int_value n.toNat
  rw [Int.toNat_of_nonneg hn] at hval
  have hst : strtol (print_int n) = (n, []) := by
    unfold strtol
    have e1 : (print_int n).dropWhile isspace = print_int n := by
      rw [hct, List.dropWhile_cons, fc.2.1]
      rfl
    have e2 : (print_int n).head? = some c := by rw [hct]; rfl
    have hminus : ¬ (some c = some '-') := fun e => fc.2.2.1 (Option.some.inj e)
    have hplus : ¬ (some c = some '+') := fun e => fc.2.2.2.1 (Option.some.inj e)
    simp only [e1, e2, hminus, hplus, or_self, if_false, decide_False,
      takeWhile_all _ _ hall, dropWhile_all _ _ hall, hne, hval, Bool.false_eq_true]
    have hl : LONG_MAX = 9223372036854775807 := rfl
    rw [min_eq_right hmax, max_eq_right (by omega)]
  rw [integer_value_eq_some]
  exact ⟨hne, by rw [hst], by rw [hst]⟩

theorem print_int_no_char (n : Int) (hn : 0 ≤ n) :
    ' ' ∉ print_int n ∧ '\n' ∉ print_int n ∧ Char.ofNat 0 ∉ print_int n := by
  obtain ⟨_, hdig⟩ := print_int_digits n hn
  refine ⟨?_, ?_, ?_⟩
  · intro h
    obtain ⟨d, hd, e⟩ := hdig _ h
    exact (digit_char_facts d hd).2.2.2.2.1 e.symm
  · intro h
    obtain ⟨d, hd, e⟩ := hdig _ h
    exact (digit_char_facts d hd).2.2.2.2.2.1 e.symm
  · intro h
    obtain ⟨d, hd, e⟩ := hdig _ h
    exact (digit_char_facts d hd).2.2.2.2.2.2.1 e.symm

/-! ### The text `save_game` writes -/

theorem flatMap_single {α β : Type} (f : α → β) (l : List α) :
    (l.flatMap fun a => [f a]) = l.map f := by
  induction l with
  | nil => rfl
  | cons a l ih => rw [List.flatMap_cons, ih, List.map_cons]; rfl

theorem loop_range_length (lo hi : Int) : (loop_range lo hi).length = (hi + 1 - lo).toNat := by
  unfold loop_range
  rw [List.length_map, List.length_range]

theorem loop_range_getD (lo hi : Int) (i : Nat) (h : i < (hi + 1 - lo).toNat) (d : Int) :
    (loop_range lo hi).getD i d = lo + (i : Int) := by
  rw [List.getD_eq_getElem _ _ (by rw [loop_range_length]; exact h)]
  unfold loop_range
  rw [List.getElem_map, List.getElem_range]

theorem saved_owner_owner_char (o : Option PlayerRef) : saved_owner (owner_char o) = o := by
  cases o with
  | none => rfl
  | some p => cases p <;> rfl

/-- The text `save_game` writes when the symbols of the players are "*" and
"#": the header line of the four values, and the rows of the board. -/
theorem save_game_text (game : Game) (hs1 : game.player1.symbol = "*")
    (hs2 : game.player2.symbol = "#") :
    save_game game =
      header_line (print_int game.tiles.current) (print_int game.turn)
          (print_int game.gameBoard.height) (print_int game.gameBoard.width) ++
        '\n' :: rows_text (saved_rows game.gameBoard) := by
  have hcell : ∀ o : Option PlayerRef, save_cell game o = [owner_char o] := by
    intro o
    cases o with
    | none => rfl
    | some p =>
      cases p with
      | player1 =>
        show game.player1.symbol.toList = _
        rw [hs1]
        rfl
      | player2 =>
        show game.player2.symbol.toList = _
        rw [hs2]
        rfl
  unfold save_game
  dsimp only
  simp only [hcell, flatMap_single]
  unfold header_line rows_text saved_rows
  rw [List.flatMap_map]
  simp only [List.append_assoc, List.cons_append, List.nil_append, Function.comp_def]

/-- The rows `save_game` writes for a board are rows of a grid of its height
and width. -/
theorem saved_rows_ok (board : Board) (hh : 0 ≤ board.height) (hw : 0 ≤ board.width) :
    ((saved_rows board).length : Int) = board.height ∧
    ∀ line ∈ saved_rows board, grid_row_ok board.width line := by
  refine ⟨?_, ?_⟩
  · unfold saved_rows
    rw [List.length_map, loop_range_length]
    omega
  · intro line hl
    unfold saved_rows at hl
    obtain ⟨r, _, rfl⟩ := List.mem_map.mp hl
    refine ⟨?_, ?_⟩
    · rw [List.length_map, loop_range_length]
      omega
    · intro ch hch
      obtain ⟨c, _, rfl⟩ := List.mem_map.mp hch
      cases board.grid r c with
      | none => exact Or.inl rfl
      | some p =>
        cases p with
        | player1 => exact Or.inr (Or.inl rfl)
        | player2 => exact Or.inr (Or.inr rfl)

/-- The character of the saved rows at row `r`, column `c`. -/
theorem saved_rows_getD (board : Board) (r c : Nat) (hr : (r : Int) < board.height)
    (hc : (c : Int) < board.width) :
    ((saved_rows board).getD r []).getD c '.' = owner_char (board.grid r c) := by
  unfold saved_rows
  have h1 : r < (loop_range 0 (board.height - 1)).length := by
    rw [loop_range_length]
    omega
  have h2 : c < (loop_range 0 (board.width - 1)).length := by
    rw [loop_range_length]
    omega
  have e0 : ((loop_range 0 (board.height - 1)).map fun r =>
      (loop_range 0 (board.width - 1)).map fun c => owner_char (board.grid r c)).getD r [] =
      (loop_range 0 (board.width - 1)).map fun c =>
        owner_char (board.grid (loop_range 0 (board.height - 1))[r] c) := by
    rw [List.getD_eq_getElem _ _ (by rw [List.length_map]; exact h1), List.getElem_map]
  rw [e0, List.getD_eq_getElem _ _ (by rw [List.length_map]; exact h2), List.getElem_map]
  have e1 : (loop_range 0 (board.height - 1))[r] = (r : Int) := by
    have := loop_range_getD 0 (board.height - 1) r (by omega) 0
    rw [List.getD_eq_getElem _ _ h1] at this
    rw [this]
    omega
  have e2 : (loop_range 0 (board.width - 1))[c] = (c : Int) := by
    have := loop_range_getD 0 (board.width - 1) c (by omega) 0
    rw [List.getD_eq_getElem _ _ h2] at this
    rw [this]
    omega
  rw [e1, e2]

/-- The header line `save_game` writes is read back by `parse_header`: the
game it leaves has the saved tile index and turn and an empty board of the
saved height and width. -/
theorem parse_header_saved (game target : Game) (headerInfo : Int → Int)
    (hcat : target.tiles.total = game.tiles.total)
    (htile : 0 ≤ game.tiles.current ∧ game.tiles.current < game.tiles.total)
    (htotal : game.tiles.total ≤ INT_MAX)
    (hturn : 0 ≤ game.turn ∧ game.turn ≤ 1)
    (hh : 1 ≤ game.gameBoard.height ∧ game.gameBoard.height ≤ 999)
    (hw : 1 ≤ game.gameBoard.width ∧ game.gameBoard.width ≤ 999) :
    '\n' ∉ header_line (print_int game.tiles.current) (print_int game.turn)
      (print_int game.gameBoard.height) (print_int game.gameBoard.width) ∧
    parse_header
        (c_string (header_line (print_int game.tiles.current) (print_int game.turn)
          (print_int game.gameBoard.height) (print_int game.gameBoard.width)))
        headerInfo target =
      (true,
        { target with
          tiles := { target.tiles with current := game.tiles.current }
          turn := game.turn
          gameBoard :=
            reallocate_grid target.gameBoard game.gameBoard.height game.gameBoard.width }) := by
  have hmin : INT_MIN = -2147483648 := rfl
  have hmax : INT_MAX = 2147483647 := rfl
  have hl : LONG_MAX = 9223372036854775807 := rfl
  have c0 := print_int_no_char game.tiles.current htile.1
  have c1 := print_int_no_char game.turn hturn.1
  have c2 := print_int_no_char game.gameBoard.height (by omega)
  have c3 := print_int_no_char game.gameBoard.width (by omega)
  have hsp : (' ' : Char) ≠ '\n' := by decide
  have hzero : (' ' : Char) ≠ Char.ofNat 0 := by decide
  refine ⟨?_, ?_⟩
  · unfold header_line
    simp only [List.mem_append, List.mem_cons, not_or]
    exact ⟨c0.2.1, Ne.symm hsp, c1.2.1, Ne.symm hsp, c2.2.1, Ne.symm hsp, c3.2.1⟩
  · have hstr : c_string (header_line (print_int game.tiles.current) (print_int game.turn)
        (print_int game.gameBoard.height) (print_int game.gameBoard.width)) =
        header_line (print_int game.tiles.current) (print_int game.turn)
          (print_int game.gameBoard.height) (print_int game.gameBoard.width) := by
      unfold c_string
      apply takeWhile_all
      intro ch hch
      unfold header_line at hch
      simp only [List.mem_append, List.mem_cons] at hch
      have hne : ch ≠ Char.ofNat 0 := by
        rcases hch with h | h | h | h | h | h | h
        · exact fun e => c0.2.2 (e ▸ h)
        · rw [h]; exact hzero
        · exact fun e => c1.2.2 (e ▸ h)
        · rw [h]; exact hzero
        · exact fun e => c2.2.2 (e ▸ h)
        · rw [h]; exact hzero
        · exact fun e => c3.2.2 (e ▸ h)
      simpa using hne
    obtain ⟨converted, e0, e1, e2, e3, hp⟩ := parse_header_converted
      (print_int game.tiles.current) (print_int game.turn) (print_int game.gameBoard.height)
      (print_int game.gameBoard.width) game.tiles.current game.turn game.gameBoard.height
      game.gameBoard.width headerInfo target c0.1 c1.1 c2.1 c3.1
      (integer_value_print_int _ htile.1 (by omega))
      (integer_value_print_int _ hturn.1 (by omega))
      (integer_value_print_int _ (by omega) (by omega))
      (integer_value_print_int _ (by omega) (by omega))
      ⟨by omega, by omega⟩ ⟨by omega, by omega⟩ ⟨by omega, by omega⟩ ⟨by omega, by omega⟩
    rw [hstr, hp, parse_header_values_true converted target (by
      rw [e0, e1, e2, e3, hcat]
      omega), e0, e1, e2, e3]

/-! ### The moves in 32-bit arithmetic -/

/-- A 32-bit loop over a state whose bounds stay away from the ends of `int`
is the fold over the integers from `lo` to `hi`. -/
theorem for_wrap_state_range {σ : Type} (body : Int → σ → Option σ) (f : σ → Int → σ)
    (hi : Int) (hhi : hi < 2147483647) (fuel : Nat) (lo : Int) (hlo : -2147483648 ≤ lo)
    (hle : lo ≤ hi + 1) (hfuel : hi + 1 - lo < (fuel : Int))
    (hb : ∀ i state, lo ≤ i → i ≤ hi → body i state = some (f state i)) (state : σ) :
    for_wrap_state body hi fuel lo state = some ((loop_range lo hi).foldl f state) := by
  induction fuel generalizing lo state with
  | zero =>
    simp only [Nat.cast_zero] at hfuel
    omega
  | succ fuel ih =>
    rw [for_wrap_state]
    by_cases h : lo ≤ hi
    · rw [if_pos h, hb lo state (le_refl _) h, loop_range_cons lo hi h, List.foldl_cons]
      dsimp only
      rw [wrap_int_eq (lo + 1) (by omega) (by omega),
        ih (lo + 1) (by omega) (by omega) (by push_cast at hfuel; omega)
          (fun i s h1 h2 => hb i s (by omega) h2)]
    · rw [if_neg h, loop_range_nil lo hi (by omega)]
      rfl

/-- At an anchor whose row and column are at least `INT_MIN + 2` and at most
`INT_MAX - 3` no operation of `place_move` overflows, and the 32-bit function
gives the game `place_move` gives on the integers. -/
theorem place_move_wrap_safe (fuel : Nat) (row col theta : Int) (playing : PlayerRef)
    (game : Game) (tiles : Tiles) (hfuel : 6 ≤ fuel)
    (hrow : INT_MIN + 2 ≤ row ∧ row ≤ INT_MAX - 3)
    (hcol : INT_MIN + 2 ≤ col ∧ col ≤ INT_MAX - 3) :
    place_move_wrap fuel (row, col, theta) playing game tiles =
      some (place_move (row, col, theta) playing game tiles) := by
  have hmin : INT_MIN = -2147483648 := rfl
  have hmax : INT_MAX = 2147483647 := rfl
  have hf : (6 : Int) ≤ (fuel : Int) := by exact_mod_cast hfuel
  unfold place_move_wrap place_move
  dsimp only
  rw [offset_eq, wrap_int_eq (row + 2) (by omega) (by omega),
    wrap_int_eq (row - 2) (by omega) (by omega), wrap_int_eq (col + 2) (by omega) (by omega),
    wrap_int_eq (col - 2) (by omega) (by omega)]
  rw [for_wrap_state_range _
    (fun board y =>
      (loop_range (col - 2) (col + 2)).foldl
        (fun board x =>
          if tiles.grid (theta.tdiv 90) tiles.current (y - row + 2) (x - col + 2) ≠ 0 then
            board_set board y x (some playing)
          else board)
        board)
    _ (by omega) fuel _ (by omega) (by omega) (by omega)]
  intro y board hy1 hy2
  rw [for_wrap_state_range _
    (fun board x =>
      if tiles.grid (theta.tdiv 90) tiles.current (y - row + 2) (x - col + 2) ≠ 0 then
        board_set board y x (some playing)
      else board)
    _ (by omega) fuel _ (by omega) (by omega) (by omega)]
  intro x board hx1 hx2
  rw [wrap_int_eq (y - row) (by omega) (by omega), wrap_int_eq (y - row + 2) (by omega) (by omega),
    wrap_int_eq (x - col) (by omega) (by omega), wrap_int_eq (x - col + 2) (by omega) (by omega)]

/-- At an anchor away from the limits of `int` the commit of a command is the
commit on the integers. -/
theorem commit_wrap_safe (fuel : Nat) (row col theta : Int) (currentPlayer : PlayerRef)
    (game : Game) (hfuel : 6 ≤ fuel)
    (hrow : INT_MIN + 2 ≤ row ∧ row ≤ INT_MAX - 3)
    (hcol : INT_MIN + 2 ≤ col ∧ col ≤ INT_MAX - 3) :
    commit_wrap fuel (row, col, theta) currentPlayer game =
      some (change_tiles (change_turn
        (place_move (row, col, theta) currentPlayer game game.tiles))) := by
  unfold commit_wrap
  rw [place_move_wrap_safe fuel row col theta currentPlayer game game.tiles hfuel hrow hcol]

/-- When every line of the input has its row and column at least `INT_MIN + 2`
and at most `INT_MAX - 3`, the 32-bit `human_prompt` returns what `human_prompt`
returns on the integers. -/
theorem human_prompt_wrap_safe (fuel : Nat) (game : Game) (currentPlayer : PlayerRef)
    (hfuel : 6 ≤ fuel) (input : List PromptLine)
    (hsafe : ∀ line ∈ input,
      (INT_MIN + 2 ≤ line.2.1 ∧ line.2.1 ≤ INT_MAX - 3) ∧
        (INT_MIN + 2 ≤ line.2.2.1 ∧ line.2.2.1 ≤ INT_MAX - 3)) :
    human_prompt_wrap fuel game currentPlayer input =
      some (human_prompt game currentPlayer input) := by
  induction input with
  | nil => rfl
  | cons line rest ih =>
    obtain ⟨errorCode, row, col, theta⟩ := line
    have hline := hsafe (errorCode, row, col, theta) (List.mem_cons_self _ _)
    have hrest := ih (fun l hl => hsafe l (List.mem_cons_of_mem _ hl))
    rw [human_prompt_wrap, human_prompt]
    by_cases h1 : errorCode = TokenCode.SAVE_FILE
    · rw [if_pos h1, if_pos h1, hrest]
    · rw [if_neg h1, if_neg h1]
      by_cases h2 : errorCode = TokenCode.NO_TOKEN_ERROR ∧
          correct_rotation (row, col, theta) = true
      · rw [if_pos h2, valid_move_wrap_safe fuel row col theta currentPlayer game.gameBoard
          game.tiles hfuel hline.1 hline.2]
        cases hv : valid_move (row, col, theta) currentPlayer game.gameBoard game.tiles with
        | true =>
          dsimp only
          rw [commit_wrap_safe fuel row col theta currentPlayer game hfuel hline.1 hline.2,
            if_pos ⟨h2.1, h2.2, rfl⟩]
        | false =>
          dsimp only
          rw [hrest, if_neg (by simp)]
      · rw [if_neg h2, hrest, if_neg (fun h => h2 ⟨h.1, h.2.1⟩)]

/-- The legality rule in 32-bit arithmetic, at an anchor whose row and column
are at least `INT_MIN + 2` and at most `INT_MAX - 3`: `valid_move` returns, and
returns true exactly when every placeable cell of the active layout maps to a
cell inside the board that is empty. -/
theorem valid_move_wrap_rule (fuel : Nat) (row col theta : Int) (playing : PlayerRef)
    (grid : Board) (tiles : Tiles) (hfuel : 6 ≤ fuel)
    (hrow : INT_MIN + 2 ≤ row ∧ row ≤ INT_MAX - 3)
    (hcol : INT_MIN + 2 ≤ col ∧ col ≤ INT_MAX - 3) :
    (valid_move_wrap fuel (row, col, theta) playing grid tiles = some true ∨
      valid_move_wrap fuel (row, col, theta) playing grid tiles = some false) ∧
    (valid_move_wrap fuel (row, col, theta) playing grid tiles = some true ↔
      ∀ dr dc : Int, 0 ≤ dr → dr < 5 → 0 ≤ dc → dc < 5 →
        tiles.grid (theta.tdiv 90) tiles.current dr dc ≠ 0 →
          (0 ≤ row + dr - 2 ∧ row + dr - 2 < grid.height ∧
            0 ≤ col + dc - 2 ∧ col + dc - 2 < grid.width) ∧
          grid.grid (row + dr - 2) (col + dc - 2) = none) := by
  rw [valid_move_wrap_safe fuel row col theta playing grid tiles hfuel hrow hcol,
    ← valid_move_eq_true row col theta playing grid tiles]
  constructor
  · cases valid_move (row, col, theta) playing grid tiles
    · exact Or.inr rfl
    · exact Or.inl rfl
  · exact ⟨fun h => Option.some.inj h, fun h => by rw [h]⟩

theorem for_wrap_reads_fst (body : Int → Option Bool × List Access) (hi : Int) (fuel : Nat)
    (i : Int) :
    (for_wrap_reads body hi fuel i).1 = for_wrap (fun j => (body j).1) hi fuel i := by
  induction fuel generalizing i with
  | zero => rfl
  | succ fuel ih =>
    rw [for_wrap_reads, for_wrap]
    by_cases h : i ≤ hi
    · rw [if_pos h, if_pos h]
      rcases hb : (body i).1 with _ | _ | _
      · rfl
      · rfl
      · exact ih _
    · rw [if_neg h, if_neg h]

theorem valid_move_test_wrap_fst (grid : Board) (tiles : Tiles)
    (rotationIndex centerY centerX offset y x : Int) :
    (valid_move_test_wrap grid tiles rotationIndex centerY centerX offset y x).1 =
      !(decide (tiles.grid rotationIndex tiles.current
            (wrap_int (wrap_int (y - centerY) + offset))
            (wrap_int (wrap_int (x - centerX) + offset)) ≠ 0) &&
        (decide (y < 0) || decide (y ≥ grid.height) || decide (x < 0) || decide (x ≥ grid.width)
          || decide (grid.grid y x ≠ none))) := by
  unfold valid_move_test_wrap
  dsimp only
  by_cases h1 : tiles.grid rotationIndex tiles.current
      (wrap_int (wrap_int (y - centerY) + offset))
      (wrap_int (wrap_int (x - centerX) + offset)) ≠ 0
  · rw [if_pos h1]
    by_cases h2 : y < 0 ∨ y ≥ grid.height ∨ x < 0 ∨ x ≥ grid.width
    · rw [if_pos h2]
      rcases h2 with h | h | h | h <;> simp [h1, h]
    · rw [if_neg h2]
      have n1 : ¬ y < 0 := fun h => h2 (Or.inl h)
      have n2 : ¬ y ≥ grid.height := fun h => h2 (Or.inr (Or.inl h))
      have n3 : ¬ x < 0 := fun h => h2 (Or.inr (Or.inr (Or.inl h)))
      have n4 : ¬ x ≥ grid.width := fun h => h2 (Or.inr (Or.inr (Or.inr h)))
      by_cases h3 : grid.grid y x ≠ none
      · rw [if_pos h3]
        simp [h1, h3]
      · rw [if_neg h3]
        simp [h1, n1, n2, n3, n4, h3]
  · rw [if_neg h1]
    simp [h1]

/-- The 32-bit function with the list of reads returns what `valid_move_wrap`
returns. -/
theorem valid_move_wrap_reads_fst (fuel : Nat) (command : Command) (playing : PlayerRef)
    (grid : Board) (tiles : Tiles) :
    (valid_move_wrap_reads fuel command playing grid tiles).1 =
      valid_move_wrap fuel command playing grid tiles := by
  unfold valid_move_wrap_reads valid_move_wrap
  dsimp only
  rw [for_wrap_reads_fst]
  congr 1
  funext y
  rw [for_wrap_reads_fst]
  congr 1
  funext x
  dsimp only
  rw [valid_move_test_wrap_fst]

/-- A 32-bit loop with reads whose bounds stay away from the ends of `int`
reads what the loop over the integers from `lo` to `hi` reads. -/
theorem for_wrap_reads_range (body : Int → Option Bool × List Access)
    (b : Int → Bool × List Access) (hi : Int) (hhi : hi < 2147483647) (fuel : Nat) (lo : Int)
    (hlo : -2147483648 ≤ lo) (hle : lo ≤ hi + 1) (hfuel : hi + 1 - lo < (fuel : Int))
    (hb : ∀ i, lo ≤ i → i ≤ hi → body i = (some (b i).1, (b i).2)) :
    for_wrap_reads body hi fuel lo =
      (some (scan_cells b (loop_range lo hi)).1, (scan_cells b (loop_range lo hi)).2) := by
  induction fuel generalizing lo with
  | zero =>
    simp only [Nat.cast_zero] at hfuel
    omega
  | succ fuel ih =>
    rw [for_wrap_reads]
    by_cases h : lo ≤ hi
    · rw [if_pos h, hb lo (le_refl _) h, loop_range_cons lo hi h, scan_cells]
      cases hbl : (b lo).1 with
      | false => simp
      | true =>
        dsimp only
        rw [wrap_int_eq (lo + 1) (by omega) (by omega),
          ih (lo + 1) (by omega) (by omega) (by push_cast at hfuel; omega)
            (fun i h1 h2 => hb i (by omega) h2)]
        simp
    · rw [if_neg h, loop_range_nil lo hi (by omega)]
      rfl

/-- At an anchor whose row and column are at least `INT_MIN + 2` and at most
`INT_MAX - 3` the 32-bit `valid_move` reads the cells `valid_move` reads on the
integers. -/
theorem valid_move_wrap_reads_safe (fuel : Nat) (row col theta : Int) (playing : PlayerRef)
    (grid : Board) (tiles : Tiles) (hfuel : 6 ≤ fuel)
    (hrow : INT_MIN + 2 ≤ row ∧ row ≤ INT_MAX - 3)
    (hcol : INT_MIN + 2 ≤ col ∧ col ≤ INT_MAX - 3) :
    valid_move_wrap_reads fuel (row, col, theta) playing grid tiles =
      (some (valid_move_reads (row, col, theta) playing grid tiles).1,
        (valid_move_reads (row, col, theta) playing grid tiles).2) := by
  have hmin : INT_MIN = -2147483648 := rfl
  have hmax : INT_MAX = 2147483647 := rfl
  have hf : (6 : Int) ≤ (fuel : Int) := by exact_mod_cast hfuel
  unfold valid_move_wrap_reads valid_move_reads
  dsimp only
  rw [offset_eq, wrap_int_eq (row + 2) (by omega) (by omega),
    wrap_int_eq (row - 2) (by omega) (by omega), wrap_int_eq (col + 2) (by omega) (by omega),
    wrap_int_eq (col - 2) (by omega) (by omega)]
  apply for_wrap_reads_range _ _ _ (by omega) fuel _ (by omega) (by omega) (by omega)
  intro y hy1 hy2
  apply for_wrap_reads_range _ _ _ (by omega) fuel _ (by omega) (by omega) (by omega)
  intro x hx1 hx2
  unfold valid_move_test_wrap valid_move_test
  dsimp only
  rw [wrap_int_eq (y - row) (by omega) (by omega), wrap_int_eq (y - row + 2) (by omega) (by omega),
    wrap_int_eq (x - col) (by omega) (by omega), wrap_int_eq (x - col + 2) (by omega) (by omega)]

/-- A state of `game_loop` in which the probe is true and the automatic player
of type 1 returns the game as it was: the loop comes back to the same state and
does not end. -/
theorem game_loop_wrap_spin (fuel : Nat) (game : Game)
    (hprobe : check_possible_move_wrap fuel game (players game.turn) = some true)
    (htype : (game.player (players game.turn)).type = PlayerType.P1_AUTO)
    (hsame : algorithm_one_wrap fuel game players = some game) (turns : Nat)
    (input : List PromptLine) : game_loop_wrap turns fuel input game = none := by
  induction turns with
  | zero => rfl
  | succ turns ih =>
    rw [game_loop_wrap]
    simp only [hprobe, htype, hsame]
    exact ih

/-! ### The searches in 32-bit arithmetic, away from the limits of `int` -/

theorem update_position_algorithm_one_wrap_safe (row boardHeight col boardWidth b : Int)
    (hb : b ≤ INT_MAX - 3) (hH : 0 ≤ boardHeight ∧ boardHeight + 1 ≤ b)
    (hW : 0 ≤ boardWidth ∧ boardWidth + 1 ≤ b) (hrow : -b ≤ row ∧ row ≤ b)
    (hcol : -b ≤ col ∧ col ≤ b) :
    update_position_algorithm_one_wrap row boardHeight col boardWidth =
      update_position_algorithm_one row boardHeight col boardWidth := by
  have hmax : INT_MAX = 2147483647 := rfl
  unfold update_position_algorithm_one_wrap update_position_algorithm_one
  dsimp only
  rw [wrap_int_eq (col + 1) (by omega) (by omega),
    wrap_int_eq (boardWidth - 1) (by omega) (by omega),
    wrap_int_eq (boardWidth - 1 + 2) (by omega) (by omega),
    wrap_int_eq (row + 1) (by omega) (by omega),
    wrap_int_eq (boardHeight - 1) (by omega) (by omega),
    wrap_int_eq (boardHeight - 1 + 2) (by omega) (by omega)]

theorem update_position_algorithm_two_wrap_safe (row boardHeight col boardWidth b : Int)
    (isFirstPlayer : Bool)
    (hb : b ≤ INT_MAX - 3) (hH : 0 ≤ boardHeight ∧ boardHeight + 1 ≤ b)
    (hW : 0 ≤ boardWidth ∧ boardWidth + 1 ≤ b) (hrow : -b ≤ row ∧ row ≤ b)
    (hcol : -b ≤ col ∧ col ≤ b) :
    update_position_algorithm_two_wrap row boardHeight col boardWidth isFirstPlayer =
      update_position_algorithm_two row boardHeight col boardWidth isFirstPlayer := by
  have hmax : INT_MAX = 2147483647 := rfl
  unfold update_position_algorithm_two_wrap update_position_algorithm_two
  dsimp only
  rw [wrap_int_eq (col + 1) (by omega) (by omega),
    wrap_int_eq (boardWidth - 1) (by omega) (by omega),
    wrap_int_eq (boardWidth - 1 + 2) (by omega) (by omega),
    wrap_int_eq (row + 1) (by omega) (by omega),
    wrap_int_eq (boardHeight - 1) (by omega) (by omega),
    wrap_int_eq (boardHeight - 1 + 2) (by omega) (by omega),
    wrap_int_eq (col - 1) (by omega) (by omega),
    wrap_int_eq (row - 1) (by omega) (by omega)]

/-- One update moves an anchor by at most one step out of a square that holds
the scan range. -/
theorem update_position_algorithm_one_bound (row boardHeight col boardWidth b : Int)
    (hb : 2 ≤ b) (hrow : -b ≤ row ∧ row ≤ b) (hcol : -b ≤ col ∧ col ≤ b) :
    (-(b + 1) ≤ (update_position_algorithm_one row boardHeight col boardWidth).1 ∧
      (update_position_algorithm_one row boardHeight col boardWidth).1 ≤ b + 1) ∧
    (-(b + 1) ≤ (update_position_algorithm_one row boardHeight col boardWidth).2 ∧
      (update_position_algorithm_one row boardHeight col boardWidth).2 ≤ b + 1) := by
  unfold update_position_algorithm_one
  dsimp only
  split_ifs <;> (dsimp only; omega)

theorem update_position_algorithm_two_bound (row boardHeight col boardWidth b : Int)
    (isFirstPlayer : Bool)
    (hb : 2 ≤ b) (hH : boardHeight + 1 ≤ b ∧ 0 ≤ boardHeight)
    (hW : boardWidth + 1 ≤ b ∧ 0 ≤ boardWidth)
    (hrow : -b ≤ row ∧ row ≤ b) (hcol : -b ≤ col ∧ col ≤ b) :
    (-(b + 1) ≤ (update_position_algorithm_two row boardHeight col boardWidth isFirstPlayer).1 ∧
      (update_position_algorithm_two row boardHeight col boardWidth isFirstPlayer).1 ≤ b + 1) ∧
    (-(b + 1) ≤ (update_position_algorithm_two row boardHeight col boardWidth isFirstPlayer).2 ∧
      (update_position_algorithm_two row boardHeight col boardWidth isFirstPlayer).2 ≤ b + 1) := by
  unfold update_position_algorithm_two
  dsimp only
  split_ifs <;> (dsimp only; omega)

theorem first_rotation_wrap_safe (loops : Nat) (game : Game) (currentPlayer : PlayerRef)
    (row col : Int) (hloops : 6 ≤ loops)
    (hrow : INT_MIN + 2 ≤ row ∧ row ≤ INT_MAX - 3)
    (hcol : INT_MIN + 2 ≤ col ∧ col ≤ INT_MAX - 3) (l : List Int) :
    first_rotation_wrap loops game currentPlayer row col l =
      some (first_rotation game currentPlayer row col l) := by
  induction l with
  | nil => rfl
  | cons theta rest ih =>
    rw [first_rotation_wrap, first_rotation,
      valid_move_wrap_safe loops row col theta currentPlayer game.gameBoard game.tiles hloops
        hrow hcol]
    cases valid_move (row, col, theta) currentPlayer game.gameBoard game.tiles with
    | true => rfl
    | false =>
      dsimp only
      rw [ih]
      rfl

/-- The position loop of `algorithm_two` in 32-bit arithmetic is the loop on the
integers, and the command it finds has a safe anchor, when the loop variables
start inside a square of half side `b` that holds the scan range and
`b + fuel` is at most `INT_MAX - 3`. -/
theorem algorithm_two_scan_wrap_safe (loops : Nat) (game : Game) (currentPlayer : PlayerRef)
    (recentMove : Int × Int) (firstPlayer : Bool) (hloops : 6 ≤ loops)
    (hH : 0 ≤ game.gameBoard.height) (hW : 0 ≤ game.gameBoard.width) (fuel : Nat) (b : Int)
    (hb : 2 ≤ b ∧ game.gameBoard.height + 1 ≤ b ∧ game.gameBoard.width + 1 ≤ b)
    (hbf : b + (fuel : Int) ≤ INT_MAX - 3) (row col : Int)
    (hrow : -b ≤ row ∧ row ≤ b) (hcol : -b ≤ col ∧ col ≤ b) :
    algorithm_two_scan_wrap loops game currentPlayer recentMove firstPlayer fuel row col =
      algorithm_two_scan game currentPlayer recentMove firstPlayer fuel row col ∧
    ∀ command : Command,
      algorithm_two_scan game currentPlayer recentMove firstPlayer fuel row col =
        Scan.found command →
      (INT_MIN + 2 ≤ command.1 ∧ command.1 ≤ INT_MAX - 3) ∧
        (INT_MIN + 2 ≤ command.2.1 ∧ command.2.1 ≤ INT_MAX - 3) := by
  have hmin : INT_MIN = -2147483648 := rfl
  have hmax : INT_MAX = 2147483647 := rfl
  induction fuel generalizing b row col with
  | zero => exact ⟨rfl, fun _ h => by simp [algorithm_two_scan] at h⟩
  | succ fuel ih =>
    push_cast at hbf
    have hsafe := first_rotation_wrap_safe loops game currentPlayer row col hloops
      (by omega) (by omega) [0, 90, 180, 270]
    have hupd := update_position_algorithm_two_wrap_safe row game.gameBoard.height col
      game.gameBoard.width b firstPlayer (by omega) ⟨hH, hb.2.1⟩ ⟨hW, hb.2.2⟩ hrow hcol
    have hbound := update_position_algorithm_two_bound row game.gameBoard.height col
      game.gameBoard.width b firstPlayer hb.1 ⟨hb.2.1, hH⟩ ⟨hb.2.2, hW⟩ hrow hcol
    have hnext := ih (b + 1) ⟨by omega, by omega, by omega⟩ (by omega) _ _ hbound.1 hbound.2
    rw [algorithm_two_scan_wrap, algorithm_two_scan, hsafe, hupd]
    cases hf : first_rotation game currentPlayer row col [0, 90, 180, 270] with
    | some command =>
      refine ⟨rfl, fun c hc => ?_⟩
      obtain ⟨theta, _, he⟩ := first_rotation_some_mem game currentPlayer row col _ command hf
      have hcc : c = command := by
        simp only [Scan.found.injEq] at hc
        exact hc.symm
      rw [hcc, he]
      exact ⟨⟨by show INT_MIN + 2 ≤ row; omega, by show row ≤ INT_MAX - 3; omega⟩,
        by show INT_MIN + 2 ≤ col; omega, by show col ≤ INT_MAX - 3; omega⟩
    | none =>
      dsimp only
      split_ifs with hne
      · exact hnext
      · exact ⟨rfl, fun _ h => by simp at h⟩

theorem algorithm_one_scan_wrap_safe (loops : Nat) (game : Game) (currentPlayer : PlayerRef)
    (recentMove : Int × Int) (theta : Int) (hloops : 6 ≤ loops)
    (hH : 0 ≤ game.gameBoard.height) (hW : 0 ≤ game.gameBoard.width) (fuel : Nat) (b : Int)
    (hb : 2 ≤ b ∧ game.gameBoard.height + 1 ≤ b ∧ game.gameBoard.width + 1 ≤ b)
    (hbf : b + (fuel : Int) ≤ INT_MAX - 3) (row col : Int)
    (hrow : -b ≤ row ∧ row ≤ b) (hcol : -b ≤ col ∧ col ≤ b) :
    algorithm_one_scan_wrap loops game currentPlayer recentMove theta fuel row col =
      algorithm_one_scan game currentPlayer recentMove theta fuel row col ∧
    (∀ command : Command,
      algorithm_one_scan game currentPlayer recentMove theta fuel row col =
        Scan.found command →
      (INT_MIN + 2 ≤ command.1 ∧ command.1 ≤ INT_MAX - 3) ∧
        (INT_MIN + 2 ≤ command.2.1 ∧ command.2.1 ≤ INT_MAX - 3)) ∧
    ∀ r c : Int,
      algorithm_one_scan game currentPlayer recentMove theta fuel row col = Scan.wrapped r c →
      r = recentMove.1 ∧ c = recentMove.2 := by
  have hmin : INT_MIN = -2147483648 := rfl
  have hmax : INT_MAX = 2147483647 := rfl
  induction fuel generalizing b row col with
  | zero =>
    exact ⟨rfl, fun _ h => by simp [algorithm_one_scan] at h,
      fun _ _ h => by simp [algorithm_one_scan] at h⟩
  | succ fuel ih =>
    push_cast at hbf
    have hsafe := valid_move_wrap_safe loops row col theta currentPlayer game.gameBoard
      game.tiles hloops (by omega) (by omega)
    have hupd := update_position_algorithm_one_wrap_safe row game.gameBoard.height col
      game.gameBoard.width b (by omega) ⟨hH, hb.2.1⟩ ⟨hW, hb.2.2⟩ hrow hcol
    have hbound := update_position_algorithm_one_bound row game.gameBoard.height col
      game.gameBoard.width b hb.1 hrow hcol
    have hnext := ih (b + 1) ⟨by omega, by omega, by omega⟩ (by omega) _ _ hbound.1 hbound.2
    rw [algorithm_one_scan_wrap, algorithm_one_scan]
    dsimp only
    rw [hsafe, hupd]
    cases hf : valid_move (row, col, theta) currentPlayer game.gameBoard game.tiles with
    | true =>
      refine ⟨rfl, fun c hc => ?_, fun _ _ h => by simp at h⟩
      have hcc : c = (row, col, theta) := by
        simp only [if_true, Scan.found.injEq] at hc
        exact hc.symm
      rw [hcc]
      exact ⟨⟨by show INT_MIN + 2 ≤ row; omega, by show row ≤ INT_MAX - 3; omega⟩,
        by show INT_MIN + 2 ≤ col; omega, by show col ≤ INT_MAX - 3; omega⟩
    | false =>
      dsimp only
      simp only [Bool.false_eq_true, if_false]
      split_ifs with hne
      · exact hnext
      · refine ⟨rfl, fun _ h => by simp at h, fun r c h => ?_⟩
        simp only [Scan.wrapped.injEq] at h
        rw [← h.1, ← h.2]
        constructor
        · by_contra hx
          exact hne (Or.inl hx)
        · by_contra hx
          exact hne (Or.inr hx)

/-- The probe in 32-bit arithmetic is the probe on the integers when the
player's last move is unset or inside a square of half side `b` that holds the
scan range, and `b + fuel` is at most `INT_MAX - 3`. -/
theorem check_possible_move_wrap_safe (fuel : Nat) (game : Game) (currentPlayer : PlayerRef)
    (b : Int) (hfuel : 6 ≤ fuel)
    (hH : 0 ≤ game.gameBoard.height) (hW : 0 ≤ game.gameBoard.width)
    (hb : 2 ≤ b ∧ game.gameBoard.height + 1 ≤ b ∧ game.gameBoard.width + 1 ≤ b)
    (hbf : b + (fuel : Int) ≤ INT_MAX - 3)
    (hmove : (game.player currentPlayer).recentMove = (INT_MIN, INT_MIN) ∨
      ((-b ≤ (game.player currentPlayer).recentMove.1 ∧
          (game.player currentPlayer).recentMove.1 ≤ b) ∧
        (-b ≤ (game.player currentPlayer).recentMove.2 ∧
          (game.player currentPlayer).recentMove.2 ≤ b))) :
    check_possible_move_wrap fuel game currentPlayer =
      check_possible_move fuel game currentPlayer := by
  unfold check_possible_move_wrap check_possible_move
  dsimp only
  have hstart : (-b ≤ (if (game.player currentPlayer).recentMove.1 = INT_MIN ∧
          (game.player currentPlayer).recentMove.2 = INT_MIN then ((-2 : Int), (-2 : Int))
        else (game.player currentPlayer).recentMove).1 ∧
      (if (game.player currentPlayer).recentMove.1 = INT_MIN ∧
          (game.player currentPlayer).recentMove.2 = INT_MIN then ((-2 : Int), (-2 : Int))
        else (game.player currentPlayer).recentMove).1 ≤ b) ∧
      (-b ≤ (if (game.player currentPlayer).recentMove.1 = INT_MIN ∧
          (game.player currentPlayer).recentMove.2 = INT_MIN then ((-2 : Int), (-2 : Int))
        else (game.player currentPlayer).recentMove).2 ∧
      (if (game.player currentPlayer).recentMove.1 = INT_MIN ∧
          (game.player currentPlayer).recentMove.2 = INT_MIN then ((-2 : Int), (-2 : Int))
        else (game.player currentPlayer).recentMove).2 ≤ b) := by
    split_ifs with h
    · exact ⟨⟨by show -b ≤ -2; omega, by show (-2 : Int) ≤ b; omega⟩,
        by show -b ≤ -2; omega, by show (-2 : Int) ≤ b; omega⟩
    · rcases hmove with h0 | h0
      · rw [h0] at h
        exact absurd ⟨rfl, rfl⟩ h
      · exact h0
  rw [(algorithm_two_scan_wrap_safe fuel game currentPlayer _ true hfuel hH hW fuel b hb hbf
    _ _ hstart.1 hstart.2).1]

/-- The function `algorithm_two` in 32-bit arithmetic is the function on the
integers when the player's last move is unset or inside a square of half side
`b` that holds the scan range and the start `(width + 2, height + 2)`, and
`b + fuel` is at most `INT_MAX - 3`. -/
theorem algorithm_two_wrap_safe (fuel : Nat) (game : Game) (currentPlayer : PlayerRef)
    (b : Int) (hfuel : 6 ≤ fuel)
    (hH : 0 ≤ game.gameBoard.height) (hW : 0 ≤ game.gameBoard.width)
    (hb : 2 ≤ b ∧ game.gameBoard.height + 2 ≤ b ∧ game.gameBoard.width + 2 ≤ b)
    (hbf : b + (fuel : Int) ≤ INT_MAX - 3)
    (hmove : (game.player currentPlayer).recentMove = (INT_MIN, INT_MIN) ∨
      ((-b ≤ (game.player currentPlayer).recentMove.1 ∧
          (game.player currentPlayer).recentMove.1 ≤ b) ∧
        (-b ≤ (game.player currentPlayer).recentMove.2 ∧
          (game.player currentPlayer).recentMove.2 ≤ b))) :
    algorithm_two_wrap fuel game currentPlayer = algorithm_two fuel game currentPlayer := by
  have hmax : INT_MAX = 2147483647 := rfl
  unfold algorithm_two_wrap algorithm_two
  dsimp only
  rw [wrap_int_eq (game.gameBoard.width + 2) (by omega) (by omega),
    wrap_int_eq (game.gameBoard.height + 2) (by omega) (by omega)]
  generalize hs : (if (game.player currentPlayer).recentMove.1 = INT_MIN ∧
      (game.player currentPlayer).recentMove.2 = INT_MIN then
        if (game.player currentPlayer).firstPlayer = true then ((-2 : Int), (-2 : Int))
        else (game.gameBoard.width + 2, game.gameBoard.height + 2)
      else (game.player currentPlayer).recentMove) = start
  have hstart : (-b ≤ start.1 ∧ start.1 ≤ b) ∧ (-b ≤ start.2 ∧ start.2 ≤ b) := by
    rw [← hs]
    split_ifs with h h1
    · exact ⟨⟨by show -b ≤ -2; omega, by show (-2 : Int) ≤ b; omega⟩,
        by show -b ≤ -2; omega, by show (-2 : Int) ≤ b; omega⟩
    · exact ⟨⟨by show -b ≤ game.gameBoard.width + 2; omega,
          by show game.gameBoard.width + 2 ≤ b; omega⟩,
        by show -b ≤ game.gameBoard.height + 2; omega,
        by show game.gameBoard.height + 2 ≤ b; omega⟩
    · rcases hmove with h0 | h0
      · rw [h0] at h
        exact absurd ⟨rfl, rfl⟩ h
      · exact h0
  obtain ⟨he, hc⟩ := algorithm_two_scan_wrap_safe fuel game currentPlayer start
    (game.player currentPlayer).firstPlayer hfuel hH hW fuel b ⟨hb.1, by omega, by omega⟩ hbf
    start.1 start.2 hstart.1 hstart.2
  rw [he]
  cases hf : algorithm_two_scan game currentPlayer start (game.player currentPlayer).firstPlayer
      fuel start.1 start.2 with
  | found command =>
    obtain ⟨row, col, theta⟩ := command
    have := hc _ hf
    exact commit_wrap_safe fuel row col theta currentPlayer game hfuel this.1 this.2
  | wrapped _ _ => rfl
  | timeout => rfl

theorem algorithm_one_rotations_wrap_safe (fuel : Nat) (game : Game)
    (currentPlayer : PlayerRef) (recentMove : Int × Int) (b : Int) (hfuel : 6 ≤ fuel)
    (hH : 0 ≤ game.gameBoard.height) (hW : 0 ≤ game.gameBoard.width)
    (hb : 2 ≤ b ∧ game.gameBoard.height + 1 ≤ b ∧ game.gameBoard.width + 1 ≤ b)
    (hbf : b + (fuel : Int) ≤ INT_MAX - 3)
    (hrecent : (-b ≤ recentMove.1 ∧ recentMove.1 ≤ b) ∧ (-b ≤ recentMove.2 ∧ recentMove.2 ≤ b))
    (l : List Int) (row col : Int) (hrow : -b ≤ row ∧ row ≤ b) (hcol : -b ≤ col ∧ col ≤ b) :
    algorithm_one_rotations_wrap fuel game currentPlayer recentMove l row col =
      algorithm_one_rotations fuel game currentPlayer recentMove l row col := by
  induction l generalizing row col with
  | nil => rfl
  | cons theta rest ih =>
    obtain ⟨he, hc, hw⟩ := algorithm_one_scan_wrap_safe fuel game currentPlayer recentMove theta
      hfuel hH hW fuel b hb hbf row col hrow hcol
    rw [algorithm_one_rotations_wrap, algorithm_one_rotations, he]
    cases hf : algorithm_one_scan game currentPlayer recentMove theta fuel row col with
    | found command =>
      obtain ⟨r, c, t⟩ := command
      have := hc _ hf
      exact commit_wrap_safe fuel r c t currentPlayer game hfuel this.1 this.2
    | wrapped r c =>
      obtain ⟨e1, e2⟩ := hw r c hf
      exact ih r c (by rw [e1]; exact hrecent.1) (by rw [e2]; exact hrecent.2)
    | timeout => rfl

/-- The function `algorithm_one` in 32-bit arithmetic is the function on the
integers when the last move of the game is unset or inside a square of half
side `b` that holds the scan range, and `b + fuel` is at most `INT_MAX - 3`. -/
theorem algorithm_one_wrap_safe (fuel : Nat) (game : Game) (totalPlayers : Int → PlayerRef)
    (b : Int) (hfuel : 6 ≤ fuel)
    (hH : 0 ≤ game.gameBoard.height) (hW : 0 ≤ game.gameBoard.width)
    (hb : 2 ≤ b ∧ game.gameBoard.height + 1 ≤ b ∧ game.gameBoard.width + 1 ≤ b)
    (hbf : b + (fuel : Int) ≤ INT_MAX - 3)
    (hmove : game.recentMove = (INT_MIN, INT_MIN) ∨
      ((-b ≤ game.recentMove.1 ∧ game.recentMove.1 ≤ b) ∧
        (-b ≤ game.recentMove.2 ∧ game.recentMove.2 ≤ b))) :
    algorithm_one_wrap fuel game totalPlayers = algorithm_one fuel game totalPlayers := by
  unfold algorithm_one_wrap algorithm_one
  dsimp only
  generalize hs : (if game.recentMove.1 = INT_MIN ∧ game.recentMove.2 = INT_MIN then
      ((-2 : Int), (-2 : Int)) else game.recentMove) = start
  have hstart : (-b ≤ start.1 ∧ start.1 ≤ b) ∧ (-b ≤ start.2 ∧ start.2 ≤ b) := by
    rw [← hs]
    split_ifs with h
    · exact ⟨⟨by show -b ≤ -2; omega, by show (-2 : Int) ≤ b; omega⟩,
        by show -b ≤ -2; omega, by show (-2 : Int) ≤ b; omega⟩
    · rcases hmove with h0 | h0
      · rw [h0] at h
        exact absurd ⟨rfl, rfl⟩ h
      · exact h0
  exact algorithm_one_rotations_wrap_safe fuel game (totalPlayers game.turn) start b hfuel hH hW
    hb hbf hstart _ start.1 start.2 hstart.1 hstart.2

/-- From a start in the scan range, `algorithm_two` with fuel for one cycle and
no legal combination in the range ends its position loop at the start and
returns the game as it was. -/
theorem algorithm_two_exhausts (fuel : Nat) (game : Game) (currentPlayer : PlayerRef)
    (hH : 1 ≤ game.gameBoard.height) (hW : 1 ≤ game.gameBoard.width)
    (hfuel : (game.gameBoard.height + 4) * (game.gameBoard.width + 4) ≤ (fuel : Int))
    (hmove : ((game.player currentPlayer).recentMove = (INT_MIN, INT_MIN) ∧
        (game.player currentPlayer).firstPlayer = true) ∨
      in_scan_range game.gameBoard.height game.gameBoard.width
        (game.player currentPlayer).recentMove)
    (hnone : ∀ row col : Int,
      in_scan_range game.gameBoard.height game.gameBoard.width (row, col) →
        ∀ theta ∈ [(0 : Int), 90, 180, 270],
          valid_move (row, col, theta) currentPlayer game.gameBoard game.tiles = false) :
    algorithm_two_scan game currentPlayer (two_start game currentPlayer)
        (game.player currentPlayer).firstPlayer fuel (two_start game currentPlayer).1
        (two_start game currentPlayer).2 =
      Scan.wrapped (two_start game currentPlayer).1 (two_start game currentPlayer).2 ∧
    algorithm_two fuel game currentPlayer = some game := by
  obtain ⟨_, hs⟩ := two_start_range game currentPlayer hH hW hmove
  have hc := scan_cycle_two game hH hW (game.player currentPlayer).firstPlayer _ hs
  rcases scan_cycle_total _ _ hH hW _ _ _ hc (test_two game currentPlayer) fuel hfuel with
    ⟨hw, _⟩ | ⟨a, command, ha, hsome, _⟩
  · constructor
    · rw [algorithm_two_scan_eq]
      exact hw
    · rw [algorithm_two_eq, hw]
  · have := (first_rotation_none game currentPlayer a.1 a.2 _).mpr (hnone a.1 a.2 ha)
    rw [test_two, this] at hsome
    exact absurd hsome (by simp)

/-! ### The rules on the integers

The theorems of this part are about the functions with `int` read as an
integer. At anchors whose row and column are at least `INT_MIN + 2` and at most
`INT_MAX - 3` these are the functions of the code (`valid_move_wrap_safe`,
`place_move_wrap_safe`, `human_prompt_wrap_safe`, and for the searches
`check_possible_move_wrap_safe`, `algorithm_one_wrap_safe`,
`algorithm_two_wrap_safe`); next to the limits of `int` the code does not
follow them. The range checks of `parse_header` are stated for the tokens
`convert_token_to_int` converts. -/

/-- The legality rule on the integers: `valid_move` accepts a command exactly
when every placeable cell `(dr, dc)` of the active layout maps to a board
coordinate
`(row + dr - 2, col + dc - 2)` inside the board whose cell is empty, and it
rejects exactly when some placeable cell maps outside the board or onto an
occupied cell. -/
theorem valid_move_spec (row col theta : Int) (playing : PlayerRef) (grid : Board)
    (tiles : Tiles) :
    (valid_move (row, col, theta) playing grid tiles = true ↔
      ∀ dr dc : Int, 0 ≤ dr → dr < 5 → 0 ≤ dc → dc < 5 →
        tiles.grid (theta.tdiv 90) tiles.current dr dc ≠ 0 →
          (0 ≤ row + dr - 2 ∧ row + dr - 2 < grid.height ∧
            0 ≤ col + dc - 2 ∧ col + dc - 2 < grid.width) ∧
          grid.grid (row + dr - 2) (col + dc - 2) = none) ∧
    (valid_move (row, col, theta) playing grid tiles = false ↔
      ∃ dr dc : Int, (0 ≤ dr ∧ dr < 5 ∧ 0 ≤ dc ∧ dc < 5) ∧
        tiles.grid (theta.tdiv 90) tiles.current dr dc ≠ 0 ∧
          (¬ (0 ≤ row + dr - 2 ∧ row + dr - 2 < grid.height ∧
              0 ≤ col + dc - 2 ∧ col + dc - 2 < grid.width) ∨
            grid.grid (row + dr - 2) (col + dc - 2) ≠ none)) := by
  refine ⟨valid_move_eq_true row col theta playing grid tiles, ?_⟩
  rw [← Bool.not_eq_true, valid_move_eq_true]
  constructor
  · intro h
    by_contra hne
    apply h
    intro dr dc h1 h2 h3 h4 hf
    by_contra hbad
    exact hne ⟨dr, dc, ⟨h1, h2, h3, h4⟩, hf, by tauto⟩
  · rintro ⟨dr, dc, ⟨h1, h2, h3, h4⟩, hf, hbad⟩ h
    have := h dr dc h1 h2 h3 h4 hf
    tauto

/-- The probe and the policies on the integers: whenever `check_possible_move` returns true for the current player,
on a board with sides at least 1 and with enough fuel, the automated policy
makes a move. `algorithm_one` commits a command `valid_move` accepts when the
game-level last move is unset or in the scan range; `algorithm_two` commits
one when the player's own last move is unset or in the scan range, for a first
player and for a second player, a second player with no last move included.
Neither returns the game without a move. -/
theorem probe_then_move (probeFuel fuel : Nat) (game : Game) (currentPlayer : PlayerRef)
    (totalPlayers : Int → PlayerRef)
    (hH : 1 ≤ game.gameBoard.height) (hW : 1 ≤ game.gameBoard.width)
    (hprobe : check_possible_move probeFuel game currentPlayer = some true)
    (hfuel : (game.gameBoard.height + 4) * (game.gameBoard.width + 4) +
      (game.gameBoard.width + 4) * (game.gameBoard.width + 4) +
      (game.gameBoard.height + 4) + 1 ≤ (fuel : Int)) :
    ((game.recentMove = (INT_MIN, INT_MIN) ∨
        in_scan_range game.gameBoard.height game.gameBoard.width game.recentMove) →
      ∃ command,
        valid_move command (totalPlayers game.turn) game.gameBoard game.tiles = true ∧
        algorithm_one fuel game totalPlayers =
          some (change_tiles (change_turn
            (place_move command (totalPlayers game.turn) game game.tiles)))) ∧
    (((game.player currentPlayer).recentMove = (INT_MIN, INT_MIN) ∨
        in_scan_range game.gameBoard.height game.gameBoard.width
          (game.player currentPlayer).recentMove) →
      ∃ command, valid_move command currentPlayer game.gameBoard game.tiles = true ∧
        algorithm_two fuel game currentPlayer =
          some (change_tiles (change_turn
            (place_move command currentPlayer game game.tiles)))) := by
  obtain ⟨a, theta, ha, htheta, hvalid⟩ :=
    check_possible_move_true probeFuel game currentPlayer hH hW hprobe
  have hsq : 0 < (game.gameBoard.width + 4) * (game.gameBoard.width + 4) :=
    mul_pos (by omega) (by omega)
  have hfuel1 : (game.gameBoard.height + 4) * (game.gameBoard.width + 4) ≤ (fuel : Int) := by
    omega
  refine ⟨?_, ?_⟩
  · intro hmove
    rcases algorithm_one_total fuel game totalPlayers hH hW hfuel1 hmove with h | ⟨_, hnone⟩
    · exact h
    · have := hnone theta htheta a.1 a.2 ha
      rw [valid_move_player _ _ currentPlayer, hvalid] at this
      exact absurd this (by simp)
  · intro hmove
    by_cases hsecond : ((game.player currentPlayer).recentMove = (INT_MIN, INT_MIN) ∧
        (game.player currentPlayer).firstPlayer = false)
    · exact algorithm_two_second_unset_commits fuel game currentPlayer hH hW hfuel
        hsecond.1 hsecond.2 a theta ha htheta hvalid
    · have hmove' : ((game.player currentPlayer).recentMove = (INT_MIN, INT_MIN) ∧
          (game.player currentPlayer).firstPlayer = true) ∨
          in_scan_range game.gameBoard.height game.gameBoard.width
            (game.player currentPlayer).recentMove := by
        rcases hmove with h | h
        · left
          refine ⟨h, ?_⟩
          cases hf : (game.player currentPlayer).firstPlayer
          · exact absurd ⟨h, hf⟩ hsecond
          · rfl
        · exact Or.inr h
      rcases algorithm_two_total fuel game currentPlayer hH hW hfuel1 hmove' with
        h | ⟨_, hnone⟩
      · exact h
      · have := hnone a.1 a.2 ha theta htheta
        rw [hvalid] at this
        exact absurd this (by simp)

/-- An example: on the empty 5x1 board the probe answers true for the
second player, who has no last move, and `algorithm_two` then commits a
move. -/
theorem probe_then_move_example :
    (1 ≤ (fresh_game 5 1).gameBoard.height ∧ 1 ≤ (fresh_game 5 1).gameBoard.width) ∧
    check_possible_move 45 (fresh_game 5 1) PlayerRef.player2 = some true ∧
    ((fresh_game 5 1).player PlayerRef.player2).recentMove = (INT_MIN, INT_MIN) ∧
    ((fresh_game 5 1).player PlayerRef.player2).firstPlayer = false ∧
    ∃ command,
      valid_move command PlayerRef.player2 (fresh_game 5 1).gameBoard
        (fresh_game 5 1).tiles = true ∧
      algorithm_two 80 (fresh_game 5 1) PlayerRef.player2 =
        some (change_tiles (change_turn
          (place_move command PlayerRef.player2 (fresh_game 5 1) (fresh_game 5 1).tiles))) :=
  ⟨⟨by decide, by decide⟩, rfl, rfl, rfl,
    (probe_then_move 45 80 (fresh_game 5 1) PlayerRef.player2 players (by decide) (by decide)
      rfl (by decide)).2 (Or.inl rfl)⟩

/-- The range checks of `parse_header`: for a header line of four integer
tokens whose values lie strictly between `INT_MIN` and `INT_MAX`,
`parse_header` returns false exactly when the tile index is outside
`[0, total)`, or the turn is outside `{0, 1}`, or the height is outside
`[1, 999]`, or the width is outside `[1, 999]`; and whenever `parse_header`
returns false, on any line, the game (so the active tile index, the turn and
the board) is left as it was. -/
theorem parse_header_rejects (t0 t1 t2 t3 : List Char) (v0 v1 v2 v3 : Int)
    (headerInfo : Int → Int) (game : Game)
    (hs : ' ' ∉ t0 ∧ ' ' ∉ t1 ∧ ' ' ∉ t2 ∧ ' ' ∉ t3)
    (hv : integer_value t0 = some v0 ∧ integer_value t1 = some v1 ∧
      integer_value t2 = some v2 ∧ integer_value t3 = some v3)
    (hi : (INT_MIN < v0 ∧ v0 < INT_MAX) ∧ (INT_MIN < v1 ∧ v1 < INT_MAX) ∧
      (INT_MIN < v2 ∧ v2 < INT_MAX) ∧ (INT_MIN < v3 ∧ v3 < INT_MAX)) :
    ((parse_header (header_line t0 t1 t2 t3) headerInfo game).1 = false ↔
      ((v0 < 0 ∨ game.tiles.total ≤ v0) ∨ (v1 < 0 ∨ 1 < v1) ∨ (v2 < 1 ∨ 999 < v2) ∨
        (v3 < 1 ∨ 999 < v3))) ∧
    ∀ (firstLine : List Char) (garbage : Int → Int) (before : Game),
      (parse_header firstLine garbage before).1 = false →
      (parse_header firstLine garbage before).2 = before := by
  obtain ⟨converted, c0, c1, c2, c3, hp⟩ :=
    parse_header_converted t0 t1 t2 t3 v0 v1 v2 v3 headerInfo game hs.1 hs.2.1 hs.2.2.1 hs.2.2.2
      hv.1 hv.2.1 hv.2.2.1 hv.2.2.2 hi.1 hi.2.1 hi.2.2.1 hi.2.2.2
  refine ⟨?_, parse_header_false_keeps⟩
  rw [hp, (parse_header_values_false converted game).1, c0, c1, c2, c3]
  omega

/-- An example: the header line `0 2 5 5` is rejected for its turn. -/
theorem parse_header_rejects_example :
    ((parse_header (header_line ['0'] ['2'] ['5'] ['5']) (fun _ => 0) (fresh_game 1 1)).1 = false ↔
      (((0 : Int) < 0 ∨ (fresh_game 1 1).tiles.total ≤ 0) ∨ ((2 : Int) < 0 ∨ (1 : Int) < 2) ∨
        ((5 : Int) < 1 ∨ (999 : Int) < 5) ∨ ((5 : Int) < 1 ∨ (999 : Int) < 5))) ∧
    ∀ (firstLine : List Char) (garbage : Int → Int) (before : Game),
      (parse_header firstLine garbage before).1 = false →
      (parse_header firstLine garbage before).2 = before :=
  parse_header_rejects ['0'] ['2'] ['5'] ['5'] 0 2 5 5 (fun _ => 0) (fresh_game 1 1)
    (by decide) (by decide) (by decide)

/-- The accesses on the integers: for every integer anchor and every rotation 0, 90, 180, 270,
`valid_move` reads no board cell outside `[0, height) x [0, width)` and no tile
cell outside the 5x5 layout of the active tile at a rotation index 0..3: the
function with its list of reads returns what `valid_move` returns and every
cell of the list is inside the storage. And whenever `valid_move` holds, the
board after `place_move` is the board before it with the listed cells written,
each of them inside `[0, height) x [0, width)`, and the tile cells
`place_move` reads are inside the layout. -/
theorem accesses_in_bounds (row col theta : Int) (playing : PlayerRef) (game : Game)
    (tiles : Tiles) (htheta : theta ∈ [(0 : Int), 90, 180, 270]) :
    ((valid_move_reads (row, col, theta) playing game.gameBoard tiles).1 =
        valid_move (row, col, theta) playing game.gameBoard tiles ∧
      ∀ a ∈ (valid_move_reads (row, col, theta) playing game.gameBoard tiles).2,
        access_ok game.gameBoard tiles a) ∧
    (valid_move (row, col, theta) playing game.gameBoard tiles = true →
      (place_move (row, col, theta) playing game tiles).gameBoard.grid =
        (place_move_writes (row, col, theta) tiles).foldl
          (fun board p => board_set board p.1 p.2 (some playing)) game.gameBoard.grid ∧
      (∀ p ∈ place_move_writes (row, col, theta) tiles,
        (0 ≤ p.1 ∧ p.1 < game.gameBoard.height) ∧ (0 ≤ p.2 ∧ p.2 < game.gameBoard.width)) ∧
      ∀ a ∈ place_move_reads (row, col, theta) tiles, access_ok game.gameBoard tiles a) := by
  refine ⟨⟨valid_move_reads_fst _ _ _ _, ?_⟩, ?_⟩
  · intro a ha
    exact valid_move_reads_ok row col theta playing _ _ htheta a ha
  · intro hvalid
    obtain ⟨hw, hr⟩ := place_move_accesses_ok row col theta playing _ _ htheta hvalid
    exact ⟨place_move_writes_grid _ _ _ _, hw, hr⟩

/-- An example: the anchor `(0, 0)` at rotation 0 on the empty board of
one cell with the centre-only tile, where `valid_move` holds and `place_move`
writes the cell `(0, 0)`. -/
theorem accesses_in_bounds_example :
    (valid_move (0, 0, 0) PlayerRef.player1 (fresh_game 1 1).gameBoard centre_tiles = true ∧
      place_move_writes (0, 0, 0) centre_tiles = [(0, 0)]) ∧
    ((valid_move_reads (0, 0, 0) PlayerRef.player1 (fresh_game 1 1).gameBoard centre_tiles).1 =
        valid_move (0, 0, 0) PlayerRef.player1 (fresh_game 1 1).gameBoard centre_tiles ∧
      ∀ a ∈ (valid_move_reads (0, 0, 0) PlayerRef.player1 (fresh_game 1 1).gameBoard
          centre_tiles).2,
        access_ok (fresh_game 1 1).gameBoard centre_tiles a) ∧
    (valid_move (0, 0, 0) PlayerRef.player1 (fresh_game 1 1).gameBoard centre_tiles = true →
      (place_move (0, 0, 0) PlayerRef.player1 (fresh_game 1 1) centre_tiles).gameBoard.grid =
        (place_move_writes (0, 0, 0) centre_tiles).foldl
          (fun board p => board_set board p.1 p.2 (some PlayerRef.player1))
          (fresh_game 1 1).gameBoard.grid ∧
      (∀ p ∈ place_move_writes (0, 0, 0) centre_tiles,
        (0 ≤ p.1 ∧ p.1 < (fresh_game 1 1).gameBoard.height) ∧
          (0 ≤ p.2 ∧ p.2 < (fresh_game 1 1).gameBoard.width)) ∧
      ∀ a ∈ place_move_reads (0, 0, 0) centre_tiles,
        access_ok (fresh_game 1 1).gameBoard centre_tiles a) :=
  ⟨⟨by decide, by decide⟩,
    accesses_in_bounds 0 0 0 PlayerRef.player1 (fresh_game 1 1) centre_tiles (by decide)⟩

/-- Completeness of the scan range on the integers. For every board and every tile whose layout
at the rotation used has a filled cell, an anchor `(row, col)` at which
`valid_move` holds satisfies `-2 ≤ row ≤ height + 1` and
`-2 ≤ col ≤ width + 1`; hence, on a board of height and width at least 1 and
for an active tile with a filled cell at each of the four rotations, when
`check_possible_move` returns false `valid_move` is false at every integer
anchor and every rotation 0, 90, 180, 270. -/
theorem scan_range_complete :
    (∀ (row col theta : Int) (playing : PlayerRef) (grid : Board) (tiles : Tiles),
      (∃ dr dc : Int, (0 ≤ dr ∧ dr < 5 ∧ 0 ≤ dc ∧ dc < 5) ∧
        tiles.grid (theta.tdiv 90) tiles.current dr dc ≠ 0) →
      valid_move (row, col, theta) playing grid tiles = true →
      (-2 ≤ row ∧ row ≤ grid.height + 1) ∧ (-2 ≤ col ∧ col ≤ grid.width + 1)) ∧
    (∀ (fuel : Nat) (game : Game) (currentPlayer : PlayerRef),
      1 ≤ game.gameBoard.height → 1 ≤ game.gameBoard.width →
      (∀ theta ∈ [(0 : Int), 90, 180, 270],
        ∃ dr dc : Int, (0 ≤ dr ∧ dr < 5 ∧ 0 ≤ dc ∧ dc < 5) ∧
          game.tiles.grid (theta.tdiv 90) game.tiles.current dr dc ≠ 0) →
      check_possible_move fuel game currentPlayer = some false →
      ∀ (row col : Int) (playing : PlayerRef), ∀ theta ∈ [(0 : Int), 90, 180, 270],
        valid_move (row, col, theta) playing game.gameBoard game.tiles = false) := by
  refine ⟨?_, ?_⟩
  · intro row col theta playing grid tiles hfilled hvalid
    exact valid_move_anchor_range row col theta playing grid tiles hfilled hvalid
  · intro fuel game currentPlayer hH hW hfilled hcheck row col playing theta htheta
    cases hv : valid_move (row, col, theta) playing game.gameBoard game.tiles with
    | false => rfl
    | true =>
      have hr := valid_move_anchor_range row col theta playing _ _ (hfilled theta htheta) hv
      have hf := check_possible_move_false fuel game currentPlayer hH hW hcheck (row, col) hr
        theta htheta
      rw [valid_move_player _ playing currentPlayer] at hv
      rw [hf] at hv
      cases hv

/-- An example: the board of one occupied cell with the centre-only
tile, where the probe returns false and no anchor is legal. -/
theorem scan_range_complete_example :
    check_possible_move 25 full_game PlayerRef.player1 = some false ∧
    ∀ (row col : Int) (playing : PlayerRef), ∀ theta ∈ [(0 : Int), 90, 180, 270],
      valid_move (row, col, theta) playing full_game.gameBoard full_game.tiles = false :=
  ⟨by decide, scan_range_complete.2 25 full_game PlayerRef.player1 (by decide) (by decide)
    (fun theta _ => centre_tiles_filled theta) (by decide)⟩

/-- The count of empty cells on the integers: a placement that `valid_move` accepts lowers the number of empty cells
of the board by exactly the number of filled cells of the layout used, so
strictly when the layout has a filled cell; hence in any run of placements of
layouts with a filled cell, each accepted by `valid_move` on the board the
placement before it left, there are at most `height * width` placements. -/
theorem placement_takes_cells (row col theta : Int) (playing : PlayerRef) (game : Game)
    (tiles : Tiles)
    (hvalid : valid_move (row, col, theta) playing game.gameBoard tiles = true) :
    empty_cells (place_move (row, col, theta) playing game tiles).gameBoard +
        filled_cells (tiles.grid (theta.tdiv 90) tiles.current) =
      empty_cells game.gameBoard ∧
    (0 < filled_cells (tiles.grid (theta.tdiv 90) tiles.current) →
      empty_cells (place_move (row, col, theta) playing game tiles).gameBoard <
        empty_cells game.gameBoard) ∧
    ∀ (n : Nat) (games : Nat → Game) (moves : Nat → Command × PlayerRef × Tiles),
      games 0 = game →
      (∀ i : Nat, i < n →
        valid_move (moves i).1 (moves i).2.1 (games i).gameBoard (moves i).2.2 = true ∧
        0 < filled_cells ((moves i).2.2.grid ((moves i).1.2.2.tdiv 90) (moves i).2.2.current) ∧
        (games (i + 1)).gameBoard =
          (place_move (moves i).1 (moves i).2.1 (games i) (moves i).2.2).gameBoard) →
      n ≤ game.gameBoard.height.toNat * game.gameBoard.width.toNat := by
  have h := place_move_empty_cells row col theta playing game tiles hvalid
  refine ⟨h, fun hpos => by omega, ?_⟩
  intro n games moves h0 hrun
  have hcount : ∀ i : Nat, i ≤ n →
      empty_cells (games i).gameBoard + i ≤ empty_cells game.gameBoard := by
    intro i
    induction i with
    | zero =>
      intro _
      rw [h0]
      exact le_refl _
    | succ i ih =>
      intro hi
      obtain ⟨hv, hf, hb⟩ := hrun i (by omega)
      have hstep : empty_cells
            (place_move (moves i).1 (moves i).2.1 (games i) (moves i).2.2).gameBoard +
          filled_cells ((moves i).2.2.grid ((moves i).1.2.2.tdiv 90) (moves i).2.2.current) =
          empty_cells (games i).gameBoard :=
        place_move_empty_cells (moves i).1.1 (moves i).1.2.1 (moves i).1.2.2
          (moves i).2.1 (games i) (moves i).2.2 hv
      rw [hb]
      have := ih (by omega)
      omega
  have := hcount n (le_refl _)
  have := empty_cells_le game.gameBoard
  omega

/-- An example: the centre-only tile placed at `(0, 0)` on the empty board
of one cell takes its one empty cell. -/
theorem placement_takes_cells_example :
    (empty_cells (fresh_game 1 1).gameBoard = 1 ∧ filled_cells (centre_tiles.grid 0 0) = 1) ∧
    empty_cells (place_move (0, 0, 0) PlayerRef.player1 (fresh_game 1 1) centre_tiles).gameBoard +
        filled_cells (centre_tiles.grid ((0 : Int).tdiv 90) centre_tiles.current) =
      empty_cells (fresh_game 1 1).gameBoard ∧
    (0 < filled_cells (centre_tiles.grid ((0 : Int).tdiv 90) centre_tiles.current) →
      empty_cells (place_move (0, 0, 0) PlayerRef.player1 (fresh_game 1 1) centre_tiles).gameBoard <
        empty_cells (fresh_game 1 1).gameBoard) ∧
    ∀ (n : Nat) (games : Nat → Game) (moves : Nat → Command × PlayerRef × Tiles),
      games 0 = fresh_game 1 1 →
      (∀ i : Nat, i < n →
        valid_move (moves i).1 (moves i).2.1 (games i).gameBoard (moves i).2.2 = true ∧
        0 < filled_cells ((moves i).2.2.grid ((moves i).1.2.2.tdiv 90) (moves i).2.2.current) ∧
        (games (i + 1)).gameBoard =
          (place_move (moves i).1 (moves i).2.1 (games i) (moves i).2.2).gameBoard) →
      n ≤ (fresh_game 1 1).gameBoard.height.toNat * (fresh_game 1 1).gameBoard.width.toNat :=
  ⟨⟨by decide, by decide⟩,
    placement_takes_cells 0 0 0 PlayerRef.player1 (fresh_game 1 1) centre_tiles (by decide)⟩

/-! ## Claims -/

/-- C1 (code at the failing input): the command `2147483646 2 180` (row
`INT_MAX - 1`) on the empty board of 5 rows and 5 columns with the centre-only
tile. The line converts and its rotation is one of the four; the placeable cell
`(2, 2)` of the layout maps to the board coordinate `(2147483646, 2)`, outside
the board, so the legality rule (and `valid_move` on the integers) rejects the
command; in 32-bit arithmetic `centerY + offset` wraps below
`centerY - offset`, the row loop runs no iteration and `valid_move` returns
true. -/
theorem valid_move_accepts_outside :
    ((convert_token_to_int ["2147483646".toList, ['2'], "180".toList] (fun _ => 0) 3).1 =
        TokenCode.NO_TOKEN_ERROR ∧
      ((convert_token_to_int ["2147483646".toList, ['2'], "180".toList] (fun _ => 0) 3).2 0,
        (convert_token_to_int ["2147483646".toList, ['2'], "180".toList] (fun _ => 0) 3).2 1,
        (convert_token_to_int ["2147483646".toList, ['2'], "180".toList] (fun _ => 0) 3).2 2) =
        (2147483646, 2, 180) ∧
      correct_rotation (2147483646, 2, 180) = true) ∧
    ((fresh_game 5 5).gameBoard.height = 5 ∧ (fresh_game 5 5).gameBoard.width = 5) ∧
    (fresh_game 5 5).tiles.grid ((180 : Int).tdiv 90) (fresh_game 5 5).tiles.current 2 2 ≠ 0 ∧
    ¬ ((0 : Int) ≤ 2147483646 + 2 - 2 ∧
      (2147483646 : Int) + 2 - 2 < (fresh_game 5 5).gameBoard.height) ∧
    valid_move (2147483646, 2, 180) PlayerRef.player1 (fresh_game 5 5).gameBoard
      (fresh_game 5 5).tiles = false ∧
    wrap_int (2147483646 - 2) = 2147483644 ∧ wrap_int (2147483646 + 2) = -2147483648 ∧
    valid_move_wrap 6 (2147483646, 2, 180) PlayerRef.player1 (fresh_game 5 5).gameBoard
      (fresh_game 5 5).tiles = some true := by
  refine ⟨⟨by decide, by decide, by decide⟩, ⟨rfl, rfl⟩, by decide, by decide, by decide,
    by decide, by decide, by decide⟩

/-- C2: the result of `valid_move` depends only on which cells of the layout
are placeable and on the board cells those map to: two boards of the same
dimensions, two layouts with the same placeable cells and any two players give
the same result when the boards agree on every in-board coordinate a placeable
cell maps to. -/
theorem valid_move_depends_only (row col theta : Int) (p1 p2 : PlayerRef) (b1 b2 : Board)
    (t1 t2 : Tiles) (hw : b1.width = b2.width) (hh : b1.height = b2.height)
    (hmask : ∀ dr dc : Int, 0 ≤ dr → dr < 5 → 0 ≤ dc → dc < 5 →
      (t1.grid (theta.tdiv 90) t1.current dr dc ≠ 0 ↔
        t2.grid (theta.tdiv 90) t2.current dr dc ≠ 0))
    (hcells : ∀ dr dc : Int, 0 ≤ dr → dr < 5 → 0 ≤ dc → dc < 5 →
      t1.grid (theta.tdiv 90) t1.current dr dc ≠ 0 →
      0 ≤ row + dr - 2 → row + dr - 2 < b1.height →
      0 ≤ col + dc - 2 → col + dc - 2 < b1.width →
        b1.grid (row + dr - 2) (col + dc - 2) = b2.grid (row + dr - 2) (col + dc - 2)) :
    valid_move (row, col, theta) p1 b1 t1 = valid_move (row, col, theta) p2 b2 t2 := by
  rw [Bool.eq_iff_iff, valid_move_eq_true, valid_move_eq_true]
  constructor
  · intro h dr dc h1 h2 h3 h4 hf
    have hf1 := (hmask dr dc h1 h2 h3 h4).mpr hf
    obtain ⟨⟨a, b, c, d⟩, e⟩ := h dr dc h1 h2 h3 h4 hf1
    refine ⟨⟨a, hh ▸ b, c, hw ▸ d⟩, ?_⟩
    rw [← hcells dr dc h1 h2 h3 h4 hf1 a b c d]
    exact e
  · intro h dr dc h1 h2 h3 h4 hf
    have hf2 := (hmask dr dc h1 h2 h3 h4).mp hf
    obtain ⟨⟨a, b, c, d⟩, e⟩ := h dr dc h1 h2 h3 h4 hf2
    refine ⟨⟨a, hh ▸ b, c, hw ▸ d⟩, ?_⟩
    rw [hcells dr dc h1 h2 h3 h4 hf a (hh ▸ b) c (hw ▸ d)]
    exact e

/-- Witness of C2: the empty 1x2 board and the 1x2 board whose cell `(0, 0)` is
taken agree under the centre-only tile anchored at `(0, 1)`. -/
theorem valid_move_depends_only_witness :
    valid_move (0, 1, 0) PlayerRef.player1 (empty_board 1 2) centre_tiles =
      valid_move (0, 1, 0) PlayerRef.player2 taken_board centre_tiles :=
  valid_move_depends_only 0 1 0 PlayerRef.player1 PlayerRef.player2 (empty_board 1 2)
    taken_board centre_tiles centre_tiles rfl rfl (fun _ _ _ _ _ _ => Iff.rfl)
    (by
      intro dr dc _ _ _ _ hf _ _ _ _
      have hc : dr = 2 ∧ dc = 2 := by
        by_contra hne
        exact hf (by simp [centre_tiles, centre_mask, hne])
      obtain ⟨rfl, rfl⟩ := hc
      simp [empty_board, taken_board])

/-- C3: after `place_move` of a command `valid_move` accepts, every board
coordinate a placeable cell of the layout maps to holds the placing player,
every other board cell is unchanged, and so are the board height and width. -/
theorem place_move_board (row col theta : Int) (playing : PlayerRef) (game : Game)
    (tiles : Tiles)
    (_hvalid : valid_move (row, col, theta) playing game.gameBoard tiles = true) :
    (∀ dr dc : Int, 0 ≤ dr → dr < 5 → 0 ≤ dc → dc < 5 →
      tiles.grid (theta.tdiv 90) tiles.current dr dc ≠ 0 →
        (place_move (row, col, theta) playing game tiles).gameBoard.grid
          (row + dr - 2) (col + dc - 2) = some playing) ∧
    (∀ y x : Int,
      (¬ ∃ dr dc : Int, (0 ≤ dr ∧ dr < 5 ∧ 0 ≤ dc ∧ dc < 5) ∧
        tiles.grid (theta.tdiv 90) tiles.current dr dc ≠ 0 ∧
          y = row + dr - 2 ∧ x = col + dc - 2) →
        (place_move (row, col, theta) playing game tiles).gameBoard.grid y x =
          game.gameBoard.grid y x) ∧
    (place_move (row, col, theta) playing game tiles).gameBoard.height =
      game.gameBoard.height ∧
    (place_move (row, col, theta) playing game tiles).gameBoard.width =
      game.gameBoard.width := by
  refine ⟨?_, ?_, place_move_height _ _ _ _, place_move_width _ _ _ _⟩
  · intro dr dc h1 h2 h3 h4 hf
    rw [place_move_grid]
    have e1 : row + dr - 2 - row + 2 = dr := by omega
    have e2 : col + dc - 2 - col + 2 = dc := by omega
    rw [e1, e2, if_pos]
    exact ⟨by omega, by omega, hf⟩
  · intro y x hno
    rw [place_move_grid, if_neg]
    rintro ⟨hy, hx, hf⟩
    exact hno ⟨y - row + 2, x - col + 2, by omega, hf, by omega, by omega⟩

/-- Witness of C3: the centre-only tile placed by the first player at `(0, 1)`
of the 1x2 board whose cell `(0, 0)` is taken: cell `(0, 1)` then holds the
first player and cell `(0, 0)` is as before. -/
theorem place_move_board_witness :
    valid_move (0, 1, 0) PlayerRef.player1 taken_game.gameBoard centre_tiles = true ∧
    (place_move (0, 1, 0) PlayerRef.player1 taken_game centre_tiles).gameBoard.grid 0 1 =
      some PlayerRef.player1 ∧
    (place_move (0, 1, 0) PlayerRef.player1 taken_game centre_tiles).gameBoard.grid 0 0 =
      taken_game.gameBoard.grid 0 0 ∧
    (place_move (0, 1, 0) PlayerRef.player1 taken_game centre_tiles).gameBoard.height =
      taken_game.gameBoard.height :=
  ⟨by decide,
    (place_move_board 0 1 0 PlayerRef.player1 taken_game centre_tiles (by decide)).1 2 2
      (by decide) (by decide) (by decide) (by decide) (by decide),
    (place_move_board 0 1 0 PlayerRef.player1 taken_game centre_tiles (by decide)).2.1 0 0
      (by
        rintro ⟨dr, dc, _, hf, h1, h2⟩
        have := (centre_mask_filled dr dc).mp hf
        omega),
    (place_move_board 0 1 0 PlayerRef.player1 taken_game centre_tiles (by decide)).2.2.1⟩

/-- C4: `place_move` records the anchor as the last move of the game and of
the acting player, and leaves the other player, the turn and the tile
catalogue (with its active index) unchanged. -/
theorem place_move_records (row col theta : Int) (playing : PlayerRef) (game : Game)
    (tiles : Tiles) :
    (place_move (row, col, theta) playing game tiles).recentMove = (row, col) ∧
    ((place_move (row, col, theta) playing game tiles).player playing).recentMove =
      (row, col) ∧
    (∀ other : PlayerRef, other ≠ playing →
      (place_move (row, col, theta) playing game tiles).player other = game.player other) ∧
    (place_move (row, col, theta) playing game tiles).turn = game.turn ∧
    (place_move (row, col, theta) playing game tiles).tiles = game.tiles ∧
    (place_move (row, col, theta) playing game tiles).tiles.current = game.tiles.current := by
  cases playing
  · refine ⟨rfl, rfl, ?_, rfl, rfl, rfl⟩
    intro other h
    cases other
    · exact absurd rfl h
    · rfl
  · refine ⟨rfl, rfl, ?_, rfl, rfl, rfl⟩
    intro other h
    cases other
    · rfl
    · exact absurd rfl h

/-- C6: after `rotate_tile`, for every tile `t` of the catalogue and every
rotation index `k` in 0, 1, 2, cell `(r, c)` of rotation `k` equals cell
`(c, 4 - r)` of rotation `k + 1`, for all `r`, `c` in 0..4; the layouts of
rotation index 0 are left unchanged. -/
theorem rotate_tile_spec (tiles : Tiles) :
    (∀ t k r c : Int, 0 ≤ t → t < tiles.total → k = 0 ∨ k = 1 ∨ k = 2 →
      0 ≤ r → r < 5 → 0 ≤ c → c < 5 →
        (rotate_tile tiles).grid k t r c = (rotate_tile tiles).grid (k + 1) t c (4 - r)) ∧
    (∀ t : Int, (rotate_tile tiles).grid 0 t = tiles.grid 0 t) := by
  refine ⟨?_, fun t => (rotate_tile_grid tiles t).1⟩
  intro t k r c ht0 ht hk hr0 hr hc0 hc
  have h := (rotate_tile_grid tiles t).2 ht0 ht (k + 1) (by omega)
  have e : k + 1 - 1 = k := by omega
  rw [e] at h
  rw [h, rotate_cells_spec _ _ r c hr0 hr hc0 hc]

/-- C7: rotating four times is the identity. For every tile of the catalogue,
the rotation transform applied to the stored layout of rotation index 3 (270
degrees) gives back the stored layout of rotation index 0; and the transform
composed four times maps every 5x5 layout to itself. -/
theorem rotate_four_times :
    (∀ (tiles : Tiles) (other : Mask) (t r c : Int), 0 ≤ t → t < tiles.total →
      0 ≤ r → r < 5 → 0 ≤ c → c < 5 →
        rotate_cells ((rotate_tile tiles).grid 3 t) other r c = (rotate_tile tiles).grid 0 t r c) ∧
    (∀ (m o1 o2 o3 o4 : Mask) (r c : Int), 0 ≤ r → r < 5 → 0 ≤ c → c < 5 →
      rotate_cells (rotate_cells (rotate_cells (rotate_cells m o1) o2) o3) o4 r c = m r c) := by
  have four : ∀ (m o1 o2 o3 o4 : Mask) (r c : Int), 0 ≤ r → r < 5 → 0 ≤ c → c < 5 →
      rotate_cells (rotate_cells (rotate_cells (rotate_cells m o1) o2) o3) o4 r c = m r c := by
    intro m o1 o2 o3 o4 r c hr0 hr hc0 hc
    rw [rotate_cells_apply _ _ r c hr0 hr hc0 hc,
      rotate_cells_apply _ _ (4 - c) r (by omega) (by omega) hr0 hr,
      rotate_cells_apply _ _ (4 - r) (4 - c) (by omega) (by omega) (by omega) (by omega),
      rotate_cells_apply _ _ (4 - (4 - c)) (4 - r) (by omega) (by omega) (by omega) (by omega)]
    have e1 : 4 - (4 - r) = r := by omega
    have e2 : 4 - (4 - c) = c := by omega
    rw [e1, e2]
  refine ⟨?_, four⟩
  intro tiles other t r c ht0 ht hr0 hr hc0 hc
  have g := rotate_tile_grid tiles t
  have h3 := g.2 ht0 ht 3 (by omega)
  have h2 := g.2 ht0 ht 2 (by omega)
  have h1 := g.2 ht0 ht 1 (by omega)
  have e3 : (3 : Int) - 1 = 2 := by omega
  have e2 : (2 : Int) - 1 = 1 := by omega
  have e1 : (1 : Int) - 1 = 0 := by omega
  rw [e3] at h3
  rw [e2] at h2
  rw [e1] at h1
  rw [h3, h2, h1]
  exact four _ _ _ _ _ r c hr0 hr hc0 hc

/-- C5: a board cell that is occupied keeps its owner under every legal commit
(`valid_move` true followed by `place_move`), and under every move made by
`algorithm_one` and by `algorithm_two`: it is never reset to empty and never
overwritten. -/
theorem occupied_cells_kept (game : Game) (y x : Int) (q : PlayerRef)
    (hcell : game.gameBoard.grid y x = some q) :
    (∀ (command : Command) (playing : PlayerRef) (tiles : Tiles),
      valid_move command playing game.gameBoard tiles = true →
        (place_move command playing game tiles).gameBoard.grid y x = some q) ∧
    (∀ (fuel : Nat) (totalPlayers : Int → PlayerRef) (g : Game),
      algorithm_one fuel game totalPlayers = some g → g.gameBoard.grid y x = some q) ∧
    (∀ (fuel : Nat) (currentPlayer : PlayerRef) (g : Game),
      algorithm_two fuel game currentPlayer = some g → g.gameBoard.grid y x = some q) := by
  refine ⟨?_, ?_, ?_⟩
  · intro command playing tiles hvalid
    exact place_move_keeps command playing game tiles hvalid y x q hcell
  · intro fuel totalPlayers g h
    rw [algorithm_one_eq] at h
    rcases algorithm_one_rotations_result _ _ _ _ _ _ _ _ h with rfl | ⟨command, hvalid, rfl⟩
    · exact hcell
    · rw [change_board]
      exact place_move_keeps command _ game game.tiles hvalid y x q hcell
  · intro fuel currentPlayer g h
    rcases algorithm_two_result _ _ _ _ h with rfl | ⟨command, hvalid, rfl⟩
    · exact hcell
    · rw [change_board]
      exact place_move_keeps command _ game game.tiles hvalid y x q hcell

/-- Witness of C5: on the 1x2 board whose cell `(0, 0)` belongs to the second
player, `algorithm_one` places the first player at `(0, 1)` and `algorithm_two`
does the same for the first player; cell `(0, 0)` keeps its owner. -/
theorem occupied_cells_kept_witness :
    taken_game.gameBoard.grid 0 0 = some PlayerRef.player2 ∧
    algorithm_one 18 taken_game players =
      some (change_tiles (change_turn
        (place_move (0, 1, 0) PlayerRef.player1 taken_game taken_game.tiles))) ∧
    (change_tiles (change_turn
      (place_move (0, 1, 0) PlayerRef.player1 taken_game taken_game.tiles))).gameBoard.grid 0 0 =
        some PlayerRef.player2 :=
  ⟨rfl, rfl, (occupied_cells_kept taken_game 0 0 PlayerRef.player2 rfl).2.1 18 players _ rfl⟩

/-- C8: on a board with height and width at least 1, for a player whose last
move is unset or lies in the scan range, `check_possible_move` returns (given
fuel for one cycle of `(height + 4) * (width + 4)` anchors), and it returns
false exactly when `valid_move` rejects every anchor with row in
`[-2, height + 1]` and column in `[-2, width + 1]` at every rotation 0, 90, 180,
270 on the current board and active tile. -/
theorem check_possible_move_spec (fuel : Nat) (game : Game) (currentPlayer : PlayerRef)
    (hH : 1 ≤ game.gameBoard.height) (hW : 1 ≤ game.gameBoard.width)
    (hmove : (game.player currentPlayer).recentMove = (INT_MIN, INT_MIN) ∨
      in_scan_range game.gameBoard.height game.gameBoard.width
        (game.player currentPlayer).recentMove)
    (hfuel : (game.gameBoard.height + 4) * (game.gameBoard.width + 4) ≤ (fuel : Int)) :
    ∃ b, check_possible_move fuel game currentPlayer = some b ∧
      (b = false ↔
        ∀ row col : Int, -2 ≤ row → row ≤ game.gameBoard.height + 1 →
          -2 ≤ col → col ≤ game.gameBoard.width + 1 →
          ∀ theta ∈ [(0 : Int), 90, 180, 270],
            valid_move (row, col, theta) currentPlayer game.gameBoard game.tiles = false) :=
  check_possible_move_range fuel game currentPlayer hH hW hmove hfuel

/-- Witness of C8: the probe for the second player on the 1x2 board whose cell
`(0, 0)` is taken, with fuel 30. -/
theorem check_possible_move_spec_witness :
    (1 ≤ taken_game.gameBoard.height ∧ 1 ≤ taken_game.gameBoard.width) ∧
    ((taken_game.player PlayerRef.player2).recentMove = (INT_MIN, INT_MIN) ∨
      in_scan_range taken_game.gameBoard.height taken_game.gameBoard.width
        (taken_game.player PlayerRef.player2).recentMove) ∧
    (taken_game.gameBoard.height + 4) * (taken_game.gameBoard.width + 4) ≤ ((30 : Nat) : Int) ∧
    ∃ b, check_possible_move 30 taken_game PlayerRef.player2 = some b ∧
      (b = false ↔
        ∀ row col : Int, -2 ≤ row → row ≤ taken_game.gameBoard.height + 1 →
          -2 ≤ col → col ≤ taken_game.gameBoard.width + 1 →
          ∀ theta ∈ [(0 : Int), 90, 180, 270],
            valid_move (row, col, theta) PlayerRef.player2 taken_game.gameBoard
              taken_game.tiles = false) :=
  ⟨⟨by decide, by decide⟩, Or.inl rfl, by decide,
    check_possible_move_spec 30 taken_game PlayerRef.player2 (by decide) (by decide)
      (Or.inl rfl) (by decide)⟩

/-- C10: on an empty board of height and width at least 1, with a single tile
whose rotation-0 layout has only its centre cell placeable and no prior move in
the game, `algorithm_one` commits anchor `(0, 0)` at rotation 0: exactly board
cell `(0, 0)` becomes owned by the acting player, and the active tile index is
0 afterwards. -/
theorem algorithm_one_centre_tile (fuel : Nat) (game : Game) (totalPlayers : Int → PlayerRef)
    (hH : 1 ≤ game.gameBoard.height) (hW : 1 ≤ game.gameBoard.width)
    (hfuel : (game.gameBoard.height + 4) * (game.gameBoard.width + 4) ≤ (fuel : Int))
    (hempty : ∀ y x : Int, 0 ≤ y → y < game.gameBoard.height → 0 ≤ x →
      x < game.gameBoard.width → game.gameBoard.grid y x = none)
    (htotal : game.tiles.total = 1) (hcur : game.tiles.current = 0)
    (hmask : ∀ r c : Int, 0 ≤ r → r < 5 → 0 ≤ c → c < 5 →
      (game.tiles.grid 0 0 r c ≠ 0 ↔ r = 2 ∧ c = 2))
    (hunset : game.recentMove = (INT_MIN, INT_MIN)) :
    ∃ g, algorithm_one fuel game totalPlayers = some g ∧
      g = change_tiles (change_turn
        (place_move (0, 0, 0) (totalPlayers game.turn) game game.tiles)) ∧
      g.recentMove = (0, 0) ∧
      (∀ y x : Int, 0 ≤ y → y < game.gameBoard.height → 0 ≤ x → x < game.gameBoard.width →
        g.gameBoard.grid y x =
          if y = 0 ∧ x = 0 then some (totalPlayers game.turn) else none) ∧
      g.tiles.current = 0 := by
  refine ⟨_, algorithm_one_centre fuel game totalPlayers hH hW hfuel hempty hcur hmask hunset,
    rfl, place_move_recent 0 0 0 _ game game.tiles, ?_, ?_⟩
  · intro y x hy0 hy hx0 hx
    rw [change_board, place_move_grid, tdiv_zero, hcur, hempty y x hy0 hy hx0 hx]
    by_cases h : y = 0 ∧ x = 0
    · obtain ⟨rfl, rfl⟩ := h
      have hf := (hmask 2 2 (by omega) (by omega) (by omega) (by omega)).mpr ⟨rfl, rfl⟩
      simp only [sub_zero, zero_add] at *
      simp [hf]
    · rw [if_neg h, if_neg]
      rintro ⟨h1, h2, hf⟩
      have := (hmask (y - 0 + 2) (x - 0 + 2) (by omega) (by omega) (by omega) (by omega)).mp hf
      omega
  · have ht := place_move_tiles (0, 0, 0) (totalPlayers game.turn) game game.tiles
    show ((place_move (0, 0, 0) (totalPlayers game.turn) game game.tiles).tiles.current + 1).tmod
      (place_move (0, 0, 0) (totalPlayers game.turn) game game.tiles).tiles.total = 0
    rw [ht, hcur, htotal]
    decide

/-- Witness of C10: the case of the empty 3x3 board. -/
theorem algorithm_one_centre_tile_witness :
    (1 ≤ (fresh_game 3 3).gameBoard.height ∧ 1 ≤ (fresh_game 3 3).gameBoard.width) ∧
    (fresh_game 3 3).tiles.total = 1 ∧ (fresh_game 3 3).tiles.current = 0 ∧
    (fresh_game 3 3).recentMove = (INT_MIN, INT_MIN) ∧
    ∃ g, algorithm_one 49 (fresh_game 3 3) players = some g ∧
      g = change_tiles (change_turn
        (place_move (0, 0, 0) (players (fresh_game 3 3).turn) (fresh_game 3 3)
          (fresh_game 3 3).tiles)) ∧
      g.recentMove = (0, 0) ∧
      (∀ y x : Int, 0 ≤ y → y < (fresh_game 3 3).gameBoard.height → 0 ≤ x →
        x < (fresh_game 3 3).gameBoard.width →
        g.gameBoard.grid y x =
          if y = 0 ∧ x = 0 then some (players (fresh_game 3 3).turn) else none) ∧
      g.tiles.current = 0 :=
  ⟨⟨by decide, by decide⟩, rfl, rfl, rfl,
    algorithm_one_centre_tile 49 (fresh_game 3 3) players (by decide) (by decide) (by decide)
      (fun _ _ _ _ _ _ => rfl) rfl rfl (fun r c _ _ _ _ => centre_mask_filled r c) rfl⟩

/-- C11: `algorithm_two` commits the first legal combination in rotation-minor
order. On a board with sides at least 1, for a player whose own last move lies
in the scan range (the start is that move) or is unset with the first-player
flag set (the start is `(-2, -2)`): let `(row, col)` be the anchor of the scan
range that comes first in the cyclic order from the start, ascending for a
player with the first-player flag and descending for the other player, among
those legal at some rotation, and `theta` the first of 0, 90, 180, 270 legal at
it. Then `algorithm_two` returns the commit of `(row, col, theta)`, and it does
so whatever `game.turn` holds. -/
theorem algorithm_two_first_legal (fuel : Nat) (game : Game) (currentPlayer : PlayerRef)
    (row col theta : Int)
    (hH : 1 ≤ game.gameBoard.height) (hW : 1 ≤ game.gameBoard.width)
    (hfuel : (game.gameBoard.height + 4) * (game.gameBoard.width + 4) ≤ (fuel : Int))
    (hmove : ((game.player currentPlayer).recentMove = (INT_MIN, INT_MIN) ∧
        (game.player currentPlayer).firstPlayer = true) ∨
      in_scan_range game.gameBoard.height game.gameBoard.width
        (game.player currentPlayer).recentMove)
    (htheta : theta ∈ [(0 : Int), 90, 180, 270])
    (ha : in_scan_range game.gameBoard.height game.gameBoard.width (row, col))
    (hvalid : valid_move (row, col, theta) currentPlayer game.gameBoard game.tiles = true)
    (hrot : ∀ t ∈ [(0 : Int), 90, 180, 270], t < theta →
      valid_move (row, col, t) currentPlayer game.gameBoard game.tiles = false)
    (hfirst : ∀ r c : Int, in_scan_range game.gameBoard.height game.gameBoard.width (r, c) →
      scan_rank game.gameBoard.height game.gameBoard.width
          (game.player currentPlayer).firstPlayer
          (ascending_start (game.player currentPlayer).recentMove) (r, c) <
        scan_rank game.gameBoard.height game.gameBoard.width
          (game.player currentPlayer).firstPlayer
          (ascending_start (game.player currentPlayer).recentMove) (row, col) →
      ∀ t ∈ [(0 : Int), 90, 180, 270],
        valid_move (r, c, t) currentPlayer game.gameBoard game.tiles = false) :
    algorithm_two fuel game currentPlayer =
      some (change_tiles (change_turn
        (place_move (row, col, theta) currentPlayer game game.tiles))) ∧
    ∀ turn : Int, algorithm_two fuel { game with turn := turn } currentPlayer =
      some (change_tiles (change_turn
        (place_move (row, col, theta) currentPlayer { game with turn := turn }
          game.tiles))) := by
  refine ⟨algorithm_two_commits fuel game currentPlayer row col theta hH hW hfuel hmove htheta
    ha hvalid hrot hfirst, ?_⟩
  intro turn
  have hp := player_with_turn game turn currentPlayer
  exact algorithm_two_commits fuel { game with turn := turn } currentPlayer row col theta
    hH hW hfuel (by rw [hp]; exact hmove) htheta ha hvalid hrot (by rw [hp]; exact hfirst)

/-- Witness of C11: on the 1x2 board whose cell `(0, 0)` is taken, the second
player, whose last move is `(0, 0)`, scans descending and commits
`(0, 1, 0)`, the last anchor of the cycle. -/
theorem algorithm_two_first_legal_witness :
    (1 ≤ second_game.gameBoard.height ∧ 1 ≤ second_game.gameBoard.width) ∧
    in_scan_range second_game.gameBoard.height second_game.gameBoard.width
      (second_game.player PlayerRef.player2).recentMove ∧
    (second_game.player PlayerRef.player2).firstPlayer = false ∧
    valid_move (0, 1, 0) PlayerRef.player2 second_game.gameBoard second_game.tiles = true ∧
    algorithm_two 30 second_game PlayerRef.player2 =
      some (change_tiles (change_turn
        (place_move (0, 1, 0) PlayerRef.player2 second_game second_game.tiles))) :=
  ⟨⟨by decide, by decide⟩, ⟨⟨by decide, by decide⟩, by decide, by decide⟩, rfl, by decide,
    (algorithm_two_first_legal 30 second_game PlayerRef.player2 0 1 0 (by decide) (by decide)
      (by decide) (Or.inr ⟨⟨by decide, by decide⟩, by decide, by decide⟩) (by simp)
      ⟨⟨by decide, by decide⟩, by decide, by decide⟩ (by decide)
      (fun t ht hlt => by
        simp only [List.mem_cons, List.mem_singleton, List.not_mem_nil, or_false] at ht
        omega)
      (fun r c _ hrank t _ => by
        rw [← Bool.not_eq_true, second_game_valid]
        rintro ⟨rfl, rfl⟩
        exact absurd hrank (lt_irrefl _))).1⟩

/-- C12 (code at the failing input): on the empty board of height 5 and width
1 with the centre-only tile, `algorithm_two` for the second player with no
last move starts at `(boardWidth + 2, boardHeight + 2) = (3, 7)` and commits
anchor `(3, 0)`, although anchor `(4, 0)` in the bottom row is legal. -/
theorem algorithm_two_second_start_tall :
    (fresh_game 5 1).gameBoard.height = 5 ∧ (fresh_game 5 1).gameBoard.width = 1 ∧
    ((fresh_game 5 1).player PlayerRef.player2).firstPlayer = false ∧
    ((fresh_game 5 1).player PlayerRef.player2).recentMove = (INT_MIN, INT_MIN) ∧
    two_start (fresh_game 5 1) PlayerRef.player2 = (3, 7) ∧
    valid_move (4, 0, 0) PlayerRef.player2 (fresh_game 5 1).gameBoard
      (fresh_game 5 1).tiles = true ∧
    algorithm_two 100 (fresh_game 5 1) PlayerRef.player2 =
      some (change_tiles (change_turn
        (place_move (3, 0, 0) PlayerRef.player2 (fresh_game 5 1) (fresh_game 5 1).tiles))) :=
  ⟨rfl, rfl, rfl, rfl, by decide, by decide, rfl⟩

/-- C13 (as stated, refuted): on the 1x1 board whose cell is occupied, with the
centre-only tile, no combination is legal. For the second player with no last
move `algorithm_two` starts at `(boardWidth + 2, boardHeight + 2) = (3, 3)`,
which the descending update never meets again, and does not return for any
amount of fuel. For a player whose stored last move `(5, 5)` is outside the
scan range it does not return either. -/
theorem algorithm_two_never_returns :
    (∀ row col theta : Int,
      valid_move (row, col, theta) PlayerRef.player2 full_game.gameBoard full_game.tiles =
        false) ∧
    ((full_game.player PlayerRef.player2).firstPlayer = false ∧
      (full_game.player PlayerRef.player2).recentMove = (INT_MIN, INT_MIN) ∧
      two_start full_game PlayerRef.player2 = (3, 3) ∧
      ∀ fuel : Nat, algorithm_two fuel full_game PlayerRef.player2 = none) ∧
    ((stuck_game.player PlayerRef.player1).recentMove = (5, 5) ∧
      stuck_game.gameBoard = full_game.gameBoard ∧ stuck_game.tiles = full_game.tiles ∧
      ∀ fuel : Nat, algorithm_two fuel stuck_game PlayerRef.player1 = none) :=
  ⟨fun row col theta => full_game_invalid row col theta PlayerRef.player2,
    ⟨rfl, rfl, by decide, fun fuel =>
      algorithm_two_second_unset_diverges full_game PlayerRef.player2 (by decide) (by decide)
        rfl rfl (fun row col theta _ => full_game_invalid row col theta PlayerRef.player2) fuel⟩,
    ⟨rfl, rfl, rfl, stuck_game_algorithm_two⟩⟩

/-- C13 (amended): on a board with sides at least 1, for a first player whose
last move is unset or in the scan range and for a second player whose last move
is in the scan range, with fuel for one cycle of `(height + 4) * (width + 4)`
anchors: when no combination of the scan range is legal, the position loop of
`algorithm_two` ends when the anchor is back at its starting value, and
`algorithm_two` returns the game it was given, so the board, the turn, the
active tile and the last-move records are unchanged. -/
theorem algorithm_two_no_move (fuel : Nat) (game : Game) (currentPlayer : PlayerRef)
    (hH : 1 ≤ game.gameBoard.height) (hW : 1 ≤ game.gameBoard.width)
    (hfuel : (game.gameBoard.height + 4) * (game.gameBoard.width + 4) ≤ (fuel : Int))
    (hmove : ((game.player currentPlayer).firstPlayer = true ∧
        ((game.player currentPlayer).recentMove = (INT_MIN, INT_MIN) ∨
          in_scan_range game.gameBoard.height game.gameBoard.width
            (game.player currentPlayer).recentMove)) ∨
      ((game.player currentPlayer).firstPlayer = false ∧
        in_scan_range game.gameBoard.height game.gameBoard.width
          (game.player currentPlayer).recentMove))
    (hnone : ∀ row col : Int,
      in_scan_range game.gameBoard.height game.gameBoard.width (row, col) →
        ∀ theta ∈ [(0 : Int), 90, 180, 270],
          valid_move (row, col, theta) currentPlayer game.gameBoard game.tiles = false) :
    algorithm_two_scan game currentPlayer (two_start game currentPlayer)
        (game.player currentPlayer).firstPlayer fuel (two_start game currentPlayer).1
        (two_start game currentPlayer).2 =
      Scan.wrapped (two_start game currentPlayer).1 (two_start game currentPlayer).2 ∧
    algorithm_two fuel game currentPlayer = some game :=
  algorithm_two_exhausts fuel game currentPlayer hH hW hfuel
    (by
      rcases hmove with ⟨h1, h2 | h2⟩ | ⟨_, h2⟩
      · exact Or.inl ⟨h2, h1⟩
      · exact Or.inr h2
      · exact Or.inr h2)
    hnone

/-- Witness of C13: on the 1x1 board whose cell is occupied `algorithm_two`
returns the game unchanged for the second player whose last move is
`(0, 0)`. -/
theorem algorithm_two_no_move_witness :
    (1 ≤ full_second_game.gameBoard.height ∧ 1 ≤ full_second_game.gameBoard.width) ∧
    (full_second_game.player PlayerRef.player2).firstPlayer = false ∧
    (full_second_game.player PlayerRef.player2).recentMove = (0, 0) ∧
    algorithm_two_scan full_second_game PlayerRef.player2
        (two_start full_second_game PlayerRef.player2)
        (full_second_game.player PlayerRef.player2).firstPlayer 25
        (two_start full_second_game PlayerRef.player2).1
        (two_start full_second_game PlayerRef.player2).2 =
      Scan.wrapped (two_start full_second_game PlayerRef.player2).1
        (two_start full_second_game PlayerRef.player2).2 ∧
    algorithm_two 25 full_second_game PlayerRef.player2 = some full_second_game :=
  ⟨⟨by decide, by decide⟩, rfl, rfl,
    algorithm_two_no_move 25 full_second_game PlayerRef.player2 (by decide) (by decide)
      (by decide)
      (Or.inr ⟨rfl, ⟨by decide, by decide⟩, by decide, by decide⟩)
      (fun row col _ theta _ =>
        full_board_invalid row col theta PlayerRef.player2 full_second_game.gameBoard
          full_second_game.tiles (fun _ _ _ _ _ _ => by simp [full_second_game, full_game, full_board])
          (centre_tiles_filled theta))⟩

/-- C14: on a board with height and width at least 1, with fuel for one cycle
of `(height + 4) * (width + 4)` anchors, `check_possible_move` returns for a
player whose last move is unset or in the scan range, and `algorithm_one`
returns for a game-level last move that is unset or in the scan range. Each
either finds a legal combination (the probe answers true, `algorithm_one`
commits it) or completes its cycle with no combination of the scan range legal
(the probe answers false, `algorithm_one` returns the game unchanged). -/
theorem searches_terminate (fuel : Nat) (game : Game) (currentPlayer : PlayerRef)
    (totalPlayers : Int → PlayerRef)
    (hH : 1 ≤ game.gameBoard.height) (hW : 1 ≤ game.gameBoard.width)
    (hfuel : (game.gameBoard.height + 4) * (game.gameBoard.width + 4) ≤ (fuel : Int))
    (hplayer : (game.player currentPlayer).recentMove = (INT_MIN, INT_MIN) ∨
      in_scan_range game.gameBoard.height game.gameBoard.width
        (game.player currentPlayer).recentMove)
    (hgame : game.recentMove = (INT_MIN, INT_MIN) ∨
      in_scan_range game.gameBoard.height game.gameBoard.width game.recentMove) :
    ((check_possible_move fuel game currentPlayer = some true ∧
        ∃ row col theta,
          in_scan_range game.gameBoard.height game.gameBoard.width (row, col) ∧
          theta ∈ [(0 : Int), 90, 180, 270] ∧
          valid_move (row, col, theta) currentPlayer game.gameBoard game.tiles = true) ∨
      (check_possible_move fuel game currentPlayer = some false ∧
        ∀ row col : Int,
          in_scan_range game.gameBoard.height game.gameBoard.width (row, col) →
          ∀ theta ∈ [(0 : Int), 90, 180, 270],
            valid_move (row, col, theta) currentPlayer game.gameBoard game.tiles = false)) ∧
    ((∃ command,
        valid_move command (totalPlayers game.turn) game.gameBoard game.tiles = true ∧
        algorithm_one fuel game totalPlayers =
          some (change_tiles (change_turn
            (place_move command (totalPlayers game.turn) game game.tiles)))) ∨
      (algorithm_one fuel game totalPlayers = some game ∧
        ∀ theta ∈ [(0 : Int), 90, 180, 270], ∀ row col : Int,
          in_scan_range game.gameBoard.height game.gameBoard.width (row, col) →
            valid_move (row, col, theta) (totalPlayers game.turn) game.gameBoard
              game.tiles = false)) :=
  ⟨check_possible_move_total fuel game currentPlayer hH hW hplayer hfuel,
    algorithm_one_total fuel game totalPlayers hH hW hfuel hgame⟩

/-- Witness of C14: both searches on the 1x2 board whose cell `(0, 0)` is
taken, with fuel 30; the probe answers true and `algorithm_one` returns a
state. -/
theorem searches_terminate_witness :
    (1 ≤ taken_game.gameBoard.height ∧ 1 ≤ taken_game.gameBoard.width) ∧
    (taken_game.gameBoard.height + 4) * (taken_game.gameBoard.width + 4) ≤ ((30 : Nat) : Int) ∧
    (taken_game.player PlayerRef.player1).recentMove = (INT_MIN, INT_MIN) ∧
    taken_game.recentMove = (INT_MIN, INT_MIN) ∧
    check_possible_move 30 taken_game PlayerRef.player1 = some true ∧
    ((∃ command,
        valid_move command (players taken_game.turn) taken_game.gameBoard
          taken_game.tiles = true ∧
        algorithm_one 30 taken_game players =
          some (change_tiles (change_turn
            (place_move command (players taken_game.turn) taken_game taken_game.tiles)))) ∨
      (algorithm_one 30 taken_game players = some taken_game ∧
        ∀ theta ∈ [(0 : Int), 90, 180, 270], ∀ row col : Int,
          in_scan_range taken_game.gameBoard.height taken_game.gameBoard.width (row, col) →
            valid_move (row, col, theta) (players taken_game.turn) taken_game.gameBoard
              taken_game.tiles = false)) :=
  ⟨⟨by decide, by decide⟩, by decide, rfl, rfl, rfl,
    (searches_terminate 30 taken_game PlayerRef.player1 players (by decide) (by decide)
      (by decide) (Or.inl rfl) (Or.inl rfl)).2⟩

/-- C15: when `algorithm_one` exhausts all four rotations, no combination of
the scan range being legal, it returns having made no move: the state it
returns is the game it was given, so the board, the turn, the active tile index
and the last-move records of the game and of both players are unchanged. -/
theorem algorithm_one_no_move (fuel : Nat) (game : Game) (totalPlayers : Int → PlayerRef)
    (hH : 1 ≤ game.gameBoard.height) (hW : 1 ≤ game.gameBoard.width)
    (hfuel : (game.gameBoard.height + 4) * (game.gameBoard.width + 4) ≤ (fuel : Int))
    (hmove : game.recentMove = (INT_MIN, INT_MIN) ∨
      in_scan_range game.gameBoard.height game.gameBoard.width game.recentMove)
    (hnone : ∀ theta ∈ [(0 : Int), 90, 180, 270], ∀ row col : Int,
      in_scan_range game.gameBoard.height game.gameBoard.width (row, col) →
        valid_move (row, col, theta) (totalPlayers game.turn) game.gameBoard
          game.tiles = false) :
    algorithm_one fuel game totalPlayers = some game := by
  have hs := ascending_start_range _ _ hH hW _ hmove
  have skip := algorithm_one_rotations_skip fuel game (totalPlayers game.turn) hH hW _ hs hfuel
  rw [algorithm_one_eq, skip 0 _ (hnone 0 (by simp)), skip 90 _ (hnone 90 (by simp)),
    skip 180 _ (hnone 180 (by simp)), skip 270 _ (hnone 270 (by simp))]
  rfl

/-- Witness of C15: on the 1x1 board whose cell is occupied `algorithm_one`
returns the game unchanged. -/
theorem algorithm_one_no_move_witness :
    (1 ≤ full_game.gameBoard.height ∧ 1 ≤ full_game.gameBoard.width) ∧
    (full_game.gameBoard.height + 4) * (full_game.gameBoard.width + 4) ≤ ((25 : Nat) : Int) ∧
    full_game.recentMove = (INT_MIN, INT_MIN) ∧
    algorithm_one 25 full_game players = some full_game :=
  ⟨⟨by decide, by decide⟩, by decide, rfl,
    algorithm_one_no_move 25 full_game players (by decide) (by decide) (by decide)
      (Or.inl rfl) (fun theta _ row col _ => full_game_invalid row col theta _)⟩

/-- C16 (code at the failing input): the game on a board of one cell with the
centre-only tile, a human first player and an automatic second player of type
1, on the input lines `2147483646 0 0` and `0 0 0`, in 32-bit arithmetic. After
three iterations `game_loop` is in the state `spin_game`: the first player's
first line was accepted with no cell written, the second player's
`algorithm_one` committed at the last move of the game, `(2147483646, 0)`,
which became its own last move, and the first player took the cell with
`0 0 0`. There the probe of the second player starts at `(2147483646, 0)`,
where `valid_move` returns true, and answers true; `algorithm_one` starts at
the last move of the game `(0, 0)`, in the scan range, finds no legal
combination and returns the game as it was, no move made. The loop of
`game_loop` comes back to this state each time and does not end. -/
theorem probe_true_no_move :
    (∀ turns : Nat, game_loop_wrap (turns + 3) 30 limit_lines human_game =
      game_loop_wrap turns 30 [] spin_game) ∧
    (spin_game.turn = 1 ∧ players spin_game.turn = PlayerRef.player2 ∧
      (spin_game.player PlayerRef.player2).type = PlayerType.P1_AUTO) ∧
    (spin_game.gameBoard.height = 1 ∧ spin_game.gameBoard.width = 1 ∧
      spin_game.gameBoard.grid 0 0 = some PlayerRef.player1) ∧
    (spin_game.recentMove = (0, 0) ∧ in_scan_range 1 1 spin_game.recentMove) ∧
    (spin_game.player PlayerRef.player2).recentMove = (2147483646, 0) ∧
    valid_move_wrap 30 (2147483646, 0, 0) PlayerRef.player2 spin_game.gameBoard
      spin_game.tiles = some true ∧
    check_possible_move_wrap 30 spin_game PlayerRef.player2 = some true ∧
    algorithm_one_wrap 30 spin_game players = some spin_game ∧
    ∀ turns : Nat, game_loop_wrap turns 30 limit_lines human_game = none := by
  have hreach : ∀ turns : Nat, game_loop_wrap (turns + 3) 30 limit_lines human_game =
      game_loop_wrap turns 30 [] spin_game := fun _ => rfl
  have hprobe : check_possible_move_wrap 30 spin_game PlayerRef.player2 = some true := by decide
  have hsame : algorithm_one_wrap 30 spin_game players = some spin_game := rfl
  refine ⟨hreach, ⟨rfl, rfl, rfl⟩, ⟨rfl, rfl, rfl⟩,
    ⟨rfl, ⟨by decide, by decide⟩, by decide, by decide⟩, rfl, by decide, hprobe, hsame, ?_⟩
  intro turns
  match turns with
  | 0 => rfl
  | 1 => rfl
  | 2 => rfl
  | n + 3 =>
    rw [hreach n]
    exact game_loop_wrap_spin 30 spin_game hprobe rfl hsame n []

/-- C17 (as stated, refuted): `stuck_game` has a fully occupied 1x1 board and
an active tile with a placeable cell, yet for the first player, whose stored
last move `(5, 5)` lies outside the scan range, `check_possible_move` returns
false for no amount of fuel: the probe does not return. -/
theorem full_board_probe_stuck :
    stuck_game.gameBoard.height = 1 ∧ stuck_game.gameBoard.width = 1 ∧
    stuck_game.gameBoard.grid 0 0 ≠ none ∧
    stuck_game.tiles.grid 0 stuck_game.tiles.current 2 2 ≠ 0 ∧
    (stuck_game.player PlayerRef.player1).recentMove = (5, 5) ∧
    ¬ ∃ fuel : Nat, check_possible_move fuel stuck_game PlayerRef.player1 = some false :=
  ⟨rfl, rfl, by decide, by decide, rfl, fun ⟨fuel, h⟩ => by
    rw [stuck_game_probe fuel] at h
    exact absurd h (by simp)⟩

/-- C17 (amended): on a fully occupied board with sides at least 1 and an
active tile that has a placeable cell at every rotation, `check_possible_move`
returns false for each player whose last move is unset or in the scan range,
and `game_loop` then ends at once: it returns `NO_ERROR` with the other player
as winner and the game as it was, no placement made. -/
theorem full_board_ends (fuel : Nat) (game : Game)
    (hH : 1 ≤ game.gameBoard.height) (hW : 1 ≤ game.gameBoard.width)
    (hfuel : (game.gameBoard.height + 4) * (game.gameBoard.width + 4) ≤ (fuel : Int))
    (hfull : ∀ y x : Int, 0 ≤ y → y < game.gameBoard.height → 0 ≤ x →
      x < game.gameBoard.width → game.gameBoard.grid y x ≠ none)
    (hfilled : ∀ theta ∈ [(0 : Int), 90, 180, 270],
      ∃ dr dc : Int, (0 ≤ dr ∧ dr < 5 ∧ 0 ≤ dc ∧ dc < 5) ∧
        game.tiles.grid (theta.tdiv 90) game.tiles.current dr dc ≠ 0)
    (hmoves : ∀ p : PlayerRef, (game.player p).recentMove = (INT_MIN, INT_MIN) ∨
      in_scan_range game.gameBoard.height game.gameBoard.width (game.player p).recentMove) :
    (∀ p : PlayerRef, check_possible_move fuel game p = some false) ∧
    ∀ (turns : Nat) (input : List PromptLine),
      game_loop (turns + 1) fuel input game =
        some { code := ErrorCode.NO_ERROR
               winner := some (players ((game.turn + 1).tmod 2))
               game := game } := by
  have hcheck : ∀ p : PlayerRef, check_possible_move fuel game p = some false := by
    intro p
    rcases check_possible_move_total fuel game p hH hW (hmoves p) hfuel with
      ⟨_, row, col, theta, _, htheta, hvalid⟩ | ⟨h, _⟩
    · rw [full_board_invalid row col theta p game.gameBoard game.tiles hfull
        (hfilled theta htheta)] at hvalid
      exact absurd hvalid (by simp)
    · exact h
  exact ⟨hcheck, fun turns input => game_loop_no_move turns fuel input game (hcheck _)⟩

/-- Witness of C17: the 1x1 board whose cell is occupied, both players without
a last move. -/
theorem full_board_ends_witness :
    (1 ≤ full_game.gameBoard.height ∧ 1 ≤ full_game.gameBoard.width) ∧
    full_game.gameBoard.grid 0 0 ≠ none ∧
    (check_possible_move 25 full_game PlayerRef.player1 = some false ∧
      check_possible_move 25 full_game PlayerRef.player2 = some false) ∧
    game_loop 1 25 [] full_game =
      some { code := ErrorCode.NO_ERROR
             winner := some (players ((full_game.turn + 1).tmod 2))
             game := full_game } :=
  ⟨⟨by decide, by decide⟩, by decide,
    ⟨(full_board_ends 25 full_game (by decide) (by decide) (by decide)
        (fun _ _ _ _ _ _ => by simp [full_game, full_board])
        (fun theta _ => centre_tiles_filled theta)
        (fun p => Or.inl (by cases p <;> rfl))).1 PlayerRef.player1,
      (full_board_ends 25 full_game (by decide) (by decide) (by decide)
        (fun _ _ _ _ _ _ => by simp [full_game, full_board])
        (fun theta _ => centre_tiles_filled theta)
        (fun p => Or.inl (by cases p <;> rfl))).1 PlayerRef.player2⟩,
    (full_board_ends 25 full_game (by decide) (by decide) (by decide)
      (fun _ _ _ _ _ _ => by simp [full_game, full_board])
      (fun theta _ => centre_tiles_filled theta)
      (fun p => Or.inl (by cases p <;> rfl))).2 0 []⟩

/-- C18: every successful placement advances the active tile index to
`(current + 1) mod total` and toggles the turn between 0 and 1, once each. In
a game with turn 0 or 1 and `0 ≤ current`, `1 ≤ total`: a state `algorithm_one`
or `algorithm_two` returns is the game unchanged or
`change_tiles (change_turn (place_move ...))` of a command `valid_move`
accepts, and the state after a move `human_prompt` accepts is of that form;
in such a state the turn is `1 - turn`, the active index is
`(current + 1) % total` and `total` is unchanged. -/
theorem placement_advances (game : Game) (hturn : game.turn = 0 ∨ game.turn = 1)
    (hcur : 0 ≤ game.tiles.current) (htotal : 1 ≤ game.tiles.total) :
    (∀ (fuel : Nat) (totalPlayers : Int → PlayerRef) (g : Game),
      algorithm_one fuel game totalPlayers = some g →
      g = game ∨
        ((∃ command,
            valid_move command (totalPlayers game.turn) game.gameBoard game.tiles = true ∧
            g = change_tiles (change_turn
              (place_move command (totalPlayers game.turn) game game.tiles))) ∧
          g.turn = 1 - game.turn ∧
          g.tiles.current = (game.tiles.current + 1) % game.tiles.total ∧
          g.tiles.total = game.tiles.total)) ∧
    (∀ (fuel : Nat) (currentPlayer : PlayerRef) (g : Game),
      algorithm_two fuel game currentPlayer = some g →
      g = game ∨
        ((∃ command, valid_move command currentPlayer game.gameBoard game.tiles = true ∧
            g = change_tiles (change_turn
              (place_move command currentPlayer game game.tiles))) ∧
          g.turn = 1 - game.turn ∧
          g.tiles.current = (game.tiles.current + 1) % game.tiles.total ∧
          g.tiles.total = game.tiles.total)) ∧
    (∀ (currentPlayer : PlayerRef) (input rest : List PromptLine) (g : Game),
      human_prompt game currentPlayer input = (some g, rest) →
        (∃ command, correct_rotation command = true ∧
            valid_move command currentPlayer game.gameBoard game.tiles = true ∧
            g = change_tiles (change_turn
              (place_move command currentPlayer game game.tiles))) ∧
          g.turn = 1 - game.turn ∧
          g.tiles.current = (game.tiles.current + 1) % game.tiles.total ∧
          g.tiles.total = game.tiles.total) := by
  refine ⟨?_, ?_, ?_⟩
  · intro fuel totalPlayers g h
    rw [algorithm_one_eq] at h
    rcases algorithm_one_rotations_result _ _ _ _ _ _ _ _ h with rfl | ⟨command, hvalid, rfl⟩
    · exact Or.inl rfl
    · exact Or.inr ⟨⟨command, hvalid, rfl⟩, commit_turn_tiles command _ game hturn hcur htotal⟩
  · intro fuel currentPlayer g h
    rcases algorithm_two_result _ _ _ _ h with rfl | ⟨command, hvalid, rfl⟩
    · exact Or.inl rfl
    · exact Or.inr ⟨⟨command, hvalid, rfl⟩, commit_turn_tiles command _ game hturn hcur htotal⟩
  · intro currentPlayer input rest g h
    obtain ⟨command, hrot, hvalid, rfl⟩ := human_prompt_result game currentPlayer input rest g h
    exact ⟨⟨command, hrot, hvalid, rfl⟩, commit_turn_tiles command _ game hturn hcur htotal⟩

/-- Witness of C18: the first player's accepted line `0 0 0` on the empty 1x1
board, after a save line and an invalid line. -/
theorem placement_advances_witness :
    ((fresh_game 1 1).turn = 0 ∨ (fresh_game 1 1).turn = 1) ∧
    (0 ≤ (fresh_game 1 1).tiles.current ∧ 1 ≤ (fresh_game 1 1).tiles.total) ∧
    human_prompt (fresh_game 1 1) PlayerRef.player1 prompt_lines =
      (some (change_tiles (change_turn
        (place_move (0, 0, 0) PlayerRef.player1 (fresh_game 1 1) (fresh_game 1 1).tiles))),
        []) ∧
    (change_tiles (change_turn
      (place_move (0, 0, 0) PlayerRef.player1 (fresh_game 1 1)
        (fresh_game 1 1).tiles))).turn = 1 - (fresh_game 1 1).turn ∧
    (change_tiles (change_turn
      (place_move (0, 0, 0) PlayerRef.player1 (fresh_game 1 1)
        (fresh_game 1 1).tiles))).tiles.current =
      ((fresh_game 1 1).tiles.current + 1) % (fresh_game 1 1).tiles.total :=
  ⟨Or.inl rfl, ⟨by decide, by decide⟩, rfl,
    ((placement_advances (fresh_game 1 1) (Or.inl rfl) (by decide) (by decide)).2.2
      PlayerRef.player1 prompt_lines [] _ rfl).2.1,
    ((placement_advances (fresh_game 1 1) (Or.inl rfl) (by decide) (by decide)).2.2
      PlayerRef.player1 prompt_lines [] _ rfl).2.2.1⟩

/-- C19: calling `change_tiles` exactly `total` times returns the active tile
index to its original value, for every catalogue with `total ≥ 1` and every
starting index in `[0, total)`; the whole game state is then as before. -/
theorem change_tiles_cycle (game : Game) (htotal : 1 ≤ game.tiles.total)
    (hcur : 0 ≤ game.tiles.current) (hlt : game.tiles.current < game.tiles.total) :
    (change_tiles^[game.tiles.total.toNat] game).tiles.current = game.tiles.current ∧
    change_tiles^[game.tiles.total.toNat] game = game := by
  have h := change_tiles_iterate game htotal hcur hlt game.tiles.total.toNat
  have e : (game.tiles.current + (game.tiles.total.toNat : Int)) % game.tiles.total =
      game.tiles.current := by
    rw [Int.toNat_of_nonneg (by omega), Int.add_emod_self]
    exact Int.emod_eq_of_lt hcur hlt
  rw [e] at h
  rw [h]
  exact ⟨rfl, rfl⟩

/-- Witness of C19: three calls on a catalogue of three tiles with the second
one active. -/
theorem change_tiles_cycle_witness :
    (1 ≤ three_tile_game.tiles.total ∧ 0 ≤ three_tile_game.tiles.current ∧
      three_tile_game.tiles.current < three_tile_game.tiles.total) ∧
    three_tile_game.tiles.total.toNat = 3 ∧
    (change_tiles three_tile_game).tiles.current = 2 ∧
    (change_tiles^[three_tile_game.tiles.total.toNat] three_tile_game).tiles.current =
      three_tile_game.tiles.current :=
  ⟨⟨by decide, by decide, by decide⟩, by decide, by decide,
    (change_tiles_cycle three_tile_game (by decide) (by decide) (by decide)).1⟩

/-- C20: the catalogue invariant `0 ≤ current < total`. A successful
`validate_tile_file` on the catalogue of `initialise_tile_list` leaves
`total ≥ 1` with `current = 0`; a successful `parse_header` (its range checks
and assignments, on any four header values) leaves `current` equal to the
header's tile index with `0 ≤ current < total` and `total` unchanged; and
`change_tiles` preserves `0 ≤ current < total` and `total`. -/
theorem catalogue_invariant :
    (∀ (file : Option (List Char)) (after : Tiles),
      validate_tile_file file initialise_tile_list = (ErrorCode.NO_ERROR, after) →
        1 ≤ after.total ∧ after.current = 0 ∧
          (0 ≤ after.current ∧ after.current < after.total)) ∧
    (∀ (headerInfo : Int → Int) (game after : Game),
      parse_header_values headerInfo game = (true, after) →
        after.tiles.current = headerInfo 0 ∧ after.tiles.total = game.tiles.total ∧
          (0 ≤ after.tiles.current ∧ after.tiles.current < after.tiles.total)) ∧
    (∀ game : Game, 0 ≤ game.tiles.current → game.tiles.current < game.tiles.total →
      (change_tiles game).tiles.total = game.tiles.total ∧
        (0 ≤ (change_tiles game).tiles.current ∧
          (change_tiles game).tiles.current < (change_tiles game).tiles.total)) := by
  refine ⟨?_, ?_, ?_⟩
  · intro file after h
    have ht := validate_tile_file_total file initialise_tile_list after h
    have h0 : initialise_tile_list.total = 0 := rfl
    have h1 : initialise_tile_list.current = 0 := rfl
    rw [h0, h1] at ht
    exact ⟨by omega, ht.2, by omega, by omega⟩
  · intro headerInfo game after h
    have hp := parse_header_values_current headerInfo game after h
    exact ⟨hp.2.2.1, hp.2.2.2, hp.1, hp.2.1⟩
  · intro game h0 h1
    have hc := change_tiles_bounds game h0 h1
    exact ⟨hc.2.2, hc.1, hc.2.1⟩

/-- Witness of C20: the one-tile file is accepted and leaves one tile with
active index 0. -/
theorem catalogue_invariant_witness :
    (validate_tile_file (some centre_file) initialise_tile_list).1 = ErrorCode.NO_ERROR ∧
    1 ≤ (validate_tile_file (some centre_file) initialise_tile_list).2.total ∧
    (validate_tile_file (some centre_file) initialise_tile_list).2.current = 0 :=
  ⟨by decide,
    (catalogue_invariant.1 (some centre_file)
      (validate_tile_file (some centre_file) initialise_tile_list).2
      (Prod.ext (by decide) rfl)).1,
    (catalogue_invariant.1 (some centre_file)
      (validate_tile_file (some centre_file) initialise_tile_list).2
      (Prod.ext (by decide) rfl)).2.1⟩

/-- C21: after `reallocate_grid board h w` the board has height `h` and width
`w` and every cell of its `h` rows and `w` columns is empty, whatever the
dimensions and the cells of the board were before. -/
theorem reallocate_grid_spec (board : Board) (h w : Int) :
    (reallocate_grid board h w).height = h ∧ (reallocate_grid board h w).width = w ∧
    ∀ y x : Int, 0 ≤ y → y < h → 0 ≤ x → x < w → (reallocate_grid board h w).grid y x = none := by
  refine ⟨rfl, rfl, ?_⟩
  intro y x h1 h2 h3 h4
  rw [reallocate_grid_cell, if_pos ⟨⟨h1, h2⟩, h3, h4⟩]

/-- C22: for a header line of four integer tokens with one space between
neighbours, `tileIndex turn height width`, whose values pass the range checks
(`0 ≤ tileIndex < total`, turn 0 or 1, height and width in 1..999),
`parse_header` returns true, sets the active tile index to `tileIndex` and the
turn to `turn`, and resizes the board to `height` rows and `width` columns with
every cell empty; the count of tiles is that of a C `int`. -/
theorem parse_header_accepts (t0 t1 t2 t3 : List Char) (v0 v1 v2 v3 : Int)
    (headerInfo : Int → Int) (game : Game)
    (hs : ' ' ∉ t0 ∧ ' ' ∉ t1 ∧ ' ' ∉ t2 ∧ ' ' ∉ t3)
    (hv : integer_value t0 = some v0 ∧ integer_value t1 = some v1 ∧
      integer_value t2 = some v2 ∧ integer_value t3 = some v3)
    (htotal : game.tiles.total ≤ INT_MAX)
    (hr : 0 ≤ v0 ∧ v0 < game.tiles.total ∧ 0 ≤ v1 ∧ v1 ≤ 1 ∧ 1 ≤ v2 ∧ v2 ≤ 999 ∧
      1 ≤ v3 ∧ v3 ≤ 999) :
    (parse_header (header_line t0 t1 t2 t3) headerInfo game).1 = true ∧
    (parse_header (header_line t0 t1 t2 t3) headerInfo game).2.tiles.current = v0 ∧
    (parse_header (header_line t0 t1 t2 t3) headerInfo game).2.turn = v1 ∧
    (parse_header (header_line t0 t1 t2 t3) headerInfo game).2.gameBoard.height = v2 ∧
    (parse_header (header_line t0 t1 t2 t3) headerInfo game).2.gameBoard.width = v3 ∧
    ∀ y x : Int, 0 ≤ y → y < v2 → 0 ≤ x → x < v3 →
      (parse_header (header_line t0 t1 t2 t3) headerInfo game).2.gameBoard.grid y x = none := by
  have hmin : INT_MIN = -2147483648 := rfl
  have hmax : INT_MAX = 2147483647 := rfl
  obtain ⟨converted, c0, c1, c2, c3, hp⟩ :=
    parse_header_converted t0 t1 t2 t3 v0 v1 v2 v3 headerInfo game hs.1 hs.2.1 hs.2.2.1 hs.2.2.2
      hv.1 hv.2.1 hv.2.2.1 hv.2.2.2 (by omega) (by omega) (by omega) (by omega)
  rw [hp, parse_header_values_true converted game (by rw [c0, c1, c2, c3]; exact hr)]
  refine ⟨rfl, c0, c1, c2, c3, ?_⟩
  intro y x h1 h2 h3 h4
  show (reallocate_grid game.gameBoard (converted 2) (converted 3)).grid y x = none
  rw [reallocate_grid_cell, if_pos ⟨⟨h1, by omega⟩, h3, by omega⟩]

/-- C22, the example: the header line `0 1 5 5` gives a board of 5 rows and 5
columns with every cell empty, turn 1 and active tile 0. -/
theorem parse_header_accepts_witness :
    (parse_header (header_line ['0'] ['1'] ['5'] ['5']) (fun _ => 0) (fresh_game 1 1)).1 = true ∧
    (parse_header (header_line ['0'] ['1'] ['5'] ['5']) (fun _ => 0)
      (fresh_game 1 1)).2.tiles.current = 0 ∧
    (parse_header (header_line ['0'] ['1'] ['5'] ['5']) (fun _ => 0) (fresh_game 1 1)).2.turn = 1 ∧
    (parse_header (header_line ['0'] ['1'] ['5'] ['5']) (fun _ => 0)
      (fresh_game 1 1)).2.gameBoard.height = 5 ∧
    (parse_header (header_line ['0'] ['1'] ['5'] ['5']) (fun _ => 0)
      (fresh_game 1 1)).2.gameBoard.width = 5 ∧
    ∀ y x : Int, 0 ≤ y → y < 5 → 0 ≤ x → x < 5 →
      (parse_header (header_line ['0'] ['1'] ['5'] ['5']) (fun _ => 0)
        (fresh_game 1 1)).2.gameBoard.grid y x = none :=
  parse_header_accepts ['0'] ['1'] ['5'] ['5'] 0 1 5 5 (fun _ => 0) (fresh_game 1 1)
    (by decide) (by decide) (by decide) (by decide)

/-- C23 (code at the failing input): the header lines `0 1 5 99999999999` and
`0 1 5 2147483647` are four integer tokens whose last, the width, is outside
`[1, 999]`. The conversion stops at the fourth token with `INVALID_INPUT`
(the value is not below `INT_MAX`) and leaves `headerInfo[3]` unwritten;
`parse_header` does not look at that code and checks what the entry held:
with 5 there it returns true and sets a board of 5 columns, with 0 there it
returns false. -/
theorem parse_header_wide_accepted :
    tokenise_string "0 1 5 99999999999".toList 4 =
      [['0'], ['1'], ['5'], "99999999999".toList] ∧
    (integer_value "99999999999".toList = some 99999999999 ∧
      integer_value "2147483647".toList = some 2147483647) ∧
    (convert_token_to_int (tokenise_string "0 1 5 99999999999".toList 4) (fun _ => 5) 4).1 =
      TokenCode.INVALID_INPUT ∧
    (fresh_game 1 1).gameBoard.width = 1 ∧
    (parse_header "0 1 5 99999999999".toList (fun _ => 5) (fresh_game 1 1)).1 = true ∧
    (parse_header "0 1 5 99999999999".toList (fun _ => 5) (fresh_game 1 1)).2.gameBoard.width =
      5 ∧
    (parse_header "0 1 5 2147483647".toList (fun _ => 5) (fresh_game 1 1)).1 = true ∧
    (parse_header "0 1 5 2147483647".toList (fun _ => 5) (fresh_game 1 1)).2.gameBoard.width =
      5 ∧
    (parse_header "0 1 5 99999999999".toList (fun _ => 0) (fresh_game 1 1)).1 = false := by
  refine ⟨by decide, ⟨by decide, by decide⟩, by decide, rfl, by decide, by decide, by decide,
    by decide, by decide⟩

/-- C24, the failing input: on the header line `0 1 abc 5` the conversion
stops at `abc` with `INVALID_INPUT`, `parse_header` does not look at that
code and checks the two entries of `headerInfo` the conversion never wrote;
when these hold 5 and 5 it returns true and sets the turn to 1 and the board
to 5 rows and 5 columns. -/
theorem parse_header_unchecked_conversion :
    tokenise_string "0 1 abc 5".toList 4 = [['0'], ['1'], ['a', 'b', 'c'], ['5']] ∧
    (convert_token_to_int (tokenise_string "0 1 abc 5".toList 4) (fun _ => 5) 4).1 =
      TokenCode.INVALID_INPUT ∧
    (fresh_game 1 1).turn = 0 ∧ (fresh_game 1 1).gameBoard.height = 1 ∧
    (fresh_game 1 1).gameBoard.width = 1 ∧
    (parse_header "0 1 abc 5".toList (fun _ => 5) (fresh_game 1 1)).1 = true ∧
    (parse_header "0 1 abc 5".toList (fun _ => 5) (fresh_game 1 1)).2.turn = 1 ∧
    (parse_header "0 1 abc 5".toList (fun _ => 5) (fresh_game 1 1)).2.gameBoard.height = 5 ∧
    (parse_header "0 1 abc 5".toList (fun _ => 5) (fresh_game 1 1)).2.gameBoard.width = 5 := by
  refine ⟨by decide, by decide, rfl, rfl, rfl, by decide, by decide, by decide, by decide⟩

/-- C25, the counterexample: the file of one block whose 25 markers are all ','
is accepted with `NO_ERROR`; the catalogue then has one tile, and no cell of
its rotation-0 layout is filled. -/
theorem blank_tile_accepted :
    ",,,,,\n,,,,,\n,,,,,\n,,,,,\n,,,,,\n".toList = file_text [blank_block] ∧
    (validate_tile_file (some (file_text [blank_block])) initialise_tile_list).1 =
      ErrorCode.NO_ERROR ∧
    (validate_tile_file (some (file_text [blank_block])) initialise_tile_list).2.total = 1 ∧
    ∀ r c : Nat, r < 5 → c < 5 →
      (validate_tile_file (some (file_text [blank_block])) initialise_tile_list).2.grid 0 0 r c
        = 0 := by
  obtain ⟨e, ht, hg⟩ := validate_tile_file_blocks [blank_block] (by simp)
    (by intro b hb; rw [List.mem_singleton] at hb; rw [hb]; decide) initialise_tile_list
  rw [e]
  refine ⟨by decide, rfl, ht, ?_⟩
  intro r c hr hc
  have h := hg 0 r c (by simp) hr hc
  have hb : ∀ r < 5, ∀ c < 5, block_char blank_block r c ≠ '!' := by decide
  rw [List.getD_cons_zero, if_neg (hb r hr c hc)] at h
  have e0 : initialise_tile_list.total + ((0 : Nat) : Int) = 0 := rfl
  rw [e0] at h
  exact h

/-- C25, as the code has it: after `validate_tile_file` returns `NO_ERROR` the
content is the text of one or more blocks, one tile per block, and the tile of
a block has a filled cell in its rotation-0 layout exactly when the block
holds a '!'; a block without '!' is accepted and gives a layout with no
filled cell. -/
theorem tile_filled_iff_marker (content : List Char) (tiles : Tiles)
    (h : (validate_tile_file (some content) tiles).1 = ErrorCode.NO_ERROR) :
    ∃ blocks, blocks ≠ [] ∧ (∀ block ∈ blocks, tile_block_ok block) ∧
      content = file_text blocks ∧
      (validate_tile_file (some content) tiles).2.total = tiles.total + blocks.length ∧
      ∀ i : Nat, i < blocks.length →
        ((∃ r c : Nat, r < 5 ∧ c < 5 ∧
            (validate_tile_file (some content) tiles).2.grid 0 (tiles.total + i) r c ≠ 0) ↔
          ∃ line ∈ blocks.getD i [], '!' ∈ line) := by
  obtain ⟨blocks, hne, hok, rfl⟩ :=
    loop_accepts_blocks content.length content (le_refl _) false _ h
  obtain ⟨e, ht, hg⟩ := validate_tile_file_blocks blocks hne hok tiles
  refine ⟨blocks, hne, hok, rfl, ?_, ?_⟩
  · rw [e]
    exact ht
  · intro i hi
    have hb : tile_block_ok (blocks.getD i []) := by
      rw [List.getD_eq_getElem _ _ hi]
      exact hok _ (List.getElem_mem hi)
    rw [← block_char_marker _ hb, e]
    constructor
    · rintro ⟨r, c, hr, hc, hx⟩
      refine ⟨r, c, hr, hc, ?_⟩
      by_contra hm
      apply hx
      show (rotate_tile (write_blocks (initialise_new_tile tiles) blocks)).grid 0
        (tiles.total + i) r c = 0
      rw [hg i r c hi hr hc, if_neg hm]
    · rintro ⟨r, c, hr, hc, hm⟩
      refine ⟨r, c, hr, hc, ?_⟩
      show (rotate_tile (write_blocks (initialise_new_tile tiles) blocks)).grid 0
        (tiles.total + i) r c ≠ 0
      rw [hg i r c hi hr hc, if_pos hm]
      decide

/-- C25, an instance: the file of the centre tile. -/
theorem tile_filled_iff_marker_witness :
    ∃ blocks, blocks ≠ [] ∧ (∀ block ∈ blocks, tile_block_ok block) ∧
      centre_file = file_text blocks ∧
      (validate_tile_file (some centre_file) initialise_tile_list).2.total =
        initialise_tile_list.total + blocks.length ∧
      ∀ i : Nat, i < blocks.length →
        ((∃ r c : Nat, r < 5 ∧ c < 5 ∧
            (validate_tile_file (some centre_file) initialise_tile_list).2.grid 0
              (initialise_tile_list.total + i) r c ≠ 0) ↔
          ∃ line ∈ blocks.getD i [], '!' ∈ line) :=
  tile_filled_iff_marker centre_file initialise_tile_list (by decide)

/-- C26: on a readable file `validate_tile_file` returns `NO_ERROR` if and only
if the content is the text of one or more blocks, each of five lines of five
characters ',' or '!' with a newline after each line, with one empty line
between neighbouring blocks and nothing after the last block; in every other
case it returns `TILE_INVALID`. On success the count of tiles has grown by the
number of blocks (from 0, in the catalogue of a new game, to the number of
blocks), and the rotation-0 layout of the tile of block `i` has cell `(r, c)`
filled exactly when character `c` of line `r` of block `i` is '!'. -/
theorem validate_tile_file_format (content : List Char) (tiles : Tiles) :
    ((validate_tile_file (some content) tiles).1 = ErrorCode.NO_ERROR ↔
      ∃ blocks, blocks ≠ [] ∧ (∀ block ∈ blocks, tile_block_ok block) ∧
        content = file_text blocks) ∧
    ((validate_tile_file (some content) tiles).1 ≠ ErrorCode.NO_ERROR →
      (validate_tile_file (some content) tiles).1 = ErrorCode.TILE_INVALID) ∧
    ∀ blocks, blocks ≠ [] → (∀ block ∈ blocks, tile_block_ok block) →
      content = file_text blocks →
      (validate_tile_file (some content) tiles).2.total = tiles.total + blocks.length ∧
      ∀ i r c : Nat, i < blocks.length → r < 5 → c < 5 →
        ((validate_tile_file (some content) tiles).2.grid 0 (tiles.total + i) r c ≠ 0 ↔
          block_char (blocks.getD i []) r c = '!') := by
  refine ⟨⟨?_, ?_⟩, ?_, ?_⟩
  · intro h
    exact loop_accepts_blocks content.length content (le_refl _) false _ h
  · rintro ⟨blocks, hne, hok, rfl⟩
    rw [(validate_tile_file_blocks blocks hne hok tiles).1]
  · intro h
    rcases validate_tile_loop_codes content 0 0 false (initialise_new_tile tiles) with e | e
    · exact absurd e h
    · exact e
  · rintro blocks hne hok rfl
    obtain ⟨e, ht, hg⟩ := validate_tile_file_blocks blocks hne hok tiles
    rw [e]
    refine ⟨ht, ?_⟩
    intro i r c hi hr hc
    show (rotate_tile (write_blocks (initialise_new_tile tiles) blocks)).grid 0
      (tiles.total + i) r c ≠ 0 ↔ _
    rw [hg i r c hi hr hc]
    by_cases hm : block_char (blocks.getD i []) r c = '!'
    · simp [hm]
    · simp [hm]

/-- C27: `validate_dimension` returns `DIM_INVALID` exactly when one of its two
tokens is empty or not an integer, or one of the two values is outside
`[1, 999]`; in that case the game, so the board, is left as it was; in every
other case it returns `NO_ERROR`. -/
theorem validate_dimension_spec (height width : List Char) (dimension : Int → Int)
    (game : Game) :
    ((validate_dimension height width dimension game).1 = ErrorCode.DIM_INVALID ↔
      (integer_value height = none ∨ integer_value width = none ∨
        (∃ vh, integer_value height = some vh ∧ (vh < 1 ∨ 999 < vh)) ∨
        (∃ vw, integer_value width = some vw ∧ (vw < 1 ∨ 999 < vw)))) ∧
    ((validate_dimension height width dimension game).1 = ErrorCode.DIM_INVALID →
      (validate_dimension height width dimension game).2 = game) ∧
    ((validate_dimension height width dimension game).1 ≠ ErrorCode.DIM_INVALID →
      (validate_dimension height width dimension game).1 = ErrorCode.NO_ERROR) := by
  by_cases hbad : (∀ vh, integer_value height = some vh → vh < 1 ∨ 999 < vh) ∨
      (∀ vw, integer_value width = some vw → vw < 1 ∨ 999 < vw)
  · rw [validate_dimension_invalid height width dimension game hbad]
    refine ⟨⟨fun _ => ?_, fun _ => rfl⟩, fun _ => rfl, fun h => absurd rfl h⟩
    rcases hbad with h | h
    · cases e : integer_value height with
      | none => exact Or.inl rfl
      | some vh => exact Or.inr (Or.inr (Or.inl ⟨vh, rfl, h vh e⟩))
    · cases e : integer_value width with
      | none => exact Or.inr (Or.inl rfl)
      | some vw => exact Or.inr (Or.inr (Or.inr ⟨vw, rfl, h vw e⟩))
  · have hh : ∃ vh, integer_value height = some vh ∧ 1 ≤ vh ∧ vh ≤ 999 := by
      by_contra hn
      apply hbad
      left
      intro vh e
      by_contra hc
      exact hn ⟨vh, e, by omega, by omega⟩
    have hw : ∃ vw, integer_value width = some vw ∧ 1 ≤ vw ∧ vw ≤ 999 := by
      by_contra hn
      apply hbad
      right
      intro vw e
      by_contra hc
      exact hn ⟨vw, e, by omega, by omega⟩
    obtain ⟨vh, eh, h1, h2⟩ := hh
    obtain ⟨vw, ew, h3, h4⟩ := hw
    rw [validate_dimension_valid height width vh vw dimension game eh ew ⟨h1, h2⟩ ⟨h3, h4⟩]
    refine ⟨⟨fun h => ?_, fun h => ?_⟩, fun h => ?_, fun _ => rfl⟩
    · cases h
    · rcases h with h | h | ⟨v, e, h⟩ | ⟨v, e, h⟩
      · rw [eh] at h
        cases h
      · rw [ew] at h
        cases h
      · rw [eh] at e
        cases e
        omega
      · rw [ew] at e
        cases e
        omega
    · cases h

/-- C28, the failing input: `validate_dimension` on the height token `3` and
the width token `7` returns `NO_ERROR` and leaves a board of height 7 and width
3; and in every call that returns `NO_ERROR` on the height token of value
`vh` and the width token of value `vw` the board has height `vw` and width
`vh`, with every cell empty. -/
theorem validate_dimension_swaps :
    ((validate_dimension ['3'] ['7'] (fun _ => 0) (fresh_game 1 1)).1 = ErrorCode.NO_ERROR ∧
      (validate_dimension ['3'] ['7'] (fun _ => 0) (fresh_game 1 1)).2.gameBoard.height = 7 ∧
      (validate_dimension ['3'] ['7'] (fun _ => 0) (fresh_game 1 1)).2.gameBoard.width = 3) ∧
    ∀ (height width : List Char) (vh vw : Int) (dimension : Int → Int) (game : Game),
      integer_value height = some vh → integer_value width = some vw →
      (validate_dimension height width dimension game).1 = ErrorCode.NO_ERROR →
      (validate_dimension height width dimension game).2.gameBoard.height = vw ∧
      (validate_dimension height width dimension game).2.gameBoard.width = vh ∧
      ∀ y x : Int, 0 ≤ y → y < vw → 0 ≤ x → x < vh →
        (validate_dimension height width dimension game).2.gameBoard.grid y x = none := by
  refine ⟨⟨by decide, by decide, by decide⟩, ?_⟩
  intro height width vh vw dimension game eh ew hok
  by_cases hbad : (∀ v, integer_value height = some v → v < 1 ∨ 999 < v) ∨
      (∀ v, integer_value width = some v → v < 1 ∨ 999 < v)
  · rw [validate_dimension_invalid height width dimension game hbad] at hok
    cases hok
  · have hh : 1 ≤ vh ∧ vh ≤ 999 := by
      by_contra hn
      apply hbad
      left
      intro v e
      rw [eh] at e
      cases e
      omega
    have hw : 1 ≤ vw ∧ vw ≤ 999 := by
      by_contra hn
      apply hbad
      right
      intro v e
      rw [ew] at e
      cases e
      omega
    rw [validate_dimension_valid height width vh vw dimension game eh ew hh hw]
    refine ⟨rfl, rfl, ?_⟩
    intro y x h1 h2 h3 h4
    show (reallocate_grid game.gameBoard vw vh).grid y x = none
    rw [reallocate_grid_cell, if_pos ⟨⟨h1, h2⟩, h3, h4⟩]

/-- C29: `initialise_game` yields the initial state: turn 0, the last move of
the game and of both players unset (`INT_MIN`, `INT_MIN`), a board of one row
and one column whose cell is empty, a catalogue with no tile (total 0, current
0), player 1 flagged as first player and player 2 not; this whatever the
allocated memory of the players holds. -/
theorem initialise_game_spec (allocated1 allocated2 : Player) :
    (initialise_game allocated1 allocated2).turn = 0 ∧
    (initialise_game allocated1 allocated2).recentMove = (INT_MIN, INT_MIN) ∧
    (initialise_game allocated1 allocated2).player1.recentMove = (INT_MIN, INT_MIN) ∧
    (initialise_game allocated1 allocated2).player2.recentMove = (INT_MIN, INT_MIN) ∧
    (initialise_game allocated1 allocated2).gameBoard.height = 1 ∧
    (initialise_game allocated1 allocated2).gameBoard.width = 1 ∧
    (initialise_game allocated1 allocated2).gameBoard.grid 0 0 = none ∧
    (initialise_game allocated1 allocated2).tiles.total = 0 ∧
    (initialise_game allocated1 allocated2).tiles.current = 0 ∧
    (initialise_game allocated1 allocated2).player1.firstPlayer = true ∧
    (initialise_game allocated1 allocated2).player2.firstPlayer = false :=
  ⟨rfl, rfl, rfl, rfl, rfl, rfl, rfl, rfl, rfl, rfl, rfl⟩

/-- C30: in an iteration of `game_loop`, when `check_possible_move` is false
for the player whose turn it is, the loop ends at once with code `NO_ERROR`,
the other player (index `(turn + 1) mod 2`, player 2 on turn 0 and player 1 on
turn 1) as the winner and the game as it was, so with no placement, tile
advance or change of turn. When it is true the iteration declares no winner:
for a human player it ends without a winner at the end of the input or goes on
to the next iteration from the state after the move, for an automatic player
it goes on to the next iteration from the state its algorithm leaves. -/
theorem game_loop_probe :
    (∀ (turns fuel : Nat) (input : List PromptLine) (game : Game),
      check_possible_move fuel game (players game.turn) = some false →
      game_loop (turns + 1) fuel input game =
        some { code := ErrorCode.NO_ERROR, winner := some (players ((game.turn + 1).tmod 2)),
               game := game } ∧
      (game.turn = 0 → players ((game.turn + 1).tmod 2) = PlayerRef.player2) ∧
      (game.turn = 1 → players ((game.turn + 1).tmod 2) = PlayerRef.player1)) ∧
    (∀ (turns fuel : Nat) (input : List PromptLine) (game : Game),
      check_possible_move fuel game (players game.turn) = some true →
      ((game.player (players game.turn)).type = PlayerType.HUMAN →
        (∀ rest, human_prompt game (players game.turn) input = (none, rest) →
          game_loop (turns + 1) fuel input game =
            some { code := ErrorCode.EOF_DETECTED, winner := none, game := game }) ∧
        (∀ next rest, human_prompt game (players game.turn) input = (some next, rest) →
          game_loop (turns + 1) fuel input game = game_loop turns fuel rest next)) ∧
      ((game.player (players game.turn)).type = PlayerType.P1_AUTO →
        game_loop (turns + 1) fuel input game =
          (algorithm_one fuel game players).bind (game_loop turns fuel input)) ∧
      ((game.player (players game.turn)).type = PlayerType.P2_AUTO →
        game_loop (turns + 1) fuel input game =
          (algorithm_two fuel game (players game.turn)).bind (game_loop turns fuel input))) := by
  refine ⟨?_, ?_⟩
  · intro turns fuel input game h
    refine ⟨game_loop_no_move turns fuel input game h, ?_, ?_⟩
    · intro h0
      rw [h0]
      rfl
    · intro h1
      rw [h1]
      rfl
  · intro turns fuel input game h
    refine ⟨?_, ?_, ?_⟩
    · intro ht
      refine ⟨?_, ?_⟩
      · intro rest hp
        simp only [game_loop, h, ht, hp]
      · intro next rest hp
        simp only [game_loop, h, ht, hp]
    · intro ht
      simp only [game_loop, h, ht]
      cases algorithm_one fuel game players <;> rfl
    · intro ht
      simp only [game_loop, h, ht]
      cases algorithm_two fuel game (players game.turn) <;> rfl

/-- C31 (code at the failing input): the command `2147483645 0 0` (row
`INT_MAX - 2`) on the board of one cell with a tile that has no placeable
cell, in 32-bit arithmetic. The bound `centerY + offset` of the row loop is
`INT_MAX`, so the condition `y <= centerY + offset` never fails: after the
five rows of the layout `y` wraps to `INT_MIN`, `tileY` is 5 and `valid_move`
reads the cells `currentTile[5][0..4]`, outside the 5x5 layout, before the
loop has run six times. -/
theorem valid_move_reads_outside :
    ((convert_token_to_int ["2147483645".toList, ['0'], ['0']] (fun _ => 0) 3).1 =
        TokenCode.NO_TOKEN_ERROR ∧
      (convert_token_to_int ["2147483645".toList, ['0'], ['0']] (fun _ => 0) 3).2 0 =
        2147483645) ∧
    (wrap_int (2147483645 + 2) = 2147483647 ∧ wrap_int (2147483647 + 1) = -2147483648 ∧
      wrap_int (wrap_int (-2147483648 - 2147483645) + 2) = 5) ∧
    (∀ a ∈ [Access.tile 0 0 5 0, Access.tile 0 0 5 1, Access.tile 0 0 5 2,
        Access.tile 0 0 5 3, Access.tile 0 0 5 4],
      a ∈ (valid_move_wrap_reads 6 (2147483645, 0, 0) PlayerRef.player1
          (fresh_game 1 1).gameBoard blank_tiles).2 ∧
        ¬ access_ok (fresh_game 1 1).gameBoard blank_tiles a) ∧
    (valid_move_wrap_reads 6 (2147483645, 0, 0) PlayerRef.player1 (fresh_game 1 1).gameBoard
      blank_tiles).1 = none := by
  refine ⟨⟨by decide, by decide⟩, ⟨by decide, by decide, by decide⟩, by decide, by decide⟩

/-- C32: the descending step is the mirror image of the ascending step: for
every anchor `(r, c)` of the scan range `[-2, H + 1] x [-2, W + 1]`, with
`mirror (r, c) = (H - 1 - r, W - 1 - c)`, `update_position_algorithm_two` with
`isFirstPlayer = false` at `mirror (r, c)` is the mirror of
`update_position_algorithm_two` with `isFirstPlayer = true` at `(r, c)`. -/
theorem descending_step_mirror (H W r c : Int) (hr : -2 ≤ r ∧ r ≤ H + 1)
    (hc : -2 ≤ c ∧ c ≤ W + 1) :
    update_position_algorithm_two (H - 1 - r) H (W - 1 - c) W false =
      (H - 1 - (update_position_algorithm_two r H c W true).1,
        W - 1 - (update_position_algorithm_two r H c W true).2) := by
  simp only [update_position_algorithm_two, if_true, Bool.false_eq_true, if_false]
  by_cases h1 : c + 1 > W - 1 + 2
  · have h1' : W - 1 - c - 1 < -2 := by omega
    by_cases h2 : r + 1 > H - 1 + 2
    · have h2' : H - 1 - r - 1 < -2 := by omega
      simp only [h1, h1', h2, h2', if_true]
      all_goals (rw [Prod.mk.injEq]; constructor <;> omega)
    · have h2' : ¬ (H - 1 - r - 1 < -2) := by omega
      simp only [h1, h1', h2, h2', if_true, if_false]
      all_goals (rw [Prod.mk.injEq]; constructor <;> omega)
  · have h1' : ¬ (W - 1 - c - 1 < -2) := by omega
    have h2 : ¬ (r > H - 1 + 2) := by omega
    have h2' : ¬ (H - 1 - r < -2) := by omega
    simp only [h1, h1', h2, h2', if_false]
    all_goals (rw [Prod.mk.injEq]; constructor <;> omega)

/-- C32, an instance: the anchor `(6, 6)` of a board of 5 rows and 5 columns;
its mirror is `(-2, -2)`, where the descending step wraps to `(6, 6)`, the
mirror of `(-2, -2)`. -/
theorem descending_step_mirror_witness :
    update_position_algorithm_two (5 - 1 - 6) 5 (5 - 1 - 6) 5 false =
      (5 - 1 - (update_position_algorithm_two 6 5 6 5 true).1,
        5 - 1 - (update_position_algorithm_two 6 5 6 5 true).2) :=
  descending_step_mirror 5 5 6 6 (by decide) (by decide)

/-- C33: after a first line that `parse_header` accepts, which leaves a board
of `height` rows and `width` columns, `load_saved_game` returns `NO_ERROR` if
and only if the rest of the file is `height` rows of `width` characters '.',
'*' or '#', each row followed by a newline, and nothing else; in every other
case (a short or long row, a missing or further row, another character) it
returns `FILE_INVALID`. On success the board keeps the height and width of the
header and cell `(r, c)` is owned by player 1 where character `c` of row `r`
is '*', by player 2 where it is '#', and is empty where it is '.'; the tiles
and the turn are those the header left. -/
theorem load_saved_game_format (header rest : List Char) (headerInfo : Int → Int)
    (game : Game) (hnl : '\n' ∉ header)
    (hp : (parse_header (c_string header) headerInfo game).1 = true) :
    ((load_saved_game (some (header ++ '\n' :: rest)) headerInfo game).1 = ErrorCode.NO_ERROR ↔
      ∃ rows : List (List Char),
        (rows.length : Int) =
          (parse_header (c_string header) headerInfo game).2.gameBoard.height ∧
        (∀ line ∈ rows,
          grid_row_ok (parse_header (c_string header) headerInfo game).2.gameBoard.width line) ∧
        rest = rows_text rows) ∧
    ((load_saved_game (some (header ++ '\n' :: rest)) headerInfo game).1 ≠ ErrorCode.NO_ERROR →
      (load_saved_game (some (header ++ '\n' :: rest)) headerInfo game).1 =
        ErrorCode.FILE_INVALID) ∧
    (saved_owner '*' = some PlayerRef.player1 ∧ saved_owner '#' = some PlayerRef.player2 ∧
      saved_owner '.' = none) ∧
    ∀ rows : List (List Char),
      (rows.length : Int) = (parse_header (c_string header) headerInfo game).2.gameBoard.height →
      (∀ line ∈ rows,
        grid_row_ok (parse_header (c_string header) headerInfo game).2.gameBoard.width line) →
      rest = rows_text rows →
      (load_saved_game (some (header ++ '\n' :: rest)) headerInfo game).2.gameBoard.height =
        (parse_header (c_string header) headerInfo game).2.gameBoard.height ∧
      (load_saved_game (some (header ++ '\n' :: rest)) headerInfo game).2.gameBoard.width =
        (parse_header (c_string header) headerInfo game).2.gameBoard.width ∧
      (load_saved_game (some (header ++ '\n' :: rest)) headerInfo game).2.tiles =
        (parse_header (c_string header) headerInfo game).2.tiles ∧
      (load_saved_game (some (header ++ '\n' :: rest)) headerInfo game).2.turn =
        (parse_header (c_string header) headerInfo game).2.turn ∧
      ∀ r c : Nat, r < rows.length →
        (c : Int) < (parse_header (c_string header) headerInfo game).2.gameBoard.width →
        (load_saved_game (some (header ++ '\n' :: rest)) headerInfo game).2.gameBoard.grid r c =
          saved_owner ((rows.getD r []).getD c '.') := by
  have hd := parse_header_true_dims (c_string header) headerInfo game hp
  rw [load_saved_game_header header rest headerInfo game hnl hp]
  generalize (parse_header (c_string header) headerInfo game).2 = g1 at hd ⊢
  refine ⟨⟨?_, ?_⟩, ?_, ⟨rfl, rfl, rfl⟩, ?_⟩
  · intro h
    obtain ⟨rows, hlen, hok, e⟩ := load_accepts_rows g1.gameBoard.height.toNat rest header 0
      headerInfo g1 (by omega) hd.2.1 h
    exact ⟨rows, by rw [hlen]; omega, hok, e⟩
  · rintro ⟨rows, hlen, hok, rfl⟩
    rw [load_rows_result rows header headerInfo g1 hlen hok]
  · intro h
    rcases load_saved_loop_codes rest header false 0 0 headerInfo g1 with e | e
    · exact absurd e h
    · exact e
  · rintro rows hlen hok rfl
    rw [load_rows_result rows header headerInfo g1 hlen hok]
    refine ⟨(read_rows_dims g1 0 rows).1, (read_rows_dims g1 0 rows).2,
      (read_rows_keeps g1 0 rows).1, (read_rows_keeps g1 0 rows).2, ?_⟩
    intro r c hr hc
    show (read_rows g1 0 rows).gameBoard.grid r c = _
    rw [read_rows_grid g1 0 rows hok, if_pos ⟨⟨by omega, by omega⟩, by omega, hc⟩]
    have e1 : ((r : Int) - 0).toNat = r := by omega
    have e2 : (c : Int).toNat = c := by omega
    rw [e1, e2]

/-- C33, an instance: the header `0 1 1 2` and the one row `#.`. -/
theorem load_saved_game_format_witness :
    (load_saved_game (some ("0 1 1 2".toList ++ '\n' :: "#.\n".toList)) (fun _ => 0)
        (fresh_game 1 1)).1 = ErrorCode.NO_ERROR ∧
    (load_saved_game (some ("0 1 1 2".toList ++ '\n' :: "#.\n".toList)) (fun _ => 0)
        (fresh_game 1 1)).2.gameBoard.grid 0 0 = some PlayerRef.player2 ∧
    (load_saved_game (some ("0 1 1 2".toList ++ '\n' :: "#.\n".toList)) (fun _ => 0)
        (fresh_game 1 1)).2.gameBoard.grid 0 1 = none :=
  have h := load_saved_game_format "0 1 1 2".toList "#.\n".toList (fun _ => 0) (fresh_game 1 1)
    (by decide) (by decide)
  have hrows := h.2.2.2 [['#', '.']] (by decide) (by decide) (by decide)
  ⟨h.1.mpr ⟨[['#', '.']], by decide, by decide, by decide⟩,
    hrows.2.2.2.2 0 0 (by decide) (by decide), hrows.2.2.2.2 0 1 (by decide) (by decide)⟩

/-- C34 (code at the failing input): on the 1x1 board whose cell is occupied,
with the centre-only tile, in 32-bit arithmetic: `check_possible_move` returns
false for the first player, yet `valid_move` returns true at the anchor
`(2147483646, 0)`, which is outside the scan range `[-2, 2] x [-2, 2]`; the
row loop of `valid_move` runs no iteration there. -/
theorem legal_anchor_outside_scan :
    (full_game.gameBoard.height = 1 ∧ full_game.gameBoard.width = 1 ∧
      full_game.gameBoard.grid 0 0 ≠ none) ∧
    full_game.tiles.grid 0 full_game.tiles.current 2 2 ≠ 0 ∧
    check_possible_move_wrap 25 full_game PlayerRef.player1 = some false ∧
    valid_move_wrap 25 (2147483646, 0, 0) PlayerRef.player1 full_game.gameBoard
      full_game.tiles = some true ∧
    ¬ in_scan_range full_game.gameBoard.height full_game.gameBoard.width (2147483646, 0) := by
  refine ⟨⟨rfl, rfl, by decide⟩, by decide, by decide, by decide, fun h => ?_⟩
  exact absurd h.1.2 (by decide)

/-- C35: for a board of height `H ≥ 1` and width `W ≥ 1` each of the steps,
`update_position_algorithm_one`, `update_position_algorithm_two` with
`isFirstPlayer = true` (ascending) and with `isFirstPlayer = false`
(descending), maps the scan range `[-2, H + 1] x [-2, W + 1]` into itself and
is a single cycle on it: from any anchor of the range the iterated step is
back at that anchor after `(H + 4) * (W + 4)` steps and not earlier, and meets
every anchor of the range at exactly one step count below that. -/
theorem steps_single_cycle (H W : Int) (hH : 1 ≤ H) (hW : 1 ≤ W)
    (next : Int × Int → Int × Int)
    (hnext : next = (fun p => update_position_algorithm_one p.1 H p.2 W) ∨
      next = (fun p => update_position_algorithm_two p.1 H p.2 W true) ∨
      next = (fun p => update_position_algorithm_two p.1 H p.2 W false))
    (start : Int × Int) (hs : in_scan_range H W start) :
    (∀ p, in_scan_range H W p → in_scan_range H W (next p)) ∧
    next^[((H + 4) * (W + 4)).toNat] start = start ∧
    (∀ k : Nat, 0 < k → k < ((H + 4) * (W + 4)).toNat → next^[k] start ≠ start) ∧
    (∀ a, in_scan_range H W a →
      ∃! k : Nat, k < ((H + 4) * (W + 4)).toNat ∧ next^[k] start = a) := by
  have hH' : 1 ≤ (fresh_game H W).gameBoard.height := hH
  have hW' : 1 ≤ (fresh_game H W).gameBoard.width := hW
  have htwo : ∀ firstPlayer : Bool,
      (∀ p, in_scan_range H W p → in_scan_range H W (step_two (fresh_game H W) firstPlayer p)) ∧
      (step_two (fresh_game H W) firstPlayer)^[((H + 4) * (W + 4)).toNat] start = start ∧
      (∀ k : Nat, 0 < k → k < ((H + 4) * (W + 4)).toNat →
        (step_two (fresh_game H W) firstPlayer)^[k] start ≠ start) ∧
      (∀ a, in_scan_range H W a → ∃! k : Nat, k < ((H + 4) * (W + 4)).toNat ∧
        (step_two (fresh_game H W) firstPlayer)^[k] start = a) := by
    intro firstPlayer
    refine ⟨?_, scan_cycle_single H W _ start _
      (scan_cycle_two (fresh_game H W) hH' hW' firstPlayer start hs)⟩
    intro p hp
    cases firstPlayer with
    | true => exact (step_two_ascending (fresh_game H W) hH' hW' p hp).1
    | false => exact (step_two_descending (fresh_game H W) hH' hW' p hp).1
  rcases hnext with h | h | h
  · have hit : ∀ k : Nat, next^[k] start = (step_two (fresh_game H W) true)^[k] start := by
      intro k
      rw [h, ← step_one_eq]
      exact iterate_step_one (fresh_game H W) hH' hW' start hs k
    obtain ⟨t1, t2, t3, t4⟩ := htwo true
    refine ⟨?_, ?_, ?_, ?_⟩
    · intro p hp
      have e : next p = step_two (fresh_game H W) true p := by
        rw [h, ← step_one_eq]
        exact step_one_eq_step_two (fresh_game H W) p hp
      rw [e]
      exact t1 p hp
    · rw [hit]
      exact t2
    · intro k hk0 hk
      rw [hit]
      exact t3 k hk0 hk
    · intro a ha
      obtain ⟨k, hk, huniq⟩ := t4 a ha
      refine ⟨k, ?_, ?_⟩
      · dsimp only
        rw [hit]
        exact hk
      · intro k2 hk2
        apply huniq
        dsimp only at hk2 ⊢
        rw [← hit]
        exact hk2
  · rw [h, ← step_two_eq]
    exact htwo true
  · rw [h, ← step_two_eq]
    exact htwo false

/-- C35, an instance: the descending step on a board of one row and one
column, from the anchor `(0, 0)`; the cycle has 25 steps. -/
theorem steps_single_cycle_witness :
    (∀ p, in_scan_range 1 1 p →
      in_scan_range 1 1 ((fun p : Int × Int => update_position_algorithm_two p.1 1 p.2 1 false) p)) ∧
    (fun p : Int × Int => update_position_algorithm_two p.1 1 p.2 1 false)^[
      (((1 : Int) + 4) * (1 + 4)).toNat] (0, 0) = (0, 0) ∧
    (∀ k : Nat, 0 < k → k < (((1 : Int) + 4) * (1 + 4)).toNat →
      (fun p : Int × Int => update_position_algorithm_two p.1 1 p.2 1 false)^[k] (0, 0) ≠ (0, 0)) ∧
    (∀ a, in_scan_range 1 1 a →
      ∃! k : Nat, k < (((1 : Int) + 4) * (1 + 4)).toNat ∧
        (fun p : Int × Int => update_position_algorithm_two p.1 1 p.2 1 false)^[k] (0, 0) = a) :=
  steps_single_cycle 1 1 (by decide) (by decide) _ (Or.inr (Or.inr rfl)) (0, 0)
    ⟨⟨by decide, by decide⟩, by decide, by decide⟩

/-- C36: legality is antitone in occupancy: for two boards of the same
dimensions where every cell occupied in the first is occupied in the second,
an anchor and rotation that `valid_move` accepts on the second board is
accepted on the first; and so a placement that `valid_move` accepts on the
board after a `place_move` was accepted on the board before it: placing
pieces never makes an illegal placement of the same mask legal. -/
theorem valid_move_antitone :
    (∀ (command : Command) (playing other : PlayerRef) (first second : Board) (tiles : Tiles),
      first.height = second.height → first.width = second.width →
      (∀ y x : Int, first.grid y x ≠ none → second.grid y x ≠ none) →
      valid_move command other second tiles = true →
      valid_move command playing first tiles = true) ∧
    (∀ (placed command : Command) (placing playing : PlayerRef) (game : Game)
      (used tiles : Tiles),
      valid_move command playing (place_move placed placing game used).gameBoard tiles = true →
      valid_move command playing game.gameBoard tiles = true) := by
  have key : ∀ (command : Command) (playing other : PlayerRef) (first second : Board)
      (tiles : Tiles), first.height = second.height → first.width = second.width →
      (∀ y x : Int, first.grid y x ≠ none → second.grid y x ≠ none) →
      valid_move command other second tiles = true →
      valid_move command playing first tiles = true := by
    intro command playing other first second tiles hh hw hocc hvalid
    obtain ⟨row, col, theta⟩ := command
    rw [valid_move_eq_true] at hvalid ⊢
    intro dr dc h1 h2 h3 h4 hf
    obtain ⟨hb, he⟩ := hvalid dr dc h1 h2 h3 h4 hf
    refine ⟨by rw [hh, hw]; exact hb, ?_⟩
    by_contra hn
    exact hocc _ _ hn he
  refine ⟨key, ?_⟩
  intro placed command placing playing game used tiles hvalid
  obtain ⟨row, col, theta⟩ := placed
  refine key command playing playing game.gameBoard _ tiles
    (place_move_height _ _ _ _).symm (place_move_width _ _ _ _).symm ?_ hvalid
  intro y x hocc
  rw [place_move_grid]
  split
  · simp
  · exact hocc

/-- C37 (code at the failing input): the game on a board of one cell with the
centre-only tile, which has one placeable cell, in 32-bit arithmetic.
`human_prompt` accepts the line `2147483646 0 0` of the first player: the
loops of `place_move` run no iteration, no cell is written and the turn passes
with the one cell still empty. `algorithm_one` of the second player then
commits at the same anchor, again with no cell written, and the first player's
line `0 0 0` takes the cell: three placements on a board of `1 * 1` cells, two
of which take no cell. -/
theorem placement_takes_no_cell :
    (human_game.gameBoard.height = 1 ∧ human_game.gameBoard.width = 1) ∧
    filled_cells (human_game.tiles.grid 0 human_game.tiles.current) = 1 ∧
    empty_cells human_game.gameBoard = 1 ∧
    valid_move_wrap 6 (2147483646, 0, 0) PlayerRef.player1 human_game.gameBoard
      human_game.tiles = some true ∧
    ∃ first second third : Game,
      (human_prompt_wrap 6 human_game PlayerRef.player1 limit_lines =
          some (some first, [(TokenCode.NO_TOKEN_ERROR, (0, 0, 0))]) ∧
        first.turn = 1 ∧ first.recentMove = (2147483646, 0) ∧
        empty_cells first.gameBoard = 1) ∧
      (algorithm_one_wrap 30 first players = some second ∧
        second.turn = 0 ∧ (second.player PlayerRef.player2).recentMove = (2147483646, 0) ∧
        empty_cells second.gameBoard = 1) ∧
      (human_prompt_wrap 6 second PlayerRef.player1 [(TokenCode.NO_TOKEN_ERROR, (0, 0, 0))] =
          some (some third, []) ∧
        third.turn = 1 ∧ empty_cells third.gameBoard = 0) := by
  refine ⟨⟨rfl, rfl⟩, by decide, by decide, by decide, _, _, _, ⟨rfl, ?_, ?_, ?_⟩, ⟨rfl, ?_, ?_, ?_⟩,
    ⟨rfl, ?_, ?_⟩⟩ <;> decide

/-- C38: save and load round trip. For a game whose players have the symbols
"*" and "#", with the active tile index in `[0, total)`, the turn 0 or 1 and a
board of 1 to 999 rows and columns, loading the text `save_game` writes into a
game with as many tiles returns `NO_ERROR` and gives the same height and
width of the board, the same owner of every cell, the same active tile index
and the same turn, the rest of the catalogue being that of the game loaded
into. -/
theorem save_load_round_trip (game target : Game) (headerInfo : Int → Int)
    (hs1 : game.player1.symbol = "*") (hs2 : game.player2.symbol = "#")
    (hcat : target.tiles.total = game.tiles.total)
    (htile : 0 ≤ game.tiles.current ∧ game.tiles.current < game.tiles.total)
    (htotal : game.tiles.total ≤ INT_MAX)
    (hturn : game.turn = 0 ∨ game.turn = 1)
    (hh : 1 ≤ game.gameBoard.height ∧ game.gameBoard.height ≤ 999)
    (hw : 1 ≤ game.gameBoard.width ∧ game.gameBoard.width ≤ 999) :
    (load_saved_game (some (save_game game)) headerInfo target).1 = ErrorCode.NO_ERROR ∧
    (load_saved_game (some (save_game game)) headerInfo target).2.gameBoard.height =
      game.gameBoard.height ∧
    (load_saved_game (some (save_game game)) headerInfo target).2.gameBoard.width =
      game.gameBoard.width ∧
    (∀ r c : Int, 0 ≤ r → r < game.gameBoard.height → 0 ≤ c → c < game.gameBoard.width →
      (load_saved_game (some (save_game game)) headerInfo target).2.gameBoard.grid r c =
        game.gameBoard.grid r c) ∧
    (load_saved_game (some (save_game game)) headerInfo target).2.tiles.current =
      game.tiles.current ∧
    (load_saved_game (some (save_game game)) headerInfo target).2.turn = game.turn ∧
    (load_saved_game (some (save_game game)) headerInfo target).2.tiles.total =
      target.tiles.total ∧
    (load_saved_game (some (save_game game)) headerInfo target).2.tiles.grid =
      target.tiles.grid := by
  obtain ⟨hnl, hp0⟩ := parse_header_saved game target headerInfo hcat htile htotal
    (by omega) hh hw
  obtain ⟨G, hp, g1, g2, g3, g4, g5, g6⟩ : ∃ G : Game,
      parse_header
          (c_string (header_line (print_int game.tiles.current) (print_int game.turn)
            (print_int game.gameBoard.height) (print_int game.gameBoard.width)))
          headerInfo target = (true, G) ∧
        G.gameBoard.height = game.gameBoard.height ∧ G.gameBoard.width = game.gameBoard.width ∧
        G.tiles.current = game.tiles.current ∧ G.turn = game.turn ∧
        G.tiles.total = target.tiles.total ∧ G.tiles.grid = target.tiles.grid :=
    ⟨_, hp0, rfl, rfl, rfl, rfl, rfl, rfl⟩
  have hrows := saved_rows_ok game.gameBoard (by omega) (by omega)
  rw [← g1, ← g2] at hrows
  rw [save_game_text game hs1 hs2,
    load_saved_game_header _ _ headerInfo target hnl (by rw [hp]), hp]
  dsimp only
  rw [load_rows_result (saved_rows game.gameBoard) _ headerInfo G hrows.1 hrows.2]
  dsimp only
  refine ⟨rfl, by rw [(read_rows_dims G 0 _).1, g1], by rw [(read_rows_dims G 0 _).2, g2], ?_,
    by rw [(read_rows_keeps G 0 _).1, g3], by rw [(read_rows_keeps G 0 _).2, g4],
    by rw [(read_rows_keeps G 0 _).1, g5], by rw [(read_rows_keeps G 0 _).1, g6]⟩
  intro r c h1 h2 h3 h4
  rw [read_rows_grid G 0 _ hrows.2, if_pos ⟨⟨by omega, by omega⟩, h3, by omega⟩]
  have e := saved_rows_getD game.gameBoard (r - 0).toNat c.toNat (by omega) (by omega)
  rw [e, saved_owner_owner_char]
  congr 1 <;> omega

/-- C38, an instance: the board of one row and two columns whose first cell
belongs to player 2, saved and loaded into a new game on a board of one
cell. -/
theorem save_load_round_trip_witness :
    (load_saved_game (some (save_game symbol_game)) (fun _ => 0) (fresh_game 1 1)).1 =
      ErrorCode.NO_ERROR ∧
    (load_saved_game (some (save_game symbol_game)) (fun _ => 0)
      (fresh_game 1 1)).2.gameBoard.height = 1 ∧
    (load_saved_game (some (save_game symbol_game)) (fun _ => 0)
      (fresh_game 1 1)).2.gameBoard.width = 2 ∧
    (load_saved_game (some (save_game symbol_game)) (fun _ => 0)
      (fresh_game 1 1)).2.gameBoard.grid 0 0 = some PlayerRef.player2 ∧
    (load_saved_game (some (save_game symbol_game)) (fun _ => 0)
      (fresh_game 1 1)).2.gameBoard.grid 0 1 = none :=
  have h := save_load_round_trip symbol_game (fresh_game 1 1) (fun _ => 0) rfl rfl rfl
    (by decide) (by decide) (by decide) (by decide) (by decide)
  ⟨h.1, h.2.1, h.2.2.1, h.2.2.2.1 0 0 (by decide) (by decide) (by decide) (by decide),
    h.2.2.2.1 0 1 (by decide) (by decide) (by decide) (by decide)⟩

/-- C39, the failing input: the command `2147483646 0 0` (row `INT_MAX - 1`)
on the empty board of one cell with the centre-only tile. The row converts
(`convert_token_to_int` accepts it); in 32-bit arithmetic `centerY + offset`
wraps below `centerY - offset`, the row loop of `valid_move` runs no
iteration and the function returns true, while the rule on the integers
rejects the anchor, which is far outside the board. The same happens at the
row `INT_MIN + 1` and at the columns `INT_MAX - 1` and `INT_MIN + 1`; one step
nearer to zero the function returns false. -/
theorem valid_move_wraps_to_true :
    ((convert_token_to_int ["2147483646".toList, ['0'], ['0']] (fun _ => 0) 3).1 =
        TokenCode.NO_TOKEN_ERROR ∧
      (convert_token_to_int ["2147483646".toList, ['0'], ['0']] (fun _ => 0) 3).2 0 =
        2147483646) ∧
    wrap_int (2147483646 + 2) = -2147483648 ∧
    valid_move (2147483646, 0, 0) PlayerRef.player1 (fresh_game 1 1).gameBoard centre_tiles =
      false ∧
    valid_move_wrap 6 (2147483646, 0, 0) PlayerRef.player1 (fresh_game 1 1).gameBoard
      centre_tiles = some true ∧
    valid_move_wrap 6 (-2147483647, 0, 0) PlayerRef.player1 (fresh_game 1 1).gameBoard
      centre_tiles = some true ∧
    valid_move_wrap 6 (0, 2147483646, 0) PlayerRef.player1 (fresh_game 1 1).gameBoard
      centre_tiles = some true ∧
    valid_move_wrap 6 (0, -2147483647, 0) PlayerRef.player1 (fresh_game 1 1).gameBoard
      centre_tiles = some true ∧
    valid_move_wrap 6 (2147483645, 0, 0) PlayerRef.player1 (fresh_game 1 1).gameBoard
      centre_tiles = some false ∧
    valid_move_wrap 6 (-2147483646, 0, 0) PlayerRef.player1 (fresh_game 1 1).gameBoard
      centre_tiles = some false := by
  refine ⟨⟨by decide, by decide⟩, by decide, by decide, by decide, by decide, by decide,
    by decide, by decide, by decide⟩

/-- C40: the two ascending step functions agree on the scan range: for a board
of height `H ≥ 1` and width `W ≥ 1` and every anchor `(r, c)` with
`-2 ≤ r ≤ H + 1` and `-2 ≤ c ≤ W + 1`, `update_position_algorithm_one` yields
the same next anchor as `update_position_algorithm_two` with
`isFirstPlayer = true`. Of the bounds the proof uses `r ≤ H + 1` alone. -/
theorem ascending_steps_agree (H W r c : Int) (_hH : 1 ≤ H) (_hW : 1 ≤ W)
    (hr : -2 ≤ r ∧ r ≤ H + 1) (_hc : -2 ≤ c ∧ c ≤ W + 1) :
    update_position_algorithm_one r H c W = update_position_algorithm_two r H c W true := by
  simp only [update_position_algorithm_one, update_position_algorithm_two, if_true]
  by_cases h1 : c + 1 > W - 1 + 2
  · by_cases h2 : r + 1 > H - 1 + 2
    · simp [h1, h2]
    · simp [h1, h2]
  · have h2 : ¬ (r > H - 1 + 2) := by omega
    simp [h1, h2]

/-- C40, an instance: the anchor `(6, 6)`, the last of the scan range of a
board of 5 rows and 5 columns, where both steps wrap to `(-2, -2)`. -/
theorem ascending_steps_agree_witness :
    update_position_algorithm_one 6 5 6 5 = update_position_algorithm_two 6 5 6 5 true :=
  ascending_steps_agree 5 5 6 6 (by decide) (by decide) (by decide) (by decide)

end Fitz
